import Mathlib

/-!
# A verification development for `jcbhmr/modproxy`

The Go sources `proxy.go`, `proxy/client.go`, `proxy/revinfo.go`,
`proxy/server.go`, `zip/check.go`, `zip/unzip.go`, `zip/create.go`,
`zip/errors.go` and `zip/fs.go` are embedded as Lean functions and the
sentences of the specification are proved about them.

Modelling conventions.

* A Go string is the list of its characters (`Str`).  The code cuts strings
  at ASCII delimiters (`/`, `.`, `@`, line ends), so cutting at a character is
  cutting at the corresponding byte; where it cuts at a byte offset
  (`isVendoredPackage`), the bytes are those of `zip.utf8`.  `len` is the
  length in bytes.
* A Go `error` is a `GoError`: its text and the three sentinel values that the
  code tests with `errors.Is`.  A `nil` error is `none` / `Except.ok`.
* The packages `golang.org/x/mod/module`, `golang.org/x/mod/semver`,
  `encoding/json` and the Unicode tables are not part of the repository; the
  functions the code calls from them are fields of `ModuleLib`, `Extern`,
  `proxy.ClientLib`, `proxy.ServerLib` and `zip.UnicodeLib`, so every theorem
  holds for every implementation of them, or for every implementation that
  satisfies the laws named in the theorem.
* The functions of the Go library that work on strings and paths
  (`path.Clean`, `path.Join`, `strings.EqualFold`, `fs.WalkDir`, ...) are
  embedded from the library, and so are the escaping of `net/url` and the
  routing of `http.ServeMux` for the patterns that the server registers.
* A file system is what its calls return (`fs.FS`, `zip.UnzipEnv`), and what
  `UnzipFS` does to it is the list of the calls that change it (`zip.FsOp`).
* A call of a method of the client is the list of the request paths it reads
  from the transport, in order, and its result (`proxy.Run`); a call that
  panics has no result.
* An `http.ResponseWriter` is the list of the calls made on it (`WriterOp`),
  in order; `statusOf` reads the status code off such a list the way
  `net/http` does (the first committed header wins).
-/

set_option linter.dupNamespace false

namespace Modproxy

/-! # Part I: the embedding -/

/-- A Go string. -/
abbrev Str := List Char

/-- Go `len(s)`: the number of bytes of the UTF-8 encoding of `s`. -/
def len (s : Str) : Nat := (s.map Char.utf8Size).sum

/-! ## Package `strings` -/

namespace strings

/-- Go `strings.HasPrefix`. -/
def HasPrefix (s pre : Str) : Bool := pre.isPrefixOf s

/-- Go `strings.HasSuffix`. -/
def HasSuffix (s suf : Str) : Bool := suf.reverse.isPrefixOf s.reverse

/-- Go `strings.TrimSuffix`. -/
def TrimSuffix (s suf : Str) : Str :=
  if HasSuffix s suf then s.take (s.length - suf.length) else s

/-- Go `strings.Cut`: split `s` around the first instance of `sep`. -/
def Cut (s sep : Str) : Str × Str × Bool :=
  match s with
  | [] => if sep = [] then ([], [], true) else ([], [], false)
  | c :: t =>
    if sep.isPrefixOf (c :: t) then ([], (c :: t).drop sep.length, true)
    else
      match Cut t sep with
      | (before, after, true) => (c :: before, after, true)
      | (_, _, false) => (c :: t, [], false)

/-- Go `strings.Join`. -/
def Join (elems : List Str) (sep : Str) : Str :=
  match elems with
  | [] => []
  | [e] => e
  | e :: rest => e ++ sep ++ Join rest sep

end strings

/-! ## Package `strconv` -/

namespace strconv

/-- Go `strconv.Itoa` on a length (a non-negative `int`). -/
def Itoa (n : Nat) : Str := (Nat.repr n).toList

end strconv

/-! ## Package `path` -/

namespace path

/-- The backward scan of `path.Ext`: `rev` is what is left of the path, read
from its end, `acc` what has been passed over. -/
def extScan (rev acc : Str) : Str :=
  match rev with
  | [] => []
  | c :: t =>
    if c = '/' then []
    else if c = '.' then '.' :: acc
    else extScan t (c :: acc)

/-- Go `path.Ext`: the suffix beginning at the final dot in the final
slash-separated element of the path, empty if there is no dot. -/
def Ext (p : Str) : Str := extScan p.reverse []

/-- The `out.w--` loop of `path.Clean` after a `..` element: `popped` is the
byte that was just dropped, `cur` the buffer read from its end. -/
def popLoop (dotdot : Nat) (popped : Char) (cur : Str) : Str :=
  match cur with
  | [] => []
  | c :: t => if cur.length > dotdot ∧ popped ≠ '/' then popLoop dotdot c t else cur

/-- The inner loop of the default case of `path.Clean`: copy bytes up to the
next slash.  Returns the reversed buffer and the rest of the input. -/
def copyElem (rest out : Str) : Str × Str :=
  match rest with
  | [] => (out, [])
  | c :: t => if c = '/' then (out, rest) else copyElem t (c :: out)

/-- The main loop of `path.Clean`.  `rest` is `path[r:]`, `out` the output
buffer read from its end (so `out.length` is `out.w`), `fuel` bounds the number
of iterations; every iteration consumes at least one byte. -/
def cleanLoop (rooted : Bool) (fuel : Nat) (rest out : Str) (dotdot : Nat) : Str :=
  match fuel with
  | 0 => out
  | fuel + 1 =>
    match rest with
    | [] => out
    | '/' :: t => cleanLoop rooted fuel t out dotdot
    | ['.'] => cleanLoop rooted fuel [] out dotdot
    | '.' :: '/' :: t => cleanLoop rooted fuel ('/' :: t) out dotdot
    | ['.', '.'] =>
      if out.length > dotdot then
        match out with
        | [] => cleanLoop rooted fuel [] out dotdot
        | c :: o => cleanLoop rooted fuel [] (popLoop dotdot c o) dotdot
      else if !rooted then
        let out1 := if out.length > 0 then '/' :: out else out
        cleanLoop rooted fuel [] ('.' :: '.' :: out1) (out1.length + 2)
      else cleanLoop rooted fuel [] out dotdot
    | '.' :: '.' :: '/' :: t =>
      if out.length > dotdot then
        match out with
        | [] => cleanLoop rooted fuel ('/' :: t) out dotdot
        | c :: o => cleanLoop rooted fuel ('/' :: t) (popLoop dotdot c o) dotdot
      else if !rooted then
        let out1 := if out.length > 0 then '/' :: out else out
        cleanLoop rooted fuel ('/' :: t) ('.' :: '.' :: out1) (out1.length + 2)
      else cleanLoop rooted fuel ('/' :: t) out dotdot
    | c :: t =>
      let out1 :=
        if (rooted ∧ out.length ≠ 1) ∨ (¬ rooted ∧ out.length ≠ 0) then '/' :: out else out
      let (out2, rest2) := copyElem (c :: t) out1
      cleanLoop rooted fuel rest2 out2 dotdot

/-- Go `path.Clean`: the shortest path name equivalent to `p` by purely lexical
processing. -/
def Clean (p : Str) : Str :=
  match p with
  | [] => ['.']
  | c :: t =>
    let out :=
      if c = '/' then cleanLoop true (p.length) t ['/'] 1
      else cleanLoop false (p.length) (c :: t) [] 0
    if out = [] then ['.'] else out.reverse

/-- Go `bytealg.LastIndexByteString(p, '/') + 1`, as the pair that
`path.Split` returns: everything through the final slash, and what follows. -/
def Split (p : Str) : Str × Str :=
  let file := (p.reverse.takeWhile (· ≠ '/')).reverse
  (p.take (p.length - file.length), file)

/-- Go `path.Dir`. -/
def Dir (p : Str) : Str := Clean (Split p).1

/-- The loop of `path.Base` that strips trailing slashes (on the reversed path). -/
def stripSlashes (rev : Str) : Str := rev.dropWhile (· = '/')

/-- Go `path.Base`: the last element of the path. -/
def Base (p : Str) : Str :=
  if p = [] then ['.']
  else
    let p1 := (stripSlashes p.reverse).reverse
    let p2 := (Split p1).2
    if p2 = [] then ['/'] else p2

end path

/-! ## Errors, module coordinates and the external packages -/

/-- A Go `error` value: its text and whether `errors.Is` matches it against
`fs.SkipAll`, `fs.ErrNotExist` and `fs.ErrPermission`. -/
structure GoError where
  msg : Str
  isSkipAll : Bool
  isNotExist : Bool
  isPermission : Bool
deriving DecidableEq, Repr

namespace module

/-- Go `module.Version`: a module coordinate. -/
structure Version where
  Path : Str
  Version : Str
deriving DecidableEq, Repr

end module

/-- The functions of `golang.org/x/mod/module` that the repository calls.
`Check`, `CheckPath` and `CheckFilePath` return `none` for a `nil` error. -/
structure ModuleLib where
  EscapePath : Str → Except GoError Str
  UnescapePath : Str → Except GoError Str
  EscapeVersion : Str → Except GoError Str
  UnescapeVersion : Str → Except GoError Str
  CanonicalVersion : Str → Str
  Check : Str → Str → Option GoError
  CheckPath : Str → Option GoError
  CheckFilePath : Str → Option GoError

/-- Go `modproxy.Info`; `Time` is an opaque time stamp. -/
structure Info where
  Version : Str
  Time : Int
deriving DecidableEq, Repr

/-- The external packages used by `proxy.go`: `x/mod/module` and
`json.Marshal` at type `Info`. -/
structure Extern where
  module : ModuleLib
  jsonMarshal : Info → Except GoError Str

/-! ## The HTTP model -/

/-- The text of an error that `Proxy` passes to `http.Error`: one constructor
for each `fmt.Errorf` / error literal of `proxy.go`, and `ofError` for the
`Error()` text of an error obtained from a library or from the backend. -/
inductive ErrorText where
  | methodNotAllowed
  | pathNotClean (urlPath : Str)
  | trailingSlash (urlPath : Str)
  | noAtToken (urlPath : Str)
  | noVersionDir (modulePath after : Str)
  | badExtension (modulePath ext : Str)
  | versionSpecial (modulePath version : Str)
  | versionNotCanonical (modulePath version : Str)
  | noProxierLatest
  | ofError (err : GoError)
deriving DecidableEq, Repr

/-- One call on the `http.ResponseWriter` of a request. -/
inductive WriterOp where
  /-- `w.Header().Set(key, value)` -/
  | headerSet (key value : Str)
  /-- `w.WriteHeader(code)` -/
  | writeHeader (code : Nat)
  /-- `w.Write(body)` -/
  | write (body : Str)
  /-- `http.Error(w, text, code)` -/
  | httpError (text : ErrorText) (code : Nat)
  /-- `io.Copy(w, src)` where `src` yields `content` -/
  | ioCopy (content : Str)
deriving DecidableEq, Repr

/-- The status code that `net/http` sends for a sequence of calls on a fresh
`ResponseWriter`: the code of the first call that commits the header, and 200
when none does. -/
def statusOf : List WriterOp → Nat
  | [] => 200
  | WriterOp.headerSet _ _ :: rest => statusOf rest
  | WriterOp.writeHeader code :: _ => code
  | WriterOp.write _ :: _ => 200
  | WriterOp.httpError _ code :: _ => code
  | WriterOp.ioCopy _ :: _ => 200

/-- Go `http.Request`, as far as `Proxy` reads it: `r.Method` and `r.URL.Path`. -/
structure Request where
  Method : Str
  Path : Str
deriving DecidableEq, Repr

/-- What a backend operation does: the calls it makes on the response writer
it finds in its context, and the value or error it returns. -/
structure BackendResult (α : Type) where
  ops : List WriterOp
  res : Except GoError α

/-- Go interface `Proxier`.  An operation sees the request (through the
context).  `Latest` is `some` exactly when the dynamic type also implements
`ProxierLatest`. -/
structure Proxier where
  Info : Request → module.Version → BackendResult Info
  Mod : Request → module.Version → BackendResult Str
  Zip : Request → module.Version → BackendResult Str
  Latest : Option (Request → Str → BackendResult Modproxy.Info)
  List : Request → Str → BackendResult (List Str)

/-- Go `modproxy.Proxy`. -/
structure Proxy where
  Proxier : Proxier

/-- A backend operation invoked by the router, with its argument. -/
inductive Call where
  | Latest (modulePath : Str)
  | List (modulePath : Str)
  | Info (v : module.Version)
  | Mod (v : module.Version)
  | Zip (v : module.Version)
deriving DecidableEq, Repr

/-- The observable effect of serving one request: the calls made on the
response writer (by the backend and by the router, in order), the backend
operations invoked, and whether the handler panicked. -/
structure Outcome where
  ops : List WriterOp
  calls : List Call
  panicked : Bool
deriving DecidableEq, Repr

/-- The router answers with `http.Error` and returns, no backend involved. -/
def Outcome.reject (text : ErrorText) (code : Nat) : Outcome :=
  { ops := [WriterOp.httpError text code], calls := [], panicked := false }

/-- A run-time panic (slice out of range, or an explicit `panic`). -/
def Outcome.panic : Outcome :=
  { ops := [], calls := [], panicked := true }

def MethodGet : Str := ['G', 'E', 'T']
def MethodHead : Str := ['H', 'E', 'A', 'D']
def StatusBadRequest : Nat := 400
def StatusForbidden : Nat := 403
def StatusNotFound : Nat := 404
def StatusMethodNotAllowed : Nat := 405
def StatusInternalServerError : Nat := 500
def StatusNotImplemented : Nat := 501

def extInfo : Str := ['.', 'i', 'n', 'f', 'o']
def extMod : Str := ['.', 'm', 'o', 'd']
def extZip : Str := ['.', 'z', 'i', 'p']
def kwLatest : Str := ['l', 'a', 't', 'e', 's', 't']
def kwUpgrade : Str := ['u', 'p', 'g', 'r', 'a', 'd', 'e']
def kwPatch : Str := ['p', 'a', 't', 'c', 'h']
def routeList : Str := ['v', '/', 'l', 'i', 's', 't']
def contentType : Str := "Content-Type".toList
def contentLength : Str := "Content-Length".toList

/-! ## `proxy.go` -/

/-- Go `cleanPath` of `proxy.go`. -/
def cleanPath (p : Str) : Str :=
  if p = [] then ['/']
  else
    let p := if p.head? ≠ some '/' then '/' :: p else p
    let np := path.Clean p
    if p.getLast? = some '/' ∧ np ≠ ['/'] then
      if len p = len np + 1 ∧ strings.HasPrefix p np = true then p
      else np ++ ['/']
    else np

/-- The error branch shared by the five `serve*` methods, after the backend
returned `err`: nothing for `fs.SkipAll`, else `http.Error` with 404, 403 or 500. -/
def errorReply (err : GoError) : List WriterOp :=
  if err.isSkipAll then []
  else if err.isNotExist then [WriterOp.httpError (ErrorText.ofError err) StatusNotFound]
  else if err.isPermission then [WriterOp.httpError (ErrorText.ofError err) StatusForbidden]
  else [WriterOp.httpError (ErrorText.ofError err) StatusInternalServerError]

/-- Go `(*Proxy).serveLatest`. -/
def Proxy.serveLatest (E : Extern) (p : Proxy) (r : Request) (modulePath : Str) : Outcome :=
  match p.Proxier.Latest with
  | none => Outcome.reject ErrorText.noProxierLatest StatusNotImplemented
  | some latest =>
    let b := latest r modulePath
    match b.res with
    | Except.error err =>
      { ops := b.ops ++ errorReply err, calls := [Call.Latest modulePath], panicked := false }
    | Except.ok version =>
      match E.jsonMarshal version with
      | Except.error err =>
        { ops := b.ops ++ [WriterOp.httpError (ErrorText.ofError err) StatusInternalServerError],
          calls := [Call.Latest modulePath], panicked := false }
      | Except.ok body =>
        { ops := b.ops ++
            [WriterOp.headerSet contentType "application/json".toList,
             WriterOp.headerSet contentLength (strconv.Itoa (len body)),
             WriterOp.write body],
          calls := [Call.Latest modulePath], panicked := false }

/-- Go `(*Proxy).serveList`. -/
def Proxy.serveList (p : Proxy) (r : Request) (modulePath : Str) : Outcome :=
  let b := p.Proxier.List r modulePath
  match b.res with
  | Except.error err =>
    { ops := b.ops ++ errorReply err, calls := [Call.List modulePath], panicked := false }
  | Except.ok versions =>
    let body := strings.Join versions ['\n']
    { ops := b.ops ++
        [WriterOp.headerSet contentType "text/plain; charset=utf-8".toList,
         WriterOp.headerSet contentLength (strconv.Itoa (len body)),
         WriterOp.write body],
      calls := [Call.List modulePath], panicked := false }

/-- Go `(*Proxy).serveInfo`. -/
def Proxy.serveInfo (E : Extern) (p : Proxy) (r : Request) (modulePath version : Str) : Outcome :=
  let b := p.Proxier.Info r { Path := modulePath, Version := version }
  match b.res with
  | Except.error err =>
    { ops := b.ops ++ errorReply err,
      calls := [Call.Info { Path := modulePath, Version := version }], panicked := false }
  | Except.ok info =>
    match E.jsonMarshal info with
    | Except.error err =>
      { ops := b.ops ++ [WriterOp.httpError (ErrorText.ofError err) StatusInternalServerError],
        calls := [Call.Info { Path := modulePath, Version := version }], panicked := false }
    | Except.ok body =>
      { ops := b.ops ++
          [WriterOp.headerSet contentType "application/json".toList,
           WriterOp.headerSet contentLength (strconv.Itoa (len body)),
           WriterOp.write body],
        calls := [Call.Info { Path := modulePath, Version := version }], panicked := false }

/-- Go `(*Proxy).serveMod`. -/
def Proxy.serveMod (p : Proxy) (r : Request) (modulePath version : Str) : Outcome :=
  let b := p.Proxier.Mod r { Path := modulePath, Version := version }
  match b.res with
  | Except.error err =>
    { ops := b.ops ++ errorReply err,
      calls := [Call.Mod { Path := modulePath, Version := version }], panicked := false }
  | Except.ok mod =>
    { ops := b.ops ++
        [WriterOp.headerSet contentType "text/plain; charset=utf-8".toList,
         WriterOp.ioCopy mod],
      calls := [Call.Mod { Path := modulePath, Version := version }], panicked := false }

/-- Go `(*Proxy).serveZip`. -/
def Proxy.serveZip (p : Proxy) (r : Request) (modulePath version : Str) : Outcome :=
  let b := p.Proxier.Zip r { Path := modulePath, Version := version }
  match b.res with
  | Except.error err =>
    { ops := b.ops ++ errorReply err,
      calls := [Call.Zip { Path := modulePath, Version := version }], panicked := false }
  | Except.ok zip2 =>
    { ops := b.ops ++
        [WriterOp.headerSet contentType "application/zip".toList,
         WriterOp.ioCopy zip2],
      calls := [Call.Zip { Path := modulePath, Version := version }], panicked := false }

/-- The part of `(*Proxy).ServeHTTP` after the extension check: the routes
`v/<escaped-version>.info|.mod|.zip`. -/
def Proxy.serveVersion (E : Extern) (p : Proxy) (r : Request)
    (modulePath after ext : Str) : Outcome :=
  let escapedVersion := strings.TrimSuffix after ext
  match E.module.UnescapeVersion escapedVersion with
  | Except.error err => Outcome.reject (ErrorText.ofError err) StatusBadRequest
  | Except.ok version =>
    if version = kwLatest ∨ version = kwUpgrade ∨ version = kwPatch then
      Outcome.reject (ErrorText.versionSpecial modulePath version) StatusBadRequest
    else if ext = extInfo then p.serveInfo E r modulePath version
    else
      match E.module.Check modulePath version with
      | some err => Outcome.reject (ErrorText.ofError err) StatusBadRequest
      | none =>
        if E.module.CanonicalVersion version ≠ version then
          Outcome.reject (ErrorText.versionNotCanonical modulePath version) StatusBadRequest
        else if ext = extMod then p.serveMod r modulePath version
        else if ext = extZip then p.serveZip r modulePath version
        else Outcome.panic

/-- The part of `(*Proxy).ServeHTTP` after the module path has been
unescaped: dispatch on the sub-route `after`. -/
def Proxy.dispatch (E : Extern) (p : Proxy) (r : Request) (modulePath after : Str) : Outcome :=
  if after = kwLatest then p.serveLatest E r modulePath
  else if after = routeList then p.serveList r modulePath
  else if ¬ strings.HasPrefix after ['v', '/'] = true then
    Outcome.reject (ErrorText.noVersionDir modulePath after) StatusBadRequest
  else
    let after := after.drop 2
    let ext := path.Ext after
    if ¬ (ext = extInfo ∨ ext = extMod ∨ ext = extZip) then
      Outcome.reject (ErrorText.badExtension modulePath ext) StatusBadRequest
    else p.serveVersion E r modulePath after ext

/-- Go `(*Proxy).ServeHTTP`.  `r.URL.Path[1:]` panics on the empty path. -/
def Proxy.ServeHTTP (E : Extern) (p : Proxy) (r : Request) : Outcome :=
  if ¬ (r.Method = MethodGet ∨ r.Method = MethodHead) then
    Outcome.reject ErrorText.methodNotAllowed StatusMethodNotAllowed
  else if cleanPath r.Path ≠ r.Path then
    Outcome.reject (ErrorText.pathNotClean r.Path) StatusBadRequest
  else if strings.HasSuffix r.Path ['/'] = true then
    Outcome.reject (ErrorText.trailingSlash r.Path) StatusBadRequest
  else
    match r.Path with
    | [] => Outcome.panic
    | _ :: path1 =>
      match strings.Cut path1 ['/', '@'] with
      | (_, _, false) => Outcome.reject (ErrorText.noAtToken r.Path) StatusBadRequest
      | (escapedModulePath, after, true) =>
        match E.module.UnescapePath escapedModulePath with
        | Except.error err => Outcome.reject (ErrorText.ofError err) StatusBadRequest
        | Except.ok modulePath => p.dispatch E r modulePath after

/-! ### Predicates on outcomes used in the statements -/

/-- The router refused the request: its only action is one `http.Error` with
status `code`; no backend operation ran. -/
def Outcome.RejectedWith (o : Outcome) (code : Nat) : Prop :=
  (∃ text, o.ops = [WriterOp.httpError text code]) ∧ statusOf o.ops = code ∧ o.calls = []
    ∧ o.panicked = false

/-- Whether a sequence of calls on the response writer has committed the
header (anything but setting header fields does). -/
def committed : List WriterOp → Bool
  | [] => false
  | WriterOp.headerSet _ _ :: rest => committed rest
  | _ :: _ => true

/-- The router, after the backend operation `call` made the calls `backendOps`
and returned `err`, answers with exactly one `http.Error` carrying the text of
`err`, with status 404 for not-exist, else 403 for permission, else 500, and
does nothing else. -/
def Outcome.ErrorMapped (o : Outcome) (backendOps : List WriterOp) (err : GoError)
    (call : Call) : Prop :=
  ∃ code, o.ops = backendOps ++ [WriterOp.httpError (ErrorText.ofError err) code]
    ∧ o.calls = [call]
    ∧ (err.isNotExist = true → code = 404)
    ∧ (err.isNotExist = false → err.isPermission = true → code = 403)
    ∧ (err.isNotExist = false → err.isPermission = false → code = 500)
    ∧ (committed backendOps = false → statusOf o.ops = code)

/-! ### What the repository relies on from `golang.org/x/mod/module` -/

/-- A path element that `path.Clean` leaves alone: not empty, without a slash,
and neither `.` nor `..`. -/
def cleanElem (e : Str) : Bool :=
  decide (e ≠ [] ∧ '/' ∉ e ∧ e ≠ ['.'] ∧ e ≠ ['.', '.'])

/-- A clean relative path: one or more clean elements joined by single
slashes. -/
def IsCleanRel (p : Str) : Prop :=
  ∃ es : List Str, es ≠ [] ∧ (∀ e ∈ es, cleanElem e = true) ∧ p = strings.Join es ['/']

/-- Modelled from the spec: the properties of `golang.org/x/mod/module`, which
is not part of the repository, that the round trip between client and server
rests on.  A coordinate accepted by `Check` can be escaped; unescaping inverts
escaping ("`UnescapePath(EscapePath(p)) == p` for all valid `p`", and the same
transform for versions); an escaped path is a clean relative path over
`[A-Za-z0-9.-_~/]` and the escape marker, so it has no `@`; an escaped version
is a single path element; and `Check` rejects the three reserved version
keywords. -/
structure ModuleLaws (M : ModuleLib) : Prop where
  escapePath_of_check : ∀ p v, M.Check p v = none → ∃ ep, M.EscapePath p = Except.ok ep
  escapeVersion_of_check : ∀ p v, M.Check p v = none → ∃ ev, M.EscapeVersion v = Except.ok ev
  unescapePath_escapePath :
    ∀ p ep, M.EscapePath p = Except.ok ep → M.UnescapePath ep = Except.ok p
  unescapeVersion_escapeVersion :
    ∀ v ev, M.EscapeVersion v = Except.ok ev → M.UnescapeVersion ev = Except.ok v
  escapePath_clean : ∀ p ep, M.EscapePath p = Except.ok ep → IsCleanRel ep ∧ '@' ∉ ep
  escapeVersion_noSlash : ∀ v ev, M.EscapeVersion v = Except.ok ev → '/' ∉ ev
  check_not_keyword :
    ∀ p v, M.Check p v = none → ¬ (v = kwLatest ∨ v = kwUpgrade ∨ v = kwPatch)

/-! ## `proxy/client.go`: the request paths of `Repo.GoMod` and `Repo.Zip` -/

namespace proxy

/-- An `io.Writer`: `Write` returns the number of bytes taken and an error. -/
structure Writer where
  Write : Str → Nat × Option GoError

/-- Go interface `ClientOps` (without `Log`).  `Open` is `some` exactly when
the dynamic type also implements `fs.FS`; an opened file is its content. -/
structure ClientOps where
  ReadRemote : Str → Except GoError Str
  Open : Option (Str → Except GoError Str)

/-- Go `proxy.Repo`. -/
structure Repo where
  ops : ClientOps
  path : Str

/-- Go `io.ErrShortWrite`. -/
def ErrShortWrite : GoError :=
  { msg := "short write".toList, isSkipAll := false, isNotExist := false, isPermission := false }

/-- Go `(*Repo).GoMod`. -/
def Repo.GoMod (M : ModuleLib) (r : Repo) (version : Str) : Except GoError Str :=
  match M.EscapePath r.path with
  | Except.error err => Except.error err
  | Except.ok epath =>
    match M.EscapeVersion version with
    | Except.error err => Except.error err
    | Except.ok eversion =>
      r.ops.ReadRemote ('/' :: epath ++ ['/', '@', 'v', '/'] ++ eversion ++ extMod)

/-- The two transport branches of `(*Repo).Zip` once the request path `target`
is built.  `copy` is `io.Copy(dst, f)` on an opened file. -/
def Repo.zipFrom (copy : Writer → Str → Option GoError) (ops : ClientOps) (dst : Writer)
    (target : Str) : Option GoError :=
  match ops.Open with
  | some fsOpen =>
    match fsOpen target with
    | Except.error err => some err
    | Except.ok f => copy dst f
  | none =>
    match ops.ReadRemote target with
    | Except.error err => some err
    | Except.ok data =>
      match dst.Write data with
      | (_, some err) => some err
      | (n, none) => if n ≠ len data then some ErrShortWrite else none

/-- Go `(*Repo).Zip`. -/
def Repo.Zip (M : ModuleLib) (copy : Writer → Str → Option GoError) (r : Repo) (dst : Writer)
    (version : Str) : Option GoError :=
  match M.EscapePath r.path with
  | Except.error err => some err
  | Except.ok epath =>
    match M.EscapeVersion version with
    | Except.error err => some err
    | Except.ok eversion =>
      Repo.zipFrom copy r.ops dst ('/' :: epath ++ ['/', '@', 'v', '/'] ++ eversion ++ extZip)

end proxy

/-! ## `zip/check.go` -/

namespace zip

/-- The Unicode functions used by `check.go`: `unicode.SimpleFold` and
`strings.EqualFold`. -/
structure UnicodeLib where
  SimpleFold : Char → Char
  EqualFold : Str → Str → Bool

/-- The constants `MaxZipFile`, `MaxGoMod` and `MaxLICENSE` of
`golang.org/x/mod/zip`. -/
structure Limits where
  MaxZipFile : Int
  MaxGoMod : Int
  MaxLICENSE : Int

/-- An entry of the archive (`*zip.File`): its name and declared size, an
unsigned 64-bit number. -/
structure ZipFile where
  Name : Str
  UncompressedSize64 : Nat
deriving DecidableEq, Repr

/-- The error recorded for one entry: one constructor for each error that
`checkZip` passes to `addError`. -/
inductive EntryError where
  | noPrefix (pfx : Str)
  | pathNotClean
  | filePath (err : GoError)
  | caseCollision (other p : Str)
  | fileAndDir (p : Str)
  | multipleEntries (p : Str)
  | goModNotInRoot
  | goModCase
  | goModTooLarge
  | licenseTooLarge
deriving DecidableEq, Repr

/-- Go `modzip.FileError`. -/
structure FileError where
  Path : Str
  Err : EntryError
deriving DecidableEq, Repr

/-- The two size errors of `checkZip`. -/
inductive SizeError where
  | zipTooLarge (zipSize : Int)
  | contentsTooLarge
deriving DecidableEq, Repr

/-- Go `modzip.CheckedFiles`. -/
structure CheckedFiles where
  Valid : List Str
  Omitted : List FileError
  Invalid : List FileError
  SizeError : Option SizeError
deriving DecidableEq, Repr

/-- The zero value `modzip.CheckedFiles{}`. -/
def CheckedFiles.empty : CheckedFiles :=
  { Valid := [], Omitted := [], Invalid := [], SizeError := none }

/-- The error returned by `checkZip`. -/
inductive CheckError where
  | notCanonical (version vers : Str)
  | lib (err : GoError)
  | size (err : SizeError)
  | invalid (files : List FileError)
deriving DecidableEq, Repr

/-- Modelled from the spec: the method `CheckedFiles.Err` of
`golang.org/x/mod/zip`, which is not part of the repository: "the accompanying
error is non-nil iff there is at least one invalid entry or a size error". -/
def CheckedFiles.Err (cf : CheckedFiles) : Option CheckError :=
  match cf.SizeError with
  | some e => some (CheckError.size e)
  | none => if cf.Invalid ≠ [] then some (CheckError.invalid cf.Invalid) else none

/-- Go `pathInfo`. -/
structure pathInfo where
  path : Str
  isDir : Bool
deriving DecidableEq, Repr

/-- Go `collisionChecker`, a `map[string]pathInfo`: an association list in
which a key is bound at most once (a key is only added when it is absent). -/
abbrev collisionChecker := List (Str × pathInfo)

/-- The inner `for` loop of `strToFold`: `r = SimpleFold(r0)` until `r <= r0`.
The chain is strictly increasing, so `fuel` larger than the number of code
points is never used up. -/
def foldLoop (U : UnicodeLib) (fuel : Nat) (r0 : Char) : Char :=
  let r := U.SimpleFold r0
  if r ≤ r0 then r
  else
    match fuel with
    | 0 => r
    | fuel + 1 => foldLoop U fuel r

/-- The body of the `Slow` loop of `strToFold` for one rune. -/
def foldRune (U : UnicodeLib) (r0 : Char) : Char :=
  let r := foldLoop U (1114112 - r0.toNat) r0
  if 'A' ≤ r ∧ r ≤ 'Z' then Char.ofNat (r.toNat + ('a'.toNat - 'A'.toNat)) else r

/-- Go `strToFold`. -/
def strToFold (U : UnicodeLib) (s : Str) : Str :=
  if s.all (fun c => ¬ (c.toNat ≥ 128 ∨ ('A' ≤ c ∧ c ≤ 'Z'))) then s
  else s.map (foldRune U)

/-- Go `(collisionChecker).check`.  The result is the returned error and the
map after the call; `none` when the recursion has not ended within `fuel`
calls. -/
def collisionChecker.check (U : UnicodeLib) (fuel : Nat) (cc : collisionChecker) (p : Str)
    (isDir : Bool) : Option (Option EntryError × collisionChecker) :=
  match fuel with
  | 0 => none
  | fuel + 1 =>
    let fold := strToFold U p
    match cc.lookup fold with
    | some other =>
      if p ≠ other.path then some (some (EntryError.caseCollision other.path p), cc)
      else if isDir ≠ other.isDir then some (some (EntryError.fileAndDir p), cc)
      else if ¬ isDir then some (some (EntryError.multipleEntries p), cc)
      else if path.Dir p ≠ ['.'] then collisionChecker.check U fuel cc (path.Dir p) true
      else some (none, cc)
    | none =>
      let cc1 : collisionChecker := (fold, { path := p, isDir := isDir }) :: cc
      if path.Dir p ≠ ['.'] then collisionChecker.check U fuel cc1 (path.Dir p) true
      else some (none, cc1)

/-- Go `int64(x)` for a `uint64` value `x`. -/
def toInt64 (x : Nat) : Int :=
  if x % 2 ^ 64 < 2 ^ 63 then ((x % 2 ^ 64 : Nat) : Int) else ((x % 2 ^ 64 : Nat) : Int) - 2 ^ 64

def goMod : Str := ['g', 'o', '.', 'm', 'o', 'd']
def LICENSE : Str := ['L', 'I', 'C', 'E', 'N', 'S', 'E']

/-- The variables that the entry loop of `checkZip` updates. -/
structure CheckState where
  cf : CheckedFiles
  collisions : collisionChecker
  size : Int
deriving DecidableEq, Repr

/-- The closure `addError` of `checkZip`. -/
def CheckState.addError (st : CheckState) (zf : ZipFile) (err : EntryError) : CheckState :=
  { st with cf := { st.cf with Invalid := st.cf.Invalid ++ [{ Path := zf.Name, Err := err }] } }

/-- The size accounting of `checkZip` for a file of declared size `sz`. -/
def CheckState.account (L : Limits) (st : CheckState) (sz : Int) : CheckState :=
  if sz ≥ 0 ∧ L.MaxZipFile - st.size ≥ sz then { st with size := st.size + sz }
  else if st.cf.SizeError = none then
    { st with cf := { st.cf with SizeError := some SizeError.contentsTooLarge } }
  else st

/-- The part of the loop body of `checkZip` after the collision check passed,
for an entry that is not a directory. -/
def checkFile (U : UnicodeLib) (L : Limits) (st : CheckState) (zf : ZipFile) (name : Str) :
    CheckState :=
  let base := path.Base name
  if U.EqualFold base goMod = true ∧ base ≠ name then st.addError zf EntryError.goModNotInRoot
  else if U.EqualFold base goMod = true ∧ name ≠ goMod then st.addError zf EntryError.goModCase
  else
    let sz := toInt64 zf.UncompressedSize64
    let st1 := st.account L sz
    if name = goMod ∧ sz > L.MaxGoMod then st1.addError zf EntryError.goModTooLarge
    else if name = LICENSE ∧ sz > L.MaxLICENSE then st1.addError zf EntryError.licenseTooLarge
    else { st1 with cf := { st1.cf with Valid := st1.cf.Valid ++ [zf.Name] } }

/-- The variable `isDir` of the loop body of `checkZip`. -/
def entryIsDir (pfx : Str) (zf : ZipFile) : Bool :=
  strings.HasSuffix (zf.Name.drop pfx.length) ['/']

/-- The variable `name` of the loop body of `checkZip`, once the trailing slash
of a directory is cut off: `zf.Name[len(prefix):]`, then `name[:len(name)-1]`. -/
def entryName (pfx : Str) (zf : ZipFile) : Str :=
  let name := zf.Name.drop pfx.length
  if entryIsDir pfx zf = true then name.take (name.length - 1) else name

/-- One iteration of the entry loop of `checkZip`; `none` when the call of
`collisions.check` does not return. -/
def checkEntry (M : ModuleLib) (U : UnicodeLib) (L : Limits) (pfx : Str) (st : CheckState)
    (zf : ZipFile) : Option CheckState :=
  if ¬ strings.HasPrefix zf.Name pfx = true then some (st.addError zf (EntryError.noPrefix pfx))
  else if zf.Name.drop pfx.length = [] then some st
  else
    let isDir := entryIsDir pfx zf
    let name := entryName pfx zf
    if path.Clean name ≠ name then some (st.addError zf EntryError.pathNotClean)
    else
      match M.CheckFilePath name with
      | some err => some (st.addError zf (EntryError.filePath err))
      | none =>
        match collisionChecker.check U (name.length + 1) st.collisions name isDir with
        | none => none
        | some (some err, cc) => some ({ st with collisions := cc }.addError zf err)
        | some (none, cc) =>
          if isDir = true then some { st with collisions := cc }
          else some (checkFile U L { st with collisions := cc } zf name)

/-- The entry loop of `checkZip`. -/
def checkEntries (M : ModuleLib) (U : UnicodeLib) (L : Limits) (pfx : Str) (st : CheckState)
    (files : List ZipFile) : Option CheckState :=
  match files with
  | [] => some st
  | zf :: rest =>
    match checkEntry M U L pfx st zf with
    | none => none
    | some st1 => checkEntries M U L pfx st1 rest

/-- The `fs.File` handed to `checkZip`, as far as it is used: the size that
`f.Stat()` reports and the entries that `zip.NewReader` finds. -/
structure ZipSource where
  Stat : Except GoError Int
  NewReader : Int → Except GoError (List ZipFile)

/-- The `prefix` of `checkZip`: `fmt.Sprintf("%s@%s/", m.Path, m.Version)`. -/
def entryPrefix (m : module.Version) : Str := m.Path ++ ['@'] ++ m.Version ++ ['/']

/-- The state of `checkZip` before the first entry. -/
def CheckState.init : CheckState :=
  { cf := CheckedFiles.empty, collisions := [], size := 0 }

/-- Go `checkZip`.  The result is `none` when the function does not return
(a call of `collisions.check` recurses without end). -/
def checkZip (M : ModuleLib) (U : UnicodeLib) (L : Limits) (m : module.Version) (f : ZipSource) :
    Option (Option (List ZipFile) × CheckedFiles × Option CheckError) :=
  if M.CanonicalVersion m.Version ≠ m.Version then
    some (none, CheckedFiles.empty,
      some (CheckError.notCanonical m.Version (M.CanonicalVersion m.Version)))
  else
    match M.Check m.Path m.Version with
    | some err => some (none, CheckedFiles.empty, some (CheckError.lib err))
    | none =>
      match f.Stat with
      | Except.error err => some (none, CheckedFiles.empty, some (CheckError.lib err))
      | Except.ok zipSize =>
        if zipSize > L.MaxZipFile then
          let cf : CheckedFiles :=
            { CheckedFiles.empty with SizeError := some (SizeError.zipTooLarge zipSize) }
          some (none, cf, cf.Err)
        else
          match f.NewReader zipSize with
          | Except.error err => some (none, CheckedFiles.empty, some (CheckError.lib err))
          | Except.ok z =>
            match checkEntries M U L (entryPrefix m) CheckState.init z with
            | none => none
            | some st => some (some z, st.cf, st.cf.Err)

end zip

/-! ## Fixtures: the backends of `proxy_test.go` and a small module library -/

namespace fixture

/-- Go `fs.ErrNotExist`. -/
def ErrNotExist : GoError :=
  { msg := "file does not exist".toList, isSkipAll := false, isNotExist := true,
    isPermission := false }

/-- Go `fs.SkipAll`. -/
def SkipAll : GoError :=
  { msg := "skip everything and stop the walk".toList, isSkipAll := true, isNotExist := false,
    isPermission := false }

/-- An error that matches none of the sentinels. -/
def errInvalid : GoError :=
  { msg := "invalid".toList, isSkipAll := false, isNotExist := false, isPermission := false }

/-- The module path of the tests. -/
def awesome : Str := "octocat.github.io/awesome".toList

def v100 : Str := ['v', '1', '.', '0', '.', '0']
def v1 : Str := ['v', '1']

/-- A module library that knows the module `octocat.github.io/awesome` with
the canonical version `v1.0.0` and its short form `v1`.  Neither has an upper
case letter, so escaping leaves them as they are. -/
def moduleLib : ModuleLib :=
  { EscapePath := fun p => if p = awesome then Except.ok p else Except.error errInvalid
    UnescapePath := fun p => if p = awesome then Except.ok p else Except.error errInvalid
    EscapeVersion := fun v => if '/' ∈ v then Except.error errInvalid else Except.ok v
    UnescapeVersion := fun v => if '/' ∈ v then Except.error errInvalid else Except.ok v
    CanonicalVersion := fun v => if v = v100 ∨ v = v1 then v100 else []
    Check := fun p v => if p = awesome ∧ (v = v100 ∨ v = v1) then none else some errInvalid
    CheckPath := fun p => if p = awesome then none else some errInvalid
    CheckFilePath := fun p =>
      if p ≠ [] ∧ p.head? ≠ some '/' ∧ '\\' ∉ p then none else some errInvalid }

/-- The external packages of the fixtures; `json.Marshal` of an `Info` writes
its version only. -/
def env : Extern :=
  { module := moduleLib
    jsonMarshal := fun info =>
      Except.ok ("\x7b\"Version\":\"".toList ++ info.Version ++ "\"\x7d".toList) }

/-- Go `MemModProxy` of `proxy_test.go`. -/
structure MemModProxy where
  Latests : List (Str × Str)
  Mods : List (module.Version × Str)
  Zips : List (module.Version × Str)

/-- The methods of `MemModProxy`, which write nothing to the response. -/
def MemModProxy.toProxier (m : MemModProxy) : Proxier :=
  { Info := fun _ version =>
      match m.Mods.lookup version with
      | some _ => { ops := [], res := Except.ok { Version := version.Version, Time := 0 } }
      | none => { ops := [], res := Except.error ErrNotExist }
    Mod := fun _ version =>
      match m.Mods.lookup version with
      | some mod => { ops := [], res := Except.ok mod }
      | none => { ops := [], res := Except.error ErrNotExist }
    Zip := fun _ version =>
      match m.Zips.lookup version with
      | some zipData => { ops := [], res := Except.ok zipData }
      | none => { ops := [], res := Except.error ErrNotExist }
    Latest := some fun _ path =>
      match m.Latests.lookup path with
      | some v => { ops := [], res := Except.ok { Version := v, Time := 0 } }
      | none => { ops := [], res := Except.error ErrNotExist }
    List := fun _ path =>
      let versions := (m.Mods.filter fun kv => kv.1.Path = path).map fun kv => kv.1.Version
      if versions = [] then { ops := [], res := Except.error ErrNotExist }
      else { ops := [], res := Except.ok versions } }

/-- The `proxier` of `TestProxy`. -/
def memProxy : Proxy :=
  { Proxier := MemModProxy.toProxier
      { Latests := [(awesome, v100)]
        Mods := [({ Path := awesome, Version := v100 }, "module octocat.github.io/awesome\n".toList)]
        Zips := [({ Path := awesome, Version := v100 }, "PK".toList)] } }

/-- The same backend without the method `Latest`. -/
def memProxyNoLatest : Proxy :=
  { Proxier := { memProxy.Proxier with Latest := none } }

/-- What `http.Redirect(w, r, "https://example.org/", http.StatusFound)` does. -/
def redirectOps : List WriterOp :=
  [WriterOp.headerSet "Location".toList "https://example.org/".toList,
   WriterOp.headerSet contentType "text/html; charset=utf-8".toList,
   WriterOp.writeHeader 302,
   WriterOp.write "<a href=\"https://example.org/\">Found</a>.\n\n".toList]

/-- Go `RedirectModProxy` of `proxy_test.go`: every operation redirects and
returns `fs.SkipAll`. -/
def redirectProxy : Proxy :=
  { Proxier :=
      { Info := fun _ _ => { ops := redirectOps, res := Except.error SkipAll }
        Mod := fun _ _ => { ops := redirectOps, res := Except.error SkipAll }
        Zip := fun _ _ => { ops := redirectOps, res := Except.error SkipAll }
        Latest := some fun _ _ => { ops := redirectOps, res := Except.error SkipAll }
        List := fun _ _ => { ops := redirectOps, res := Except.error SkipAll } } }

/-- A backend whose every operation fails with `err` and writes nothing. -/
def failingProxy (err : GoError) : Proxy :=
  { Proxier :=
      { Info := fun _ _ => { ops := [], res := Except.error err }
        Mod := fun _ _ => { ops := [], res := Except.error err }
        Zip := fun _ _ => { ops := [], res := Except.error err }
        Latest := some fun _ _ => { ops := [], res := Except.error err }
        List := fun _ _ => { ops := [], res := Except.error err } } }

/-- `GET` of the given path. -/
def get (urlPath : String) : Request := { Method := MethodGet, Path := urlPath.toList }

/-- Case folding restricted to ASCII: the orbits `A`/`a`, ..., `Z`/`z`. -/
def asciiFold : zip.UnicodeLib :=
  { SimpleFold := fun c =>
      if 'A' ≤ c ∧ c ≤ 'Z' then Char.ofNat (c.toNat + 32)
      else if 'a' ≤ c ∧ c ≤ 'z' then Char.ofNat (c.toNat - 32)
      else c
    EqualFold := fun s t => s.map Char.toLower = t.map Char.toLower }

/-- The values of the limits in `golang.org/x/mod/zip`: 500 MiB, 16 MiB, 16 MiB. -/
def limits : zip.Limits :=
  { MaxZipFile := 524288000, MaxGoMod := 16777216, MaxLICENSE := 16777216 }

/-- The coordinate of the tests. -/
def coord : module.Version := { Path := awesome, Version := v100 }

/-- An archive file of `size` bytes with the given entries. -/
def archive (size : Int) (files : List zip.ZipFile) : zip.ZipSource :=
  { Stat := Except.ok size, NewReader := fun _ => Except.ok files }

/-- An entry of the given name and declared size. -/
def entry (name : String) (size : Nat) : zip.ZipFile :=
  { Name := name.toList, UncompressedSize64 := size }

/-- The entries of the archive built in `TestProxy`. -/
def awesomeFiles : List zip.ZipFile :=
  [entry "octocat.github.io/awesome@v1.0.0/go.mod" 33,
   entry "octocat.github.io/awesome@v1.0.0/main.go" 27]

/-- An archive with `Foo.txt` and `foo.txt` in the same directory, and an
entry of another module. -/
def collidingFiles : List zip.ZipFile :=
  [entry "octocat.github.io/awesome@v1.0.0/Foo.txt" 1,
   entry "octocat.github.io/awesome@v1.0.0/foo.txt" 1,
   entry "octocat.github.io/other@v1.0.0/x.go" 1]

/-- What `checkZip` reports for `collidingFiles`. -/
def collidingResult : zip.CheckedFiles :=
  { Valid := ["octocat.github.io/awesome@v1.0.0/Foo.txt".toList]
    Omitted := []
    Invalid :=
      [{ Path := "octocat.github.io/awesome@v1.0.0/foo.txt".toList,
         Err := zip.EntryError.caseCollision "Foo.txt".toList "foo.txt".toList },
       { Path := "octocat.github.io/other@v1.0.0/x.go".toList,
         Err := zip.EntryError.noPrefix (zip.entryPrefix coord) }]
    SizeError := none }

end fixture

/-! ## Size accounting of `checkZip`, in the words of the specification -/

namespace zip

/-- Following the specification: the entries that "reach size accounting" are the
file entries "passing the prefix, path, collision and go.mod-name checks".
The collision check of an entry is made against the index `cc` that the
entries before it have built. -/
def reachesAccounting (M : ModuleLib) (U : UnicodeLib) (pfx : Str) (cc : collisionChecker)
    (zf : ZipFile) : Bool :=
  let name := entryName pfx zf
  strings.HasPrefix zf.Name pfx
    && decide (zf.Name.drop pfx.length ≠ [])
    && !entryIsDir pfx zf
    && decide (path.Clean name = name)
    && (M.CheckFilePath name).isNone
    && (match collisionChecker.check U (name.length + 1) cc name false with
        | some (none, _) => true
        | _ => false)
    && !(U.EqualFold (path.Base name) goMod && decide (name ≠ goMod))

/-- Following the specification: the declared uncompressed sizes, as unsigned
64-bit values, of the entries of `files` that reach size accounting when the loop
of `checkZip` starts in the state `st`. -/
def accountedSizes (M : ModuleLib) (U : UnicodeLib) (L : Limits) (pfx : Str) (st : CheckState)
    (files : List ZipFile) : List Nat :=
  match files with
  | [] => []
  | zf :: rest =>
    match checkEntry M U L pfx st zf with
    | none => []
    | some st1 =>
      (if reachesAccounting M U pfx st.collisions zf = true then [zf.UncompressedSize64 % 2 ^ 64]
        else [])
        ++ accountedSizes M U L pfx st1 rest

end zip

namespace fixture

/-- An archive with a `go.mod` in the root, one in a directory and a file
whose name is `go.mod` in another casing. -/
def goModFiles : List zip.ZipFile :=
  [entry "octocat.github.io/awesome@v1.0.0/go.mod" 33,
   entry "octocat.github.io/awesome@v1.0.0/sub/go.mod" 5,
   entry "octocat.github.io/awesome@v1.0.0/main.go" 27]

/-- What `checkZip` reports for `goModFiles`. -/
def goModResult : zip.CheckedFiles :=
  { Valid := ["octocat.github.io/awesome@v1.0.0/go.mod".toList,
              "octocat.github.io/awesome@v1.0.0/main.go".toList]
    Omitted := []
    Invalid :=
      [{ Path := "octocat.github.io/awesome@v1.0.0/sub/go.mod".toList,
         Err := zip.EntryError.goModNotInRoot }]
    SizeError := none }

/-- The state of the loop of `checkZip` on `goModFiles` after the first entry. -/
def goModState : zip.CheckState :=
  { cf := { Valid := ["octocat.github.io/awesome@v1.0.0/go.mod".toList], Omitted := [],
            Invalid := [], SizeError := none }
    collisions := [("go.mod".toList, { path := "go.mod".toList, isDir := false })]
    size := 33 }

/-- Limits of a few bytes, to show the size accounting on small numbers. -/
def smallLimits : zip.Limits := { MaxZipFile := 50, MaxGoMod := 40, MaxLICENSE := 40 }

end fixture

/-! ## `path.Join` -/

namespace path

/-- The loop of `path.Join` that fills `buf`: empty elements before the first
non-empty one are skipped, every other element follows a slash. -/
def joinBuf (buf : Str) (elem : List Str) : Str :=
  match elem with
  | [] => buf
  | e :: rest =>
    if buf.length > 0 ∨ e ≠ [] then
      joinBuf ((if buf.length > 0 then buf ++ ['/'] else buf) ++ e) rest
    else joinBuf buf rest

/-- Go `path.Join`: the elements joined by slashes and cleaned; the empty
string when every element is empty. -/
def Join (elem : List Str) : Str :=
  if (elem.map List.length).sum = 0 then [] else Clean (joinBuf [] elem)

end path

/-! ## `zip/unzip.go` and `zip/errors.go` -/

namespace zip

/-- What the reader returned by `zf.Open()` yields when it is read to its end:
the bytes of `data`, one list element for each byte, and then the error `err`
or, when `err` is `none`, the end of the file. -/
structure Stream where
  data : List Nat
  err : Option GoError
deriving DecidableEq, Repr

/-- The calls by which `UnzipFS` changes the file system: `xfs.MkdirAll(fsys,
dir, 0777)`, `os.MkdirAll(path.Dir(dst), 0777)`, `os.OpenFile(dst,
os.O_WRONLY|os.O_CREATE|os.O_EXCL, 0444)`, the bytes that one `io.Copy` writes
to the file opened as `dst` (none when the reader is empty), and the `Close`
of that file. -/
inductive FsOp where
  | xfsMkdirAll (dir : Str)
  | osMkdirAll (dir : Str)
  | openFile (dst : Str)
  | write (dst : Str) (data : List Nat)
  | close (dst : Str)
deriving DecidableEq, Repr

/-- The file systems that `UnzipFS` works on, as far as it uses them.  `ReadDir`
is the number of entries that `fs.ReadDir(fsys, dir)` returns (its error is
ignored), `Open` is `fsys.Open`.  The calls that change the file system get the
calls made before them, since their result may depend on these: `Write` is the
number of bytes that the file takes of the data it is given, and the error of
the write. -/
structure UnzipEnv where
  ReadDir : Str → Nat
  Open : Str → Except GoError ZipSource
  xfsMkdirAll : Str → Option GoError
  osMkdirAll : List FsOp → Str → Option GoError
  OpenFile : List FsOp → Str → Option GoError
  zfOpen : ZipFile → Except GoError Stream
  Write : List FsOp → Str → List Nat → Nat × Option GoError
  Close : List FsOp → Str → Option GoError

/-- The errors that `UnzipFS` wraps: "target directory %v exists and is not
empty", an error of the file system or of the archive reader, an error of
`checkZip` or of `cf.Err()`, and "uncompressed size of file %s is larger than
declared size (%d bytes)". -/
inductive UnzipError where
  | notEmpty (dir : Str)
  | lib (err : GoError)
  | check (err : CheckError)
  | sizeMismatch (name : Str) (size : Nat)
deriving DecidableEq, Repr

/-- Go `ZipError` of `zip/errors.go`; `ε` is the type of the wrapped error. -/
structure ZipError (ε : Type) where
  Verb : Str
  Path : Str
  Err : ε
deriving DecidableEq, Repr

/-- What a run of `UnzipFS`, or of a part of it, leaves: the calls made, the
error returned, and whether a slice expression was out of range. -/
structure UnzipResult (ε : Type) where
  ops : List FsOp
  err : Option ε
  panicked : Bool
deriving DecidableEq, Repr

/-- Go `a + b` on `int64`, which wraps around. -/
def add64 (a b : Int) : Int := toInt64 ((a + b) % 2 ^ 64).toNat

/-- The bytes that `&io.LimitedReader{R: r, N: n}` yields: at most `n` bytes of
the stream, none when `n ≤ 0`. -/
def limitedData (r : Stream) (n : Int) : List Nat :=
  if n ≤ 0 then [] else r.data.take n.toNat

/-- The error with which reading `&io.LimitedReader{R: r, N: n}` ends: that of
the stream when the stream ends before `n` bytes, and none (end of file)
otherwise. -/
def limitedErr (r : Stream) (n : Int) : Option GoError :=
  if n ≤ 0 then none else if r.data.length < n.toNat then r.err else none

/-- The body of the entry loop of `UnzipFS`, after the calls `ops`.  The slice
`zf.Name[len(prefix):]` is out of range for a name shorter than the prefix;
for a name that begins with the prefix it is what follows the prefix.
`io.Copy(w, lr)` offers the bytes of the limited reader to the file, which is
not written to when there are none; its error is that of the write, a short
write, or that of the reader. -/
def unzipEntry (env : UnzipEnv) (dir pfx : Str) (ops : List FsOp) (zf : ZipFile) :
    UnzipResult UnzipError :=
  if len zf.Name < len pfx then { ops := ops, err := none, panicked := true }
  else
    let name := zf.Name.drop pfx.length
    if name = [] ∨ strings.HasSuffix name ['/'] = true then
      { ops := ops, err := none, panicked := false }
    else
      let dst := path.Join [dir, name]
      let ops1 := ops ++ [FsOp.osMkdirAll (path.Dir dst)]
      match env.osMkdirAll ops (path.Dir dst) with
      | some err => { ops := ops1, err := some (UnzipError.lib err), panicked := false }
      | none =>
        let ops2 := ops1 ++ [FsOp.openFile dst]
        match env.OpenFile ops1 dst with
        | some err => { ops := ops2, err := some (UnzipError.lib err), panicked := false }
        | none =>
          match env.zfOpen zf with
          | Except.error err =>
            { ops := ops2 ++ [FsOp.close dst], err := some (UnzipError.lib err),
              panicked := false }
          | Except.ok r =>
            let n := add64 (toInt64 zf.UncompressedSize64) 1
            let data := limitedData r n
            let w : Nat × Option GoError :=
              if data = [] then (0, none) else env.Write ops2 dst data
            let ops3 := ops2 ++ [FsOp.write dst (data.take w.1)]
            let copyErr : Option GoError :=
              match w.2 with
              | some err => some err
              | none => if w.1 ≠ data.length then some proxy.ErrShortWrite else limitedErr r n
            match copyErr with
            | some err =>
              { ops := ops3 ++ [FsOp.close dst], err := some (UnzipError.lib err),
                panicked := false }
            | none =>
              match env.Close ops3 dst with
              | some err =>
                { ops := ops3 ++ [FsOp.close dst], err := some (UnzipError.lib err),
                  panicked := false }
              | none =>
                if n - (data.length : Int) ≤ 0 then
                  { ops := ops3 ++ [FsOp.close dst],
                    err := some (UnzipError.sizeMismatch zf.Name zf.UncompressedSize64),
                    panicked := false }
                else { ops := ops3 ++ [FsOp.close dst], err := none, panicked := false }

/-- The entry loop of `UnzipFS`: it ends at the first error. -/
def unzipEntries (env : UnzipEnv) (dir pfx : Str) (ops : List FsOp) (files : List ZipFile) :
    UnzipResult UnzipError :=
  match files with
  | [] => { ops := ops, err := none, panicked := false }
  | zf :: rest =>
    let r := unzipEntry env dir pfx ops zf
    if r.err ≠ none ∨ r.panicked = true then r else unzipEntries env dir pfx r.ops rest

/-- The deferred function of `UnzipFS`, which wraps every error. -/
def unzipWrap (zipFile : Str) (err : UnzipError) : ZipError UnzipError :=
  { Verb := "unzip".toList, Path := zipFile, Err := err }

/-- Go `UnzipFS`.  The result is `none` when `checkZip` does not return. -/
def UnzipFS (M : ModuleLib) (U : UnicodeLib) (L : Limits) (env : UnzipEnv) (dir : Str)
    (m : module.Version) (zipFile : Str) : Option (UnzipResult (ZipError UnzipError)) :=
  if env.ReadDir dir > 0 then
    some { ops := [], err := some (unzipWrap zipFile (UnzipError.notEmpty dir)),
           panicked := false }
  else
    match env.Open zipFile with
    | Except.error err =>
      some { ops := [], err := some (unzipWrap zipFile (UnzipError.lib err)), panicked := false }
    | Except.ok f =>
      match checkZip M U L m f with
      | none => none
      | some (_, _, some err) =>
        some { ops := [], err := some (unzipWrap zipFile (UnzipError.check err)),
               panicked := false }
      | some (z, cf, none) =>
        match cf.Err with
        | some err =>
          some { ops := [], err := some (unzipWrap zipFile (UnzipError.check err)),
                 panicked := false }
        | none =>
          match env.xfsMkdirAll dir with
          | some err =>
            some { ops := [FsOp.xfsMkdirAll dir],
                   err := some (unzipWrap zipFile (UnzipError.lib err)), panicked := false }
          | none =>
            match z with
            | none => some { ops := [FsOp.xfsMkdirAll dir], err := none, panicked := true }
            | some files =>
              let r := unzipEntries env dir (entryPrefix m) [FsOp.xfsMkdirAll dir] files
              some { ops := r.ops, err := r.err.map (unzipWrap zipFile), panicked := r.panicked }

end zip

namespace fixture

/-- A file system on which every call succeeds: the target directory is empty,
every file is an archive with the entries `files`, and the stream of an entry
holds `extra` bytes more than the entry declares. -/
def unzipEnv (files : List zip.ZipFile) (extra : Nat) : zip.UnzipEnv :=
  { ReadDir := fun _ => 0
    Open := fun _ => Except.ok (archive 300 files)
    xfsMkdirAll := fun _ => none
    osMkdirAll := fun _ _ => none
    OpenFile := fun _ _ => none
    zfOpen := fun zf => Except.ok { data := List.replicate (zf.UncompressedSize64 + extra) 0, err := none }
    Write := fun _ _ data => (data.length, none)
    Close := fun _ _ => none }

end fixture

/-! ## Fixtures: a file and a directory of the same name -/

namespace fixture

/-- An archive with the file `docs` and the file `docs/readme.md`. -/
def conflictFiles : List zip.ZipFile :=
  [entry "octocat.github.io/awesome@v1.0.0/docs" 1,
   entry "octocat.github.io/awesome@v1.0.0/docs/readme.md" 2]

/-- What `checkZip` reports for `conflictFiles`. -/
def conflictResult : zip.CheckedFiles :=
  { Valid := ["octocat.github.io/awesome@v1.0.0/docs".toList]
    Omitted := []
    Invalid :=
      [{ Path := "octocat.github.io/awesome@v1.0.0/docs/readme.md".toList,
         Err := zip.EntryError.fileAndDir "docs".toList }]
    SizeError := none }

end fixture

/-! ## Fixtures: unpacking the archive of the tests -/

namespace fixture

/-- The module library of the fixtures with a `CheckFilePath` that accepts the
two file names of the archive of the tests only. -/
def strictLib : ModuleLib :=
  { moduleLib with
    CheckFilePath := fun p =>
      if p = "go.mod".toList ∨ p = "main.go".toList then none else some errInvalid }

/-- What `UnzipFS` does with the archive of the tests and the target
directory `.`. -/
def unzipDotOps : List zip.FsOp :=
  [zip.FsOp.xfsMkdirAll ".".toList,
   zip.FsOp.osMkdirAll ".".toList,
   zip.FsOp.openFile "go.mod".toList,
   zip.FsOp.write "go.mod".toList (List.replicate 33 0),
   zip.FsOp.close "go.mod".toList,
   zip.FsOp.osMkdirAll ".".toList,
   zip.FsOp.openFile "main.go".toList,
   zip.FsOp.write "main.go".toList (List.replicate 27 0),
   zip.FsOp.close "main.go".toList]

/-- What `UnzipFS` does with the archive of the tests and the target
directory `out/x/..`. -/
def unzipOutOps : List zip.FsOp :=
  [zip.FsOp.xfsMkdirAll "out/x/..".toList,
   zip.FsOp.osMkdirAll "out".toList,
   zip.FsOp.openFile "out/go.mod".toList,
   zip.FsOp.write "out/go.mod".toList (List.replicate 33 0),
   zip.FsOp.close "out/go.mod".toList,
   zip.FsOp.osMkdirAll "out".toList,
   zip.FsOp.openFile "out/main.go".toList,
   zip.FsOp.write "out/main.go".toList (List.replicate 27 0),
   zip.FsOp.close "out/main.go".toList]

end fixture

/-! ## `strings.CutPrefix`, `strings.Index`, and `io/fs.WalkDir` -/

namespace strings

/-- Go `strings.CutPrefix`. -/
def CutPrefix (s pre : Str) : Str × Bool :=
  if HasPrefix s pre = true then (s.drop pre.length, true) else (s, false)

/-- Go `strings.Index`: the byte index of the first instance of `substr` in
`s`, or -1. -/
def Index (s substr : Str) : Int :=
  match Cut s substr with
  | (before, _, true) => (len before : Int)
  | (_, _, false) => -1

end strings

namespace fs

/-- Go `fs.DirEntry`, as far as the repository reads it: `Name()`, `IsDir()`
and `Type().IsRegular()`. -/
structure DirEntry where
  Name : Str
  IsDir : Bool
  IsRegular : Bool
deriving DecidableEq, Repr

/-- A file system `fs.FS` as the walk sees it: `fs.Stat`, `fs.ReadDir` (which
may return entries together with an error), and `Lstat`, which is `some`
exactly when the dynamic type also implements `readLinkFS`. -/
structure FS where
  Stat : Str → Except GoError DirEntry
  ReadDir : Str → List DirEntry × Option GoError
  Lstat : Option (Str → Except GoError DirEntry)

/-- What a `fs.WalkDirFunc` returns besides nil: `fs.SkipDir`, `fs.SkipAll`
or another error. -/
inductive WalkError (ε : Type) where
  | skipDir
  | skipAll
  | other (err : ε)
deriving DecidableEq, Repr

/-- Go `fs.WalkDirFunc`, with the variables `σ` that the function closes
over; the entry is nil in the call that reports the error of the first
`Stat`. -/
abbrev WalkDirFunc (σ ε : Type) :=
  σ → Str → Option DirEntry → Option GoError → σ × Option (WalkError ε)

/-- The loop of `walkDir` over the entries of a directory, where `walk` is
the recursive call. -/
def walkList {σ ε : Type} (walk : σ → Str → DirEntry → Option (σ × Option (WalkError ε)))
    (s : σ) (name : Str) (dirs : List DirEntry) : Option (σ × Option (WalkError ε)) :=
  match dirs with
  | [] => some (s, none)
  | d1 :: rest =>
    match walk s (path.Join [name, d1.Name]) d1 with
    | none => none
    | some (s1, some WalkError.skipDir) => some (s1, none)
    | some (s1, some err) => some (s1, some err)
    | some (s1, none) => walkList walk s1 name rest

/-- Go `walkDir` of `io/fs`; `fuel` bounds the depth of the recursion, and the
result is `none` when it does not suffice. -/
def walkDir {σ ε : Type} [DecidableEq ε] (fsys : FS) (fn : WalkDirFunc σ ε) (fuel : Nat) (s : σ)
    (name : Str) (d : DirEntry) : Option (σ × Option (WalkError ε)) :=
  match fuel with
  | 0 => none
  | fuel + 1 =>
    let r := fn s name (some d) none
    if r.2 ≠ none ∨ d.IsDir = false then
      some (r.1, if r.2 = some WalkError.skipDir ∧ d.IsDir = true then none else r.2)
    else
      match fsys.ReadDir name with
      | (dirs, some err) =>
        let r2 := fn r.1 name (some d) (some err)
        if r2.2 ≠ none then
          some (r2.1, if r2.2 = some WalkError.skipDir ∧ d.IsDir = true then none else r2.2)
        else walkList (walkDir fsys fn fuel) r2.1 name dirs
      | (dirs, none) => walkList (walkDir fsys fn fuel) r.1 name dirs

/-- Go `fs.WalkDir`: the error returned, and the variables of the function
after the walk. -/
def WalkDir {σ ε : Type} [DecidableEq ε] (fsys : FS) (fuel : Nat) (root : Str)
    (fn : WalkDirFunc σ ε) (s : σ) : Option (σ × Option ε) :=
  let r : Option (σ × Option (WalkError ε)) :=
    match fsys.Stat root with
    | Except.error err => some (fn s root none (some err))
    | Except.ok info => walkDir fsys fn fuel s root info
  match r with
  | none => none
  | some (s1, some (WalkError.other err)) => some (s1, some err)
  | some (s1, _) => some (s1, none)

end fs

/-! ## `zip/check.go`: listing the files of a directory, and `zip/create.go` -/

namespace zip

/-- The UTF-8 encoding of a string, as a list of bytes. -/
def utf8 (s : Str) : List Nat :=
  s.flatMap fun c => (String.utf8EncodeChar c).map UInt8.toNat

/-- Go `isVendoredPackage`.  The slices `name[i:]` are taken by bytes, and
`strings.Contains(_, "/")` looks for the byte of the slash. -/
def isVendoredPackage (name : Str) : Bool :=
  if strings.HasPrefix name "vendor/".toList = true then
    decide (47 ∈ (utf8 name).drop 7)
  else if strings.Index name "/vendor/".toList ≥ 0 then
    decide (47 ∈ (utf8 name).drop 8)
  else false

/-- The reasons for which `listFilesInDirFS` omits a file: `errVendored`,
`errVCS`, `errSubmoduleDir` and `errNotRegular`. -/
inductive OmitError where
  | vendored
  | vcs
  | submoduleDir
  | notRegular
deriving DecidableEq, Repr

/-- An entry of the list `omitted` (a `modzip.FileError`). -/
structure OmittedFile where
  Path : Str
  Err : OmitError
deriving DecidableEq, Repr

/-- Go `dirFileFS`, without the file system it reads from. -/
structure dirFileFS where
  filePath : Str
deriving DecidableEq, Repr

/-- Go `dirFileFS.Path`. -/
def dirFileFS.Path (d : dirFileFS) : Str := d.filePath

/-- The errors of `listFilesInDirFS`: an error of the file system, and
"%q not relative to %q".  The last one stands for the panic of `info.IsDir()`
on a nil entry, which `fs.WalkDir` passes only together with an error. -/
inductive ListError where
  | lib (err : GoError)
  | notRelative (filePath dir : Str)
  | nilEntry
deriving DecidableEq, Repr

/-- The variables `files` and `omitted` of `listFilesInDirFS`. -/
structure ListState where
  files : List dirFileFS
  omitted : List OmittedFile
deriving DecidableEq, Repr

/-- Go `lstat` of `check.go`. -/
def lstat (fsys : fs.FS) (name : Str) : Except GoError fs.DirEntry :=
  match fsys.Lstat with
  | some l => l name
  | none => fsys.Stat name

/-- The names of the directories of version control systems. -/
def vcsDirs : List Str := [".bzr".toList, ".git".toList, ".hg".toList, ".svn".toList]

/-- The function that `listFilesInDirFS` passes to `fs.WalkDir`. -/
def listWalkFn (fsys : fs.FS) (dir : Str) : fs.WalkDirFunc ListState ListError :=
  fun s filePath info err =>
    match err with
    | some e => (s, some (fs.WalkError.other (ListError.lib e)))
    | none =>
      match strings.CutPrefix filePath (dir ++ ['/']) with
      | (_, false) => (s, some (fs.WalkError.other (ListError.notRelative filePath dir)))
      | (relPath, true) =>
        let slashPath := relPath
        if isVendoredPackage slashPath = true then
          ({ s with omitted := s.omitted ++ [{ Path := slashPath, Err := OmitError.vendored }] },
            none)
        else
          match info with
          | none => (s, some (fs.WalkError.other ListError.nilEntry))
          | some info =>
            if info.IsDir = true then
              if filePath = dir then (s, none)
              else if path.Base filePath ∈ vcsDirs then
                ({ s with omitted := s.omitted ++ [{ Path := slashPath, Err := OmitError.vcs }] },
                  some fs.WalkError.skipDir)
              else
                match lstat fsys (path.Join [filePath, goMod]) with
                | Except.ok goModInfo =>
                  if goModInfo.IsDir = false then
                    ({ s with omitted :=
                        s.omitted ++ [{ Path := slashPath, Err := OmitError.submoduleDir }] },
                      some fs.WalkError.skipDir)
                  else (s, none)
                | Except.error _ => (s, none)
            else if info.IsRegular = false then
              ({ s with omitted :=
                  s.omitted ++ [{ Path := slashPath, Err := OmitError.notRegular }] }, none)
            else ({ s with files := s.files ++ [{ filePath := filePath }] }, none)

/-- Go `listFilesInDirFS`; `none` when the walk does not end within `fuel`
levels of directories. -/
def listFilesInDirFS (fsys : fs.FS) (fuel : Nat) (dir : Str) :
    Option (Except ListError (List dirFileFS × List OmittedFile)) :=
  match fs.WalkDir fsys fuel dir (listWalkFn fsys dir) { files := [], omitted := [] } with
  | none => none
  | some (_, some err) => some (Except.error err)
  | some (s, none) => some (Except.ok (s.files, s.omitted))

/-- The errors that `CreateFromFS` wraps: that of `listFilesInDirFS`, and that
of `zip.Create` of `golang.org/x/mod/zip`. -/
inductive CreateError where
  | list (err : ListError)
  | create (err : GoError)
deriving DecidableEq, Repr

/-- Go `CreateFromFS`, where `create` is `zip.Create(w, m, files)` of
`golang.org/x/mod/zip`, which is not part of the repository and returns no
`*ZipError` of this package; every error is wrapped by the deferred function. -/
def CreateFromFS (create : module.Version → List dirFileFS → Option GoError) (fsys : fs.FS)
    (fuel : Nat) (m : module.Version) (dir : Str) : Option (Option (ZipError CreateError)) :=
  match listFilesInDirFS fsys fuel dir with
  | none => none
  | some (Except.error err) =>
    some (some { Verb := "create zip from directory".toList, Path := dir,
                 Err := CreateError.list err })
  | some (Except.ok (files, _)) =>
    match create m files with
    | some err =>
      some (some { Verb := "create zip from directory".toList, Path := dir,
                   Err := CreateError.create err })
    | none => some none

end zip

namespace fixture

/-- The file tree of the scenario: a directory that holds the regular files
`go.mod` and `main.go`. -/
def treeFS : fs.FS :=
  { Stat := fun name =>
      if name = ".".toList then Except.ok { Name := ".".toList, IsDir := true, IsRegular := false }
      else if name = "go.mod".toList ∨ name = "main.go".toList then
        Except.ok { Name := name, IsDir := false, IsRegular := true }
      else Except.error ErrNotExist
    ReadDir := fun name =>
      if name = ".".toList then
        ([{ Name := "go.mod".toList, IsDir := false, IsRegular := true },
          { Name := "main.go".toList, IsDir := false, IsRegular := true }], none)
      else ([], some ErrNotExist)
    Lstat := none }

end fixture

/-! ## Fixtures: full and simple case folding -/

namespace fixture

/-- An archive with two files whose names are equal under full case folding,
which expands `ß` to `ss`, and differ under simple case folding. -/
def sharpFiles : List zip.ZipFile :=
  [entry "octocat.github.io/awesome@v1.0.0/straße.txt" 1,
   entry "octocat.github.io/awesome@v1.0.0/strasse.txt" 2]

/-- What `checkZip` reports for `sharpFiles`. -/
def sharpResult : zip.CheckedFiles :=
  { Valid := ["octocat.github.io/awesome@v1.0.0/straße.txt".toList,
              "octocat.github.io/awesome@v1.0.0/strasse.txt".toList]
    Omitted := []
    Invalid := []
    SizeError := none }

end fixture

/-! ## `strings.EqualFold`, and what the repository relies on from `unicode` -/

namespace strings

/-- The test of `EqualFold` for two different runes `sr < tr` of ASCII:
`'A' <= sr && sr <= 'Z' && tr == sr+'a'-'A'`. -/
def asciiPair (sr tr : Char) : Bool :=
  decide ('A' ≤ sr ∧ sr ≤ 'Z' ∧ tr.toNat = sr.toNat + ('a'.toNat - 'A'.toNat))

/-- The loop `for r != sr && r < tr { r = unicode.SimpleFold(r) }` of
`EqualFold`, which returns the last `r`; `none` when it has not ended within
`fuel` iterations. -/
def foldWalk (SimpleFold : Char → Char) (fuel : Nat) (sr tr r : Char) : Option Char :=
  if r ≠ sr ∧ r < tr then
    match fuel with
    | 0 => none
    | fuel + 1 => foldWalk SimpleFold fuel sr tr (SimpleFold r)
  else some r

/-- The comparison of two different runes in the loop of `EqualFold` after the
label `hasUnicode`, once they are ordered as `sr < tr`: the test for ASCII
when `tr` is in ASCII, and the walk along `unicode.SimpleFold` from `sr`
otherwise. -/
def runeTest (SimpleFold : Char → Char) (sr tr : Char) : Option Bool :=
  if tr.toNat < 128 then some (asciiPair sr tr)
  else
    match foldWalk SimpleFold (2 * 1114112) sr tr (SimpleFold sr) with
    | none => none
    | some r => some (decide (r = tr))

/-- The body of the loop of `EqualFold` after the label `hasUnicode`, for the
rune `sr` of `s` and the rune `tr` of `t`: `true` when the loop goes on,
`false` when `EqualFold` returns false. -/
def runeEqualFold (SimpleFold : Char → Char) (sr tr : Char) : Option Bool :=
  if tr = sr then some true
  else if tr < sr then runeTest SimpleFold tr sr
  else runeTest SimpleFold sr tr

/-- The loop of `EqualFold` after the label `hasUnicode`, rune by rune. -/
def unicodeLoop (SimpleFold : Char → Char) (s t : Str) : Option Bool :=
  match s, t with
  | [], t => some (decide (t = []))
  | _ :: _, [] => some false
  | sr :: s, tr :: t =>
    match runeEqualFold SimpleFold sr tr with
    | none => none
    | some false => some false
    | some true => unicodeLoop SimpleFold s t

/-- Go `strings.EqualFold`, over the given `unicode.SimpleFold`, on strings
of valid UTF-8: the first loop compares bytes as long as both are ASCII, that
is, runes of one byte, and goes to `hasUnicode` at the first byte outside
ASCII.  The result is `none` when a walk along `SimpleFold` does not end. -/
def EqualFold (SimpleFold : Char → Char) (s t : Str) : Option Bool :=
  match s, t with
  | sr :: s1, tr :: t1 =>
    if sr.toNat ≥ 128 ∨ tr.toNat ≥ 128 then unicodeLoop SimpleFold (sr :: s1) (tr :: t1)
    else if tr = sr then EqualFold SimpleFold s1 t1
    else if asciiPair (if tr < sr then tr else sr) (if tr < sr then sr else tr) = true then
      EqualFold SimpleFold s1 t1
    else some false
  | [], [] => some true
  | _, _ => some false

end strings

namespace zip

/-- The step `r += 'a' - 'A'` of `strToFold` for `'A' <= r && r <= 'Z'`. -/
def asciiLower (r : Char) : Char :=
  if 'A' ≤ r ∧ r ≤ 'Z' then Char.ofNat (r.toNat + ('a'.toNat - 'A'.toNat)) else r

/-- Modelled from the documentation of the Go package `unicode`, which is not
part of the repository.  `unicode.SimpleFold` "iterates over Unicode code
points equivalent under the Unicode-defined simple case folding.  Among the
code points equivalent to rune (including rune itself), SimpleFold returns the
smallest rune > r if one exists, or else the smallest rune >= 0": with
`least r` the smallest code point equivalent to `r`, so that `r` and `x` are
equivalent when `least r = least x`.  Among the code points of ASCII, those
equivalent are the same letter in upper and lower case. -/
structure SimpleFoldLaws (SimpleFold : Char → Char) (least : Char → Char) : Prop where
  orbit : ∀ r, least (SimpleFold r) = least r
  le : ∀ r, least r ≤ r
  idem : ∀ r, least (least r) = least r
  next : ∀ r, r < SimpleFold r ∨ SimpleFold r = least r
  gap : ∀ r x, least x = least r → r < x → r < SimpleFold r ∧ SimpleFold r ≤ x
  ascii : ∀ a b : Char, a.toNat < 128 → b.toNat < 128 →
    (least a = least b ↔ asciiLower a = asciiLower b)

/-- Modelled from the documentation of the Go packages `unicode` and
`strings`, which are not part of the repository: `unicode.SimpleFold` is as
documented, and `strings.EqualFold` of the library is the function of that
name over `unicode.SimpleFold`. -/
structure UnicodeLaws (U : UnicodeLib) (least : Char → Char) : Prop where
  fold : SimpleFoldLaws U.SimpleFold least
  equalFold : ∀ s t, strings.EqualFold U.SimpleFold s t = some (U.EqualFold s t)

end zip

namespace fixture

/-- The smallest rune equivalent to `c` under the folding of `asciiFold`. -/
def asciiLeast (c : Char) : Char :=
  if 'a' ≤ c ∧ c ≤ 'z' then Char.ofNat (c.toNat - 32) else c

/-- The Unicode library with the folding of `asciiFold` and the
`strings.EqualFold` of Go over it. -/
def goFold : zip.UnicodeLib :=
  { SimpleFold := asciiFold.SimpleFold
    EqualFold := fun s t => decide (strings.EqualFold asciiFold.SimpleFold s t = some true) }

end fixture

/-! ## Package `bytes` -/

namespace bytes

/-- The loop of `genSplit`: cut at each instance of `sep`, at most `fuel`
times. -/
def splitLoop (sep : Str) : Nat → Str → List Str
  | 0, s => [s]
  | fuel + 1, s =>
    match strings.Cut s sep with
    | (before, after, true) => before :: splitLoop sep fuel after
    | (_, _, false) => [s]

/-- Go `bytes.Split` for a separator that is not empty.  Every cut removes at
least one byte, so there are at most `s.length` of them. -/
def Split (s sep : Str) : List Str := splitLoop sep s.length s

/-- The loop of `bytes.Replace`: replace each instance of `old`, from left to
right and without overlap, at most `fuel` times. -/
def replaceLoop (old new : Str) : Nat → Str → Str
  | 0, s => s
  | fuel + 1, s =>
    match strings.Cut s old with
    | (before, after, true) => before ++ new ++ replaceLoop old new fuel after
    | (_, _, false) => s

/-- Go `bytes.ReplaceAll` for an `old` that is not empty. -/
def ReplaceAll (s old new : Str) : Str := replaceLoop old new s.length s

end bytes

/-! ## `proxy/revinfo.go` and `proxy/client.go`: the client and its repositories -/

namespace proxy

/-- Go `proxy.Origin`. -/
structure Origin where
  VCS : Str
  URL : Str
  Subdir : Str
  Hash : Str
  TagPrefix : Str
  TagSum : Str
  Ref : Str
  RepoSum : Str
deriving DecidableEq, Repr

/-- Go `proxy.RevInfo`; `Time` is an opaque time stamp, `Origin` a pointer. -/
structure RevInfo where
  Version : Str
  Time : Int
  Name : Str
  Short : Str
  Origin : Option Origin
deriving DecidableEq, Repr

/-- The external packages used by `proxy/client.go`: `x/mod/module`,
`x/mod/semver` and `json.Unmarshal` into a `*RevInfo` that is `nil` before the
call (`none` is the pointer left `nil`). -/
structure ClientLib where
  module : ModuleLib
  MatchPrefixPatterns : Str → Str → Bool
  semverCompare : Str → Str → Int
  semverSort : List Str → List Str
  jsonUnmarshal : Str → Except GoError (Option RevInfo)

/-- What `golang.org/x/mod/semver` documents of `Sort`: the result holds the
same versions, in ascending order of `Compare`. -/
structure SemverLaws (L : ClientLib) : Prop where
  sort_perm : ∀ l, (L.semverSort l).Perm l
  sort_sorted : ∀ l, (L.semverSort l).Pairwise fun a b => L.semverCompare a b ≤ 0
  compare_self : ∀ v, L.semverCompare v v = 0

/-- What the version list relies on from `module.Check`: a version that it
accepts is a semantic version, so it is not empty and has neither a line feed
nor a carriage return. -/
structure VersionLaws (M : ModuleLib) : Prop where
  check_line : ∀ p v, M.Check p v = none → v ≠ [] ∧ '\n' ∉ v ∧ '\r' ∉ v

/-- Go `errors.New`. -/
def errorsNew (text : String) : GoError :=
  { msg := text.toList, isSkipAll := false, isNotExist := false, isPermission := false }

/-- A call of a method of the client: the request paths it reads from the
transport with `ReadRemote`, in order, and how it ends.  `out` is `none` when
the call panics. -/
structure Run (α : Type) where
  reads : List Str
  out : Option (Except GoError α)

/-- The request path of the version list. -/
def listTarget (epath : Str) : Str := '/' :: epath ++ "/@v/list".toList

/-- The request path of the latest version. -/
def latestTarget (epath : Str) : Str := '/' :: epath ++ "/@latest".toList

/-- The request path of the metadata of a version. -/
def infoTarget (epath eversion : Str) : Str :=
  '/' :: epath ++ ['/', '@', 'v', '/'] ++ eversion ++ extInfo

/-- The loop of `(*Repo).Versions` over the lines. -/
def Repo.versionsLoop (M : ModuleLib) (path pfx : Str) :
    List Str → List Str → Except GoError (List Str)
  | [], versions => Except.ok versions
  | version :: rest, versions =>
    match M.Check path version with
    | some err => Except.error err
    | none =>
      Repo.versionsLoop M path pfx rest
        (if strings.HasPrefix version pfx = true then versions ++ [version] else versions)

/-- Go `(*Repo).Versions`.  `data[len(data)-1]` panics when the response is
empty. -/
def Repo.Versions (M : ModuleLib) (r : Repo) (pfx : Str) : Run (List Str) :=
  match M.EscapePath r.path with
  | Except.error err => { reads := [], out := some (Except.error err) }
  | Except.ok epath =>
    match r.ops.ReadRemote (listTarget epath) with
    | Except.error err => { reads := [listTarget epath], out := some (Except.error err) }
    | Except.ok data0 =>
      let data1 := bytes.ReplaceAll data0 ['\r', '\n'] ['\n']
      match data1.getLast? with
      | none => { reads := [listTarget epath], out := none }
      | some c =>
        let data2 := if c = '\n' then data1.dropLast else data1
        { reads := [listTarget epath],
          out := some (Repo.versionsLoop M r.path pfx (bytes.Split data2 ['\n']) []) }

/-- The end of `(*Repo).Stat` and of `(*Repo).Latest`: decode the response
and test its version.  `ri.Version` panics when `ri` is `nil`. -/
def Repo.decode (L : ClientLib) (data : Str) : Option (Except GoError RevInfo) :=
  match L.jsonUnmarshal data with
  | Except.error err => some (Except.error err)
  | Except.ok none => none
  | Except.ok (some ri) =>
    if ri.Version = [] then some (Except.error (errorsNew "RevInfo missing Version"))
    else some (Except.ok ri)

/-- Go `(*Repo).Stat`. -/
def Repo.Stat (L : ClientLib) (r : Repo) (version : Str) : Run RevInfo :=
  match L.module.EscapePath r.path with
  | Except.error err => { reads := [], out := some (Except.error err) }
  | Except.ok epath =>
    match L.module.EscapeVersion version with
    | Except.error err => { reads := [], out := some (Except.error err) }
    | Except.ok eversion =>
      match r.ops.ReadRemote (infoTarget epath eversion) with
      | Except.error err =>
        { reads := [infoTarget epath eversion], out := some (Except.error err) }
      | Except.ok data => { reads := [infoTarget epath eversion], out := Repo.decode L data }

/-- The branch of `(*Repo).Latest` taken when the route `@latest` is not
found.  `canonicalVersions[len(canonicalVersions)-1]` panics on an empty
slice. -/
def Repo.latestFallback (L : ClientLib) (r : Repo) : Run RevInfo :=
  let vs := Repo.Versions L.module r []
  match vs.out with
  | none => { reads := vs.reads, out := none }
  | some (Except.error err) => { reads := vs.reads, out := some (Except.error err) }
  | some (Except.ok versions) =>
    if versions.length = 0 then
      { reads := vs.reads, out := some (Except.error (errorsNew "no versions found")) }
    else
      let canonicalVersions := versions.filter fun v => decide (L.module.CanonicalVersion v = v)
      if canonicalVersions.length = 0 then
        { reads := vs.reads,
          out := some (Except.error (errorsNew "no canonical versions found")) }
      else
        match (L.semverSort canonicalVersions).getLast? with
        | none => { reads := vs.reads, out := none }
        | some latest =>
          let st := Repo.Stat L r latest
          { reads := vs.reads ++ st.reads, out := st.out }

/-- Go `(*Repo).Latest`. -/
def Repo.Latest (L : ClientLib) (r : Repo) : Run RevInfo :=
  match L.module.EscapePath r.path with
  | Except.error err => { reads := [], out := some (Except.error err) }
  | Except.ok epath =>
    match r.ops.ReadRemote (latestTarget epath) with
    | Except.error err =>
      if err.isNotExist = true then
        let fb := Repo.latestFallback L r
        { reads := latestTarget epath :: fb.reads, out := fb.out }
      else { reads := [latestTarget epath], out := some (Except.error err) }
    | Except.ok data => { reads := [latestTarget epath], out := Repo.decode L data }

/-- Go `ErrGONOPROXY`. -/
def ErrGONOPROXY : GoError := errorsNew "skipped (listed in GONOPROXY)"

/-- Go `proxy.Client`; `didLookup` is the value of the atomic flag. -/
structure Client where
  ops : ClientOps
  didLookup : Bool
  gonoproxy : Str

/-- Go `NewClient`. -/
def NewClient (ops : ClientOps) : Client :=
  { ops := ops, didLookup := false, gonoproxy := [] }

/-- Go `(*Client).SetGONOPROXY`: the client after the call, and the value of
the panic when the call panics. -/
def Client.SetGONOPROXY (c : Client) (list : Str) : Client × Option Str :=
  if c.didLookup = true then (c, some "SetGONOPROXY used after lookup".toList)
  else if c.gonoproxy ≠ [] then (c, some "multiple calls to SetGONOPROXY".toList)
  else ({ c with gonoproxy := list }, none)

/-- Go `(*Client).skip`. -/
def Client.skip (L : ClientLib) (c : Client) (target : Str) : Bool :=
  L.MatchPrefixPatterns c.gonoproxy target

/-- Go `(*Client).Lookup`: the client after the call and the call itself,
which reads nothing from the transport. -/
def Client.Lookup (L : ClientLib) (c : Client) (path : Str) : Client × Run Repo :=
  let c1 : Client := { c with didLookup := true }
  if Client.skip L c1 path = true then
    (c1, { reads := [], out := some (Except.error ErrGONOPROXY) })
  else
    match L.module.CheckPath path with
    | some err => (c1, { reads := [], out := some (Except.error err) })
    | none => (c1, { reads := [], out := some (Except.ok { ops := c1.ops, path := path }) })

/-- A call of one of the two methods of a client that change it. -/
inductive ClientCall where
  | Lookup (path : Str)
  | SetGONOPROXY (list : Str)

/-- The client after a call; a panic of `SetGONOPROXY` is recovered by the
caller. -/
def Client.after (L : ClientLib) (c : Client) : ClientCall → Client
  | ClientCall.Lookup path => (Client.Lookup L c path).1
  | ClientCall.SetGONOPROXY list => (Client.SetGONOPROXY c list).1

end proxy

/-! ## Fixtures: a file tree with a directory of a version control system -/

namespace fixture

/-- The entry of the directory `src/.git`. -/
def gitDir : fs.DirEntry := { Name := ".git".toList, IsDir := true, IsRegular := false }

/-- A file tree that holds the module in the directory `src`: the regular
files `src/go.mod` and `src/main.go`, and the directory `src/.git` with the
regular file `src/.git/config`. -/
def vcsFS : fs.FS :=
  { Stat := fun name =>
      if name = ".".toList ∨ name = "src".toList ∨ name = "src/.git".toList then
        Except.ok { Name := path.Base name, IsDir := true, IsRegular := false }
      else if name = "src/go.mod".toList ∨ name = "src/main.go".toList
          ∨ name = "src/.git/config".toList then
        Except.ok { Name := path.Base name, IsDir := false, IsRegular := true }
      else Except.error ErrNotExist
    ReadDir := fun name =>
      if name = ".".toList then ([{ Name := "src".toList, IsDir := true, IsRegular := false }], none)
      else if name = "src".toList then
        ([gitDir,
          { Name := "go.mod".toList, IsDir := false, IsRegular := true },
          { Name := "main.go".toList, IsDir := false, IsRegular := true }], none)
      else if name = "src/.git".toList then
        ([{ Name := "config".toList, IsDir := false, IsRegular := true }], none)
      else ([], some ErrNotExist)
    Lstat := none }

end fixture

/-! ## Fixtures: transports, and the libraries of the client -/

namespace fixture

def v001 : Str := "v0.0.1".toList
def v020 : Str := "v0.2.0".toList
def v090 : Str := "v0.9.0".toList
def v0100 : Str := "v0.10.0".toList

/-- The canonical versions that `tagLib` knows. -/
def tags : List Str := [v001, v020, v090, v0100, v100]

/-- A module library that knows, for the module `octocat.github.io/awesome`,
the canonical versions `tags` and the short form `v1` of `v1.0.0`. -/
def tagLib : ModuleLib :=
  { moduleLib with
    CanonicalVersion := fun v => if v ∈ tags then v else if v = v1 then v100 else []
    Check := fun p v => if p = awesome ∧ (v ∈ tags ∨ v = v1) then none else some errInvalid }

/-- The value of a decimal number. -/
def number (s : Str) : Nat := s.foldl (fun n c => 10 * n + (c.toNat - '0'.toNat)) 0

/-- The rank of a version `vX.Y.Z` whose three numbers are below 1000. -/
def semverKey (v : Str) : Nat :=
  match bytes.Split (v.drop 1) ['.'] with
  | [major, minor, patch] => (number major * 1000 + number minor) * 1000 + number patch
  | _ => 0

/-- A `semver.Compare` for versions `vX.Y.Z` whose numbers are below 1000. -/
def semverCompare (a b : Str) : Int :=
  if semverKey a < semverKey b then -1 else if semverKey a = semverKey b then 0 else 1

/-- A `semver.Sort` for the same versions. -/
def semverSort (l : List Str) : List Str :=
  l.insertionSort fun a b => semverKey a ≤ semverKey b

/-- A `RevInfo` that holds a version only. -/
def revInfo (version : Str) : proxy.RevInfo :=
  { Version := version, Time := 0, Name := [], Short := [], Origin := none }

/-- A `json.Unmarshal` into a nil `*RevInfo` for the document `null`, which
leaves the pointer nil, for the empty object, and for an object with the
member `Version` only. -/
def jsonUnmarshal (data : Str) : Except GoError (Option proxy.RevInfo) :=
  if data = "null".toList then Except.ok none
  else if data = "\x7b\x7d".toList then Except.ok (some (revInfo []))
  else
    match strings.CutPrefix data "\x7b\"Version\":\"".toList with
    | (rest, true) =>
      if strings.HasSuffix rest "\"\x7d".toList = true ∧ '"' ∉ strings.TrimSuffix rest "\"\x7d".toList
      then Except.ok (some (revInfo (strings.TrimSuffix rest "\"\x7d".toList)))
      else Except.error errInvalid
    | (_, false) => Except.error errInvalid

/-- A `module.MatchPrefixPatterns` for patterns without wildcards: one of the
patterns, which are separated by commas, is the target or a leading part of
it that ends before a slash. -/
def matchPrefixPatterns (globs target : Str) : Bool :=
  (bytes.Split globs [',']).any fun glob =>
    decide (glob ≠ []) && (decide (target = glob) || strings.HasPrefix target (glob ++ ['/']))

/-- The external packages of the fixtures of the client. -/
def clientLib : proxy.ClientLib :=
  { module := tagLib
    MatchPrefixPatterns := matchPrefixPatterns
    semverCompare := semverCompare
    semverSort := semverSort
    jsonUnmarshal := jsonUnmarshal }

/-- A transport that serves the given responses and answers every other
request with `fs.ErrNotExist`. -/
def remote (files : List (String × String)) : proxy.ClientOps :=
  { ReadRemote := fun p =>
      match (files.map fun kv => (kv.1.toList, kv.2.toList)).lookup p with
      | some data => Except.ok data
      | none => Except.error ErrNotExist
    Open := none }

/-- A transport whose every request fails with `err`. -/
def failingRemote (err : GoError) : proxy.ClientOps :=
  { ReadRemote := fun _ => Except.error err, Open := none }

/-- The repository of `octocat.github.io/awesome` over a transport. -/
def repo (ops : proxy.ClientOps) : proxy.Repo := { ops := ops, path := awesome }

/-- A proxy without the route `@latest` that lists `v0.0.1`, `v1.0.0` and
`v0.9.0`, in this order. -/
def listOnly : proxy.ClientOps :=
  remote
    [("/octocat.github.io/awesome/@v/list", "v0.0.1\nv1.0.0\nv0.9.0"),
     ("/octocat.github.io/awesome/@v/v0.0.1.info", "\x7b\"Version\":\"v0.0.1\"\x7d"),
     ("/octocat.github.io/awesome/@v/v0.9.0.info", "\x7b\"Version\":\"v0.9.0\"\x7d"),
     ("/octocat.github.io/awesome/@v/v1.0.0.info", "\x7b\"Version\":\"v1.0.0\"\x7d")]

/-- A proxy without the route `@latest` that lists `v0.9.0`, `v0.10.0` and
`v0.2.0`, in this order: the first is the greatest as a string, the second
has the highest precedence. -/
def listTens : proxy.ClientOps :=
  remote
    [("/octocat.github.io/awesome/@v/list", "v0.9.0\nv0.10.0\nv0.2.0\n"),
     ("/octocat.github.io/awesome/@v/v0.9.0.info", "\x7b\"Version\":\"v0.9.0\"\x7d"),
     ("/octocat.github.io/awesome/@v/v0.10.0.info", "\x7b\"Version\":\"v0.10.0\"\x7d"),
     ("/octocat.github.io/awesome/@v/v0.2.0.info", "\x7b\"Version\":\"v0.2.0\"\x7d")]

/-- A proxy without the route `@latest` whose list holds the short form `v1`
only. -/
def listShort : proxy.ClientOps :=
  remote [("/octocat.github.io/awesome/@v/list", "v1\n")]

/-- A proxy that answers the requests for metadata with the document
`null`. -/
def nullInfo : proxy.ClientOps :=
  remote
    [("/octocat.github.io/awesome/@latest", "null"),
     ("/octocat.github.io/awesome/@v/v1.0.0.info", "null")]

/-- A proxy that answers the requests for metadata with the empty object. -/
def emptyInfo : proxy.ClientOps :=
  remote
    [("/octocat.github.io/awesome/@latest", "\x7b\x7d"),
     ("/octocat.github.io/awesome/@v/v1.0.0.info", "\x7b\x7d")]

/-- A client with the given exclusion list, over a transport whose every
request fails. -/
def client (gonoproxy : String) : proxy.Client :=
  { ops := failingRemote errInvalid, didLookup := false, gonoproxy := gonoproxy.toList }

end fixture

/-! ## The lines of a list response, in the words of the specification -/

namespace proxy

/-- Following the specification: the lines of a list response are the
response after the replacement of every `\r\n` by `\n` and the removal of one
trailing `\n`, split at `\n`. -/
def listLines (data : Str) : List Str :=
  bytes.Split (strings.TrimSuffix (bytes.ReplaceAll data ['\r', '\n'] ['\n']) ['\n']) ['\n']

end proxy

namespace fixture

/-- A proxy whose list holds a line that is no version, between two
versions and with line ends `\r\n`. -/
def listBad : proxy.ClientOps :=
  remote [("/octocat.github.io/awesome/@v/list", "v0.9.0\r\nbogus\r\nv0.10.0\r\n")]

/-- A backend that knows the versions `v1.0.0` and `v1` of
`octocat.github.io/awesome`. -/
def twoVersions : Proxy :=
  { Proxier := MemModProxy.toProxier
      { Latests := []
        Mods := [({ Path := awesome, Version := v100 }, "module octocat.github.io/awesome\n".toList),
                 ({ Path := awesome, Version := v1 }, "module octocat.github.io/awesome\n".toList)]
        Zips := [] } }

/-- A transport that answers the request for the list with the body that the
server writes for `twoVersions`, followed by a line feed. -/
def twoVersionsRemote : proxy.ClientOps :=
  remote [("/octocat.github.io/awesome/@v/list", "v1.0.0\nv1\n")]

end fixture

/-! ## Fixtures: a module without versions -/

namespace fixture

/-- A backend whose list of versions is empty for every module. -/
def emptyListProxy : Proxy :=
  { Proxier := { (failingProxy ErrNotExist).Proxier with
      List := fun _ _ => { ops := [], res := Except.ok [] } } }

/-- A transport that answers the request for the list with the body that the
server writes for `emptyListProxy`, which is empty. -/
def emptyList : proxy.ClientOps :=
  remote [("/octocat.github.io/awesome/@v/list", "")]

end fixture

/-! ## The directories above a path, and a sequence of calls of `check` -/

namespace zip

/-- The directories that `check` visits above a path: `path.Dir` of the path,
`path.Dir` of that, and so on until `path.Dir` returns `.`; at most `fuel` of
them. -/
def ancestorsLoop : Nat → Str → List Str
  | 0, _ => []
  | fuel + 1, p =>
    if path.Dir p = ['.'] then [] else path.Dir p :: ancestorsLoop fuel (path.Dir p)

/-- The directories above a path that is not rooted; each is shorter than the
one below it, so there are at most `p.length` of them. -/
def ancestors (p : Str) : List Str := ancestorsLoop p.length p

/-- The calls `check(p, false)` for the paths of a list, in order, up to the
first that returns an error; `none` when a call does not return. -/
def checkAll (U : UnicodeLib) (cc : collisionChecker) :
    List Str → Option (Option EntryError × collisionChecker)
  | [] => some (none, cc)
  | p :: rest =>
    match collisionChecker.check U (p.length + 1) cc p false with
    | none => none
    | some (some err, cc1) => some (some err, cc1)
    | some (none, cc1) => checkAll U cc1 rest

/-- The bindings of an index built from the paths `done`: each binds the folded
form of a path of `done` to it as a file, or that of a directory above such a
path to it as a directory. -/
def IndexOf (U : UnicodeLib) (cc : collisionChecker) (done : List Str) : Prop :=
  ∀ k v, cc.lookup k = some v → k = strToFold U v.path
    ∧ ((v.path ∈ done ∧ v.isDir = false) ∨ (∃ q ∈ done, v.path ∈ ancestors q ∧ v.isDir = true))

end zip

namespace fixture

/-- The index after `check("x/a", false)` on an empty index. -/
def indexXA : zip.collisionChecker :=
  [("x".toList, { path := "x".toList, isDir := true }),
   ("x/a".toList, { path := "x/a".toList, isDir := false })]

/-- An archive in which `X/y/z` collides with the directory `x` of `x/a`, and
`x/y/w` follows. -/
def partialFiles : List zip.ZipFile :=
  [entry "octocat.github.io/awesome@v1.0.0/x/a" 1,
   entry "octocat.github.io/awesome@v1.0.0/X/y/z" 1,
   entry "octocat.github.io/awesome@v1.0.0/x/y/w" 1]

/-- The same archive without the entry `X/y/z`. -/
def partialFilesValid : List zip.ZipFile :=
  [entry "octocat.github.io/awesome@v1.0.0/x/a" 1,
   entry "octocat.github.io/awesome@v1.0.0/x/y/w" 1]

end fixture

/-! ## `zip/fs.go` -/

namespace fs

/-- Go `fs.ErrNotExist`. -/
def ErrNotExist : GoError := fixture.ErrNotExist

end fs

namespace zip

/-- A `zip.File` of `golang.org/x/mod/zip`, by what its three methods return:
`Path()`, `Lstat()` (as the directory entry made of the file information) and
`Open()` (as the content of the file). -/
structure File where
  Path : Str
  Lstat : Except GoError fs.DirEntry
  Open : Except GoError Str

/-- A Go map with keys that are strings, as the list of its bindings: a key
is bound at most once. -/
abbrev StrMap (α : Type) := List (Str × α)

/-- The assignment `m[key] = value`. -/
def StrMap.set {α : Type} (m : StrMap α) (key : Str) (value : α) : StrMap α :=
  (key, value) :: m.filter fun kv => decide (kv.1 ≠ key)

/-- Go `fileGroup`. -/
abbrev fileGroup := StrMap File

/-- Go `FS`. -/
def FS (files : List File) : fileGroup :=
  files.foldl (fun fsys file => StrMap.set fsys (path.Clean (path.Join [['/'], file.Path])) file) []

/-- The two kinds of file that `fileGroup.Open` returns: an `openedFile` (the
file and the reader that its `Open` returned) and an `openedDir`. -/
inductive Opened where
  | file (f : File) (rc : Str)
  | dir (name : Str) (files : StrMap File)

/-- The loop of `fileGroup.Open` that collects the files below `name`.  The
map that it builds does not depend on the order in which `range` visits the
files, as different files of the group have different paths. -/
def filesBelow (f : fileGroup) (name : Str) : StrMap File :=
  f.foldl
    (fun files kv =>
      match strings.CutPrefix (path.Clean (path.Join [['/'], kv.2.Path])) (name ++ ['/']) with
      | (_, false) => files
      | (rel, true) => StrMap.set files rel kv.2)
    []

/-- Go `fileGroup.Open`. -/
def fileGroup.Open (f : fileGroup) (name0 : Str) : Except GoError Opened :=
  let name := path.Clean (path.Join [['/'], name0])
  match f.lookup name with
  | some file =>
    match file.Open with
    | Except.error err => Except.error err
    | Except.ok rc => Except.ok (Opened.file file rc)
  | none =>
    let files := filesBelow f name
    if files.length = 0 then Except.error fs.ErrNotExist
    else Except.ok (Opened.dir (path.Base name) files)

/-- The order of Go on strings, which is that of their bytes. -/
def strLe : Str → Str → Bool
  | [], _ => true
  | _ :: _, [] => false
  | a :: s, b :: t => decide (a.toNat < b.toNat) || (decide (a = b) && strLe s t)

/-- The loop of `openedDir.ReadDir`, in the order of the list of bindings:
the entry of a subdirectory where its first file is met, the entry of a file
in the directory itself from its `Lstat`, whose error ends the loop. -/
def readDirLoop : List (Str × File) → List Str → List fs.DirEntry →
    Except GoError (List fs.DirEntry)
  | [], _, entries => Except.ok entries
  | (rel, file) :: rest, subdirs, entries =>
    match strings.Cut rel ['/'] with
    | (root, _, true) =>
      if root ∈ subdirs then readDirLoop rest subdirs entries
      else
        readDirLoop rest (root :: subdirs)
          (entries ++ [{ Name := root, IsDir := true, IsRegular := false }])
    | (_, _, false) =>
      match file.Lstat with
      | Except.error err => Except.error err
      | Except.ok info => readDirLoop rest subdirs (entries ++ [info])

/-- Go `fs.Stat` on a `fileGroup`: `Open`, then `Stat` of the file opened. -/
def fileGroup.Stat (f : fileGroup) (name : Str) : Except GoError fs.DirEntry :=
  match f.Open name with
  | Except.error err => Except.error err
  | Except.ok (Opened.file file _) => file.Lstat
  | Except.ok (Opened.dir dirName _) =>
    Except.ok { Name := dirName, IsDir := true, IsRegular := false }

/-- The error of `fs.ReadDir` for a file that is no directory. -/
def errNotImplemented : GoError :=
  { msg := "not implemented".toList, isSkipAll := false, isNotExist := false,
    isPermission := false }

/-- Go `fs.ReadDir` on a `fileGroup`: `Open`, then `ReadDir(-1)` of the
directory opened, sorted by name. -/
def fileGroup.ReadDir (f : fileGroup) (name : Str) : List fs.DirEntry × Option GoError :=
  match f.Open name with
  | Except.error err => ([], some err)
  | Except.ok (Opened.file _ _) => ([], some errNotImplemented)
  | Except.ok (Opened.dir _ files) =>
    match readDirLoop files [] [] with
    | Except.error err => ([], some err)
    | Except.ok entries => (entries.insertionSort fun a b => strLe a.Name b.Name = true, none)

/-- A `fileGroup` as the file system that `fs.WalkDir` sees; it does not
implement `readLinkFS`. -/
def fileGroup.toFS (f : fileGroup) : fs.FS :=
  { Stat := f.Stat, ReadDir := f.ReadDir, Lstat := none }

/-- The errors of `Files`: an error of the file system, and the panic of
`d.IsDir()` on a nil entry, which `fs.WalkDir` passes only together with an
error. -/
inductive FilesError where
  | lib (err : GoError)
  | nilEntry
deriving DecidableEq, Repr

/-- The function that `Files` passes to `fs.WalkDir`; the variable `files`
holds the paths of the files found. -/
def filesWalkFn : fs.WalkDirFunc (List Str) FilesError :=
  fun files name d err =>
    match err with
    | some e => (files, some (fs.WalkError.other (FilesError.lib e)))
    | none =>
      match d with
      | none => (files, some (fs.WalkError.other FilesError.nilEntry))
      | some d => if d.IsDir = true then (files, none) else (files ++ [name], none)

/-- Go `Files`: the paths of the files found and the error; `none` when the
walk does not end within `fuel` levels of directories. -/
def Files (fsys : fs.FS) (fuel : Nat) : Option (List Str × Option FilesError) :=
  fs.WalkDir fsys fuel ['.'] filesWalkFn []

end zip

namespace fixture

/-- A regular file of the given path and content. -/
def file (filePath content : String) : zip.File :=
  { Path := filePath.toList
    Lstat := Except.ok { Name := path.Base filePath.toList, IsDir := false, IsRegular := true }
    Open := Except.ok content.toList }

/-- The files `go.mod` and `cmd/main.go`. -/
def moduleFiles : List zip.File :=
  [file "go.mod" "module octocat.github.io/awesome\n", file "cmd/main.go" "package main\n"]

end fixture

/-! ## Package `unicode/utf8`: the runes of a string of bytes -/

namespace utf8

/-- Go `utf8.RuneError`. -/
def RuneError : Char := Char.ofNat 0xFFFD

/-- The width that the first byte of an encoding announces; 0 for a byte that
starts none. -/
def width (b0 : Nat) : Nat :=
  if b0 < 0x80 then 1
  else if 0xC2 ≤ b0 ∧ b0 ≤ 0xDF then 2
  else if 0xE0 ≤ b0 ∧ b0 ≤ 0xEF then 3
  else if 0xF0 ≤ b0 ∧ b0 ≤ 0xF4 then 4
  else 0

/-- The range of the second byte after the first byte `b0`. -/
def accept (b0 : Nat) : Nat × Nat :=
  if b0 = 0xE0 then (0xA0, 0xBF)
  else if b0 = 0xED then (0x80, 0x9F)
  else if b0 = 0xF0 then (0x90, 0xBF)
  else if b0 = 0xF4 then (0x80, 0x8F)
  else (0x80, 0xBF)

/-- A continuation byte. -/
def isCont (b : Nat) : Bool := decide (0x80 ≤ b ∧ b ≤ 0xBF)

/-- Go `utf8.DecodeRune`: the first rune of the bytes and its width; bytes
that start no encoding give `RuneError` and the width 1. -/
def DecodeRune (p : List Nat) : Char × Nat :=
  match p with
  | [] => (RuneError, 0)
  | b0 :: rest =>
    if width b0 = 1 then (Char.ofNat b0, 1)
    else if width b0 = 0 ∨ rest.length < width b0 - 1 then (RuneError, 1)
    else
      let b1 := rest.getD 0 0
      let b2 := rest.getD 1 0
      let b3 := rest.getD 2 0
      if ¬ ((accept b0).1 ≤ b1 ∧ b1 ≤ (accept b0).2) then (RuneError, 1)
      else if width b0 = 2 then (Char.ofNat (b0 % 32 * 64 + b1 % 64), 2)
      else if isCont b2 = false then (RuneError, 1)
      else if width b0 = 3 then (Char.ofNat (b0 % 16 * 4096 + b1 % 64 * 64 + b2 % 64), 3)
      else if isCont b3 = false then (RuneError, 1)
      else (Char.ofNat (b0 % 8 * 262144 + b1 % 64 * 4096 + b2 % 64 * 64 + b3 % 64), 4)

/-- The runes of a string of bytes, as `range` and `[]rune(s)` yield them: a
byte that starts no encoding counts as `RuneError`.  At most `fuel` runes. -/
def runesLoop : Nat → List Nat → Str
  | 0, _ => []
  | fuel + 1, p =>
    if p = [] then []
    else (DecodeRune p).1 :: runesLoop fuel (p.drop (DecodeRune p).2)

/-- The string with the given bytes.  A string of Go that is not valid UTF-8
has no counterpart in `Str`; it is represented by its runes. -/
def ofBytes (p : List Nat) : Str := runesLoop p.length p

end utf8

/-! ## Package `net/url`: escaping of paths -/

namespace url

/-- The two modes of `shouldEscape` that concern paths. -/
inductive encoding where
  | encodePath
  | encodePathSegment
deriving DecidableEq, Repr

/-- Whether a byte is an ASCII letter or digit. -/
def isAlnum (c : Nat) : Bool :=
  decide ((97 ≤ c ∧ c ≤ 122) ∨ (65 ≤ c ∧ c ≤ 90) ∨ (48 ≤ c ∧ c ≤ 57))

/-- Go `shouldEscape` for the two modes of paths: letters, digits and `-_.~`
are never escaped; of the reserved characters `$&+,/:;=?@`, the mode
`encodePath` escapes `?` and the mode `encodePathSegment` escapes `/;,?`;
every other byte is escaped. -/
def shouldEscape (c : Nat) (mode : encoding) : Bool :=
  if isAlnum c = true then false
  else if c = 45 ∨ c = 95 ∨ c = 46 ∨ c = 126 then false
  else if c ∈ [36, 38, 43, 44, 47, 58, 59, 61, 63, 64] then
    match mode with
    | encoding.encodePath => decide (c = 63)
    | encoding.encodePathSegment => decide (c = 47 ∨ c = 59 ∨ c = 44 ∨ c = 63)
  else true

/-- The digit `"0123456789ABCDEF"[n]`. -/
def upperhex (n : Nat) : Char :=
  if n < 10 then Char.ofNat (48 + n) else Char.ofNat (55 + n)

/-- What `escape` writes for one byte. -/
def escapeByte (mode : encoding) (b : Nat) : Str :=
  if shouldEscape b mode = true then ['%', upperhex (b / 16), upperhex (b % 16)]
  else [Char.ofNat b]

/-- Go `escape` for the two modes of paths. -/
def escape (s : Str) (mode : encoding) : Str :=
  (zip.utf8 s).flatMap (escapeByte mode)

/-- Go `ishex`. -/
def ishex (c : Char) : Bool :=
  decide (('0' ≤ c ∧ c ≤ '9') ∨ ('a' ≤ c ∧ c ≤ 'f') ∨ ('A' ≤ c ∧ c ≤ 'F'))

/-- Go `unhex`. -/
def unhex (c : Char) : Nat :=
  if '0' ≤ c ∧ c ≤ '9' then c.toNat - '0'.toNat
  else if 'a' ≤ c ∧ c ≤ 'f' then c.toNat - 'a'.toNat + 10
  else if 'A' ≤ c ∧ c ≤ 'F' then c.toNat - 'A'.toNat + 10
  else 0

/-- The bytes that `unescape` yields for the two modes of paths: a `%` stands
with the two hexadecimal digits after it for one byte; `none` for a `%` that
is not followed by two such digits (`EscapeError`). -/
def unescapeBytes : Str → Option (List Nat)
  | [] => some []
  | c :: rest =>
    if c = '%' then
      match rest with
      | h1 :: h2 :: rest2 =>
        if ishex h1 = true ∧ ishex h2 = true then
          (unescapeBytes rest2).map fun bytes => (unhex h1 * 16 + unhex h2) :: bytes
        else none
      | _ => none
    else (unescapeBytes rest).map fun bytes => zip.utf8 [c] ++ bytes

/-- The error of `unescape`. -/
def EscapeError : GoError :=
  { msg := "invalid URL escape".toList, isSkipAll := false, isNotExist := false,
    isPermission := false }

/-- Go `unescape` for the two modes of paths. -/
def unescape (s : Str) : Except GoError Str :=
  match unescapeBytes s with
  | none => Except.error EscapeError
  | some bytes => Except.ok (utf8.ofBytes bytes)

/-- Go `validEncoded`. -/
def validEncoded (s : Str) (mode : encoding) : Bool :=
  (zip.utf8 s).all fun b =>
    decide (b ∈ [33, 36, 38, 39, 40, 41, 42, 43, 44, 59, 61, 58, 64, 91, 93, 37])
      || !shouldEscape b mode

/-- Go `url.PathEscape`. -/
def PathEscape (s : Str) : Str := escape s encoding.encodePathSegment

/-- Go `url.PathUnescape`. -/
def PathUnescape (s : Str) : Except GoError Str := unescape s

/-- Go `url.URL`, as far as the server reads it. -/
structure URL where
  Path : Str
  RawPath : Str
deriving DecidableEq, Repr

/-- Go `(*URL).setPath`, by which the server of `net/http` fills the two
fields from the path of the request line. -/
def setPath (p : Str) : Except GoError URL :=
  match unescape p with
  | Except.error err => Except.error err
  | Except.ok path0 =>
    if p = escape path0 encoding.encodePath then Except.ok { Path := path0, RawPath := [] }
    else Except.ok { Path := path0, RawPath := p }

/-- Go `(*URL).EscapedPath`. -/
def URL.EscapedPath (u : URL) : Str :=
  let computed := if u.Path = ['*'] then ['*'] else escape u.Path encoding.encodePath
  if u.RawPath ≠ [] ∧ validEncoded u.RawPath encoding.encodePath = true then
    match unescape u.RawPath with
    | Except.ok p => if p = u.Path then u.RawPath else computed
    | Except.error _ => computed
  else computed

end url

/-! ## Package `net/http`: the routing of `ServeMux` -/

namespace http

/-- A segment of a pattern of `ServeMux`: a literal, a wildcard for one
segment, or a wildcard for the rest of the path. -/
inductive Seg where
  | lit (s : Str)
  | wild
  | multi
deriving DecidableEq, Repr

/-- Go `pathUnescape` of `net/http`. -/
def pathUnescape (p : Str) : Str :=
  match url.PathUnescape p with
  | Except.ok u => u
  | Except.error _ => p

/-- Go `firstSegment`: the first segment of a path that begins with a slash,
unescaped, and the rest. -/
def firstSegment (p : Str) : Str × Str :=
  if p = ['/'] then (['/'], [])
  else
    match strings.Cut (p.drop 1) ['/'] with
    | (seg, rest, true) => (pathUnescape seg, '/' :: rest)
    | (seg, _, false) => (pathUnescape seg, [])

/-- Go `(*routingNode).matchPath` for the tree of one pattern: the values of
the wildcards when the path matches. -/
def matchPath : List Seg → Str → Option (List Str)
  | [], p => if p = [] then some [] else none
  | Seg.multi :: _, p => if p = [] then none else some [pathUnescape (p.drop 1)]
  | Seg.lit s :: pat, p =>
    if p = [] then none
    else if (firstSegment p).1 = s then matchPath pat (firstSegment p).2 else none
  | Seg.wild :: pat, p =>
    if p = [] then none
    else if (firstSegment p).1 ≠ ['/'] then
      (matchPath pat (firstSegment p).2).map fun ms => (firstSegment p).1 :: ms
    else none

/-- The first pattern of a list that matches a path, with its index.  For
patterns of which no two match the same path, this is the match of the
routing tree. -/
def firstMatch : List (List Seg) → Nat → Str → Option (Nat × List Str)
  | [], _, _ => none
  | pat :: pats, i, p =>
    match matchPath pat p with
    | some ms => some (i, ms)
    | none => firstMatch pats (i + 1) p

/-- What `(*ServeMux).findHandler` returns: a registered handler with the
values of the wildcards, a redirect to a cleaned path, `NotFoundHandler`, or
the handler that answers 405. -/
inductive Found where
  | handler (index : Nat) (pathValues : List Str)
  | redirect (location : Str)
  | notFound
  | methodNotAllowed
deriving DecidableEq, Repr

/-- Go `(*ServeMux).findHandler` for patterns of the method `GET` without a
host, none of which ends in a slash, and a request without a query.  A
pattern of the method `GET` matches the methods `GET` and `HEAD`.  For these
patterns `matchOrRedirect` never redirects to a path with a slash added.
`cleanPath` is that of `proxy.go`, which is a copy of that of `net/http`. -/
def findHandler (patterns : List (List Seg)) (method : Str) (u : url.URL) : Found :=
  let escapedPath := u.EscapedPath
  if method = "CONNECT".toList then
    match firstMatch patterns 0 escapedPath with
    | some _ => Found.methodNotAllowed
    | none => Found.notFound
  else
    let p := cleanPath escapedPath
    if p ≠ escapedPath then Found.redirect (url.escape p url.encoding.encodePath)
    else
      match firstMatch patterns 0 p with
      | none => Found.notFound
      | some (i, ms) =>
        if method = MethodGet ∨ method = MethodHead then Found.handler i ms
        else Found.methodNotAllowed

end http

/-! ## `proxy/server.go` -/

namespace proxy

/-- The external functions used by `proxy/server.go`: `x/mod/module`,
`strconv.Quote` (the verb `%q` of `fmt`), and `json.NewEncoder(w).Encode` at
type `*RevInfo`, as the bytes that it writes in one call of `Write`. -/
structure ServerLib where
  module : ModuleLib
  Quote : Str → Str
  jsonEncode : Option RevInfo → Except GoError Str

/-- What a call of `ops.Zip` does with its writer: the arguments of its calls
of `Write`, each with the number of bytes that the response writer reports as
written, and the error that it returns. -/
structure ZipRun where
  writes : List (Str × Nat)
  err : Option GoError

/-- Go interface `ServerOps`.  The operations see only the context of the
request.  `Latest` is `some` exactly when the dynamic type also implements
`ServerOpsLatest`; a `*RevInfo` may be nil. -/
structure ServerOps where
  Versions : Str → Except GoError (List Str)
  Stat : module.Version → Except GoError (Option RevInfo)
  GoMod : module.Version → Except GoError Str
  Zip : module.Version → ZipRun
  Latest : Option (Str → Except GoError (Option RevInfo))

/-- An operation of the backend invoked by the server, with its argument. -/
inductive ServerCall where
  | Versions (path : Str)
  | Stat (m : module.Version)
  | GoMod (m : module.Version)
  | Zip (m : module.Version)
  | Latest (path : Str)
deriving DecidableEq, Repr

/-- What the handlers of the server do for one request: the calls made on
the response writer, the operations of the backend invoked, and whether a
handler panicked. -/
structure Handled where
  ops : List WriterOp
  calls : List ServerCall
  panicked : Bool
deriving DecidableEq, Repr

/-- How a request to the server ends: handlers of the server ran, or one of
the two `ServeMux` answered by itself, with a redirect, with 404 or with 405. -/
inductive Reply where
  | handled (h : Handled)
  | redirect (location : Str)
  | notFound
  | methodNotAllowed
deriving DecidableEq, Repr

/-- Go `fmt.Errorf` and `errors.New`, by the text of the error. -/
def errorf (text : Str) : GoError :=
  { msg := text, isSkipAll := false, isNotExist := false, isPermission := false }

/-- A handler that answers with one `http.Error`. -/
def Handled.error (err : GoError) (code : Nat) : Handled :=
  { ops := [WriterOp.httpError (ErrorText.ofError err) code], calls := [], panicked := false }

/-- The error branch of the handlers of `remux`: 404 for not-exist, else
500. -/
def serverError (err : GoError) : List WriterOp :=
  if err.isNotExist = true then [WriterOp.httpError (ErrorText.ofError err) StatusNotFound]
  else [WriterOp.httpError (ErrorText.ofError err) StatusInternalServerError]

/-- The value of `path, _ := url.PathUnescape(...)`. -/
def unescapeOrEmpty (s : Str) : Str :=
  match url.PathUnescape s with
  | Except.ok p => p
  | Except.error _ => []

/-- What `json.NewEncoder(w).Encode(ri)` writes; its error is dropped. -/
def encodeOps (L : ServerLib) (ri : Option RevInfo) : List WriterOp :=
  match L.jsonEncode ri with
  | Except.ok body => [WriterOp.write body]
  | Except.error _ => []

/-- The handler of `remux` for the list of versions.  `r.URL.Path[1:]` panics
on an empty path. -/
def Server.listHandler (ops : ServerOps) (u : url.URL) : Handled :=
  match u.Path with
  | [] => { ops := [], calls := [], panicked := true }
  | _ :: path1 =>
    match ops.Versions path1 with
    | Except.error err =>
      { ops := serverError err, calls := [ServerCall.Versions path1], panicked := false }
    | Except.ok versions =>
      { ops := [WriterOp.headerSet contentType "text/plain; charset=utf-8".toList,
                WriterOp.writeHeader 200]
              ++ versions.map fun v => WriterOp.write (v ++ ['\n']),
        calls := [ServerCall.Versions path1], panicked := false }

/-- The handler of `remux` for the metadata of a version. -/
def Server.infoHandler (L : ServerLib) (ops : ServerOps) (pathValue versionValue : Str) :
    Handled :=
  let m : module.Version :=
    { Path := unescapeOrEmpty pathValue, Version := unescapeOrEmpty versionValue }
  match ops.Stat m with
  | Except.error err => { ops := serverError err, calls := [ServerCall.Stat m], panicked := false }
  | Except.ok ri =>
    { ops := [WriterOp.headerSet contentType "application/json".toList, WriterOp.writeHeader 200]
            ++ encodeOps L ri,
      calls := [ServerCall.Stat m], panicked := false }

/-- The handler of `remux` for the file `go.mod` of a version. -/
def Server.modHandler (ops : ServerOps) (pathValue versionValue : Str) : Handled :=
  let m : module.Version :=
    { Path := unescapeOrEmpty pathValue, Version := unescapeOrEmpty versionValue }
  match ops.GoMod m with
  | Except.error err =>
    { ops := serverError err, calls := [ServerCall.GoMod m], panicked := false }
  | Except.ok data =>
    { ops := [WriterOp.headerSet contentType "text/plain; charset=utf-8".toList,
              WriterOp.writeHeader 200, WriterOp.write data],
      calls := [ServerCall.GoMod m], panicked := false }

/-- The field `Size` of the `sizeWriter` after the calls of `Write`: the sum
of the numbers of bytes written, in 64 bits. -/
def sizeWriterSize (writes : List (Str × Nat)) : Int :=
  writes.foldl (fun size w => zip.add64 size (zip.toInt64 w.2)) 0

/-- The handler of `remux` for the archive of a version. -/
def Server.zipHandler (ops : ServerOps) (pathValue versionValue : Str) : Handled :=
  let m : module.Version :=
    { Path := unescapeOrEmpty pathValue, Version := unescapeOrEmpty versionValue }
  let run := ops.Zip m
  let head := [WriterOp.headerSet contentType "application/zip".toList, WriterOp.writeHeader 200]
    ++ run.writes.map fun w => WriterOp.write w.1
  if sizeWriterSize run.writes = 0 then
    match run.err with
    | some err => { ops := head ++ serverError err, calls := [ServerCall.Zip m], panicked := false }
    | none => { ops := head, calls := [ServerCall.Zip m], panicked := false }
  else { ops := head, calls := [ServerCall.Zip m], panicked := false }

/-- The handler of `remux` for the latest version.  The type assertion
`s.ops.(ServerOpsLatest)` panics when the backend has no method `Latest`. -/
def Server.latestHandler (L : ServerLib) (ops : ServerOps) (pathValue : Str) : Handled :=
  let p := unescapeOrEmpty pathValue
  match ops.Latest with
  | none => { ops := [], calls := [], panicked := true }
  | some latest =>
    match latest p with
    | Except.error err =>
      { ops := serverError err, calls := [ServerCall.Latest p], panicked := false }
    | Except.ok ri =>
      { ops := [WriterOp.headerSet contentType "application/json".toList,
                WriterOp.writeHeader 200] ++ encodeOps L ri,
        calls := [ServerCall.Latest p], panicked := false }

/-- The patterns of `remux`, all of the method `GET`, in the order in which
they are registered: a wildcard `path`, then `@v/list`; `@v`, a wildcard
`version` and `.info`, `.mod` or `.zip`; or `@latest`. -/
def remuxPatterns : List (List http.Seg) :=
  [[http.Seg.wild, http.Seg.lit "@v".toList, http.Seg.lit "list".toList],
   [http.Seg.wild, http.Seg.lit "@v".toList, http.Seg.wild, http.Seg.lit ".info".toList],
   [http.Seg.wild, http.Seg.lit "@v".toList, http.Seg.wild, http.Seg.lit ".mod".toList],
   [http.Seg.wild, http.Seg.lit "@v".toList, http.Seg.wild, http.Seg.lit ".zip".toList],
   [http.Seg.wild, http.Seg.lit "@latest".toList]]

/-- The call `s.remux.ServeHTTP(w, r)`. -/
def Server.remux (L : ServerLib) (ops : ServerOps) (method : Str) (u : url.URL) : Reply :=
  match http.findHandler remuxPatterns method u with
  | http.Found.redirect location => Reply.redirect location
  | http.Found.notFound => Reply.notFound
  | http.Found.methodNotAllowed => Reply.methodNotAllowed
  | http.Found.handler i values =>
    if i = 0 then Reply.handled (Server.listHandler ops u)
    else if i = 1 then Reply.handled (Server.infoHandler L ops (values.getD 0 []) (values.getD 1 []))
    else if i = 2 then Reply.handled (Server.modHandler ops (values.getD 0 []) (values.getD 1 []))
    else if i = 3 then Reply.handled (Server.zipHandler ops (values.getD 0 []) (values.getD 1 []))
    else Reply.handled (Server.latestHandler L ops (values.getD 0 []))

/-- The handler of `mux`, which rewrites the path of the request and hands it
to `remux`; `rest` is the value of the wildcard. -/
def Server.rewrite (L : ServerLib) (ops : ServerOps) (method rest : Str) (u : url.URL) : Reply :=
  match strings.Cut rest ['/', '@'] with
  | (_, _, false) =>
    Reply.handled (Handled.error
      (errorf ("no ".toList ++ L.Quote "/@v/".toList ++ " token in ".toList ++ L.Quote u.Path))
      StatusBadRequest)
  | (epath, afterSlashAt, true) =>
    let routePath := ['/', '@'] ++ afterSlashAt
    match L.module.UnescapePath epath with
    | Except.error err => Reply.handled (Handled.error err StatusBadRequest)
    | Except.ok pathVar =>
      if routePath = "/@v/list".toList then
        Reply.handled { ops := [], calls := [], panicked := false }
      else if strings.HasPrefix routePath "/@v/".toList = true then
        let ext := path.Ext routePath
        if ext = extInfo ∨ ext = extMod ∨ ext = extZip then
          Server.remux L ops method
            { Path := ['/'] ++ url.PathEscape pathVar
                ++ ("/@v/".toList ++ strings.TrimSuffix routePath ext ++ ['/'] ++ ext),
              RawPath := u.Path }
        else
          Reply.handled (Handled.error (errorf ("unknown extension ".toList ++ L.Quote ext))
            StatusBadRequest)
      else if routePath = "/@latest".toList then
        Server.remux L ops method
          { Path := ['/'] ++ url.PathEscape pathVar ++ "/@latest".toList, RawPath := u.Path }
      else
        Reply.handled (Handled.error (errorf ("unknown route ".toList ++ L.Quote routePath))
          StatusBadRequest)

/-- The pattern of `mux`, of the method `GET`: a slash and a wildcard `rest`
for the rest of the path. -/
def muxPatterns : List (List http.Seg) := [[http.Seg.multi]]

/-- A request to the server: its method and its URL. -/
structure ServerRequest where
  Method : Str
  URL : url.URL
deriving DecidableEq, Repr

/-- Go `(*Server).ServeHTTP` on the server that `NewServer(ops)` returns. -/
def Server.ServeHTTP (L : ServerLib) (ops : ServerOps) (r : ServerRequest) : Reply :=
  match http.findHandler muxPatterns r.Method r.URL with
  | http.Found.redirect location => Reply.redirect location
  | http.Found.notFound => Reply.notFound
  | http.Found.methodNotAllowed => Reply.methodNotAllowed
  | http.Found.handler _ values => Server.rewrite L ops r.Method (values.getD 0 []) r.URL

end proxy

/-! ## Fixtures: the backend of `proxy/server_test.go` -/

namespace fixture

/-- A `strconv.Quote` for strings without quotes, backslashes and control
characters. -/
def quote (s : Str) : Str := ['"'] ++ s ++ ['"']

/-- A `json.Encoder` for a `RevInfo` that holds a version only: the object and
a line feed; `null` for a nil pointer. -/
def jsonEncode (ri : Option proxy.RevInfo) : Except GoError Str :=
  match ri with
  | none => Except.ok "null\n".toList
  | some ri =>
    if '"' ∈ ri.Version ∨ '\\' ∈ ri.Version then Except.error errInvalid
    else Except.ok ("\x7b\"Version\":\"".toList ++ ri.Version ++ "\"\x7d\n".toList)

/-- A `json.Decoder`, which reads over the line feed at the end. -/
def jsonDecode (body : Str) : Except GoError (Option proxy.RevInfo) :=
  jsonUnmarshal (strings.TrimSuffix body ['\n'])

/-- The external functions of the fixtures of the server. -/
def serverLib : proxy.ServerLib :=
  { module := moduleLib, Quote := quote, jsonEncode := jsonEncode }

/-- Go `StaticServerOps` of `server_test.go`, with its four maps. -/
structure StaticServerOps where
  RevInfos : List (Str × List proxy.RevInfo)
  LatestVersion : List (Str × Str)
  GoModData : List (module.Version × Str)
  ZipData : List (module.Version × Str)

/-- Go `(*StaticServerOps).Latest`. -/
def StaticServerOps.Latest (r : StaticServerOps) (p : Str) :
    Except GoError (Option proxy.RevInfo) :=
  match r.LatestVersion.lookup p with
  | none => Except.error ErrNotExist
  | some version =>
    match r.RevInfos.lookup p with
    | none => Except.error ErrNotExist
    | some ri =>
      match ri.find? fun v => decide (v.Version = version) with
      | some v => Except.ok (some v)
      | none => Except.error ErrNotExist

/-- The methods of `StaticServerOps`; the response writer takes every byte. -/
def StaticServerOps.toOps (r : StaticServerOps) : proxy.ServerOps :=
  { Versions := fun p =>
      match r.RevInfos.lookup p with
      | none => Except.error ErrNotExist
      | some ri => Except.ok (ri.map fun v => v.Version)
    Stat := fun m =>
      match r.RevInfos.lookup m.Path with
      | none => Except.error ErrNotExist
      | some ri =>
        match ri.find? fun v => decide (v.Version = m.Version) with
        | some v => Except.ok (some v)
        | none => Except.error ErrNotExist
    GoMod := fun m =>
      match r.GoModData.lookup m with
      | none => Except.error ErrNotExist
      | some data => Except.ok data
    Zip := fun m =>
      match r.ZipData.lookup m with
      | none => { writes := [], err := some ErrNotExist }
      | some data => { writes := [(data, len data)], err := none }
    Latest := some (StaticServerOps.Latest r) }

/-- The maps of the backend of `TestServer_Redirect`, for the module of the
other fixtures. -/
def staticData : StaticServerOps :=
  { RevInfos := [(awesome, [revInfo v001, revInfo v100])]
    LatestVersion := [(awesome, v100)]
    GoModData := [({ Path := awesome, Version := v100 }, "module octocat.github.io/awesome\n".toList)]
    ZipData := [({ Path := awesome, Version := v100 }, [])] }

/-- The backend of `TestServer_Redirect`. -/
def staticOps : proxy.ServerOps := StaticServerOps.toOps staticData

/-- A backend whose `Zip` writes two bytes and then fails. -/
def truncatedZip : proxy.ServerOps :=
  { staticOps with
    Zip := fun _ => { writes := [("PK".toList, 2)], err := some errInvalid } }

/-- The request `GET` of the given path, as the server of `net/http` hands it
to the handler; the path has no escape that is not valid. -/
def serverGet (target : String) : proxy.ServerRequest :=
  match url.setPath target.toList with
  | Except.ok u => { Method := MethodGet, URL := u }
  | Except.error _ => { Method := MethodGet, URL := { Path := target.toList, RawPath := [] } }

end fixture

/-! ## What the server relies on from module paths and from `encoding/json` -/

namespace module

/-- The characters of a module path: ASCII letters and digits, `-`, `.`, `_`
and `~`, and the slash between its elements. -/
def pathChar (c : Char) : Bool :=
  url.isAlnum c.toNat || decide (c ∈ ['-', '.', '_', '~', '/'])

end module

/-- What `golang.org/x/mod/module` documents of the paths that it escapes: "a
valid path element is a non-empty string made up of ASCII letters, ASCII
digits, and limited ASCII punctuation (- . _ and ~)", no element is `.` or
`..`, and the escaped form replaces every upper-case letter by `!` and the
lower-case letter. -/
structure PathLaws (M : ModuleLib) : Prop where
  path_chars : ∀ p ep, M.EscapePath p = Except.ok ep → ∀ c ∈ p, module.pathChar c = true
  escaped_chars :
    ∀ p ep, M.EscapePath p = Except.ok ep → ∀ c ∈ ep, module.pathChar c = true ∨ c = '!'
  path_clean : ∀ p ep, M.EscapePath p = Except.ok ep → IsCleanRel p

/-- What `encoding/json` guarantees of a `RevInfo` that it has encoded: the
bytes decode to a `RevInfo` with the same version. -/
structure JsonLaws (encode : Option proxy.RevInfo → Except GoError Str)
    (decode : Str → Except GoError (Option proxy.RevInfo)) : Prop where
  round_trip : ∀ ri body, encode (some ri) = Except.ok body →
    ∃ ri2, decode body = Except.ok (some ri2) ∧ ri2.Version = ri.Version

/-! ## Paths without two slashes in a row -/

namespace path

/-- No two slashes of the path are next to each other. -/
def SingleSlashes (p : Str) : Prop := p.Chain' fun a b => ¬ (a = '/' ∧ b = '/')

end path

end Modproxy

/-! # Part II: lemmas -/

namespace Modproxy
open strings

/-! ## Lemmas on the string functions -/

theorem cut_at (ep rest : Str) (h : '@' ∉ ep) :
    Cut (ep ++ '/' :: '@' :: rest) ['/', '@'] = (ep, rest, true) := by
  induction ep with
  | nil => simp [Cut, List.isPrefixOf]
  | cons c t ih =>
    have ht : '@' ∉ t := fun e => h (by simp [e])
    have hpre : ¬ (List.isPrefixOf ['/', '@'] (c :: (t ++ '/' :: '@' :: rest)) = true) := by
      cases t with
      | nil => simp [List.isPrefixOf]
      | cons d u =>
        have hd : ¬ '@' = d := fun e => ht (by simp [← e])
        simp [List.isPrefixOf, hd]
    rw [List.cons_append, Cut, if_neg hpre, ih ht]

theorem hasSuffix_append (a b : Str) : HasSuffix (a ++ b) b = true := by
  simp [HasSuffix, List.reverse_append]

theorem trimSuffix_append (a b : Str) : TrimSuffix (a ++ b) b = a := by
  simp [TrimSuffix, hasSuffix_append]

theorem ext_append (ev ext : Str) (h : ext = extInfo ∨ ext = extMod ∨ ext = extZip) :
    path.Ext (ev ++ ext) = ext := by
  rcases h with h | h | h <;> subst h <;>
    simp [path.Ext, extInfo, extMod, extZip, path.extScan]

theorem hasSuffix_slash_ext (a ext : Str) (h : ext = extInfo ∨ ext = extMod ∨ ext = extZip) :
    HasSuffix (a ++ ext) ['/'] = false := by
  rcases h with h | h | h <;> subst h <;>
    simp [HasSuffix, extInfo, extMod, extZip, List.reverse_append, List.isPrefixOf]

theorem versionRoute_ne (ev ext : Str) (h : ext = extInfo ∨ ext = extMod ∨ ext = extZip) :
    'v' :: '/' :: (ev ++ ext) ≠ kwLatest ∧ 'v' :: '/' :: (ev ++ ext) ≠ routeList := by
  constructor
  · simp [kwLatest]
  · intro e
    have h1 : '.' ∈ 'v' :: '/' :: (ev ++ ext) := by
      rcases h with h | h | h <;> subst h <;> simp [extInfo, extMod, extZip]
    rw [e] at h1
    simp [routeList] at h1

/-! ## The router `Proxy.ServeHTTP` -/

theorem rejectedWith_reject (text : ErrorText) (code : Nat) :
    (Outcome.reject text code).RejectedWith code :=
  ⟨⟨text, rfl⟩, rfl, rfl, rfl⟩

/-- The router on a per-version path: everything up to the version step. -/
theorem serveHTTP_version (E : Extern) (p : Proxy) (r : Request) (ep ev ext modulePath : Str)
    (hmethod : r.Method = MethodGet ∨ r.Method = MethodHead)
    (hclean : cleanPath r.Path = r.Path)
    (hform : r.Path = '/' :: ep ++ ['/', '@', 'v', '/'] ++ ev ++ ext)
    (hat : '@' ∉ ep)
    (hext : ext = extInfo ∨ ext = extMod ∨ ext = extZip)
    (hep : E.module.UnescapePath ep = Except.ok modulePath) :
    p.ServeHTTP E r = p.serveVersion E r modulePath (ev ++ ext) ext := by
  have hsuf : HasSuffix r.Path ['/'] = false := by
    rw [hform]; exact hasSuffix_slash_ext _ _ hext
  have hcut : Cut (ep ++ ['/', '@', 'v', '/'] ++ ev ++ ext) ['/', '@']
      = (ep, 'v' :: '/' :: (ev ++ ext), true) := by
    have := cut_at ep ('v' :: '/' :: (ev ++ ext)) hat
    simpa using this
  have hne := versionRoute_ne ev ext hext
  unfold Proxy.ServeHTTP
  rw [if_neg (not_not.mpr hmethod), if_neg (not_not.mpr hclean), if_neg (by simp [hsuf])]
  rw [hform]
  simp only [List.cons_append, hcut, hep]
  unfold Proxy.dispatch
  rw [if_neg hne.1, if_neg hne.2, if_neg (by simp [HasPrefix, List.isPrefixOf])]
  simp only [List.drop_succ_cons, List.drop_zero]
  rw [ext_append ev ext hext, if_neg (not_not.mpr hext)]

/-- The version step of the router for a version that is not reserved. -/
theorem serveVersion_ok (E : Extern) (p : Proxy) (r : Request) (ev ext modulePath version : Str)
    (hev : E.module.UnescapeVersion ev = Except.ok version)
    (hkw : ¬ (version = kwLatest ∨ version = kwUpgrade ∨ version = kwPatch)) :
    p.serveVersion E r modulePath (ev ++ ext) ext =
      if ext = extInfo then p.serveInfo E r modulePath version
      else
        match E.module.Check modulePath version with
        | some err => Outcome.reject (ErrorText.ofError err) StatusBadRequest
        | none =>
          if E.module.CanonicalVersion version ≠ version then
            Outcome.reject (ErrorText.versionNotCanonical modulePath version) StatusBadRequest
          else if ext = extMod then p.serveMod r modulePath version
          else if ext = extZip then p.serveZip r modulePath version
          else Outcome.panic := by
  unfold Proxy.serveVersion
  simp only [trimSuffix_append, hev, if_neg hkw]

theorem serveInfo_calls (E : Extern) (p : Proxy) (r : Request) (modulePath version : Str) :
    (p.serveInfo E r modulePath version).calls
      = [Call.Info { Path := modulePath, Version := version }] := by
  unfold Proxy.serveInfo
  dsimp only
  split
  · rfl
  · split <;> rfl

theorem serveMod_calls (p : Proxy) (r : Request) (modulePath version : Str) :
    (p.serveMod r modulePath version).calls
      = [Call.Mod { Path := modulePath, Version := version }] := by
  unfold Proxy.serveMod
  dsimp only
  split <;> rfl

theorem serveZip_calls (p : Proxy) (r : Request) (modulePath version : Str) :
    (p.serveZip r modulePath version).calls
      = [Call.Zip { Path := modulePath, Version := version }] := by
  unfold Proxy.serveZip
  dsimp only
  split <;> rfl

theorem hasSuffix_slash_iff (s : Str) :
    HasSuffix s ['/'] = true ↔ s.getLast? = some '/' := by
  unfold HasSuffix
  rw [List.getLast?_eq_head?_reverse]
  cases s.reverse with
  | nil => simp [List.isPrefixOf]
  | cons c t =>
    show (['/'].isPrefixOf (c :: t) = true) ↔ _
    simp only [List.isPrefixOf, List.head?_cons, Option.some.injEq]
    constructor
    · intro h; simp at h; exact h.symm
    · intro h; simp [h]

theorem cut_true_infix (sep s : Str) (h : (Cut s sep).2.2 = true) : sep <:+: s := by
  induction s with
  | nil =>
    unfold Cut at h
    by_cases hs : sep = []
    · subst hs; exact List.infix_refl _
    · simp [hs] at h
  | cons c t ih =>
    unfold Cut at h
    by_cases hp : sep.isPrefixOf (c :: t) = true
    · exact (List.isPrefixOf_iff_prefix.mp hp).isInfix
    · rw [if_neg hp] at h
      have : (Cut t sep).2.2 = true := by
        rcases hc : Cut t sep with ⟨a, b, ok⟩
        rw [hc] at h
        cases ok with
        | true => rfl
        | false => simp at h
      exact (ih this).trans (List.infix_cons (List.infix_refl t))

/-! ## The error mapping of the five routes -/

theorem statusOf_append_httpError (ops : List WriterOp) (text : ErrorText) (code : Nat)
    (h : committed ops = false) :
    statusOf (ops ++ [WriterOp.httpError text code]) = code := by
  induction ops with
  | nil => rfl
  | cons op rest ih =>
    cases op with
    | headerSet k v => exact ih (by simpa [committed] using h)
    | writeHeader c => simp [committed] at h
    | write b => simp [committed] at h
    | httpError t c => simp [committed] at h
    | ioCopy c => simp [committed] at h

/-- The shared error branch: for an error other than `fs.SkipAll` it is one
`http.Error` with the mapped status. -/
theorem errorMapped_of_errorReply (backendOps : List WriterOp) (err : GoError) (call : Call)
    (h : err.isSkipAll = false) :
    Outcome.ErrorMapped
      { ops := backendOps ++ errorReply err, calls := [call], panicked := false }
      backendOps err call := by
  unfold Outcome.ErrorMapped errorReply
  rw [if_neg (by simp [h])]
  by_cases h1 : err.isNotExist = true
  · refine ⟨404, ?_, rfl, fun _ => rfl, ?_, ?_, ?_⟩
    · simp [h1, StatusNotFound]
    · intro h2; simp [h1] at h2
    · intro h2; simp [h1] at h2
    · intro hc
      simp only [h1, if_true, StatusNotFound]
      exact statusOf_append_httpError _ _ _ hc
  · by_cases h2 : err.isPermission = true
    · refine ⟨403, ?_, rfl, fun h => absurd h h1, fun _ _ => rfl, ?_, ?_⟩
      · simp [h1, h2, StatusForbidden]
      · intro _ h3; simp [h2] at h3
      · intro hc
        simp only [h1, h2, if_true, if_false, StatusForbidden]
        exact statusOf_append_httpError _ _ _ hc
    · refine ⟨500, ?_, rfl, fun h => absurd h h1, fun _ h => absurd h h2, fun _ _ => rfl, ?_⟩
      · simp [h1, h2, StatusInternalServerError]
      · intro hc
        simp only [h1, h2, if_false, StatusInternalServerError]
        exact statusOf_append_httpError _ _ _ hc

/-- Off the `latest` sub-route the router only uses the four operations of
`Proxier`. -/
theorem dispatch_congr (E : Extern) (p q : Proxy) (r : Request) (modulePath after : Str)
    (hList : q.Proxier.List = p.Proxier.List) (hInfo : q.Proxier.Info = p.Proxier.Info)
    (hMod : q.Proxier.Mod = p.Proxier.Mod) (hZip : q.Proxier.Zip = p.Proxier.Zip)
    (hafter : after ≠ kwLatest) :
    q.dispatch E r modulePath after = p.dispatch E r modulePath after := by
  unfold Proxy.dispatch
  rw [if_neg hafter, if_neg hafter]
  unfold Proxy.serveList Proxy.serveVersion Proxy.serveInfo Proxy.serveMod Proxy.serveZip
  rw [hList, hInfo, hMod, hZip]

/-! ## Lemmas on `path.Clean` and `path.Dir` for relative paths -/

theorem copyElem_eq (rest out : Str) :
    path.copyElem rest out
      = ((rest.takeWhile (· ≠ '/')).reverse ++ out, rest.dropWhile (· ≠ '/')) := by
  induction rest generalizing out with
  | nil => rfl
  | cons c t ih =>
    unfold path.copyElem
    by_cases hc : c = '/'
    · simp [hc]
    · rw [if_neg hc, ih]
      simp [hc]

theorem popLoop_suffix (dotdot : Nat) (popped : Char) (cur : Str) :
    path.popLoop dotdot popped cur <:+ cur := by
  induction cur generalizing popped with
  | nil => exact List.suffix_refl _
  | cons c t ih =>
    unfold path.popLoop
    split
    · exact (ih c).trans (List.suffix_cons c t)
    · exact List.suffix_refl _

theorem getLast?_of_suffix {a b : Str} (h : a <:+ b) (ha : a ≠ []) : a.getLast? = b.getLast? := by
  obtain ⟨t, rfl⟩ := h
  rw [List.getLast?_append_of_ne_nil _ ha]

theorem getLast?_ne_of_suffix {a b : Str} (h : a <:+ b) (hb : b.getLast? ≠ some '/') :
    a.getLast? ≠ some '/' := by
  by_cases ha : a = []
  · simp [ha]
  · rw [getLast?_of_suffix h ha]; exact hb

theorem cleanLoop_nil (rooted : Bool) (fuel : Nat) (out : Str) (dotdot : Nat) :
    path.cleanLoop rooted fuel [] out dotdot = out := by
  cases fuel <;> rfl

theorem copyElem_cons_spec (c : Char) (t : Str) (hc : c ≠ '/') :
    ∃ tw dw : Str, (∀ out, path.copyElem (c :: t) out = ((c :: tw).reverse ++ out, dw))
      ∧ tw.length + dw.length = t.length
      ∧ (∀ d u, dw = d :: u → d = '/')
      ∧ (dw = [] → ∀ x ∈ t, x ≠ '/')
      ∧ (dw ≠ [] → (c :: t).getLast? = dw.getLast?)
      ∧ tw ++ dw = t ∧ (∀ x ∈ tw, x ≠ '/') := by
  refine ⟨t.takeWhile (· ≠ '/'), t.dropWhile (· ≠ '/'), ?_, ?_, ?_, ?_, ?_, ?_, ?_⟩
  · intro out
    rw [copyElem_eq, List.takeWhile_cons_of_pos (by simpa using hc),
      List.dropWhile_cons_of_pos (by simpa using hc)]
  · rw [← List.length_append, List.takeWhile_append_dropWhile]
  · intro d u hdu
    have h := List.head_dropWhile_not (· ≠ '/') t (by rw [hdu]; simp)
    simp only [hdu, List.head_cons] at h
    simpa using h
  · intro hdn x hx
    have hsplit := List.takeWhile_append_dropWhile (· ≠ '/') t
    rw [hdn, List.append_nil] at hsplit
    rw [← hsplit] at hx
    simpa using List.mem_takeWhile_imp hx
  · intro hdn
    have hsplit := List.takeWhile_append_dropWhile (· ≠ '/') t
    conv_lhs => rw [← hsplit, ← List.cons_append]
    rw [List.getLast?_append_of_ne_nil _ hdn]
  · exact List.takeWhile_append_dropWhile _ _
  · intro x hx
    simpa using List.mem_takeWhile_imp hx

theorem cleanLoop_rel_bound (T : Nat) (fuel : Nat) (rest out : Str) (dotdot : Nat)
    (hf : rest.length ≤ fuel)
    (H1 : out.length + rest.length ≤ T)
    (H2 : ∀ c t, rest = c :: t → c ≠ '/' → out = [] ∨ out.length + rest.length < T)
    (K : out.getLast? ≠ some '/') :
    (path.cleanLoop false fuel rest out dotdot).length ≤ T
    ∧ (rest.getLast? = some '/' → (path.cleanLoop false fuel rest out dotdot).length < T)
    ∧ (path.cleanLoop false fuel rest out dotdot).getLast? ≠ some '/' := by
  induction fuel generalizing rest out dotdot with
  | zero =>
    have : rest = [] := List.length_eq_zero.mp (Nat.le_zero.mp hf)
    subst this
    simp [path.cleanLoop] at *
    exact ⟨H1, K⟩
  | succ n ih =>
    unfold path.cleanLoop
    split
    · -- rest = []
      simp at *
      exact ⟨H1, K⟩
    · -- '/' :: t
      rename_i t
      simp only [List.length_cons] at hf H1
      obtain ⟨h1, h2, h3⟩ := ih t out dotdot (by omega) (by omega)
        (fun c u _ _ => Or.inr (by omega)) K
      refine ⟨h1, ?_, h3⟩
      intro hl
      cases t with
      | nil => rw [cleanLoop_nil]; omega
      | cons d u => exact h2 (by simpa using hl)
    · -- ['.']
      rw [cleanLoop_nil]
      simp at H1 ⊢
      exact ⟨by omega, K⟩
    · -- '.' :: '/' :: t
      rename_i t
      simp only [List.length_cons] at hf H1
      obtain ⟨h1, h2, h3⟩ := ih ('/' :: t) out dotdot (by simp; omega) (by simp; omega)
        (fun c u hc hne => by simp at hc; exact absurd hc.1.symm hne) K
      refine ⟨h1, ?_, h3⟩
      intro hl
      exact h2 (by simpa using hl)
    · -- ['.', '.']
      have hd := H2 '.' ['.'] rfl (by decide)
      simp only [List.length_cons, List.length_nil] at H1 hd
      split
      · split
        · rw [cleanLoop_nil]; simp at *
        · rename_i c o _hgt
          rw [cleanLoop_nil]
          have hs := popLoop_suffix dotdot c o
          have hlen := hs.length_le
          simp only [List.length_cons] at H1
          refine ⟨by omega, by simp, ?_⟩
          exact getLast?_ne_of_suffix (hs.trans (List.suffix_cons c o)) K
      · simp only [Bool.not_false, if_true]
        rw [cleanLoop_nil]
        split
        · rename_i hpos
          have hne : out ≠ [] := by intro h; simp [h] at hpos
          rcases hd with hd | hd
          · exact absurd hd hne
          · refine ⟨by simp; omega, by simp, ?_⟩
            rw [show '.' :: '.' :: '/' :: out = ['.', '.', '/'] ++ out from rfl,
              List.getLast?_append_of_ne_nil _ hne]
            exact K
        · rename_i hpos
          have he : out = [] := by
            cases out with
            | nil => rfl
            | cons a b => simp at hpos
          subst he
          refine ⟨by simp; omega, by simp, by simp⟩
    · -- '.' :: '.' :: '/' :: t
      rename_i t
      have hd := H2 '.' ('.' :: '/' :: t) rfl (by decide)
      simp only [List.length_cons] at H1 hd hf
      have hlast : ('.' :: '.' :: '/' :: t).getLast? = ('/' :: t).getLast? := by simp
      rw [hlast]
      split
      · split
        · rename_i hgt; simp at hgt
        · rename_i c o _hgt
          have hs := popLoop_suffix dotdot c o
          have hlen := hs.length_le
          simp only [List.length_cons] at H1
          exact ih ('/' :: t) _ dotdot (by simp; omega) (by simp; omega)
            (fun c u hc hne => by simp at hc; exact absurd hc.1.symm hne)
            (getLast?_ne_of_suffix (hs.trans (List.suffix_cons c o)) K)
      · simp only [Bool.not_false, if_true]
        split
        · rename_i hpos
          have hne : out ≠ [] := by intro h; simp [h] at hpos
          rcases hd with hd | hd
          · exact absurd hd hne
          · refine ih ('/' :: t) _ _ (by simp; omega) (by simp; omega)
              (fun c u hc hne => by simp at hc; exact absurd hc.1.symm hne) ?_
            rw [show '.' :: '.' :: '/' :: out = ['.', '.', '/'] ++ out from rfl,
              List.getLast?_append_of_ne_nil _ hne]
            exact K
        · rename_i hpos
          have he : out = [] := by
            cases out with
            | nil => rfl
            | cons a b => simp at hpos
          subst he
          exact ih ('/' :: t) _ _ (by simp; omega) (by simp at H1 ⊢; omega)
            (fun c u hc hne => by simp at hc; exact absurd hc.1.symm hne) (by simp)
    · -- an ordinary element
      rename_i c t hns _ _ _ _
      have hc : c ≠ '/' := fun h => hns h
      have hd := H2 c t rfl hc
      simp only [List.length_cons] at H1 hd hf
      dsimp only
      obtain ⟨tw, dw, hcopy, hlen, hhead, hnil, hlast, -⟩ := copyElem_cons_spec c t hc
      have hout1 : ∀ out1 : Str, (out1 = if (false = true ∧ out.length ≠ 1) ∨
            (¬ false = true ∧ out.length ≠ 0) then '/' :: out else out) →
          out1.length + (t.length + 1) ≤ T ∧ (out1 = [] ∨ out1.getLast? ≠ some '/') := by
        intro out1 h1
        by_cases ho : out = []
        · subst ho
          simp at h1
          subst h1
          simp; simpa using H1
        · have hl : out.length ≠ 0 := fun h => ho (List.length_eq_zero.mp h)
          simp [hl] at h1
          subst h1
          rcases hd with hd | hd
          · exact absurd hd ho
          · refine ⟨by simp; omega, Or.inr ?_⟩
            rw [show '/' :: out = ['/'] ++ out from rfl, List.getLast?_append_of_ne_nil _ ho]
            exact K
      obtain ⟨hb, hk⟩ := hout1 _ rfl
      generalize (if (false = true ∧ out.length ≠ 1) ∨ (¬ false = true ∧ out.length ≠ 0)
        then '/' :: out else out) = out1 at hb hk ⊢
      rw [hcopy out1]
      dsimp only
      have hK2 : ((c :: tw).reverse ++ out1).getLast? ≠ some '/' := by
        by_cases ho : out1 = []
        · subst ho
          simp [List.getLast?_reverse]
          exact hc
        · rw [List.getLast?_append_of_ne_nil _ ho]
          rcases hk with hk | hk
          · exact absurd hk ho
          · exact hk
      obtain ⟨h1, h2, h3⟩ := ih dw ((c :: tw).reverse ++ out1) dotdot (by omega)
        (by simp; omega)
        (fun d u hdu hne => absurd (hhead d u hdu) hne) hK2
      refine ⟨h1, ?_, h3⟩
      intro hl
      by_cases hdn : dw = []
      · exfalso
        have hmem : ∀ x ∈ c :: t, x ≠ '/' := by
          intro x hx
          rcases List.mem_cons.mp hx with hx | hx
          · rw [hx]; exact hc
          · exact hnil hdn x hx
        obtain ⟨ys, hys⟩ := List.getLast?_eq_some_iff.mp hl
        exact hmem '/' (by rw [hys]; simp) rfl
      · apply h2
        rw [← hlast hdn]
        exact hl

theorem split_fst (p : Str) :
    (path.Split p).1 <+: p ∧ ((path.Split p).1 = [] ∨ (path.Split p).1.getLast? = some '/') := by
  have hsplit := List.takeWhile_append_dropWhile (· ≠ '/') p.reverse
  have hhead : ∀ d u, p.reverse.dropWhile (· ≠ '/') = d :: u → d = '/' := by
    intro d u hdu
    have h := List.head_dropWhile_not (· ≠ '/') p.reverse (by rw [hdu]; simp)
    simp only [hdu, List.head_cons] at h
    simpa using h
  have hd : (path.Split p).1
      = p.take (p.length - ((p.reverse.takeWhile (· ≠ '/')).reverse).length) := rfl
  rw [hd]
  generalize p.reverse.takeWhile (· ≠ '/') = tw at hsplit ⊢
  generalize p.reverse.dropWhile (· ≠ '/') = dw at hsplit hhead ⊢
  have hp : p = dw.reverse ++ tw.reverse := by
    rw [← List.reverse_append, hsplit, List.reverse_reverse]
  have htake : p.take (p.length - tw.reverse.length) = dw.reverse := by
    rw [hp]
    simp
  rw [htake]
  constructor
  · exact ⟨_, hp.symm⟩
  · cases dw with
    | nil => left; rfl
    | cons d u =>
      right
      rw [hhead d u rfl]
      simp

/-- For a relative path, `path.Dir` is `.` or a strictly shorter relative path. -/
theorem dir_rel (p : Str) (hp : p.head? ≠ some '/') :
    path.Dir p = ['.'] ∨ ((path.Dir p).length < p.length ∧ (path.Dir p).head? ≠ some '/') := by
  obtain ⟨hpre, hlast⟩ := split_fst p
  unfold path.Dir
  cases hd : (path.Split p).1 with
  | nil => left; rfl
  | cons c t =>
    rw [hd] at hpre hlast
    have hc : c ≠ '/' := by
      intro h
      obtain ⟨s, hs⟩ := hpre
      apply hp
      rw [← hs, h]
      rfl
    have hlast' : (c :: t).getLast? = some '/' := by
      rcases hlast with h | h
      · cases h
      · exact h
    obtain ⟨h1, h2, h3⟩ := cleanLoop_rel_bound (c :: t).length (c :: t).length (c :: t) [] 0
      (le_refl _) (by simp) (fun _ _ _ _ => Or.inl rfl) (by simp)
    have h2' := h2 hlast'
    unfold path.Clean
    dsimp only
    rw [if_neg hc]
    by_cases hout : path.cleanLoop false (c :: t).length (c :: t) [] 0 = []
    · left; rw [if_pos hout]
    · right
      rw [if_neg hout]
      constructor
      · rw [List.length_reverse]
        exact lt_of_lt_of_le h2' hpre.length_le
      · rw [List.head?_reverse]
        exact h3

/-- The recursion of `collisionChecker.check` on a relative path ends within
`p.length + 1` calls. -/
theorem check_returns (U : zip.UnicodeLib) (fuel : Nat) (cc : zip.collisionChecker) (p : Str)
    (isDir : Bool) (hp : p.head? ≠ some '/') (hf : p.length < fuel) :
    ∃ res, zip.collisionChecker.check U fuel cc p isDir = some res := by
  induction fuel generalizing cc p isDir with
  | zero => omega
  | succ n ih =>
    unfold zip.collisionChecker.check
    dsimp only
    have hrec : ∀ cc2, path.Dir p ≠ ['.'] →
        ∃ res, zip.collisionChecker.check U n cc2 (path.Dir p) true = some res := by
      intro cc2 hne
      rcases dir_rel p hp with h | ⟨h1, h2⟩
      · exact absurd h hne
      · exact ih cc2 (path.Dir p) true h2 (by omega)
    split
    · split
      · exact ⟨_, rfl⟩
      · split
        · exact ⟨_, rfl⟩
        · split
          · exact ⟨_, rfl⟩
          · split
            · rename_i hne; exact hrec _ hne
            · exact ⟨_, rfl⟩
    · split
      · rename_i hne; exact hrec _ hne
      · exact ⟨_, rfl⟩

/-- The loop of `path.Clean` never uses up its fuel: any two amounts of fuel
that are at least the number of bytes left give the same result. -/
theorem cleanLoop_fuel (rooted : Bool) (fuel1 fuel2 : Nat) (rest out : Str) (dotdot : Nat)
    (h1 : rest.length ≤ fuel1) (h2 : rest.length ≤ fuel2) :
    path.cleanLoop rooted fuel1 rest out dotdot = path.cleanLoop rooted fuel2 rest out dotdot := by
  induction fuel1 generalizing fuel2 rest out dotdot with
  | zero =>
    have : rest = [] := List.length_eq_zero.mp (Nat.le_zero.mp h1)
    subst this
    rw [cleanLoop_nil, cleanLoop_nil]
  | succ n ih =>
    cases fuel2 with
    | zero =>
      have : rest = [] := List.length_eq_zero.mp (Nat.le_zero.mp h2)
      subst this
      rw [cleanLoop_nil, cleanLoop_nil]
    | succ k =>
      unfold path.cleanLoop
      split
      · rfl
      · rename_i t
        simp only [List.length_cons] at h1 h2
        exact ih k t out dotdot (by omega) (by omega)
      · rw [cleanLoop_nil, cleanLoop_nil]
      · rename_i t
        simp only [List.length_cons] at h1 h2
        exact ih k _ out dotdot (by simp; omega) (by simp; omega)
      · simp only [cleanLoop_nil]
      · rename_i t
        simp only [List.length_cons] at h1 h2
        split
        · split
          · exact ih k _ _ dotdot (by simp; omega) (by simp; omega)
          · exact ih k _ _ dotdot (by simp; omega) (by simp; omega)
        · split
          · exact ih k _ _ _ (by simp; omega) (by simp; omega)
          · exact ih k _ _ dotdot (by simp; omega) (by simp; omega)
      · rename_i c t hns _ _ _ _
        have hc : c ≠ '/' := fun h => hns h
        simp only [List.length_cons] at h1 h2
        obtain ⟨tw, dw, hcopy, hlen, -⟩ := copyElem_cons_spec c t hc
        dsimp only
        rw [hcopy]
        dsimp only
        exact ih k dw _ dotdot (by omega) (by omega)

theorem char_toNat_le (c : Char) : c.toNat ≤ 1114111 := by
  have h := c.valid
  unfold Char.toNat
  rcases h with h | ⟨_, h⟩
  · have : c.val.toNat < 55296 := h
    omega
  · have : c.val.toNat < 1114112 := h
    omega

/-- The inner loop of `strToFold` never uses up its fuel. -/
theorem foldLoop_fuel (U : zip.UnicodeLib) (fuel1 fuel2 : Nat) (r0 : Char)
    (h1 : 1114111 ≤ r0.toNat + fuel1) (h2 : 1114111 ≤ r0.toNat + fuel2) :
    zip.foldLoop U fuel1 r0 = zip.foldLoop U fuel2 r0 := by
  induction fuel1 generalizing fuel2 r0 with
  | zero =>
    unfold zip.foldLoop
    dsimp only
    by_cases hle : U.SimpleFold r0 ≤ r0
    · rw [if_pos hle, if_pos hle]
    · exfalso
      have hlt : r0.toNat < (U.SimpleFold r0).toNat := by
        have := Char.lt_def.mp (not_le.mp hle)
        exact this
      have := char_toNat_le (U.SimpleFold r0)
      omega
  | succ n ih =>
    cases fuel2 with
    | zero =>
      unfold zip.foldLoop
      dsimp only
      by_cases hle : U.SimpleFold r0 ≤ r0
      · rw [if_pos hle, if_pos hle]
      · exfalso
        have hlt : r0.toNat < (U.SimpleFold r0).toNat := by
          have := Char.lt_def.mp (not_le.mp hle)
          exact this
        have := char_toNat_le (U.SimpleFold r0)
        omega
    | succ k =>
      unfold zip.foldLoop
      dsimp only
      by_cases hle : U.SimpleFold r0 ≤ r0
      · rw [if_pos hle, if_pos hle]
      · rw [if_neg hle, if_neg hle]
        have hlt : r0.toNat < (U.SimpleFold r0).toNat := by
          have := Char.lt_def.mp (not_le.mp hle)
          exact this
        exact ih k _ (by omega) (by omega)

/-- On a relative path the result of `check` does not depend on the fuel, as
long as it exceeds the length of the path. -/
theorem check_fuel (U : zip.UnicodeLib) (fuel1 fuel2 : Nat) (cc : zip.collisionChecker)
    (p : Str) (isDir : Bool) (hp : p.head? ≠ some '/') (h1 : p.length < fuel1)
    (h2 : p.length < fuel2) :
    zip.collisionChecker.check U fuel1 cc p isDir
      = zip.collisionChecker.check U fuel2 cc p isDir := by
  induction fuel1 generalizing fuel2 cc p isDir with
  | zero => omega
  | succ n ih =>
    cases fuel2 with
    | zero => omega
    | succ k =>
      unfold zip.collisionChecker.check
      dsimp only
      have hrec : ∀ cc2, path.Dir p ≠ ['.'] →
          zip.collisionChecker.check U n cc2 (path.Dir p) true
            = zip.collisionChecker.check U k cc2 (path.Dir p) true := by
        intro cc2 hne
        rcases dir_rel p hp with h | ⟨hlen, hhead⟩
        · exact absurd h hne
        · exact ih k cc2 (path.Dir p) true hhead (by omega) (by omega)
      split
      · split
        · rfl
        · split
          · rfl
          · split
            · rfl
            · split
              · rename_i hne; exact hrec _ hne
              · rfl
      · split
        · rename_i hne; exact hrec _ hne
        · rfl

/-! ## `path.Clean` on clean rooted paths -/

theorem cleanLoop_slash (rooted : Bool) (fuel : Nat) (t out : Str) (dotdot : Nat) :
    path.cleanLoop rooted (fuel + 1) ('/' :: t) out dotdot
      = path.cleanLoop rooted fuel t out dotdot := by
  rw [path.cleanLoop]

theorem copyElem_append (e rest out : Str) (he : '/' ∉ e)
    (hrest : rest = [] ∨ ∃ t, rest = '/' :: t) :
    path.copyElem (e ++ rest) out = (e.reverse ++ out, rest) := by
  induction e generalizing out with
  | nil =>
    rcases hrest with h | ⟨t, h⟩ <;> subst h <;> simp [path.copyElem]
  | cons c t ih =>
    have hc : c ≠ '/' := fun h => he (by simp [h])
    have ht : '/' ∉ t := fun h => he (by simp [h])
    rw [List.cons_append, path.copyElem, if_neg hc, ih _ ht]
    simp

theorem cleanLoop_elem (fuel : Nat) (e rest out : Str) (dotdot : Nat)
    (he : cleanElem e = true) (hrest : rest = [] ∨ ∃ t, rest = '/' :: t) :
    path.cleanLoop true (fuel + 1) (e ++ rest) out dotdot
      = path.cleanLoop true fuel rest
          (e.reverse ++ (if out.length ≠ 1 then '/' :: out else out)) dotdot := by
  have he' : e ≠ [] ∧ '/' ∉ e ∧ e ≠ ['.'] ∧ e ≠ ['.', '.'] := by
    simpa [cleanElem] using he
  obtain ⟨h1, h2, h3, h4⟩ := he'
  have hcopy := fun out => copyElem_append e rest out h2 hrest
  conv_lhs => unfold path.cleanLoop
  split
  · rename_i heq
    exfalso
    cases e with
    | nil => exact h1 rfl
    | cons c t => cases heq
  · rename_i t heq
    exfalso
    cases e with
    | nil => exact h1 rfl
    | cons c u =>
      rw [List.cons_append] at heq
      injection heq with hc _
      exact h2 (by simp [hc])
  · rename_i heq
    exfalso
    cases e with
    | nil => exact h1 rfl
    | cons c u =>
      rw [List.cons_append] at heq
      injection heq with hc hu
      subst hc
      cases u with
      | nil => exact h3 rfl
      | cons d w => cases hu
  · rename_i t heq
    exfalso
    cases e with
    | nil => exact h1 rfl
    | cons c u =>
      rw [List.cons_append] at heq
      injection heq with hc hu
      subst hc
      cases u with
      | nil => exact h3 rfl
      | cons d w =>
        rw [List.cons_append] at hu
        injection hu with hd _
        exact h2 (by simp [hd])
  · rename_i heq
    exfalso
    cases e with
    | nil => exact h1 rfl
    | cons c u =>
      rw [List.cons_append] at heq
      injection heq with hc hu
      subst hc
      cases u with
      | nil => exact h3 rfl
      | cons d w =>
        rw [List.cons_append] at hu
        injection hu with hd hw
        subst hd
        cases w with
        | nil => exact h4 rfl
        | cons x y => cases hw
  · rename_i t heq
    exfalso
    cases e with
    | nil => exact h1 rfl
    | cons c u =>
      rw [List.cons_append] at heq
      injection heq with hc hu
      subst hc
      cases u with
      | nil => exact h3 rfl
      | cons d w =>
        rw [List.cons_append] at hu
        injection hu with hd hw
        subst hd
        cases w with
        | nil => exact h4 rfl
        | cons x y =>
          rw [List.cons_append] at hw
          injection hw with hx _
          exact h2 (by simp [hx])
  · rename_i c t _ _ _ _ _ heq
    rw [← heq]
    dsimp only
    rw [hcopy]
    simp

theorem join_cons_cons (e e2 : Str) (r : List Str) (sep : Str) :
    Join (e :: e2 :: r) sep = e ++ sep ++ Join (e2 :: r) sep := by
  rw [Join]
  exact List.cons_ne_nil _ _

theorem join_append_single (es : List Str) (x sep : Str) (hes : es ≠ []) :
    Join (es ++ [x]) sep = Join es sep ++ sep ++ x := by
  induction es with
  | nil => exact absurd rfl hes
  | cons e r ih =>
    cases r with
    | nil => simp [Join]
    | cons e2 r2 =>
      rw [List.cons_append, List.cons_append, join_cons_cons, ← List.cons_append,
        ih (by simp), join_cons_cons]
      simp

theorem cleanLoop_join (es : List Str) (hes : es ≠ []) (hgood : ∀ e ∈ es, cleanElem e = true)
    (fuel : Nat) (out : Str) (dotdot : Nat) (hf : (Join es ['/']).length ≤ fuel) :
    path.cleanLoop true fuel (Join es ['/']) out dotdot
      = (Join es ['/']).reverse ++ (if out.length ≠ 1 then '/' :: out else out) := by
  induction es generalizing fuel out with
  | nil => exact absurd rfl hes
  | cons e r ih =>
    have he := hgood e (by simp)
    have hne : e ≠ [] := by
      have : e ≠ [] ∧ '/' ∉ e ∧ e ≠ ['.'] ∧ e ≠ ['.', '.'] := by simpa [cleanElem] using he
      exact this.1
    have hlen : 1 ≤ e.length := by
      cases e with
      | nil => exact absurd rfl hne
      | cons c t => simp
    cases r with
    | nil =>
      have hj : Join [e] ['/'] = e := by simp [Join]
      rw [hj] at hf ⊢
      obtain ⟨n, rfl⟩ : ∃ n, fuel = n + 1 := ⟨fuel - 1, by omega⟩
      have := cleanLoop_elem n e [] out dotdot he (Or.inl rfl)
      rw [List.append_nil] at this
      rw [this, cleanLoop_nil]
    | cons e2 r2 =>
      rw [join_cons_cons] at hf ⊢
      simp only [List.length_append, List.length_singleton] at hf
      obtain ⟨n, rfl⟩ : ∃ n, fuel = n + 2 := ⟨fuel - 2, by omega⟩
      have h1 := cleanLoop_elem (n + 1) e ('/' :: Join (e2 :: r2) ['/']) out dotdot he
        (Or.inr ⟨_, rfl⟩)
      rw [show e ++ ['/'] ++ Join (e2 :: r2) ['/'] = e ++ '/' :: Join (e2 :: r2) ['/'] by simp,
        h1, cleanLoop_slash,
        ih (by simp) (fun x hx => hgood x (List.mem_cons_of_mem _ hx)) n _ (by omega)]
      have hl : (e.reverse ++ if out.length ≠ 1 then '/' :: out else out).length ≠ 1 := by
        rw [List.length_append, List.length_reverse]
        split <;> simp <;> omega
      rw [if_pos hl]
      simp

/-- `path.Clean` leaves a rooted path of clean elements as it is. -/
theorem clean_rooted (es : List Str) (hes : es ≠ []) (hgood : ∀ e ∈ es, cleanElem e = true) :
    path.Clean ('/' :: Join es ['/']) = '/' :: Join es ['/'] := by
  unfold path.Clean
  dsimp only
  rw [if_pos rfl, cleanLoop_join es hes hgood _ _ _ (by simp)]
  simp

theorem cleanPath_of_clean (p : Str) (hclean : path.Clean ('/' :: p) = '/' :: p)
    (hlast : ('/' :: p).getLast? ≠ some '/') : cleanPath ('/' :: p) = '/' :: p := by
  have h1 : ¬ ('/' :: p = []) := List.cons_ne_nil _ _
  have h2 : ¬ (('/' :: p).head? ≠ some '/') := by simp
  unfold cleanPath
  simp only [h1, h2, if_false, hclean]
  rw [if_neg (fun h => hlast h.1)]

/-- The request paths of the client are clean. -/
theorem cleanPath_request (ep ev ext : Str) (hep : IsCleanRel ep) (hev : '/' ∉ ev)
    (hext : ext = extInfo ∨ ext = extMod ∨ ext = extZip) :
    cleanPath ('/' :: ep ++ ['/', '@', 'v', '/'] ++ ev ++ ext)
      = '/' :: ep ++ ['/', '@', 'v', '/'] ++ ev ++ ext := by
  obtain ⟨es, hes, hgood, rfl⟩ := hep
  have hlen : 4 ≤ ext.length := by
    rcases hext with h | h | h <;> subst h <;> simp [extInfo, extMod, extZip]
  have hslash : '/' ∉ ext := by
    rcases hext with h | h | h <;> subst h <;> simp [extInfo, extMod, extZip]
  have hvx : cleanElem (ev ++ ext) = true := by
    have h1 : ev ++ ext ≠ [] := by
      intro h
      have := congrArg List.length h
      rw [List.length_append] at this
      simp only [List.length_nil, List.length_cons] at this
      omega
    have h2 : '/' ∉ ev ++ ext := by simp [hev, hslash]
    have h3 : ev ++ ext ≠ ['.'] := by
      intro h
      have := congrArg List.length h
      rw [List.length_append] at this
      simp only [List.length_nil, List.length_cons] at this
      omega
    have h4 : ev ++ ext ≠ ['.', '.'] := by
      intro h
      have := congrArg List.length h
      rw [List.length_append] at this
      simp only [List.length_nil, List.length_cons] at this
      omega
    simp only [cleanElem, decide_eq_true_eq]
    exact ⟨h1, h2, h3, h4⟩
  have hpath : '/' :: Join es ['/'] ++ ['/', '@', 'v', '/'] ++ ev ++ ext
      = '/' :: Join (es ++ [['@', 'v']] ++ [ev ++ ext]) ['/'] := by
    rw [join_append_single _ _ _ (by simp), join_append_single _ _ _ hes]
    simp
  rw [hpath]
  apply cleanPath_of_clean
  · apply clean_rooted _ (by simp)
    intro e he
    rcases List.mem_append.mp he with he | he
    · rcases List.mem_append.mp he with he | he
      · exact hgood e he
      · have : e = ['@', 'v'] := by simpa using he
        rw [this]; decide
    · have : e = ev ++ ext := by simpa using he
      rw [this]; exact hvx
  · rw [← hpath]
    intro h
    have := (hasSuffix_slash_iff _).mpr h
    rw [hasSuffix_slash_ext _ _ hext] at this
    cases this

/-- The module library of the fixtures satisfies the laws. -/
theorem fixture_moduleLaws : ModuleLaws fixture.moduleLib where
  escapePath_of_check := by
    intro p v h
    by_cases hp : p = fixture.awesome
    · exact ⟨p, by simp [fixture.moduleLib, hp]⟩
    · simp [fixture.moduleLib, hp] at h
  escapeVersion_of_check := by
    intro p v h
    by_cases hv : v = fixture.v100 ∨ v = fixture.v1
    · refine ⟨v, ?_⟩
      have : '/' ∉ v := by
        rcases hv with h | h <;> subst h <;> decide
      simp [fixture.moduleLib, this]
    · simp [fixture.moduleLib, hv] at h
  unescapePath_escapePath := by
    intro p ep h
    by_cases hp : p = fixture.awesome
    · simp only [fixture.moduleLib, hp, if_true, Except.ok.injEq] at h
      subst h
      simp [fixture.moduleLib, hp]
    · simp [fixture.moduleLib, hp] at h
  unescapeVersion_escapeVersion := by
    intro v ev h
    by_cases hv : '/' ∈ v
    · simp [fixture.moduleLib, hv] at h
    · simp only [fixture.moduleLib, hv, if_false, Except.ok.injEq] at h
      subst h
      simp [fixture.moduleLib, hv]
  escapePath_clean := by
    intro p ep h
    by_cases hp : p = fixture.awesome
    · simp only [fixture.moduleLib, hp, if_true, Except.ok.injEq] at h
      subst h
      exact ⟨⟨["octocat.github.io".toList, "awesome".toList], by decide, by decide, by decide⟩,
        by decide⟩
    · simp [fixture.moduleLib, hp] at h
  escapeVersion_noSlash := by
    intro v ev h
    by_cases hv : '/' ∈ v
    · simp [fixture.moduleLib, hv] at h
    · simp only [fixture.moduleLib, hv, if_false, Except.ok.injEq] at h
      subst h
      exact hv
  check_not_keyword := by
    intro p v h
    by_cases hv : v = fixture.v100 ∨ v = fixture.v1
    · rcases hv with h | h <;> subst h <;> decide
    · simp [fixture.moduleLib, hv] at h

/-! ## The collision index -/

theorem lookup_cons_of_none (cc : zip.collisionChecker) (k key : Str) (info v : zip.pathInfo)
    (hnone : cc.lookup key = none) (hk : cc.lookup k = some v) :
    List.lookup k ((key, info) :: cc) = some v := by
  have hne : k ≠ key := by
    intro h; rw [h, hnone] at hk; cases hk
  have hbeq : (k == key) = false := by simpa using hne
  rw [List.lookup_cons, hbeq]
  exact hk

theorem lookup_cons_self (cc : zip.collisionChecker) (key : Str) (info : zip.pathInfo) :
    List.lookup key ((key, info) :: cc) = some info := by
  rw [List.lookup_cons]
  simp

/-- A call of `check` never changes or removes a binding of the index. -/
theorem check_lookup_mono (U : zip.UnicodeLib) (fuel : Nat) (cc cc2 : zip.collisionChecker)
    (p : Str) (isDir : Bool) (e : Option zip.EntryError)
    (h : zip.collisionChecker.check U fuel cc p isDir = some (e, cc2))
    (k : Str) (v : zip.pathInfo) (hk : cc.lookup k = some v) : cc2.lookup k = some v := by
  induction fuel generalizing cc p isDir with
  | zero => simp [zip.collisionChecker.check] at h
  | succ n ih =>
    unfold zip.collisionChecker.check at h
    dsimp only at h
    split at h
    · split at h
      · cases h; exact hk
      · split at h
        · cases h; exact hk
        · split at h
          · cases h; exact hk
          · split at h
            · exact ih cc _ _ h hk
            · cases h; exact hk
    · rename_i hnone
      split at h
      · exact ih _ _ _ h (lookup_cons_of_none cc k _ _ v hnone hk)
      · cases h
        exact lookup_cons_of_none cc k _ _ v hnone hk

/-- After a call of `check` the folded form of the path is bound. -/
theorem check_key_bound (U : zip.UnicodeLib) (fuel : Nat) (cc cc2 : zip.collisionChecker)
    (p : Str) (isDir : Bool) (e : Option zip.EntryError)
    (h : zip.collisionChecker.check U fuel cc p isDir = some (e, cc2)) :
    ∃ v, cc2.lookup (zip.strToFold U p) = some v := by
  cases fuel with
  | zero => simp [zip.collisionChecker.check] at h
  | succ n =>
    unfold zip.collisionChecker.check at h
    dsimp only at h
    split at h
    · rename_i other hsome
      split at h
      · cases h; exact ⟨_, hsome⟩
      · split at h
        · cases h; exact ⟨_, hsome⟩
        · split at h
          · cases h; exact ⟨_, hsome⟩
          · split at h
            · exact ⟨_, check_lookup_mono U n cc cc2 _ _ e h _ _ hsome⟩
            · cases h; exact ⟨_, hsome⟩
    · split at h
      · exact ⟨_, check_lookup_mono U n _ cc2 _ _ e h _ _ (lookup_cons_self _ _ _)⟩
      · cases h
        exact ⟨_, lookup_cons_self _ _ _⟩

/-- A file accepted by `check` is bound to itself, as a file. -/
theorem check_ok_file (U : zip.UnicodeLib) (fuel : Nat) (cc cc2 : zip.collisionChecker)
    (p : Str) (h : zip.collisionChecker.check U fuel cc p false = some (none, cc2)) :
    cc2.lookup (zip.strToFold U p) = some { path := p, isDir := false } := by
  cases fuel with
  | zero => simp [zip.collisionChecker.check] at h
  | succ n =>
    unfold zip.collisionChecker.check at h
    dsimp only at h
    split at h
    · split at h
      · cases h
      · split at h
        · cases h
        · split at h
          · cases h
          · rename_i hd; simp at hd
    · split at h
      · exact check_lookup_mono U n _ cc2 _ _ none h _ _ (lookup_cons_self _ _ _)
      · cases h
        exact lookup_cons_self _ _ _

/-- A file whose folded form is already bound is refused by `check`, with a
case collision error when the bound path is a different string. -/
theorem check_bound_file (U : zip.UnicodeLib) (fuel : Nat) (cc : zip.collisionChecker)
    (p : Str) (other : zip.pathInfo) (hb : cc.lookup (zip.strToFold U p) = some other) :
    (∃ err, zip.collisionChecker.check U (fuel + 1) cc p false = some (some err, cc))
    ∧ (p ≠ other.path → zip.collisionChecker.check U (fuel + 1) cc p false
        = some (some (zip.EntryError.caseCollision other.path p), cc)) := by
  unfold zip.collisionChecker.check
  dsimp only
  rw [hb]
  dsimp only
  by_cases h1 : p ≠ other.path
  · rw [if_pos h1]
    exact ⟨⟨_, rfl⟩, fun _ => rfl⟩
  · rw [if_neg h1]
    refine ⟨?_, fun h => absurd h h1⟩
    by_cases h2 : false ≠ other.isDir
    · rw [if_pos h2]; exact ⟨_, rfl⟩
    · rw [if_neg h2]
      simp

/-! ## The entry loop of `checkZip` -/

theorem checkFile_collisions (U : zip.UnicodeLib) (L : zip.Limits) (st : zip.CheckState)
    (zf : zip.ZipFile) (name : Str) :
    (zip.checkFile U L st zf name).collisions = st.collisions := by
  unfold zip.checkFile zip.CheckState.account zip.CheckState.addError
  dsimp only
  repeat' split
  all_goals rfl

theorem checkFile_invalid (U : zip.UnicodeLib) (L : zip.Limits) (st : zip.CheckState)
    (zf : zip.ZipFile) (name : Str) :
    ∃ l, (zip.checkFile U L st zf name).cf.Invalid = st.cf.Invalid ++ l := by
  unfold zip.checkFile zip.CheckState.account zip.CheckState.addError
  dsimp only
  repeat' split
  all_goals first | exact ⟨[], (List.append_nil _).symm⟩ | exact ⟨_, rfl⟩

theorem checkFile_valid (U : zip.UnicodeLib) (L : zip.Limits) (st : zip.CheckState)
    (zf : zip.ZipFile) (name : Str) :
    (zip.checkFile U L st zf name).cf.Valid = st.cf.Valid
    ∨ (zip.checkFile U L st zf name).cf.Valid = st.cf.Valid ++ [zf.Name] := by
  unfold zip.checkFile zip.CheckState.account zip.CheckState.addError
  dsimp only
  repeat' split
  all_goals first | exact Or.inl rfl | exact Or.inr rfl

theorem addError_invalid (st : zip.CheckState) (zf : zip.ZipFile) (err : zip.EntryError) :
    (st.addError zf err).cf.Invalid = st.cf.Invalid ++ [{ Path := zf.Name, Err := err }] := rfl

/-- What one iteration of the loop does to the three result lists and to the
index: `Invalid` and the index only grow, and `Valid` grows by the entry name
only for a file that passed every check of the path. -/
theorem checkEntry_step (M : ModuleLib) (U : zip.UnicodeLib) (L : zip.Limits) (pfx : Str)
    (st st1 : zip.CheckState) (zf : zip.ZipFile)
    (h : zip.checkEntry M U L pfx st zf = some st1) :
    (∃ l, st1.cf.Invalid = st.cf.Invalid ++ l)
    ∧ (∀ k v, st.collisions.lookup k = some v → st1.collisions.lookup k = some v)
    ∧ (st1.cf.Valid = st.cf.Valid
        ∨ (st1.cf.Valid = st.cf.Valid ++ [zf.Name]
            ∧ HasPrefix zf.Name pfx = true
            ∧ zf.Name.drop pfx.length ≠ []
            ∧ zip.entryIsDir pfx zf = false
            ∧ path.Clean (zip.entryName pfx zf) = zip.entryName pfx zf
            ∧ M.CheckFilePath (zip.entryName pfx zf) = none
            ∧ zip.collisionChecker.check U ((zip.entryName pfx zf).length + 1) st.collisions
                (zip.entryName pfx zf) false = some (none, st1.collisions))) := by
  unfold zip.checkEntry at h
  split at h
  · cases h
    exact ⟨⟨_, rfl⟩, fun _ _ hk => hk, Or.inl rfl⟩
  · rename_i hpre
    split at h
    · cases h
      exact ⟨⟨[], (List.append_nil _).symm⟩, fun _ _ hk => hk, Or.inl rfl⟩
    · rename_i hne
      dsimp only at h
      split at h
      · cases h
        exact ⟨⟨_, rfl⟩, fun _ _ hk => hk, Or.inl rfl⟩
      · rename_i hclean
        split at h
        · cases h
          exact ⟨⟨_, rfl⟩, fun _ _ hk => hk, Or.inl rfl⟩
        · rename_i hfp
          split at h
          · cases h
          · rename_i err cc hchk
            cases h
            exact ⟨⟨_, rfl⟩,
              fun k v hk => check_lookup_mono U _ _ _ _ _ _ hchk k v hk, Or.inl rfl⟩
          · rename_i cc hchk
            split at h
            · cases h
              exact ⟨⟨[], (List.append_nil _).symm⟩,
                fun k v hk => check_lookup_mono U _ _ _ _ _ _ hchk k v hk, Or.inl rfl⟩
            · rename_i hdir
              cases h
              have hd : zip.entryIsDir pfx zf = false := by simpa using hdir
              refine ⟨checkFile_invalid U L _ zf _, ?_, ?_⟩
              · intro k v hk
                rw [checkFile_collisions]
                exact check_lookup_mono U _ _ _ _ _ _ hchk k v hk
              · rcases checkFile_valid U L { st with collisions := cc } zf
                  (zip.entryName pfx zf) with hv | hv
                · exact Or.inl hv
                · refine Or.inr ⟨hv, by simpa using hpre, hne, hd, by simpa using hclean, hfp, ?_⟩
                  rw [checkFile_collisions, ← hd]
                  exact hchk

theorem checkEntry_noPrefix (M : ModuleLib) (U : zip.UnicodeLib) (L : zip.Limits) (pfx : Str)
    (st : zip.CheckState) (zf : zip.ZipFile) (h : HasPrefix zf.Name pfx = false) :
    zip.checkEntry M U L pfx st zf = some (st.addError zf (zip.EntryError.noPrefix pfx)) := by
  unfold zip.checkEntry
  rw [if_pos (by simp [h])]

/-- An iteration returns when the file paths accepted by `module.CheckFilePath`
are relative. -/
theorem checkEntry_returns (M : ModuleLib) (U : zip.UnicodeLib) (L : zip.Limits) (pfx : Str)
    (st : zip.CheckState) (zf : zip.ZipFile)
    (hrel : ∀ p, M.CheckFilePath p = none → p.head? ≠ some '/') :
    ∃ st1, zip.checkEntry M U L pfx st zf = some st1 := by
  unfold zip.checkEntry
  split
  · exact ⟨_, rfl⟩
  · split
    · exact ⟨_, rfl⟩
    · dsimp only
      split
      · exact ⟨_, rfl⟩
      · split
        · exact ⟨_, rfl⟩
        · rename_i hfp
          obtain ⟨res, hres⟩ := check_returns U ((zip.entryName pfx zf).length + 1)
            st.collisions (zip.entryName pfx zf) (zip.entryIsDir pfx zf) (hrel _ hfp)
            (Nat.lt_succ_self _)
          rw [hres]
          rcases res with ⟨_ | err, cc⟩
          · dsimp only
            split <;> exact ⟨_, rfl⟩
          · exact ⟨_, rfl⟩

theorem checkEntries_returns (M : ModuleLib) (U : zip.UnicodeLib) (L : zip.Limits) (pfx : Str)
    (st : zip.CheckState) (files : List zip.ZipFile)
    (hrel : ∀ p, M.CheckFilePath p = none → p.head? ≠ some '/') :
    ∃ st1, zip.checkEntries M U L pfx st files = some st1 := by
  induction files generalizing st with
  | nil => exact ⟨st, rfl⟩
  | cons zf rest ih =>
    obtain ⟨st1, h1⟩ := checkEntry_returns M U L pfx st zf hrel
    unfold zip.checkEntries
    rw [h1]
    exact ih st1

theorem checkEntries_append (M : ModuleLib) (U : zip.UnicodeLib) (L : zip.Limits) (pfx : Str)
    (st : zip.CheckState) (a b : List zip.ZipFile) :
    zip.checkEntries M U L pfx st (a ++ b)
      = (zip.checkEntries M U L pfx st a).bind fun st1 => zip.checkEntries M U L pfx st1 b := by
  induction a generalizing st with
  | nil => rfl
  | cons zf rest ih =>
    rw [List.cons_append, zip.checkEntries, zip.checkEntries]
    cases zip.checkEntry M U L pfx st zf with
    | none => rfl
    | some st1 => exact ih st1

/-- Over the whole loop `Invalid` and the index only grow. -/
theorem checkEntries_mono (M : ModuleLib) (U : zip.UnicodeLib) (L : zip.Limits) (pfx : Str)
    (st st1 : zip.CheckState) (files : List zip.ZipFile)
    (h : zip.checkEntries M U L pfx st files = some st1) :
    (∃ l, st1.cf.Invalid = st.cf.Invalid ++ l)
    ∧ (∀ k v, st.collisions.lookup k = some v → st1.collisions.lookup k = some v) := by
  induction files generalizing st with
  | nil =>
    cases h
    exact ⟨⟨[], (List.append_nil _).symm⟩, fun _ _ hk => hk⟩
  | cons zf rest ih =>
    unfold zip.checkEntries at h
    cases hs : zip.checkEntry M U L pfx st zf with
    | none => rw [hs] at h; cases h
    | some st2 =>
      rw [hs] at h
      obtain ⟨⟨l1, hl1⟩, hm1, -⟩ := checkEntry_step M U L pfx st st2 zf hs
      obtain ⟨⟨l2, hl2⟩, hm2⟩ := ih st2 h
      exact ⟨⟨l1 ++ l2, by rw [hl2, hl1, List.append_assoc]⟩,
        fun k v hk => hm2 k v (hm1 k v hk)⟩

theorem hasPrefix_append (pre s : Str) : HasPrefix (pre ++ s) pre = true := by
  unfold HasPrefix
  exact List.isPrefixOf_iff_prefix.mpr (List.prefix_append _ _)

theorem eq_append_of_hasPrefix (s pre : Str) (h : HasPrefix s pre = true) :
    s = pre ++ s.drop pre.length := by
  obtain ⟨t, ht⟩ := List.isPrefixOf_iff_prefix.mp h
  rw [← ht]
  simp

/-- The loop variables for an entry `pfx ++ n` that names a file. -/
theorem entry_static (pfx n : Str) (zf : zip.ZipFile) (hname : zf.Name = pfx ++ n)
    (hlast : n.getLast? ≠ some '/') :
    HasPrefix zf.Name pfx = true ∧ zf.Name.drop pfx.length = n
      ∧ zip.entryIsDir pfx zf = false ∧ zip.entryName pfx zf = n := by
  have hdrop : zf.Name.drop pfx.length = n := by rw [hname]; simp
  have hdir : zip.entryIsDir pfx zf = false := by
    unfold zip.entryIsDir
    rw [hdrop]
    cases h : HasSuffix n ['/'] with
    | false => rfl
    | true => exact absurd ((hasSuffix_slash_iff n).mp h) hlast
  refine ⟨by rw [hname]; exact hasPrefix_append _ _, hdrop, hdir, ?_⟩
  unfold zip.entryName
  dsimp only
  rw [hdir, hdrop]
  simp

/-- The iteration for a file entry that passes the checks of its path. -/
theorem checkEntry_static (M : ModuleLib) (U : zip.UnicodeLib) (L : zip.Limits) (pfx n : Str)
    (st : zip.CheckState) (zf : zip.ZipFile) (hname : zf.Name = pfx ++ n) (hne : n ≠ [])
    (hlast : n.getLast? ≠ some '/') (hclean : path.Clean n = n)
    (hfp : M.CheckFilePath n = none) :
    zip.checkEntry M U L pfx st zf =
      match zip.collisionChecker.check U (n.length + 1) st.collisions n false with
      | none => none
      | some (some err, cc) => some ({ st with collisions := cc }.addError zf err)
      | some (none, cc) => some (zip.checkFile U L { st with collisions := cc } zf n) := by
  obtain ⟨h1, h2, h3, h4⟩ := entry_static pfx n zf hname hlast
  unfold zip.checkEntry
  rw [if_neg (not_not.mpr h1), h2, if_neg hne]
  dsimp only
  rw [h4, h3, if_neg (not_not.mpr hclean), hfp]
  dsimp only
  cases zip.collisionChecker.check U (n.length + 1) st.collisions n false with
  | none => rfl
  | some res =>
    rcases res with ⟨_ | err, cc⟩
    · simp
    · rfl

/-- The shape of every name in `Valid`. -/
theorem checkEntries_valid (M : ModuleLib) (U : zip.UnicodeLib) (L : zip.Limits) (pfx : Str)
    (st st1 : zip.CheckState) (files : List zip.ZipFile)
    (h : zip.checkEntries M U L pfx st files = some st1) (P : Str → Prop)
    (hP : ∀ rel, rel ≠ [] → rel.getLast? ≠ some '/' → path.Clean rel = rel →
      M.CheckFilePath rel = none → P (pfx ++ rel))
    (h0 : ∀ n ∈ st.cf.Valid, P n) : ∀ n ∈ st1.cf.Valid, P n := by
  induction files generalizing st with
  | nil => cases h; exact h0
  | cons zf rest ih =>
    unfold zip.checkEntries at h
    cases hs : zip.checkEntry M U L pfx st zf with
    | none => rw [hs] at h; cases h
    | some st2 =>
      rw [hs] at h
      apply ih st2 h
      obtain ⟨-, -, hv⟩ := checkEntry_step M U L pfx st st2 zf hs
      rcases hv with hv | ⟨hv, hpre, hne, hdir, hclean, hfp, -⟩
      · rw [hv]; exact h0
      · intro n hn
        rw [hv] at hn
        rcases List.mem_append.mp hn with hn | hn
        · exact h0 n hn
        · have hn' : n = zf.Name := by simpa using hn
          have hname : zip.entryName pfx zf = zf.Name.drop pfx.length := by
            unfold zip.entryName
            dsimp only
            rw [hdir]
            simp
          rw [hname] at hclean hfp
          rw [hn', eq_append_of_hasPrefix _ _ hpre]
          apply hP _ hne _ hclean hfp
          intro hl
          have := (hasSuffix_slash_iff _).mpr hl
          unfold zip.entryIsDir at hdir
          rw [hdir] at this
          cases this

/-- Every entry without the prefix is in `Invalid`. -/
theorem checkEntries_noPrefix (M : ModuleLib) (U : zip.UnicodeLib) (L : zip.Limits) (pfx : Str)
    (st st1 : zip.CheckState) (files : List zip.ZipFile)
    (h : zip.checkEntries M U L pfx st files = some st1) (zf : zip.ZipFile) (hzf : zf ∈ files)
    (hpre : HasPrefix zf.Name pfx = false) :
    ({ Path := zf.Name, Err := zip.EntryError.noPrefix pfx } : zip.FileError) ∈ st1.cf.Invalid := by
  induction files generalizing st with
  | nil => cases hzf
  | cons e rest ih =>
    unfold zip.checkEntries at h
    cases hs : zip.checkEntry M U L pfx st e with
    | none => rw [hs] at h; cases h
    | some st2 =>
      rw [hs] at h
      rcases List.mem_cons.mp hzf with he | he
      · subst he
        rw [checkEntry_noPrefix M U L pfx st zf hpre] at hs
        cases hs
        obtain ⟨⟨l, hl⟩, -⟩ := checkEntries_mono M U L pfx _ st1 rest h
        rw [hl, addError_invalid]
        simp
      · exact ih st2 h he

/-- The steps of `checkZip` before the entry loop. -/
theorem checkZip_loop (M : ModuleLib) (U : zip.UnicodeLib) (L : zip.Limits) (m : module.Version)
    (f : zip.ZipSource) (files : List zip.ZipFile) (cf : zip.CheckedFiles)
    (err : Option zip.CheckError)
    (h : zip.checkZip M U L m f = some (some files, cf, err)) :
    ∃ st, zip.checkEntries M U L (zip.entryPrefix m) zip.CheckState.init files = some st
      ∧ cf = st.cf ∧ err = st.cf.Err := by
  unfold zip.checkZip at h
  split at h
  · cases h
  · split at h
    · cases h
    · split at h
      · cases h
      · split at h
        · cases h
        · split at h
          · cases h
          · rename_i z hz
            split at h
            · cases h
            · rename_i st hst
              cases h
              exact ⟨st, hst, rfl, rfl⟩

theorem checkZip_returns (M : ModuleLib) (U : zip.UnicodeLib) (L : zip.Limits) (m : module.Version)
    (f : zip.ZipSource) (hrel : ∀ p, M.CheckFilePath p = none → p.head? ≠ some '/') :
    ∃ res, zip.checkZip M U L m f = some res := by
  unfold zip.checkZip
  split
  · exact ⟨_, rfl⟩
  · split
    · exact ⟨_, rfl⟩
    · split
      · exact ⟨_, rfl⟩
      · split
        · exact ⟨_, rfl⟩
        · split
          · exact ⟨_, rfl⟩
          · rename_i z hz
            obtain ⟨st, hst⟩ := checkEntries_returns M U L (zip.entryPrefix m)
              zip.CheckState.init z hrel
            rw [hst]
            exact ⟨_, rfl⟩

/-- The names in `Valid` are bound to themselves, as files, in the index. -/
theorem checkEntries_valid_bound (M : ModuleLib) (U : zip.UnicodeLib) (L : zip.Limits)
    (pfx : Str) (st st1 : zip.CheckState) (files : List zip.ZipFile)
    (h : zip.checkEntries M U L pfx st files = some st1)
    (h0 : ∀ rel, pfx ++ rel ∈ st.cf.Valid →
      st.collisions.lookup (zip.strToFold U rel) = some { path := rel, isDir := false }) :
    ∀ rel, pfx ++ rel ∈ st1.cf.Valid →
      st1.collisions.lookup (zip.strToFold U rel) = some { path := rel, isDir := false } := by
  induction files generalizing st with
  | nil => cases h; exact h0
  | cons zf rest ih =>
    unfold zip.checkEntries at h
    cases hs : zip.checkEntry M U L pfx st zf with
    | none => rw [hs] at h; cases h
    | some st2 =>
      rw [hs] at h
      apply ih st2 h
      obtain ⟨-, hmono, hv⟩ := checkEntry_step M U L pfx st st2 zf hs
      intro rel hrel
      rcases hv with hv | ⟨hv, hpre, hne, hdir, hclean, hfp, hchk⟩
      · rw [hv] at hrel
        exact hmono _ _ (h0 rel hrel)
      · rw [hv] at hrel
        rcases List.mem_append.mp hrel with hrel | hrel
        · exact hmono _ _ (h0 rel hrel)
        · have hn : pfx ++ rel = zf.Name := by simpa using hrel
          have hname : zip.entryName pfx zf = rel := by
            unfold zip.entryName
            dsimp only
            rw [hdir, ← hn]
            simp
          rw [hname] at hchk
          exact check_ok_file U _ _ _ rel hchk

/-- Once the folded form of `n` is bound and `pfx ++ n` is not in `Valid`, it
never enters `Valid`. -/
theorem checkEntries_never_valid (M : ModuleLib) (U : zip.UnicodeLib) (L : zip.Limits)
    (pfx n : Str) (st st1 : zip.CheckState) (files : List zip.ZipFile)
    (h : zip.checkEntries M U L pfx st files = some st1)
    (hv0 : pfx ++ n ∉ st.cf.Valid)
    (hb0 : ∃ v, st.collisions.lookup (zip.strToFold U n) = some v) :
    pfx ++ n ∉ st1.cf.Valid := by
  induction files generalizing st with
  | nil => cases h; exact hv0
  | cons zf rest ih =>
    unfold zip.checkEntries at h
    cases hs : zip.checkEntry M U L pfx st zf with
    | none => rw [hs] at h; cases h
    | some st2 =>
      rw [hs] at h
      obtain ⟨-, hmono, hv⟩ := checkEntry_step M U L pfx st st2 zf hs
      obtain ⟨v, hb⟩ := hb0
      refine ih st2 h ?_ ⟨v, hmono _ _ hb⟩
      rcases hv with hv | ⟨hv, hpre, hne, hdir, hclean, hfp, hchk⟩
      · rw [hv]; exact hv0
      · rw [hv]
        intro hmem
        rcases List.mem_append.mp hmem with hmem | hmem
        · exact hv0 hmem
        · have hn : pfx ++ n = zf.Name := by simpa using hmem
          have hname : zip.entryName pfx zf = n := by
            unfold zip.entryName
            dsimp only
            rw [hdir, ← hn]
            simp
          rw [hname] at hchk
          obtain ⟨⟨err, herr⟩, -⟩ := check_bound_file U n.length st.collisions n v hb
          rw [herr] at hchk
          cases hchk

/-! ## The error returned by `checkZip` -/

/-- `CheckedFiles.Err` is not nil exactly when there is an invalid entry or a
size error. -/
theorem err_ne_none_iff (cf : zip.CheckedFiles) :
    cf.Err ≠ none ↔ (cf.Invalid ≠ [] ∨ cf.SizeError ≠ none) := by
  unfold zip.CheckedFiles.Err
  cases hs : cf.SizeError with
  | some e => simp
  | none =>
    dsimp only
    by_cases hi : cf.Invalid = []
    · rw [if_neg (not_not.mpr hi)]
      simp [hi]
    · rw [if_pos hi]
      simp [hi]

/-- The three ways in which `checkZip` returns: without a reader, an empty
report and an error of the version, of `module.Check`, of `Stat` or of
`zip.NewReader`; without a reader and with the size error of the archive file;
with a reader, and then the error is `cf.Err()`. -/
theorem checkZip_cases (M : ModuleLib) (U : zip.UnicodeLib) (L : zip.Limits) (m : module.Version)
    (f : zip.ZipSource) (z : Option (List zip.ZipFile)) (cf : zip.CheckedFiles)
    (err : Option zip.CheckError) (h : zip.checkZip M U L m f = some (z, cf, err)) :
    (z = none ∧ cf = zip.CheckedFiles.empty
      ∧ (err = some (zip.CheckError.notCanonical m.Version (M.CanonicalVersion m.Version))
          ∨ ∃ e, err = some (zip.CheckError.lib e)))
    ∨ (z = none ∧ (∃ e, cf.SizeError = some e) ∧ err = cf.Err)
    ∨ ((∃ files, z = some files) ∧ err = cf.Err) := by
  unfold zip.checkZip at h
  split at h
  · cases h
    exact Or.inl ⟨rfl, rfl, Or.inl rfl⟩
  · split at h
    · cases h
      exact Or.inl ⟨rfl, rfl, Or.inr ⟨_, rfl⟩⟩
    · split at h
      · cases h
        exact Or.inl ⟨rfl, rfl, Or.inr ⟨_, rfl⟩⟩
      · split at h
        · cases h
          exact Or.inr (Or.inl ⟨rfl, ⟨_, rfl⟩, rfl⟩)
        · split at h
          · cases h
            exact Or.inl ⟨rfl, rfl, Or.inr ⟨_, rfl⟩⟩
          · split at h
            · cases h
            · cases h
              exact Or.inr (Or.inr ⟨⟨_, rfl⟩, rfl⟩)

/-- An invalid entry or a size error in the report of `checkZip` comes with an
error. -/
theorem checkZip_err_of_bad (M : ModuleLib) (U : zip.UnicodeLib) (L : zip.Limits)
    (m : module.Version) (f : zip.ZipSource) (z : Option (List zip.ZipFile))
    (cf : zip.CheckedFiles) (err : Option zip.CheckError)
    (h : zip.checkZip M U L m f = some (z, cf, err))
    (hbad : cf.Invalid ≠ [] ∨ cf.SizeError ≠ none) : ∃ e, err = some e := by
  have hne : err ≠ none := by
    rcases checkZip_cases M U L m f z cf err h with ⟨-, hcf, -⟩ | ⟨-, -, he⟩ | ⟨-, he⟩
    · subst hcf
      rcases hbad with hb | hb <;> exact absurd rfl hb
    · rw [he]; exact (err_ne_none_iff cf).mpr hbad
    · rw [he]; exact (err_ne_none_iff cf).mpr hbad
  cases err with
  | none => exact absurd rfl hne
  | some e => exact ⟨e, rfl⟩

/-! ## One iteration of the entry loop, case by case -/

/-- Every way in which one iteration of the loop of `checkZip` ends: with an
error of the prefix, of `path.Clean` or of `module.CheckFilePath`; at once for
the entry of the module root; or after the call of `collisions.check`, with
its error, or as a directory, or in the checks for a file. -/
theorem checkEntry_cases (M : ModuleLib) (U : zip.UnicodeLib) (L : zip.Limits) (pfx : Str)
    (st st1 : zip.CheckState) (zf : zip.ZipFile)
    (h : zip.checkEntry M U L pfx st zf = some st1) :
    (HasPrefix zf.Name pfx = false ∧ st1 = st.addError zf (zip.EntryError.noPrefix pfx))
    ∨ (HasPrefix zf.Name pfx = true ∧ zf.Name.drop pfx.length = [] ∧ st1 = st)
    ∨ (HasPrefix zf.Name pfx = true ∧ zf.Name.drop pfx.length ≠ []
        ∧ path.Clean (zip.entryName pfx zf) ≠ zip.entryName pfx zf
        ∧ st1 = st.addError zf zip.EntryError.pathNotClean)
    ∨ (HasPrefix zf.Name pfx = true ∧ zf.Name.drop pfx.length ≠ []
        ∧ path.Clean (zip.entryName pfx zf) = zip.entryName pfx zf
        ∧ ∃ err, M.CheckFilePath (zip.entryName pfx zf) = some err
          ∧ st1 = st.addError zf (zip.EntryError.filePath err))
    ∨ (HasPrefix zf.Name pfx = true ∧ zf.Name.drop pfx.length ≠ []
        ∧ path.Clean (zip.entryName pfx zf) = zip.entryName pfx zf
        ∧ M.CheckFilePath (zip.entryName pfx zf) = none
        ∧ ∃ res cc, zip.collisionChecker.check U ((zip.entryName pfx zf).length + 1)
              st.collisions (zip.entryName pfx zf) (zip.entryIsDir pfx zf) = some (res, cc)
          ∧ ((∃ err, res = some err
                ∧ st1 = ({ st with collisions := cc } : zip.CheckState).addError zf err)
            ∨ (res = none ∧ zip.entryIsDir pfx zf = true ∧ st1 = { st with collisions := cc })
            ∨ (res = none ∧ zip.entryIsDir pfx zf = false
                ∧ st1 = zip.checkFile U L { st with collisions := cc } zf
                    (zip.entryName pfx zf)))) := by
  unfold zip.checkEntry at h
  split at h
  · rename_i hpre
    cases h
    exact Or.inl ⟨by simpa using hpre, rfl⟩
  · rename_i hpre
    have hpre' : HasPrefix zf.Name pfx = true := by simpa using hpre
    split at h
    · rename_i hnil
      cases h
      exact Or.inr (Or.inl ⟨hpre', hnil, rfl⟩)
    · rename_i hne
      dsimp only at h
      split at h
      · rename_i hclean
        cases h
        exact Or.inr (Or.inr (Or.inl ⟨hpre', hne, hclean, rfl⟩))
      · rename_i hclean
        have hclean' : path.Clean (zip.entryName pfx zf) = zip.entryName pfx zf := by
          simpa using hclean
        split at h
        · rename_i err herr
          cases h
          exact Or.inr (Or.inr (Or.inr (Or.inl ⟨hpre', hne, hclean', err, herr, rfl⟩)))
        · rename_i hfp
          refine Or.inr (Or.inr (Or.inr (Or.inr ⟨hpre', hne, hclean', hfp, ?_⟩)))
          split at h
          · cases h
          · rename_i err cc hchk
            cases h
            exact ⟨_, _, hchk, Or.inl ⟨err, rfl, rfl⟩⟩
          · rename_i cc hchk
            split at h
            · rename_i hdir
              cases h
              exact ⟨_, _, hchk, Or.inr (Or.inl ⟨rfl, hdir, rfl⟩)⟩
            · rename_i hdir
              cases h
              exact ⟨_, _, hchk, Or.inr (Or.inr ⟨rfl, by simpa using hdir, rfl⟩)⟩

/-- The last element of a path has no slash, unless it is the root. -/
theorem base_slash_free (p : Str) : path.Base p = ['/'] ∨ '/' ∉ path.Base p := by
  unfold path.Base
  split
  · right; decide
  · dsimp only
    split
    · left; rfl
    · right
      unfold path.Split
      dsimp only
      intro hmem
      rw [List.mem_reverse] at hmem
      have := List.mem_takeWhile_imp hmem
      simp at this

/-- A path with a slash that does not end in one is not its own last element. -/
theorem base_ne_of_slash (n : Str) (hs : '/' ∈ n) (hlast : n.getLast? ≠ some '/') :
    path.Base n ≠ n := by
  intro h
  rcases base_slash_free n with hb | hb
  · rw [h] at hb
    rw [hb] at hlast
    exact hlast rfl
  · rw [h] at hb
    exact hb hs

/-- A non-empty path without a slash is its own last element. -/
theorem base_eq_self (n : Str) (hne : n ≠ []) (hs : '/' ∉ n) : path.Base n = n := by
  have h1 : ∀ l : Str, '/' ∉ l → l.dropWhile (· = '/') = l := by
    intro l hl
    cases l with
    | nil => rfl
    | cons c t =>
      have hc : c ≠ '/' := fun h => hl (by rw [h]; exact List.mem_cons_self _ _)
      rw [List.dropWhile_cons]
      simp [hc]
  have h2 : ∀ l : Str, '/' ∉ l → l.takeWhile (· ≠ '/') = l := by
    intro l hl
    apply List.takeWhile_eq_self_iff.mpr
    intro c hc
    have : c ≠ '/' := fun h => hl (h ▸ hc)
    simpa using this
  have hr : '/' ∉ n.reverse := fun h => hs (List.mem_reverse.mp h)
  unfold path.Base
  rw [if_neg hne]
  dsimp only
  unfold path.stripSlashes
  rw [h1 _ hr, List.reverse_reverse]
  unfold path.Split
  dsimp only
  rw [h2 _ hr, List.reverse_reverse, if_neg hne]

/-- The checks of a file entry named like `go.mod`: a name with another
location or another casing is an error, and nothing else of the state changes. -/
theorem checkFile_goMod (U : zip.UnicodeLib) (L : zip.Limits) (st : zip.CheckState)
    (zf : zip.ZipFile) (name : Str) (hf : U.EqualFold (path.Base name) zip.goMod = true) :
    (path.Base name ≠ name →
      zip.checkFile U L st zf name = st.addError zf zip.EntryError.goModNotInRoot)
    ∧ (path.Base name = name → name ≠ zip.goMod →
      zip.checkFile U L st zf name = st.addError zf zip.EntryError.goModCase) := by
  constructor
  · intro hb
    unfold zip.checkFile
    dsimp only
    rw [if_pos ⟨hf, hb⟩]
  · intro hb hn
    unfold zip.checkFile
    dsimp only
    rw [if_neg (fun h => h.2 hb), if_pos ⟨hf, hn⟩]

/-- When the checks of a file entry add its name to `Valid`: a name that is
`go.mod` up to case is `go.mod`, and `go.mod` and `LICENSE` are within their
limits. -/
theorem checkFile_valid_cond (U : zip.UnicodeLib) (L : zip.Limits) (st : zip.CheckState)
    (zf : zip.ZipFile) (name : Str)
    (h : (zip.checkFile U L st zf name).cf.Valid ≠ st.cf.Valid) :
    (U.EqualFold (path.Base name) zip.goMod = true → name = zip.goMod)
    ∧ (name = zip.goMod → zip.toInt64 zf.UncompressedSize64 ≤ L.MaxGoMod)
    ∧ (name = zip.LICENSE → zip.toInt64 zf.UncompressedSize64 ≤ L.MaxLICENSE) := by
  have hacc : ∀ sz, (st.account L sz).cf.Valid = st.cf.Valid := by
    intro sz
    unfold zip.CheckState.account
    repeat' split
    all_goals rfl
  unfold zip.checkFile at h
  dsimp only at h
  split at h
  · exact absurd rfl h
  · rename_i h1
    split at h
    · exact absurd rfl h
    · rename_i h2
      split at h
      · exact absurd (hacc _) h
      · rename_i h3
        split at h
        · exact absurd (hacc _) h
        · rename_i h4
          refine ⟨fun hf => ?_, fun hn => ?_, fun hn => ?_⟩
          · by_contra hne
            exact h2 ⟨hf, hne⟩
          · by_contra hgt
            exact h3 ⟨hn, not_le.mp hgt⟩
          · by_contra hgt
            exact h4 ⟨hn, not_le.mp hgt⟩

/-! ## The rules for `go.mod` -/

/-- What one iteration of the loop knows of an entry whose name it adds to
`Valid`: it is a file entry, its name is `go.mod` if it is so up to case, and
`go.mod` and `LICENSE` are within their limits. -/
theorem checkEntry_valid_file (M : ModuleLib) (U : zip.UnicodeLib) (L : zip.Limits) (pfx : Str)
    (st st1 : zip.CheckState) (zf : zip.ZipFile)
    (h : zip.checkEntry M U L pfx st zf = some st1) :
    st1.cf.Valid = st.cf.Valid
    ∨ (st1.cf.Valid = st.cf.Valid ++ [zf.Name]
        ∧ zip.entryIsDir pfx zf = false
        ∧ (U.EqualFold (path.Base (zip.entryName pfx zf)) zip.goMod = true →
            zip.entryName pfx zf = zip.goMod)
        ∧ (zip.entryName pfx zf = zip.goMod → zip.toInt64 zf.UncompressedSize64 ≤ L.MaxGoMod)
        ∧ (zip.entryName pfx zf = zip.LICENSE →
            zip.toInt64 zf.UncompressedSize64 ≤ L.MaxLICENSE)) := by
  rcases checkEntry_cases M U L pfx st st1 zf h with ⟨-, h1⟩ | ⟨-, -, h1⟩ | ⟨-, -, -, h1⟩
    | ⟨-, -, -, err, -, h1⟩ | ⟨-, -, -, -, res, cc, -, hc⟩
  · left; rw [h1]; rfl
  · left; rw [h1]
  · left; rw [h1]; rfl
  · left; rw [h1]; rfl
  · rcases hc with ⟨err, -, h1⟩ | ⟨-, -, h1⟩ | ⟨-, hdir, h1⟩
    · left; rw [h1]; rfl
    · left; rw [h1]
    · rcases checkFile_valid U L { st with collisions := cc } zf (zip.entryName pfx zf)
        with hv | hv
      · left; rw [h1]; exact hv
      · right
        have hne : (zip.checkFile U L { st with collisions := cc } zf
            (zip.entryName pfx zf)).cf.Valid
            ≠ ({ st with collisions := cc } : zip.CheckState).cf.Valid := by
          rw [hv]
          intro heq
          have := congrArg List.length heq
          simp at this
        obtain ⟨c1, c2, c3⟩ := checkFile_valid_cond U L _ zf _ hne
        rw [h1]
        exact ⟨hv, hdir, c1, c2, c3⟩

/-- Every name in `Valid` after the loop was there before, or is the name of a
file entry of the archive that satisfies the rules for `go.mod` and `LICENSE`. -/
theorem checkEntries_valid_file (M : ModuleLib) (U : zip.UnicodeLib) (L : zip.Limits)
    (pfx : Str) (st st1 : zip.CheckState) (files : List zip.ZipFile)
    (h : zip.checkEntries M U L pfx st files = some st1) :
    ∀ n ∈ st1.cf.Valid, n ∈ st.cf.Valid
      ∨ ∃ zf ∈ files, zf.Name = n
        ∧ zip.entryIsDir pfx zf = false
        ∧ (U.EqualFold (path.Base (zip.entryName pfx zf)) zip.goMod = true →
            zip.entryName pfx zf = zip.goMod)
        ∧ (zip.entryName pfx zf = zip.goMod → zip.toInt64 zf.UncompressedSize64 ≤ L.MaxGoMod)
        ∧ (zip.entryName pfx zf = zip.LICENSE →
            zip.toInt64 zf.UncompressedSize64 ≤ L.MaxLICENSE) := by
  induction files generalizing st with
  | nil => cases h; exact fun n hn => Or.inl hn
  | cons zf rest ih =>
    unfold zip.checkEntries at h
    cases hs : zip.checkEntry M U L pfx st zf with
    | none => rw [hs] at h; cases h
    | some st2 =>
      rw [hs] at h
      intro n hn
      rcases ih st2 h n hn with h2 | ⟨zf2, hmem, hrest⟩
      · rcases checkEntry_valid_file M U L pfx st st2 zf hs with hv | ⟨hv, hrest⟩
        · left; rw [← hv]; exact h2
        · rw [hv] at h2
          rcases List.mem_append.mp h2 with h3 | h3
          · exact Or.inl h3
          · right
            have hzn : n = zf.Name := by simpa using h3
            exact ⟨zf, List.mem_cons_self _ _, hzn.symm, hrest⟩
      · exact Or.inr ⟨zf2, List.mem_cons_of_mem _ hmem, hrest⟩

/-- The stripped name of an entry whose name is the prefix followed by `n`,
where `n` does not end in a slash. -/
theorem entryName_of_name (pfx n : Str) (zf : zip.ZipFile) (hname : zf.Name = pfx ++ n)
    (hdir : zip.entryIsDir pfx zf = false) : zip.entryName pfx zf = n := by
  unfold zip.entryName
  dsimp only
  rw [hdir, hname]
  simp

/-! ## The size accounting -/

/-- The size accounting does not look at the index of the collisions. -/
theorem account_collisions (L : zip.Limits) (st : zip.CheckState) (cc : zip.collisionChecker)
    (sz : Int) :
    (({ st with collisions := cc } : zip.CheckState).account L sz).size = (st.account L sz).size
    ∧ (({ st with collisions := cc } : zip.CheckState).account L sz).cf.SizeError
        = (st.account L sz).cf.SizeError := by
  unfold zip.CheckState.account
  dsimp only
  repeat' split
  all_goals exact ⟨rfl, rfl⟩

/-- The checks of a file entry and the size accounting: an entry that fails
the check of the name `go.mod` leaves the total and the size error as they
are, every other entry goes through the accounting. -/
theorem checkFile_accounting (U : zip.UnicodeLib) (L : zip.Limits) (st : zip.CheckState)
    (zf : zip.ZipFile) (name : Str) :
    (U.EqualFold (path.Base name) zip.goMod = true ∧ name ≠ zip.goMod →
      (zip.checkFile U L st zf name).size = st.size
      ∧ (zip.checkFile U L st zf name).cf.SizeError = st.cf.SizeError)
    ∧ (¬ (U.EqualFold (path.Base name) zip.goMod = true ∧ name ≠ zip.goMod) →
      (zip.checkFile U L st zf name).size
        = (st.account L (zip.toInt64 zf.UncompressedSize64)).size
      ∧ (zip.checkFile U L st zf name).cf.SizeError
        = (st.account L (zip.toInt64 zf.UncompressedSize64)).cf.SizeError) := by
  constructor
  · intro ⟨hf, hn⟩
    obtain ⟨g1, g2⟩ := checkFile_goMod U L st zf name hf
    by_cases hb : path.Base name = name
    · rw [g2 hb hn]; exact ⟨rfl, rfl⟩
    · rw [g1 hb]; exact ⟨rfl, rfl⟩
  · intro hnot
    have h1 : ¬ (U.EqualFold (path.Base name) zip.goMod = true ∧ path.Base name ≠ name) := by
      intro ⟨hf, hb⟩
      apply hnot
      refine ⟨hf, fun hn => hb ?_⟩
      rw [hn]
      decide
    unfold zip.checkFile
    dsimp only
    rw [if_neg h1, if_neg hnot]
    repeat' split
    all_goals exact ⟨rfl, rfl⟩

/-- The entries that reach the size accounting, as a proposition. -/
theorem reachesAccounting_iff (M : ModuleLib) (U : zip.UnicodeLib) (pfx : Str)
    (cc : zip.collisionChecker) (zf : zip.ZipFile) :
    zip.reachesAccounting M U pfx cc zf = true ↔
      (HasPrefix zf.Name pfx = true ∧ zf.Name.drop pfx.length ≠ []
        ∧ zip.entryIsDir pfx zf = false
        ∧ path.Clean (zip.entryName pfx zf) = zip.entryName pfx zf
        ∧ M.CheckFilePath (zip.entryName pfx zf) = none
        ∧ (∃ cc2, zip.collisionChecker.check U ((zip.entryName pfx zf).length + 1) cc
              (zip.entryName pfx zf) false = some (none, cc2))
        ∧ (U.EqualFold (path.Base (zip.entryName pfx zf)) zip.goMod = true →
            zip.entryName pfx zf = zip.goMod)) := by
  unfold zip.reachesAccounting
  dsimp only
  rw [Bool.and_eq_true, Bool.and_eq_true, Bool.and_eq_true, Bool.and_eq_true, Bool.and_eq_true,
    Bool.and_eq_true, decide_eq_true_iff, decide_eq_true_iff, Option.isNone_iff_eq_none,
    Bool.not_eq_true', Bool.not_eq_true', Bool.and_eq_false_iff, decide_eq_false_iff_not,
    not_not]
  generalize zip.collisionChecker.check U ((zip.entryName pfx zf).length + 1) cc
    (zip.entryName pfx zf) false = r
  constructor
  · rintro ⟨⟨⟨⟨⟨⟨a, b⟩, c⟩, d⟩, e⟩, g⟩, k⟩
    refine ⟨a, b, c, d, e, ?_, fun hf => ?_⟩
    · rcases r with _ | ⟨_ | e, c⟩
      · cases g
      · exact ⟨c, rfl⟩
      · cases g
    · rcases k with k | k
      · rw [hf] at k; cases k
      · exact k
  · rintro ⟨a, b, c, d, e, ⟨cc2, g⟩, k⟩
    subst g
    refine ⟨⟨⟨⟨⟨⟨a, b⟩, c⟩, d⟩, e⟩, rfl⟩, ?_⟩
    cases hf : U.EqualFold (path.Base (zip.entryName pfx zf)) zip.goMod with
    | false => exact Or.inl rfl
    | true => exact Or.inr (k hf)

/-- One iteration of the loop and the size accounting: the total and the size
error change as in the accounting for an entry that reaches it, and not at all
for any other entry. -/
theorem checkEntry_accounting (M : ModuleLib) (U : zip.UnicodeLib) (L : zip.Limits) (pfx : Str)
    (st st1 : zip.CheckState) (zf : zip.ZipFile)
    (h : zip.checkEntry M U L pfx st zf = some st1) :
    (zip.reachesAccounting M U pfx st.collisions zf = true →
      st1.size = (st.account L (zip.toInt64 zf.UncompressedSize64)).size
      ∧ st1.cf.SizeError = (st.account L (zip.toInt64 zf.UncompressedSize64)).cf.SizeError)
    ∧ (zip.reachesAccounting M U pfx st.collisions zf = false →
      st1.size = st.size ∧ st1.cf.SizeError = st.cf.SizeError) := by
  have hno : ∀ (P : Prop), (zip.reachesAccounting M U pfx st.collisions zf = true → False) →
      (st1.size = st.size ∧ st1.cf.SizeError = st.cf.SizeError) →
      (zip.reachesAccounting M U pfx st.collisions zf = true → P)
      ∧ (zip.reachesAccounting M U pfx st.collisions zf = false →
        st1.size = st.size ∧ st1.cf.SizeError = st.cf.SizeError) :=
    fun P h1 h2 => ⟨fun h => absurd h h1, fun _ => h2⟩
  have hiff := reachesAccounting_iff M U pfx st.collisions zf
  rcases checkEntry_cases M U L pfx st st1 zf h with ⟨hp, h1⟩ | ⟨-, hd, h1⟩ | ⟨-, -, hc, h1⟩
    | ⟨-, -, -, err, hfp, h1⟩ | ⟨hp, hd, hclean, hfp, res, cc, hchk, hc⟩
  · apply hno
    · intro hra
      have := (hiff.mp hra).1
      rw [hp] at this
      cases this
    · rw [h1]; exact ⟨rfl, rfl⟩
  · apply hno
    · intro hra
      exact (hiff.mp hra).2.1 hd
    · rw [h1]; exact ⟨rfl, rfl⟩
  · apply hno
    · intro hra
      exact hc (hiff.mp hra).2.2.2.1
    · rw [h1]; exact ⟨rfl, rfl⟩
  · apply hno
    · intro hra
      have := (hiff.mp hra).2.2.2.2.1
      rw [hfp] at this
      cases this
    · rw [h1]; exact ⟨rfl, rfl⟩
  · cases hdir : zip.entryIsDir pfx zf with
    | true =>
      apply hno
      · intro hra
        have := (hiff.mp hra).2.2.1
        rw [hdir] at this
        cases this
      · rw [hdir] at hc
        rcases hc with ⟨err, -, h1⟩ | ⟨-, -, h1⟩ | ⟨-, h2, -⟩
        · rw [h1]; exact ⟨rfl, rfl⟩
        · rw [h1]; exact ⟨rfl, rfl⟩
        · cases h2
    | false =>
      rw [hdir] at hc hchk
      rcases hc with ⟨err, hres, h1⟩ | ⟨-, h2, -⟩ | ⟨hres, -, h1⟩
      · apply hno
        · intro hra
          obtain ⟨cc2, hcc2⟩ := (hiff.mp hra).2.2.2.2.2.1
          rw [hchk, hres] at hcc2
          cases hcc2
        · rw [h1]; exact ⟨rfl, rfl⟩
      · cases h2
      · subst hres
        obtain ⟨a1, a2⟩ := checkFile_accounting U L { st with collisions := cc } zf
          (zip.entryName pfx zf)
        obtain ⟨b1, b2⟩ := account_collisions L st cc (zip.toInt64 zf.UncompressedSize64)
        by_cases hg : U.EqualFold (path.Base (zip.entryName pfx zf)) zip.goMod = true
            ∧ zip.entryName pfx zf ≠ zip.goMod
        · apply hno
          · intro hra
            exact hg.2 ((hiff.mp hra).2.2.2.2.2.2 hg.1)
          · rw [h1]; exact a1 hg
        · have hra : zip.reachesAccounting M U pfx st.collisions zf = true := by
            apply hiff.mpr
            refine ⟨hp, hd, hdir, hclean, hfp, ⟨cc, hchk⟩, fun hf => ?_⟩
            by_contra hn
            exact hg ⟨hf, hn⟩
          rw [hra, h1, (a2 hg).1, (a2 hg).2, b1, b2]
          exact ⟨fun _ => ⟨rfl, rfl⟩, fun h => (by cases h)⟩

/-- The invariant of the size accounting: for a declared size `x` and the sum
`S` of the sizes accounted before, the total stays between 0 and `MaxZipFile`
and equals the sum as long as no size error is set, and a size error is set
exactly when the sum exceeds `MaxZipFile`. -/
theorem account_inv (L : zip.Limits) (st : zip.CheckState) (x S : Nat)
    (h63 : L.MaxZipFile < 2 ^ 63)
    (i1 : 0 ≤ st.size) (i2 : st.size ≤ L.MaxZipFile) (i3 : st.size ≤ (S : Int))
    (i4 : st.cf.SizeError = none → st.size = (S : Int))
    (i5 : st.cf.SizeError ≠ none → (S : Int) > L.MaxZipFile) :
    0 ≤ (st.account L (zip.toInt64 x)).size
    ∧ (st.account L (zip.toInt64 x)).size ≤ L.MaxZipFile
    ∧ (st.account L (zip.toInt64 x)).size ≤ ((S + x % 2 ^ 64 : Nat) : Int)
    ∧ ((st.account L (zip.toInt64 x)).cf.SizeError = none →
        (st.account L (zip.toInt64 x)).size = ((S + x % 2 ^ 64 : Nat) : Int))
    ∧ ((st.account L (zip.toInt64 x)).cf.SizeError ≠ none →
        ((S + x % 2 ^ 64 : Nat) : Int) > L.MaxZipFile)
    ∧ (∀ e, st.cf.SizeError = some e → (st.account L (zip.toInt64 x)).cf.SizeError = some e)
    ∧ (∀ e, (st.account L (zip.toInt64 x)).cf.SizeError = some e →
        st.cf.SizeError = some e ∨ e = zip.SizeError.contentsTooLarge) := by
  have hx : x % 2 ^ 64 < 2 ^ 64 := Nat.mod_lt _ (by decide)
  unfold zip.toInt64
  generalize x % 2 ^ 64 = y at hx ⊢
  have hcast : ((S + y : Nat) : Int) = (S : Int) + (y : Int) := Nat.cast_add S y
  rw [hcast]
  by_cases hy : y < 2 ^ 63
  · rw [if_pos hy]
    unfold zip.CheckState.account
    split
    · rename_i hacc
      dsimp only
      refine ⟨by omega, by omega, by omega, fun hn => ?_, fun hn => ?_, fun e he => he,
        fun e he => Or.inl he⟩
      · rw [i4 hn]
      · have := i5 hn
        omega
    · rename_i hacc
      have hgt : (S : Int) + (y : Int) > L.MaxZipFile := by
        by_contra hle
        apply hacc
        constructor
        · omega
        · omega
      split
      · rename_i hnone
        dsimp only
        refine ⟨i1, i2, by omega, fun hn => (by cases hn), fun _ => hgt,
          fun e he => ?_, fun e he => ?_⟩
        · rw [hnone] at he; cases he
        · right
          cases he
          rfl
      · rename_i hsome
        refine ⟨i1, i2, by omega, fun hn => absurd hn hsome, fun _ => hgt, fun e he => he,
          fun e he => Or.inl he⟩
  · rw [if_neg hy]
    have hgt : (S : Int) + (y : Int) > L.MaxZipFile := by omega
    unfold zip.CheckState.account
    rw [if_neg (by omega)]
    split
    · rename_i hnone
      dsimp only
      refine ⟨i1, i2, by omega, fun hn => (by cases hn), fun _ => hgt,
        fun e he => ?_, fun e he => ?_⟩
      · rw [hnone] at he; cases he
      · right
        cases he
        rfl
    · rename_i hsome
      refine ⟨i1, i2, by omega, fun hn => absurd hn hsome, fun _ => hgt, fun e he => he,
        fun e he => Or.inl he⟩

/-- The invariant of the size accounting over the loop of `checkZip`, where `S`
is the sum of the sizes accounted before the loop starts in the state `st`. -/
theorem checkEntries_accounting (M : ModuleLib) (U : zip.UnicodeLib) (L : zip.Limits)
    (pfx : Str) (st st1 : zip.CheckState) (files : List zip.ZipFile) (S : Nat)
    (h : zip.checkEntries M U L pfx st files = some st1)
    (h63 : L.MaxZipFile < 2 ^ 63)
    (i1 : 0 ≤ st.size) (i2 : st.size ≤ L.MaxZipFile) (i3 : st.size ≤ (S : Int))
    (i4 : st.cf.SizeError = none → st.size = (S : Int))
    (i5 : st.cf.SizeError ≠ none → (S : Int) > L.MaxZipFile) :
    0 ≤ st1.size
    ∧ st1.size ≤ L.MaxZipFile
    ∧ st1.size ≤ ((S + (zip.accountedSizes M U L pfx st files).sum : Nat) : Int)
    ∧ (st1.cf.SizeError = none →
        st1.size = ((S + (zip.accountedSizes M U L pfx st files).sum : Nat) : Int))
    ∧ (st1.cf.SizeError ≠ none →
        ((S + (zip.accountedSizes M U L pfx st files).sum : Nat) : Int) > L.MaxZipFile)
    ∧ (∀ e, st.cf.SizeError = some e → st1.cf.SizeError = some e)
    ∧ (∀ e, st1.cf.SizeError = some e →
        st.cf.SizeError = some e ∨ e = zip.SizeError.contentsTooLarge) := by
  induction files generalizing st S with
  | nil =>
    cases h
    exact ⟨i1, i2, by simpa [zip.accountedSizes] using i3, by simpa [zip.accountedSizes] using i4,
      by simpa [zip.accountedSizes] using i5, fun e he => he, fun e he => Or.inl he⟩
  | cons zf rest ih =>
    unfold zip.checkEntries at h
    unfold zip.accountedSizes
    cases hs : zip.checkEntry M U L pfx st zf with
    | none => rw [hs] at h; cases h
    | some st2 =>
      rw [hs] at h
      dsimp only
      obtain ⟨a1, a2⟩ := checkEntry_accounting M U L pfx st st2 zf hs
      cases hra : zip.reachesAccounting M U pfx st.collisions zf with
      | true =>
        obtain ⟨e1, e2⟩ := a1 hra
        obtain ⟨j1, j2, j3, j4, j5, j6, j7⟩ :=
          account_inv L st zf.UncompressedSize64 S h63 i1 i2 i3 i4 i5
        rw [← e1] at j1 j2 j3 j4
        rw [← e2] at j4 j5 j6 j7
        obtain ⟨k1, k2, k3, k4, k5, k6, k7⟩ :=
          ih st2 (S + zf.UncompressedSize64 % 2 ^ 64) h j1 j2 j3 j4 j5
        rw [if_pos rfl, List.sum_append, List.sum_singleton, ← Nat.add_assoc]
        refine ⟨k1, k2, k3, k4, k5, fun e he => k6 e (j6 e he), fun e he => ?_⟩
        rcases k7 e he with h7 | h7
        · exact j7 e h7
        · exact Or.inr h7
      | false =>
        obtain ⟨e1, e2⟩ := a2 hra
        rw [← e1] at i1 i2 i3 i4
        rw [← e2] at i4 i5
        obtain ⟨k1, k2, k3, k4, k5, k6, k7⟩ := ih st2 S h i1 i2 i3 i4 i5
        rw [if_neg (by simp), List.nil_append]
        refine ⟨k1, k2, k3, k4, k5, fun e he => k6 e (by rw [e2]; exact he), fun e he => ?_⟩
        rw [← e2]
        exact k7 e he

/-! ## Archives that `checkZip` accepts -/

/-- An iteration of the loop of `checkZip` that leaves `Invalid` empty: the
entry has the prefix, and it is the entry of the module root, or its stripped
name is clean and passes `module.CheckFilePath` and it is a directory or a file
that reaches the size accounting. -/
theorem checkEntry_ok (M : ModuleLib) (U : zip.UnicodeLib) (L : zip.Limits) (pfx : Str)
    (st st1 : zip.CheckState) (zf : zip.ZipFile)
    (h : zip.checkEntry M U L pfx st zf = some st1) (hinv : st1.cf.Invalid = []) :
    st.cf.Invalid = []
    ∧ HasPrefix zf.Name pfx = true
    ∧ (zf.Name.drop pfx.length = []
      ∨ (path.Clean (zip.entryName pfx zf) = zip.entryName pfx zf
          ∧ M.CheckFilePath (zip.entryName pfx zf) = none
          ∧ (zip.entryIsDir pfx zf = true
              ∨ zip.reachesAccounting M U pfx st.collisions zf = true))) := by
  have hadd : ∀ (s : zip.CheckState) (e : zip.EntryError), st1 = s.addError zf e → False := by
    intro s e hs
    rw [hs, addError_invalid] at hinv
    simp at hinv
  have h0 : st.cf.Invalid = [] := by
    obtain ⟨⟨l, hl⟩, -⟩ := checkEntry_step M U L pfx st st1 zf h
    rw [hinv] at hl
    exact (List.append_eq_nil.mp hl.symm).1
  refine ⟨h0, ?_⟩
  rcases checkEntry_cases M U L pfx st st1 zf h with ⟨-, h1⟩ | ⟨hp, hd, -⟩ | ⟨-, -, -, h1⟩
    | ⟨-, -, -, err, -, h1⟩ | ⟨hp, hd, hclean, hfp, res, cc, hchk, hc⟩
  · exact (hadd _ _ h1).elim
  · exact ⟨hp, Or.inl hd⟩
  · exact (hadd _ _ h1).elim
  · exact (hadd _ _ h1).elim
  · refine ⟨hp, Or.inr ⟨hclean, hfp, ?_⟩⟩
    rcases hc with ⟨err, -, h1⟩ | ⟨-, hdir, -⟩ | ⟨hres, hdir, h1⟩
    · exact (hadd _ _ h1).elim
    · exact Or.inl hdir
    · right
      subst hres
      rw [hdir] at hchk
      apply (reachesAccounting_iff M U pfx st.collisions zf).mpr
      refine ⟨hp, hd, hdir, hclean, hfp, ⟨cc, hchk⟩, fun hf => ?_⟩
      by_contra hn
      obtain ⟨g1, g2⟩ := checkFile_goMod U L { st with collisions := cc } zf
        (zip.entryName pfx zf) hf
      by_cases hb : path.Base (zip.entryName pfx zf) = zip.entryName pfx zf
      · exact hadd _ _ (h1.trans (g2 hb hn))
      · exact hadd _ _ (h1.trans (g1 hb))

/-- A loop of `checkZip` that leaves `Invalid` empty: every entry has the
prefix, and it is the entry of the module root, or its stripped name is clean
and passes `module.CheckFilePath` and it is a directory or a file whose size is
accounted. -/
theorem checkEntries_ok (M : ModuleLib) (U : zip.UnicodeLib) (L : zip.Limits) (pfx : Str)
    (st st1 : zip.CheckState) (files : List zip.ZipFile)
    (h : zip.checkEntries M U L pfx st files = some st1) (hinv : st1.cf.Invalid = []) :
    ∀ zf ∈ files, HasPrefix zf.Name pfx = true
      ∧ (zf.Name.drop pfx.length = []
        ∨ (path.Clean (zip.entryName pfx zf) = zip.entryName pfx zf
            ∧ M.CheckFilePath (zip.entryName pfx zf) = none
            ∧ (zip.entryIsDir pfx zf = true
                ∨ zf.UncompressedSize64 % 2 ^ 64 ∈ zip.accountedSizes M U L pfx st files))) := by
  induction files generalizing st with
  | nil => intro zf hzf; cases hzf
  | cons e rest ih =>
    unfold zip.checkEntries at h
    unfold zip.accountedSizes
    cases hs : zip.checkEntry M U L pfx st e with
    | none => rw [hs] at h; cases h
    | some st2 =>
      rw [hs] at h
      dsimp only
      have h2 : st2.cf.Invalid = [] := by
        obtain ⟨⟨l, hl⟩, -⟩ := checkEntries_mono M U L pfx st2 st1 rest h
        rw [hinv] at hl
        exact (List.append_eq_nil.mp hl.symm).1
      intro zf hzf
      rcases List.mem_cons.mp hzf with he | he
      · subst he
        obtain ⟨-, hp, hrest⟩ := checkEntry_ok M U L pfx st st2 zf hs h2
        refine ⟨hp, ?_⟩
        rcases hrest with hd | ⟨hc, hfp, hk⟩
        · exact Or.inl hd
        · refine Or.inr ⟨hc, hfp, ?_⟩
          rcases hk with hk | hk
          · exact Or.inl hk
          · right
            rw [if_pos hk]
            simp
      · obtain ⟨hp, hrest⟩ := ih st2 h zf he
        refine ⟨hp, ?_⟩
        rcases hrest with hd | ⟨hc, hfp, hk⟩
        · exact Or.inl hd
        · refine Or.inr ⟨hc, hfp, ?_⟩
          rcases hk with hk | hk
          · exact Or.inl hk
          · right
            exact List.mem_append_right _ hk

/-- When `checkZip` returns a reader and no error, the report has no invalid
entry and no size error. -/
theorem checkZip_ok (M : ModuleLib) (U : zip.UnicodeLib) (L : zip.Limits) (m : module.Version)
    (f : zip.ZipSource) (files : List zip.ZipFile) (cf : zip.CheckedFiles)
    (h : zip.checkZip M U L m f = some (some files, cf, none)) :
    cf.Invalid = [] ∧ cf.SizeError = none
    ∧ ∃ st, zip.checkEntries M U L (zip.entryPrefix m) zip.CheckState.init files = some st
        ∧ cf = st.cf := by
  obtain ⟨st, hst, hcf, herr⟩ := checkZip_loop M U L m f files cf none h
  have hnone : ¬ (cf.Err ≠ none) := by
    rw [hcf, ← herr]
    exact fun hn => hn rfl
  rw [err_ne_none_iff] at hnone
  refine ⟨?_, ?_, st, hst, hcf⟩
  · by_contra hi
    exact hnone (Or.inl hi)
  · by_contra hs
    exact hnone (Or.inr hs)

/-- The entries of an archive that `checkZip` accepts: each has the prefix,
and each file entry has a clean stripped name that passes
`module.CheckFilePath` and a declared size of at most `MaxZipFile`. -/
theorem checkZip_ok_entries (M : ModuleLib) (U : zip.UnicodeLib) (L : zip.Limits)
    (m : module.Version) (f : zip.ZipSource) (files : List zip.ZipFile) (cf : zip.CheckedFiles)
    (h0 : 0 ≤ L.MaxZipFile) (h63 : L.MaxZipFile < 2 ^ 63)
    (h : zip.checkZip M U L m f = some (some files, cf, none)) :
    ∀ zf ∈ files, HasPrefix zf.Name (zip.entryPrefix m) = true
      ∧ (zf.Name.drop (zip.entryPrefix m).length ≠ [] →
          HasSuffix (zf.Name.drop (zip.entryPrefix m).length) ['/'] = false →
          path.Clean (zf.Name.drop (zip.entryPrefix m).length)
            = zf.Name.drop (zip.entryPrefix m).length
          ∧ M.CheckFilePath (zf.Name.drop (zip.entryPrefix m).length) = none
          ∧ ((zf.UncompressedSize64 % 2 ^ 64 : Nat) : Int) ≤ L.MaxZipFile) := by
  obtain ⟨hinv, hsize, st, hst, hcf⟩ := checkZip_ok M U L m f files cf h
  subst hcf
  intro zf hzf
  obtain ⟨hp, hrest⟩ := checkEntries_ok M U L _ _ st files hst hinv zf hzf
  refine ⟨hp, fun hne hfile => ?_⟩
  have hdir : zip.entryIsDir (zip.entryPrefix m) zf = false := hfile
  have hname : zip.entryName (zip.entryPrefix m) zf = zf.Name.drop (zip.entryPrefix m).length := by
    unfold zip.entryName
    dsimp only
    rw [hdir]
    rfl
  rcases hrest with hd | ⟨hc, hfp, hk⟩
  · exact absurd hd hne
  · rw [hname] at hc hfp
    refine ⟨hc, hfp, ?_⟩
    rcases hk with hk | hk
    · rw [hdir] at hk; cases hk
    · obtain ⟨-, k2, -, k4, -⟩ := checkEntries_accounting M U L (zip.entryPrefix m)
        zip.CheckState.init st files 0 hst h63 (le_refl _) h0 (le_refl _) (fun _ => rfl)
        (fun hn => absurd rfl hn)
      have hsum := k4 hsize
      rw [Nat.zero_add] at hsum
      have hle := List.single_le_sum (fun x _ => Nat.zero_le x) _ hk
      omega

/-! ## The body of the loop of `UnzipFS` -/

/-- The limit of the reader is the declared size plus one when that does not
overflow. -/
theorem add64_size (x : Nat) (hx : x < 2 ^ 63 - 1) :
    zip.add64 (zip.toInt64 x) 1 = (x : Int) + 1 := by
  have h1 : x % 2 ^ 64 = x := Nat.mod_eq_of_lt (by omega)
  have h2 : zip.toInt64 x = (x : Int) := by
    unfold zip.toInt64
    rw [h1, if_pos (by omega)]
  unfold zip.add64
  rw [h2]
  have h3 : (((x : Int) + 1) % 2 ^ 64).toNat = x + 1 := by
    rw [Int.emod_eq_of_lt (by omega) (by omega)]
    omega
  rw [h3]
  unfold zip.toInt64
  have h4 : (x + 1) % 2 ^ 64 = x + 1 := Nat.mod_eq_of_lt (by omega)
  rw [h4, if_pos (by omega)]
  omega

/-- The limit of the reader is never more than the declared size plus one. -/
theorem add64_le (x : Nat) : zip.add64 (zip.toInt64 x) 1 ≤ ((x % 2 ^ 64 : Nat) : Int) + 1 := by
  have hx : x % 2 ^ 64 < 2 ^ 64 := Nat.mod_lt _ (by decide)
  unfold zip.add64
  generalize hy : zip.toInt64 x = y
  have hyb : y ≤ ((x % 2 ^ 64 : Nat) : Int) ∧ -(2 ^ 63) ≤ y ∧ y < 2 ^ 63 := by
    rw [← hy]
    unfold zip.toInt64
    split <;> omega
  have hm : 0 ≤ (y + 1) % 2 ^ 64 ∧ (y + 1) % 2 ^ 64 < 2 ^ 64 :=
    ⟨Int.emod_nonneg _ (by omega), Int.emod_lt_of_pos _ (by omega)⟩
  unfold zip.toInt64
  have hmod : ((y + 1) % 2 ^ 64).toNat % 2 ^ 64 = ((y + 1) % 2 ^ 64).toNat := by
    apply Nat.mod_eq_of_lt
    omega
  rw [hmod]
  by_cases hneg : y + 1 < 0
  · have : (y + 1) % 2 ^ 64 = y + 1 + 2 ^ 64 := by
      rw [← Int.add_mul_emod_self (a := y + 1) (b := 1) (c := 2 ^ 64)]
      rw [Int.emod_eq_of_lt (by omega) (by omega)]
      omega
    rw [this]
    split <;> omega
  · have : (y + 1) % 2 ^ 64 = y + 1 := Int.emod_eq_of_lt (by omega) (by omega)
    rw [this]
    split <;> omega

/-- The reader limited to the declared size plus one yields at most that many
bytes. -/
theorem limitedData_length (r : zip.Stream) (x : Nat) :
    (zip.limitedData r (zip.add64 (zip.toInt64 x) 1)).length ≤ x % 2 ^ 64 + 1 := by
  have h := add64_le x
  unfold zip.limitedData
  split
  · simp
  · rw [List.length_take]
    omega

/-- Go `len` of a concatenation. -/
theorem len_append (a b : Str) : len (a ++ b) = len a + len b := by
  unfold len
  rw [List.map_append, List.sum_append]

/-- A name that begins with the prefix is not shorter than it. -/
theorem len_of_hasPrefix (s pre : Str) (h : HasPrefix s pre = true) : ¬ len s < len pre := by
  rw [eq_append_of_hasPrefix s pre h, len_append]
  omega

/-- The body of the loop of `UnzipFS` for a file entry when every call to the
file system succeeds and the stream of the entry ends without an error: the
parent directory is made, the file is created, at most the declared size plus
one byte is copied, the file is closed, and the error of the declared size is
returned when the stream is longer than declared. -/
theorem unzipEntry_success (env : zip.UnzipEnv) (dir pfx : Str) (ops : List zip.FsOp)
    (zf : zip.ZipFile) (r : zip.Stream)
    (hn : zf.UncompressedSize64 < 2 ^ 63 - 1)
    (hlen : ¬ len zf.Name < len pfx)
    (hname : zf.Name.drop pfx.length ≠ [])
    (hfile : HasSuffix (zf.Name.drop pfx.length) ['/'] = false)
    (hmk : env.osMkdirAll ops (path.Dir (path.Join [dir, zf.Name.drop pfx.length])) = none)
    (hof : env.OpenFile
        (ops ++ [zip.FsOp.osMkdirAll (path.Dir (path.Join [dir, zf.Name.drop pfx.length]))])
        (path.Join [dir, zf.Name.drop pfx.length]) = none)
    (hzf : env.zfOpen zf = Except.ok r) (hr : r.err = none)
    (hw : ∀ tr data, env.Write tr (path.Join [dir, zf.Name.drop pfx.length]) data
      = (data.length, none))
    (hc : ∀ tr, env.Close tr (path.Join [dir, zf.Name.drop pfx.length]) = none) :
    zip.unzipEntry env dir pfx ops zf
      = { ops := ops
            ++ [zip.FsOp.osMkdirAll (path.Dir (path.Join [dir, zf.Name.drop pfx.length]))]
            ++ [zip.FsOp.openFile (path.Join [dir, zf.Name.drop pfx.length])]
            ++ [zip.FsOp.write (path.Join [dir, zf.Name.drop pfx.length])
                  (r.data.take (zf.UncompressedSize64 + 1))]
            ++ [zip.FsOp.close (path.Join [dir, zf.Name.drop pfx.length])]
          err := if r.data.length > zf.UncompressedSize64 then
              some (zip.UnzipError.sizeMismatch zf.Name zf.UncompressedSize64)
            else none
          panicked := false } := by
  have hN := add64_size zf.UncompressedSize64 hn
  have hdata : zip.limitedData r ((zf.UncompressedSize64 : Int) + 1)
      = r.data.take (zf.UncompressedSize64 + 1) := by
    unfold zip.limitedData
    rw [if_neg (by omega)]
    congr 1
  have herr : zip.limitedErr r ((zf.UncompressedSize64 : Int) + 1) = none := by
    unfold zip.limitedErr
    rw [hr]
    simp
  unfold zip.unzipEntry
  rw [if_neg hlen]
  dsimp only
  rw [if_neg (by rw [hfile]; simp [hname]), hmk]
  dsimp only
  rw [hof]
  dsimp only
  rw [hzf]
  dsimp only
  rw [hN, hdata, hw]
  have hwrite :
      (if r.data.take (zf.UncompressedSize64 + 1) = [] then
          ((0 : Nat), (none : Option GoError))
        else ((r.data.take (zf.UncompressedSize64 + 1)).length, none))
      = ((r.data.take (zf.UncompressedSize64 + 1)).length, none) := by
    split
    · rename_i h0
      rw [h0]
      rfl
    · rfl
  rw [hwrite]
  dsimp only
  rw [if_neg (by simp), herr]
  dsimp only
  rw [hc]
  dsimp only
  rw [List.take_of_length_le (le_refl _)]
  by_cases hL : r.data.length > zf.UncompressedSize64
  · rw [if_pos hL, if_pos (by rw [List.length_take]; omega)]
  · rw [if_neg hL, if_neg (by rw [List.length_take]; omega)]

/-- Every call that the body of the loop of `UnzipFS` adds: for an entry that
is a file, the making of the parent directory of the destination, the creation
of the destination, a write to it of bytes of the limited reader, and its
closing. -/
theorem unzipEntry_ops (env : zip.UnzipEnv) (dir pfx : Str) (ops : List zip.FsOp)
    (zf : zip.ZipFile) :
    ∀ op ∈ (zip.unzipEntry env dir pfx ops zf).ops, op ∈ ops
      ∨ (¬ len zf.Name < len pfx ∧ zf.Name.drop pfx.length ≠ []
          ∧ HasSuffix (zf.Name.drop pfx.length) ['/'] = false
          ∧ (op = zip.FsOp.osMkdirAll (path.Dir (path.Join [dir, zf.Name.drop pfx.length]))
            ∨ op = zip.FsOp.openFile (path.Join [dir, zf.Name.drop pfx.length])
            ∨ op = zip.FsOp.close (path.Join [dir, zf.Name.drop pfx.length])
            ∨ ∃ r k, env.zfOpen zf = Except.ok r
                ∧ op = zip.FsOp.write (path.Join [dir, zf.Name.drop pfx.length])
                    ((zip.limitedData r
                      (zip.add64 (zip.toInt64 zf.UncompressedSize64) 1)).take k))) := by
  unfold zip.unzipEntry
  split
  · exact fun op hop => Or.inl hop
  · rename_i hlen
    dsimp only
    split
    · exact fun op hop => Or.inl hop
    · rename_i hnm
      have hname : zf.Name.drop pfx.length ≠ [] := fun h => hnm (Or.inl h)
      have hfile : HasSuffix (zf.Name.drop pfx.length) ['/'] = false := by
        cases hs : HasSuffix (zf.Name.drop pfx.length) ['/'] with
        | false => rfl
        | true => exact absurd (Or.inr hs) hnm
      have key : ∀ (l : List zip.FsOp) (op : zip.FsOp), op ∈ l →
          (∀ o ∈ l, o ∈ ops
            ∨ o = zip.FsOp.osMkdirAll (path.Dir (path.Join [dir, zf.Name.drop pfx.length]))
            ∨ o = zip.FsOp.openFile (path.Join [dir, zf.Name.drop pfx.length])
            ∨ o = zip.FsOp.close (path.Join [dir, zf.Name.drop pfx.length])
            ∨ ∃ r k, env.zfOpen zf = Except.ok r
                ∧ o = zip.FsOp.write (path.Join [dir, zf.Name.drop pfx.length])
                    ((zip.limitedData r
                      (zip.add64 (zip.toInt64 zf.UncompressedSize64) 1)).take k)) →
          op ∈ ops
            ∨ (¬ len zf.Name < len pfx ∧ zf.Name.drop pfx.length ≠ []
              ∧ HasSuffix (zf.Name.drop pfx.length) ['/'] = false
              ∧ (op = zip.FsOp.osMkdirAll
                    (path.Dir (path.Join [dir, zf.Name.drop pfx.length]))
                ∨ op = zip.FsOp.openFile (path.Join [dir, zf.Name.drop pfx.length])
                ∨ op = zip.FsOp.close (path.Join [dir, zf.Name.drop pfx.length])
                ∨ ∃ r k, env.zfOpen zf = Except.ok r
                    ∧ op = zip.FsOp.write (path.Join [dir, zf.Name.drop pfx.length])
                        ((zip.limitedData r
                          (zip.add64 (zip.toInt64 zf.UncompressedSize64) 1)).take k))) := by
        intro l op hop hl
        rcases hl op hop with h | h
        · exact Or.inl h
        · exact Or.inr ⟨hlen, hname, hfile, h⟩
      split
      · intro op hop
        apply key _ op hop
        intro o ho
        simp only [List.mem_append, List.mem_singleton] at ho
        tauto
      · split
        · intro op hop
          apply key _ op hop
          intro o ho
          simp only [List.mem_append, List.mem_singleton] at ho
          tauto
        · split
          · intro op hop
            apply key _ op hop
            intro o ho
            simp only [List.mem_append, List.mem_singleton] at ho
            tauto
          · rename_i r hr
            have hwr : ∀ k o, o = zip.FsOp.write (path.Join [dir, zf.Name.drop pfx.length])
                ((zip.limitedData r (zip.add64 (zip.toInt64 zf.UncompressedSize64) 1)).take k) →
                ∃ r k, env.zfOpen zf = Except.ok r
                ∧ o = zip.FsOp.write (path.Join [dir, zf.Name.drop pfx.length])
                    ((zip.limitedData r
                      (zip.add64 (zip.toInt64 zf.UncompressedSize64) 1)).take k) :=
              fun k o ho => ⟨r, k, hr, ho⟩
            split
            · intro op hop
              apply key _ op hop
              intro o ho
              simp only [List.mem_append, List.mem_singleton] at ho
              rcases ho with ((((ho | ho) | ho) | ho) | ho)
              · exact Or.inl ho
              · exact Or.inr (Or.inl ho)
              · exact Or.inr (Or.inr (Or.inl ho))
              · exact Or.inr (Or.inr (Or.inr (Or.inr (hwr _ o ho))))
              · exact Or.inr (Or.inr (Or.inr (Or.inl ho)))
            · split
              · intro op hop
                apply key _ op hop
                intro o ho
                simp only [List.mem_append, List.mem_singleton] at ho
                rcases ho with ((((ho | ho) | ho) | ho) | ho)
                · exact Or.inl ho
                · exact Or.inr (Or.inl ho)
                · exact Or.inr (Or.inr (Or.inl ho))
                · exact Or.inr (Or.inr (Or.inr (Or.inr (hwr _ o ho))))
                · exact Or.inr (Or.inr (Or.inr (Or.inl ho)))
              · split
                all_goals
                  intro op hop
                  apply key _ op hop
                  intro o ho
                  simp only [List.mem_append, List.mem_singleton] at ho
                  rcases ho with ((((ho | ho) | ho) | ho) | ho)
                  · exact Or.inl ho
                  · exact Or.inr (Or.inl ho)
                  · exact Or.inr (Or.inr (Or.inl ho))
                  · exact Or.inr (Or.inr (Or.inr (Or.inr (hwr _ o ho))))
                  · exact Or.inr (Or.inr (Or.inr (Or.inl ho)))

/-! ## `path.Clean` on a path that is followed by more -/

/-- One iteration of the loop of `path.Clean` on an element that is neither
empty nor `.` nor `..`, for rooted and unrooted paths: the element is copied,
after a slash unless the buffer is at its start. -/
theorem cleanLoop_elem_gen (rooted : Bool) (fuel : Nat) (e rest out : Str) (dotdot : Nat)
    (he : cleanElem e = true) (hrest : rest = [] ∨ ∃ t, rest = '/' :: t) :
    path.cleanLoop rooted (fuel + 1) (e ++ rest) out dotdot
      = path.cleanLoop rooted fuel rest
          (e.reverse ++ (if (rooted = true ∧ out.length ≠ 1) ∨ (¬ rooted = true ∧ out.length ≠ 0)
            then '/' :: out else out)) dotdot := by
  have he' : e ≠ [] ∧ '/' ∉ e ∧ e ≠ ['.'] ∧ e ≠ ['.', '.'] := by
    simpa [cleanElem] using he
  obtain ⟨h1, h2, h3, h4⟩ := he'
  have hcopy := fun out => copyElem_append e rest out h2 hrest
  conv_lhs => unfold path.cleanLoop
  split
  · rename_i heq
    exfalso
    cases e with
    | nil => exact h1 rfl
    | cons c t => cases heq
  · rename_i t heq
    exfalso
    cases e with
    | nil => exact h1 rfl
    | cons c u =>
      rw [List.cons_append] at heq
      injection heq with hc _
      exact h2 (by simp [hc])
  · rename_i heq
    exfalso
    cases e with
    | nil => exact h1 rfl
    | cons c u =>
      rw [List.cons_append] at heq
      injection heq with hc hu
      subst hc
      cases u with
      | nil => exact h3 rfl
      | cons d w => cases hu
  · rename_i t heq
    exfalso
    cases e with
    | nil => exact h1 rfl
    | cons c u =>
      rw [List.cons_append] at heq
      injection heq with hc hu
      subst hc
      cases u with
      | nil => exact h3 rfl
      | cons d w =>
        rw [List.cons_append] at hu
        injection hu with hd _
        exact h2 (by simp [hd])
  · rename_i heq
    exfalso
    cases e with
    | nil => exact h1 rfl
    | cons c u =>
      rw [List.cons_append] at heq
      injection heq with hc hu
      subst hc
      cases u with
      | nil => exact h3 rfl
      | cons d w =>
        rw [List.cons_append] at hu
        injection hu with hd hw
        subst hd
        cases w with
        | nil => exact h4 rfl
        | cons x y => cases hw
  · rename_i t heq
    exfalso
    cases e with
    | nil => exact h1 rfl
    | cons c u =>
      rw [List.cons_append] at heq
      injection heq with hc hu
      subst hc
      cases u with
      | nil => exact h3 rfl
      | cons d w =>
        rw [List.cons_append] at hu
        injection hu with hd hw
        subst hd
        cases w with
        | nil => exact h4 rfl
        | cons x y =>
          rw [List.cons_append] at hw
          injection hw with hx _
          exact h2 (by simp [hx])
  · rename_i c t _ _ _ _ _ heq
    rw [← heq]
    dsimp only
    rw [hcopy]

/-- The loop of `path.Clean` on clean elements joined by slashes copies them
to the buffer. -/
theorem cleanLoop_join_gen (rooted : Bool) (es : List Str) (hes : es ≠ [])
    (hgood : ∀ e ∈ es, cleanElem e = true)
    (fuel : Nat) (out : Str) (dotdot : Nat) (hf : (Join es ['/']).length ≤ fuel) :
    path.cleanLoop rooted fuel (Join es ['/']) out dotdot
      = (Join es ['/']).reverse
          ++ (if (rooted = true ∧ out.length ≠ 1) ∨ (¬ rooted = true ∧ out.length ≠ 0)
              then '/' :: out else out) := by
  induction es generalizing fuel out with
  | nil => exact absurd rfl hes
  | cons e r ih =>
    have he := hgood e (by simp)
    have hne : e ≠ [] := by
      have : e ≠ [] ∧ '/' ∉ e ∧ e ≠ ['.'] ∧ e ≠ ['.', '.'] := by simpa [cleanElem] using he
      exact this.1
    have hlen : 1 ≤ e.length := by
      cases e with
      | nil => exact absurd rfl hne
      | cons c t => simp
    cases r with
    | nil =>
      have hj : Join [e] ['/'] = e := by simp [Join]
      rw [hj] at hf ⊢
      obtain ⟨n, rfl⟩ : ∃ n, fuel = n + 1 := ⟨fuel - 1, by omega⟩
      have := cleanLoop_elem_gen rooted n e [] out dotdot he (Or.inl rfl)
      rw [List.append_nil] at this
      rw [this, cleanLoop_nil]
    | cons e2 r2 =>
      rw [join_cons_cons] at hf ⊢
      simp only [List.length_append, List.length_singleton] at hf
      obtain ⟨n, rfl⟩ : ∃ n, fuel = n + 2 := ⟨fuel - 2, by omega⟩
      have h1 := cleanLoop_elem_gen rooted (n + 1) e ('/' :: Join (e2 :: r2) ['/']) out dotdot he
        (Or.inr ⟨_, rfl⟩)
      rw [show e ++ ['/'] ++ Join (e2 :: r2) ['/'] = e ++ '/' :: Join (e2 :: r2) ['/'] by simp,
        h1, cleanLoop_slash,
        ih (by simp) (fun x hx => hgood x (List.mem_cons_of_mem _ hx)) n _ (by omega)]
      have hl : (rooted = true ∧ (e.reverse ++ if (rooted = true ∧ out.length ≠ 1)
            ∨ (¬ rooted = true ∧ out.length ≠ 0) then '/' :: out else out).length ≠ 1)
          ∨ (¬ rooted = true ∧ (e.reverse ++ if (rooted = true ∧ out.length ≠ 1)
            ∨ (¬ rooted = true ∧ out.length ≠ 0) then '/' :: out else out).length ≠ 0) := by
        rw [List.length_append, List.length_reverse]
        cases rooted with
        | true =>
          left
          refine ⟨rfl, ?_⟩
          split
          · simp; omega
          · rename_i hc
            have : out.length = 1 := by
              by_contra h
              exact hc (Or.inl ⟨rfl, h⟩)
            omega
        | false =>
          right
          refine ⟨by simp, ?_⟩
          omega
      rw [if_pos hl]
      simp

/-- A path that does not begin with a slash begins with an element: a
non-empty string without a slash that ends the path or is followed by a
slash. -/
theorem first_elem (c : Char) (t : Str) (hc : c ≠ '/') :
    ∃ e rest : Str, c :: t = e ++ rest ∧ e ≠ [] ∧ '/' ∉ e ∧ (rest = [] ∨ ∃ u, rest = '/' :: u)
      ∧ rest.length ≤ t.length := by
  obtain ⟨tw, dw, -, hlen, hhead, -, -, happ, htw⟩ := copyElem_cons_spec c t hc
  refine ⟨c :: tw, dw, by rw [List.cons_append, happ], List.cons_ne_nil _ _, ?_, ?_, by omega⟩
  · intro hm
    rcases List.mem_cons.mp hm with h | h
    · exact hc h.symm
    · exact htw _ h rfl
  · cases dw with
    | nil => exact Or.inl rfl
    | cons d u => exact Or.inr ⟨u, by rw [hhead d u rfl]⟩

/-- The loop of `popLoop` does not go below the mark `dotdot`. -/
theorem popLoop_length (dotdot : Nat) (popped : Char) (cur : Str) (h : dotdot ≤ cur.length) :
    dotdot ≤ (path.popLoop dotdot popped cur).length := by
  induction cur generalizing popped with
  | nil => simpa [path.popLoop] using h
  | cons c t ih =>
    unfold path.popLoop
    split
    · rename_i hgt
      apply ih
      simp only [List.length_cons] at hgt
      omega
    · exact h

/-- One iteration of the loop of `path.Clean` on an element `..`: the buffer
and the mark after it are the same whether the element ends the path or is
followed by a slash.  For a rooted path the mark stays, the new buffer is an
end of the old one (both read from their end) and does not go below the mark. -/
theorem dotdot_step (rooted : Bool) (out : Str) (dotdot : Nat) :
    ∃ (out1 : Str) (dotdot1 : Nat),
      (∀ k t, path.cleanLoop rooted (k + 1) ('.' :: '.' :: '/' :: t) out dotdot
        = path.cleanLoop rooted k ('/' :: t) out1 dotdot1)
      ∧ (∀ k, path.cleanLoop rooted (k + 1) ['.', '.'] out dotdot
        = path.cleanLoop rooted k [] out1 dotdot1)
      ∧ (rooted = true → dotdot1 = dotdot ∧ out1 <:+ out
          ∧ (dotdot ≤ out.length → dotdot ≤ out1.length)) := by
  cases out with
  | nil =>
    have h : ¬ (([] : Str).length > dotdot) := by simp
    cases rooted with
    | true =>
      refine ⟨[], dotdot, ?_, ?_, ?_⟩
      · intro k t
        rw [path.cleanLoop, if_neg h]
        rfl
      · intro k
        rw [path.cleanLoop, if_neg h]
        rfl
      · exact fun _ => ⟨rfl, List.suffix_refl _, fun h => h⟩
    | false =>
      refine ⟨['.', '.'], 2, ?_, ?_, ?_⟩
      · intro k t
        rw [path.cleanLoop, if_neg h]
        rfl
      · intro k
        rw [path.cleanLoop, if_neg h]
        rfl
      · intro hr; cases hr
  | cons c o =>
    by_cases h : (c :: o).length > dotdot
    · refine ⟨path.popLoop dotdot c o, dotdot, ?_, ?_, ?_⟩
      · intro k t
        rw [path.cleanLoop, if_pos h]
      · intro k
        rw [path.cleanLoop, if_pos h]
      · intro _
        refine ⟨rfl, (popLoop_suffix dotdot c o).trans (List.suffix_cons c o), fun _ => ?_⟩
        apply popLoop_length
        simp only [List.length_cons] at h
        omega
    · cases rooted with
      | true =>
        refine ⟨c :: o, dotdot, ?_, ?_, ?_⟩
        · intro k t
          rw [path.cleanLoop, if_neg h]
          rfl
        · intro k
          rw [path.cleanLoop, if_neg h]
          rfl
        · exact fun _ => ⟨rfl, List.suffix_refl _, fun h => h⟩
      | false =>
        refine ⟨'.' :: '.' :: '/' :: c :: o, (c :: o).length + 3, ?_, ?_, ?_⟩
        · intro k t
          rw [path.cleanLoop, if_neg h]
          simp
        · intro k
          rw [path.cleanLoop, if_neg h]
          simp
        · intro hr; cases hr

/-- One iteration of the loop of `path.Clean` on an element `.`, which is
skipped. -/
theorem dot_step (rooted : Bool) (out : Str) (dotdot : Nat) :
    (∀ k t, path.cleanLoop rooted (k + 1) ('.' :: '/' :: t) out dotdot
        = path.cleanLoop rooted k ('/' :: t) out dotdot)
    ∧ (∀ k, path.cleanLoop rooted (k + 1) ['.'] out dotdot
        = path.cleanLoop rooted k [] out dotdot) := by
  constructor
  · intro k t
    rw [path.cleanLoop]
  · intro k
    rw [path.cleanLoop]

/-- The loop of `path.Clean` on a path `d` followed by a slash and more: the
part `d` is processed as it is on its own, and the loop goes on from the
buffer that this leaves. -/
theorem cleanLoop_split (rooted : Bool) (n : Nat) :
    ∀ (d r out : Str) (dotdot f1 f2 f3 : Nat), d.length ≤ n →
      (d ++ '/' :: r).length ≤ f1 → r.length + 1 ≤ f2 → d.length ≤ f3 →
      ∃ dotdot1, path.cleanLoop rooted f1 (d ++ '/' :: r) out dotdot
        = path.cleanLoop rooted f2 ('/' :: r) (path.cleanLoop rooted f3 d out dotdot) dotdot1 := by
  induction n with
  | zero =>
    intro d r out dotdot f1 f2 f3 hn h1 h2 h3
    have : d = [] := List.length_eq_zero.mp (Nat.le_zero.mp hn)
    subst this
    rw [cleanLoop_nil, List.nil_append]
    exact ⟨dotdot, cleanLoop_fuel rooted f1 f2 _ out dotdot h1 (by simpa using h2)⟩
  | succ n ih =>
    intro d r out dotdot f1 f2 f3 hn h1 h2 h3
    cases d with
    | nil =>
      rw [cleanLoop_nil, List.nil_append]
      exact ⟨dotdot, cleanLoop_fuel rooted f1 f2 _ out dotdot h1 (by simpa using h2)⟩
    | cons c t =>
      simp only [List.length_cons, List.length_append] at hn h1 h3
      obtain ⟨k1, rfl⟩ : ∃ k, f1 = k + 1 := ⟨f1 - 1, by omega⟩
      obtain ⟨k3, rfl⟩ : ∃ k, f3 = k + 1 := ⟨f3 - 1, by omega⟩
      by_cases hc : c = '/'
      · subst hc
        rw [List.cons_append, cleanLoop_slash, cleanLoop_slash]
        exact ih t r out dotdot k1 f2 k3 (by omega)
          (by simp only [List.length_append, List.length_cons]; omega) h2 (by omega)
      · obtain ⟨e, rest, hd, hne, hns, hrest, hlen⟩ := first_elem c t hc
        rw [hd, List.append_assoc]
        have hdl : (c :: t).length = e.length + rest.length := by rw [hd, List.length_append]
        simp only [List.length_cons] at hdl
        have hel : 1 ≤ e.length := by
          cases e with
          | nil => exact absurd rfl hne
          | cons _ _ => simp
        by_cases hdot : e = ['.']
        · subst hdot
          obtain ⟨s1, s2⟩ := dot_step rooted out dotdot
          rcases hrest with hr | ⟨u, hr⟩
          · subst hr
            simp only [List.singleton_append, List.cons_append, List.nil_append, List.append_nil]
            rw [s1, s2, cleanLoop_nil]
            exact ⟨dotdot, cleanLoop_fuel rooted k1 f2 _ out dotdot
              (by simp only [List.length_cons]; simp at hdl; omega) (by simpa using h2)⟩
          · subst hr
            simp only [List.singleton_append, List.cons_append, List.nil_append, List.append_nil]
            rw [s1, s1]
            have := ih ('/' :: u) r out dotdot k1 f2 k3
              (by simp only [List.length_cons] at hlen ⊢; omega)
              (by simp only [List.length_append, List.length_cons] at hdl ⊢; omega) h2
              (by simp only [List.length_cons] at hdl ⊢; omega)
            simpa only [List.cons_append] using this
        · by_cases hdd : e = ['.', '.']
          · subst hdd
            obtain ⟨out1, dd1, s1, s2, -⟩ := dotdot_step rooted out dotdot
            rcases hrest with hr | ⟨u, hr⟩
            · subst hr
              simp only [List.singleton_append, List.cons_append, List.nil_append, List.append_nil]
              rw [s1, s2, cleanLoop_nil]
              exact ⟨dd1, cleanLoop_fuel rooted k1 f2 _ out1 dd1
                (by simp only [List.length_cons]; simp at hdl; omega) (by simpa using h2)⟩
            · subst hr
              simp only [List.singleton_append, List.cons_append, List.nil_append, List.append_nil]
              rw [s1, s1]
              have := ih ('/' :: u) r out1 dd1 k1 f2 k3
                (by simp only [List.length_cons] at hlen ⊢; omega)
                (by simp only [List.length_append, List.length_cons] at hdl ⊢; omega) h2
                (by simp only [List.length_cons] at hdl ⊢; omega)
              simpa only [List.cons_append] using this
          · have he : cleanElem e = true := by
              simp [cleanElem, hne, hns, hdot, hdd]
            have hrest2 : rest ++ '/' :: r = [] ∨ ∃ u, rest ++ '/' :: r = '/' :: u := by
              right
              rcases hrest with hr | ⟨u, hr⟩
              · exact ⟨r, by rw [hr]; rfl⟩
              · exact ⟨u ++ '/' :: r, by rw [hr]; rfl⟩
            rw [cleanLoop_elem_gen rooted k1 e _ out dotdot he hrest2,
              cleanLoop_elem_gen rooted k3 e _ out dotdot he hrest]
            exact ih rest r _ dotdot k1 f2 k3 (by omega)
              (by simp only [List.length_append, List.length_cons]; omega) h2 (by omega)

/-- A slash at the end of a non-empty path does not change what `path.Clean`
returns. -/
theorem clean_append_slash (x : Str) (hx : x ≠ []) : path.Clean (x ++ ['/']) = path.Clean x := by
  cases x with
  | nil => exact absurd rfl hx
  | cons c t =>
    unfold path.Clean
    rw [List.cons_append]
    dsimp only
    by_cases hc : c = '/'
    · rw [if_pos hc, if_pos hc]
      obtain ⟨dd, h⟩ := cleanLoop_split true t.length t [] ['/'] 1 (c :: (t ++ ['/'])).length 1
        (c :: t).length (le_refl _) (by simp) (by simp) (by simp)
      rw [h, cleanLoop_slash, cleanLoop_nil]
    · rw [if_neg hc, if_neg hc]
      obtain ⟨dd, h⟩ := cleanLoop_split false (c :: t).length (c :: t) [] [] 0
        (c :: (t ++ ['/'])).length 1 (c :: t).length (le_refl _) (by simp) (by simp) (by simp)
      rw [List.cons_append] at h
      rw [h, cleanLoop_slash, cleanLoop_nil]

/-- What `path.Split` returns for a path that ends in a slash and an element
without a slash. -/
theorem split_child (x y : Str) (hy : '/' ∉ y) :
    (path.Split (x ++ '/' :: y)).1 = x ++ ['/'] := by
  have htw : (x ++ '/' :: y).reverse.takeWhile (· ≠ '/') = y.reverse := by
    rw [List.reverse_append, List.reverse_cons, List.append_assoc]
    rw [List.takeWhile_append_of_pos]
    · simp
    · intro c hc
      have : c ≠ '/' := fun h => hy (h ▸ List.mem_reverse.mp hc)
      simpa using this
  unfold path.Split
  dsimp only
  rw [htw, List.reverse_reverse]
  have : (x ++ '/' :: y).length - y.length = (x ++ ['/']).length := by
    simp only [List.length_append, List.length_cons, List.length_nil]
    omega
  rw [this, show x ++ '/' :: y = (x ++ ['/']) ++ y by simp, List.take_left]

/-- The parent directory of `x/y`, where `y` has no slash, is `path.Clean(x)`. -/
theorem dir_child (x y : Str) (hx : x ≠ []) (hy : '/' ∉ y) :
    path.Dir (x ++ '/' :: y) = path.Clean x := by
  unfold path.Dir
  rw [split_child x y hy, clean_append_slash x hx]

/-- A path that begins with `./` is not clean. -/
theorem clean_dot_slash_ne (y : Str) : path.Clean ('.' :: '/' :: y) ≠ '.' :: '/' :: y := by
  intro h
  have hlen := congrArg List.length h
  have hne : ¬ ('.' = '/') := by decide
  have hstep : path.cleanLoop false ('.' :: '/' :: y).length ('.' :: '/' :: y) [] 0
      = path.cleanLoop false y.length y [] 0 := by
    simp only [List.length_cons]
    rw [(dot_step false [] 0).1, cleanLoop_slash]
  unfold path.Clean at hlen
  dsimp only at hlen
  rw [if_neg hne, hstep] at hlen
  simp only [List.length_cons] at hlen
  obtain ⟨h1, -, -⟩ := cleanLoop_rel_bound y.length y.length y [] 0
    (le_refl _) (by simp) (fun _ _ _ _ => Or.inl rfl) (by simp)
  split at hlen
  · simp at hlen
  · rw [List.length_reverse] at hlen
    omega

/-! ## `path.Join` of a directory and a clean relative name -/

/-- The buffer of `path.Clean` on a rooted path begins with the slash of the
root (it ends with it when read from its end). -/
theorem cleanLoop_rooted_last (n : Nat) :
    ∀ (fuel : Nat) (rest out : Str), rest.length ≤ n → out.getLast? = some '/' →
      (path.cleanLoop true fuel rest out 1).getLast? = some '/' := by
  induction n with
  | zero =>
    intro fuel rest out hn h
    have : rest = [] := List.length_eq_zero.mp (Nat.le_zero.mp hn)
    subst this
    rw [cleanLoop_nil]
    exact h
  | succ n ih =>
    intro fuel rest out hn h
    cases fuel with
    | zero => exact h
    | succ k =>
      have hout : 1 ≤ out.length := by
        cases out with
        | nil => cases h
        | cons _ _ => simp
      cases rest with
      | nil => rw [cleanLoop_nil]; exact h
      | cons c t =>
        simp only [List.length_cons] at hn
        by_cases hc : c = '/'
        · subst hc
          rw [cleanLoop_slash]
          exact ih k t out (by omega) h
        · obtain ⟨e, rest, hd, hne, hns, hrest, hlen⟩ := first_elem c t hc
          rw [hd]
          by_cases hdot : e = ['.']
          · subst hdot
            obtain ⟨s1, s2⟩ := dot_step true out 1
            rcases hrest with hr | ⟨u, hr⟩
            · subst hr
              simp only [List.append_nil]
              rw [s2, cleanLoop_nil]
              exact h
            · subst hr
              simp only [List.singleton_append]
              rw [s1]
              exact ih k _ out (by omega) h
          · by_cases hdd : e = ['.', '.']
            · subst hdd
              obtain ⟨out1, dd1, s1, s2, s3⟩ := dotdot_step true out 1
              obtain ⟨hdd1, hsuf, hlen1⟩ := s3 rfl
              subst hdd1
              have h1 : out1.getLast? = some '/' := by
                have hne1 : out1 ≠ [] := by
                  have := hlen1 hout
                  intro h0
                  rw [h0] at this
                  simp at this
                rw [getLast?_of_suffix hsuf hne1]
                exact h
              rcases hrest with hr | ⟨u, hr⟩
              · subst hr
                simp only [List.append_nil]
                rw [s2, cleanLoop_nil]
                exact h1
              · subst hr
                simp only [List.cons_append, List.nil_append]
                rw [s1]
                exact ih k _ out1 (by omega) h1
            · have he : cleanElem e = true := by
                simp [cleanElem, hne, hns, hdot, hdd]
              rw [cleanLoop_elem_gen true k e _ out 1 he hrest]
              have hout0 : out ≠ [] := by
                intro h0
                rw [h0] at hout
                simp at hout
              apply ih k rest _ (by omega)
              rw [List.getLast?_append_of_ne_nil]
              · split
                · rw [← getLast?_of_suffix (List.suffix_cons '/' out) hout0]
                  exact h
                · exact h
              · split
                · exact List.cons_ne_nil _ _
                · exact hout0

/-- `path.Clean` leaves a clean relative path as it is. -/
theorem clean_of_cleanRel (p : Str) (hp : IsCleanRel p) : path.Clean p = p ∧ p ≠ [] := by
  obtain ⟨es, hes, hgood, rfl⟩ := hp
  have hne : Join es ['/'] ≠ [] ∧ (Join es ['/']).head? ≠ some '/' := by
    cases es with
    | nil => exact absurd rfl hes
    | cons e r =>
      have he : e ≠ [] ∧ '/' ∉ e ∧ e ≠ ['.'] ∧ e ≠ ['.', '.'] := by
        simpa [cleanElem] using hgood e (by simp)
      cases e with
      | nil => exact absurd rfl he.1
      | cons c t =>
        have hc : c ≠ '/' := fun h => he.2.1 (by simp [h])
        cases r with
        | nil => simpa [Join] using hc
        | cons e2 r2 =>
          rw [join_cons_cons]
          simpa using hc
  refine ⟨?_, hne.1⟩
  cases hj : Join es ['/'] with
  | nil => exact absurd hj hne.1
  | cons c t =>
    have hc : c ≠ '/' := by
      have := hne.2
      rw [hj] at this
      simpa using this
    unfold path.Clean
    dsimp only
    rw [if_neg hc, ← hj, cleanLoop_join_gen false es hes hgood _ [] 0 (le_refl _)]
    simp [hne.1]

/-- What `path.Join(dir, name)` returns for a clean relative path `name`: the
name itself when `path.Clean(dir)` is `.`, the name after a slash when
`path.Clean(dir)` is the root, and `path.Clean(dir)`, a slash and the name
otherwise.  An empty `dir` counts as `.`. -/
theorem join_dir_name (dir name : Str) (hname : IsCleanRel name) :
    (path.Join [dir, name] = name ∧ path.Clean dir = ['.'])
    ∨ (path.Join [dir, name] = '/' :: name ∧ path.Clean dir = ['/'])
    ∨ path.Join [dir, name] = path.Clean dir ++ '/' :: name := by
  obtain ⟨hcn, hnn⟩ := clean_of_cleanRel name hname
  obtain ⟨es, hes, hgood, hjoin⟩ := hname
  have hsum : ¬ (([dir, name].map List.length).sum = 0) := by
    cases name with
    | nil => exact absurd rfl hnn
    | cons _ _ => simp
  unfold path.Join
  rw [if_neg hsum]
  cases dir with
  | nil =>
    left
    have hbuf : path.joinBuf [] [[], name] = name := by
      simp [path.joinBuf, hnn]
    rw [hbuf]
    exact ⟨hcn, rfl⟩
  | cons c t =>
    have hbuf : path.joinBuf [] [c :: t, name] = c :: (t ++ '/' :: name) := by
      simp [path.joinBuf]
    rw [hbuf]
    unfold path.Clean
    dsimp only
    by_cases hc : c = '/'
    · rw [if_pos hc, if_pos hc]
      obtain ⟨dd, h⟩ := cleanLoop_split true t.length t name ['/'] 1
        (c :: (t ++ '/' :: name)).length (name.length + 1) (c :: t).length (le_refl _)
        (by simp) (le_refl _) (by simp)
      have hlast := cleanLoop_rooted_last t.length (c :: t).length t ['/'] (le_refl _) rfl
      generalize path.cleanLoop true (c :: t).length t ['/'] 1 = O at h hlast
      rw [h, cleanLoop_slash, hjoin, cleanLoop_join_gen true es hes hgood _ O dd
        (by rw [← hjoin])]
      have hO : O ≠ [] := by
        intro h0
        rw [h0] at hlast
        cases hlast
      rw [if_neg hO]
      have hne : (Join es ['/']).reverse
          ++ (if (true = true ∧ O.length ≠ 1) ∨ (¬ true = true ∧ O.length ≠ 0) then '/' :: O
              else O) ≠ [] := by
        intro h0
        have := (List.append_eq_nil.mp h0).1
        rw [← hjoin] at this
        exact hnn (List.reverse_eq_nil_iff.mp this)
      rw [if_neg hne]
      by_cases h1 : O.length = 1
      · right; left
        have hO1 : O = ['/'] := by
          cases O with
          | nil => exact absurd rfl hO
          | cons a b =>
            cases b with
            | nil =>
              have : a = '/' := by simpa using hlast
              rw [this]
            | cons _ _ => simp at h1
        subst hO1
        simp
      · right; right
        rw [if_pos (Or.inl ⟨rfl, h1⟩)]
        simp
    · rw [if_neg hc, if_neg hc]
      obtain ⟨dd, h⟩ := cleanLoop_split false (c :: t).length (c :: t) name [] 0
        (c :: (t ++ '/' :: name)).length (name.length + 1) (c :: t).length (le_refl _)
        (by simp) (le_refl _) (by simp)
      rw [List.cons_append] at h
      generalize path.cleanLoop false (c :: t).length (c :: t) [] 0 = O at h
      rw [h, cleanLoop_slash, hjoin, cleanLoop_join_gen false es hes hgood _ O dd
        (by rw [← hjoin])]
      have hne : ∀ X : Str, (Join es ['/']).reverse ++ X ≠ [] := by
        intro X h0
        have := (List.append_eq_nil.mp h0).1
        rw [← hjoin] at this
        exact hnn (List.reverse_eq_nil_iff.mp this)
      rw [if_neg (hne _)]
      by_cases h1 : O = []
      · left
        subst h1
        simp
      · right; right
        have h2 : O.length ≠ 0 := fun h0 => h1 (List.length_eq_zero.mp h0)
        rw [if_neg h1, if_pos (Or.inr ⟨by simp, h2⟩)]
        simp

/-! ## What a call of `check` without error binds -/

/-- After a call of `check` that returns no error, the folded form of the path
is bound to the path itself, with the kind that was passed. -/
theorem check_ok_self (U : zip.UnicodeLib) (fuel : Nat) (cc cc2 : zip.collisionChecker)
    (p : Str) (isDir : Bool)
    (h : zip.collisionChecker.check U fuel cc p isDir = some (none, cc2)) :
    cc2.lookup (zip.strToFold U p) = some { path := p, isDir := isDir } := by
  cases fuel with
  | zero => simp [zip.collisionChecker.check] at h
  | succ n =>
    unfold zip.collisionChecker.check at h
    dsimp only at h
    split at h
    · rename_i other hsome
      split at h
      · cases h
      · rename_i hp
        split at h
        · cases h
        · rename_i hd
          have hother : other = { path := p, isDir := isDir } := by
            cases other with
            | mk op od =>
              have h1 : p = op := by simpa using hp
              have h2 : isDir = od := by simpa using hd
              rw [h1, h2]
          rw [hother] at hsome
          split at h
          · cases h
          · split at h
            · exact check_lookup_mono U n _ cc2 _ _ none h _ _ hsome
            · cases h
              exact hsome
    · split at h
      · exact check_lookup_mono U n _ cc2 _ _ none h _ _ (lookup_cons_self _ _ _)
      · cases h
        exact lookup_cons_self _ _ _

/-- After a call of `check` that returns no error, the parent directory of the
path, unless it is `.`, is bound as a directory. -/
theorem check_ok_parent (U : zip.UnicodeLib) (fuel : Nat) (cc cc2 : zip.collisionChecker)
    (p : Str) (isDir : Bool)
    (h : zip.collisionChecker.check U fuel cc p isDir = some (none, cc2))
    (hdir : path.Dir p ≠ ['.']) :
    cc2.lookup (zip.strToFold U (path.Dir p)) = some { path := path.Dir p, isDir := true } := by
  cases fuel with
  | zero => simp [zip.collisionChecker.check] at h
  | succ n =>
    unfold zip.collisionChecker.check at h
    dsimp only at h
    split at h
    · split at h
      · cases h
      · split at h
        · cases h
        · split at h
          · cases h
          · try rw [if_pos hdir] at h
            exact check_ok_self U n _ cc2 _ true h
    · try rw [if_pos hdir] at h
      exact check_ok_self U n _ cc2 _ true h

/-- The error that `check` returns for a relative path names the path or one
of its ancestors, which are shorter; the error of a duplicate file names the
path itself, which was then passed as a file. -/
theorem check_error_path (U : zip.UnicodeLib) (fuel : Nat) (cc cc2 : zip.collisionChecker)
    (p : Str) (isDir : Bool) (e : zip.EntryError)
    (h : zip.collisionChecker.check U fuel cc p isDir = some (some e, cc2))
    (hp : p.head? ≠ some '/') :
    ∃ q : Str, q.length ≤ p.length
      ∧ ((e = zip.EntryError.fileAndDir q ∧ (q = p → ∃ other,
            cc.lookup (zip.strToFold U p) = some other ∧ other.path = p ∧ other.isDir ≠ isDir))
        ∨ (e = zip.EntryError.multipleEntries q ∧ q = p ∧ isDir = false)
        ∨ ∃ o, e = zip.EntryError.caseCollision o q) := by
  induction fuel generalizing cc p isDir with
  | zero => simp [zip.collisionChecker.check] at h
  | succ n ih =>
    have hrec : ∀ cc1, zip.collisionChecker.check U n cc1 (path.Dir p) true = some (some e, cc2) →
        path.Dir p ≠ ['.'] →
        ∃ q : Str, q.length ≤ p.length
          ∧ ((e = zip.EntryError.fileAndDir q ∧ (q = p → ∃ other,
                cc.lookup (zip.strToFold U p) = some other ∧ other.path = p
                  ∧ other.isDir ≠ isDir))
            ∨ (e = zip.EntryError.multipleEntries q ∧ q = p ∧ isDir = false)
            ∨ ∃ o, e = zip.EntryError.caseCollision o q) := by
      intro cc1 hc hne
      rcases dir_rel p hp with hd | ⟨hlt, hhead⟩
      · exact absurd hd hne
      · obtain ⟨q, hq, hcase⟩ := ih cc1 (path.Dir p) true hc hhead
        refine ⟨q, by omega, ?_⟩
        rcases hcase with ⟨h1, -⟩ | ⟨-, h2, h3⟩ | h3
        · left
          refine ⟨h1, fun hqp => ?_⟩
          rw [hqp] at hq
          omega
        · cases h3
        · exact Or.inr (Or.inr h3)
    unfold zip.collisionChecker.check at h
    dsimp only at h
    split at h
    · rename_i other hsome
      split at h
      · cases h
        exact ⟨p, le_refl _, Or.inr (Or.inr ⟨_, rfl⟩)⟩
      · rename_i hpo
        split at h
        · rename_i hd
          cases h
          refine ⟨p, le_refl _, Or.inl ⟨rfl, fun _ => ⟨other, hsome, ?_, fun h => hd h.symm⟩⟩⟩
          have : p = other.path := by simpa using hpo
          exact this.symm
        · split at h
          · rename_i hnd
            cases h
            refine ⟨p, le_refl _, Or.inr (Or.inl ⟨rfl, rfl, ?_⟩)⟩
            simpa using hnd
          · split at h
            · rename_i hne
              exact hrec cc h hne
            · cases h
    · split at h
      · rename_i hne
        exact hrec _ h hne
      · cases h

/-- Invariant of the loop: the parent directory of every valid name, unless it
is `.`, is bound in the index as a directory. -/
theorem checkEntries_valid_parent (M : ModuleLib) (U : zip.UnicodeLib) (L : zip.Limits)
    (pfx : Str) (st st1 : zip.CheckState) (files : List zip.ZipFile)
    (h : zip.checkEntries M U L pfx st files = some st1)
    (h0 : ∀ rel, pfx ++ rel ∈ st.cf.Valid → path.Dir rel ≠ ['.'] →
      st.collisions.lookup (zip.strToFold U (path.Dir rel))
        = some { path := path.Dir rel, isDir := true }) :
    ∀ rel, pfx ++ rel ∈ st1.cf.Valid → path.Dir rel ≠ ['.'] →
      st1.collisions.lookup (zip.strToFold U (path.Dir rel))
        = some { path := path.Dir rel, isDir := true } := by
  induction files generalizing st with
  | nil => cases h; exact h0
  | cons zf rest ih =>
    unfold zip.checkEntries at h
    cases hs : zip.checkEntry M U L pfx st zf with
    | none => rw [hs] at h; cases h
    | some st2 =>
      rw [hs] at h
      apply ih st2 h
      obtain ⟨-, hmono, hv⟩ := checkEntry_step M U L pfx st st2 zf hs
      intro rel hrel hdir
      rcases hv with hv | ⟨hv, hpre, hne, hd, hclean, hfp, hchk⟩
      · rw [hv] at hrel
        exact hmono _ _ (h0 rel hrel hdir)
      · rw [hv] at hrel
        rcases List.mem_append.mp hrel with hrel | hrel
        · exact hmono _ _ (h0 rel hrel hdir)
        · have hn : pfx ++ rel = zf.Name := by simpa using hrel
          have hname : zip.entryName pfx zf = rel := entryName_of_name pfx rel zf hn.symm hd
          rw [hname] at hchk
          exact check_ok_parent U _ _ _ rel false hchk hdir

/-- The state of the loop of `checkZip` before and after an entry of the
archive. -/
theorem checkEntries_at (M : ModuleLib) (U : zip.UnicodeLib) (L : zip.Limits) (pfx : Str)
    (st : zip.CheckState) (files : List zip.ZipFile) (zf : zip.ZipFile)
    (h : zip.checkEntries M U L pfx zip.CheckState.init files = some st) (hzf : zf ∈ files) :
    ∃ pre post stb sta, files = pre ++ zf :: post
      ∧ zip.checkEntries M U L pfx zip.CheckState.init pre = some stb
      ∧ zip.checkEntry M U L pfx stb zf = some sta
      ∧ zip.checkEntries M U L pfx sta post = some st := by
  obtain ⟨pre, post, hfiles⟩ := List.append_of_mem hzf
  rw [hfiles, checkEntries_append] at h
  cases hpre : zip.checkEntries M U L pfx zip.CheckState.init pre with
  | none => rw [hpre] at h; cases h
  | some stb =>
    rw [hpre] at h
    simp only [Option.some_bind] at h
    unfold zip.checkEntries at h
    cases hstep : zip.checkEntry M U L pfx stb zf with
    | none => rw [hstep] at h; cases h
    | some sta =>
      rw [hstep] at h
      exact ⟨pre, post, stb, sta, hfiles, hpre, hstep, h⟩

/-- A file entry that passes the checks of its path is recorded in `Invalid`
unless its call of `check` returns no error; in that case the index after the
loop holds what this call has bound. -/
theorem checkEntries_file_entry (M : ModuleLib) (U : zip.UnicodeLib) (L : zip.Limits)
    (pfx n : Str) (st : zip.CheckState) (files : List zip.ZipFile) (zf : zip.ZipFile)
    (h : zip.checkEntries M U L pfx zip.CheckState.init files = some st) (hzf : zf ∈ files)
    (hname : zf.Name = pfx ++ n) (hne : n ≠ []) (hlast : n.getLast? ≠ some '/')
    (hclean : path.Clean n = n) (hfp : M.CheckFilePath n = none) :
    (∃ e, ({ Path := zf.Name, Err := e } : zip.FileError) ∈ st.cf.Invalid)
    ∨ (∃ cc cc2, zip.collisionChecker.check U (n.length + 1) cc n false = some (none, cc2)
        ∧ ∀ k v, cc2.lookup k = some v → st.collisions.lookup k = some v) := by
  obtain ⟨pre, post, stb, sta, -, -, hstep, hpost⟩ :=
    checkEntries_at M U L pfx st files zf h hzf
  obtain ⟨⟨l, hl⟩, hmono⟩ := checkEntries_mono M U L pfx sta st post hpost
  rw [checkEntry_static M U L pfx n stb zf hname hne hlast hclean hfp] at hstep
  cases hchk : zip.collisionChecker.check U (n.length + 1) stb.collisions n false with
  | none => rw [hchk] at hstep; cases hstep
  | some res =>
    rcases res with ⟨_ | e, cc2⟩
    · right
      rw [hchk] at hstep
      dsimp only at hstep
      cases hstep
      refine ⟨stb.collisions, cc2, hchk, fun k v hk => hmono k v ?_⟩
      rw [checkFile_collisions]
      exact hk
    · left
      rw [hchk] at hstep
      dsimp only at hstep
      cases hstep
      refine ⟨e, ?_⟩
      rw [hl, addError_invalid]
      simp

/-! ## The loop of `UnzipFS` -/

/-- A clean relative path does not begin with a slash. -/
theorem cleanRel_head (p : Str) (hp : IsCleanRel p) : p.head? ≠ some '/' := by
  obtain ⟨es, hes, hgood, rfl⟩ := hp
  cases es with
  | nil => exact absurd rfl hes
  | cons e r =>
    have he : e ≠ [] ∧ '/' ∉ e ∧ e ≠ ['.'] ∧ e ≠ ['.', '.'] := by
      simpa [cleanElem] using hgood e (by simp)
    cases e with
    | nil => exact absurd rfl he.1
    | cons c t =>
      have hc : c ≠ '/' := fun h => he.2.1 (by simp [h])
      cases r with
      | nil => simpa [Join] using hc
      | cons e2 r2 =>
        rw [join_cons_cons]
        simpa using hc

/-- The body of the loop of `UnzipFS` takes the slice of a name that is not
shorter than the prefix without a panic. -/
theorem unzipEntry_panicked (env : zip.UnzipEnv) (dir pfx : Str) (ops : List zip.FsOp)
    (zf : zip.ZipFile) (hlen : ¬ len zf.Name < len pfx) :
    (zip.unzipEntry env dir pfx ops zf).panicked = false := by
  unfold zip.unzipEntry
  rw [if_neg hlen]
  dsimp only
  repeat' split
  all_goals rfl

/-- The loop of `UnzipFS` on entries that begin with the prefix: no slice is
out of range, and every call is made for a file entry of the archive. -/
theorem unzipEntries_ops (env : zip.UnzipEnv) (dir pfx : Str) (ops : List zip.FsOp)
    (files : List zip.ZipFile) (hpre : ∀ zf ∈ files, HasPrefix zf.Name pfx = true) :
    (zip.unzipEntries env dir pfx ops files).panicked = false
    ∧ ∀ op ∈ (zip.unzipEntries env dir pfx ops files).ops, op ∈ ops
      ∨ ∃ zf ∈ files, zf.Name.drop pfx.length ≠ []
          ∧ HasSuffix (zf.Name.drop pfx.length) ['/'] = false
          ∧ (op = zip.FsOp.osMkdirAll (path.Dir (path.Join [dir, zf.Name.drop pfx.length]))
            ∨ op = zip.FsOp.openFile (path.Join [dir, zf.Name.drop pfx.length])
            ∨ op = zip.FsOp.close (path.Join [dir, zf.Name.drop pfx.length])
            ∨ ∃ r k, env.zfOpen zf = Except.ok r
                ∧ op = zip.FsOp.write (path.Join [dir, zf.Name.drop pfx.length])
                    ((zip.limitedData r
                      (zip.add64 (zip.toInt64 zf.UncompressedSize64) 1)).take k)) := by
  induction files generalizing ops with
  | nil =>
    unfold zip.unzipEntries
    exact ⟨rfl, fun op hop => Or.inl hop⟩
  | cons zf rest ih =>
    have hp := unzipEntry_panicked env dir pfx ops zf
      (len_of_hasPrefix _ _ (hpre zf (List.mem_cons_self _ _)))
    have hops := unzipEntry_ops env dir pfx ops zf
    have hhead : ∀ op ∈ (zip.unzipEntry env dir pfx ops zf).ops, op ∈ ops
        ∨ ∃ zf2 ∈ zf :: rest, zf2.Name.drop pfx.length ≠ []
          ∧ HasSuffix (zf2.Name.drop pfx.length) ['/'] = false
          ∧ (op = zip.FsOp.osMkdirAll (path.Dir (path.Join [dir, zf2.Name.drop pfx.length]))
            ∨ op = zip.FsOp.openFile (path.Join [dir, zf2.Name.drop pfx.length])
            ∨ op = zip.FsOp.close (path.Join [dir, zf2.Name.drop pfx.length])
            ∨ ∃ r k, env.zfOpen zf2 = Except.ok r
                ∧ op = zip.FsOp.write (path.Join [dir, zf2.Name.drop pfx.length])
                    ((zip.limitedData r
                      (zip.add64 (zip.toInt64 zf2.UncompressedSize64) 1)).take k)) := by
      intro op hop
      rcases hops op hop with h | ⟨-, h1, h2, h3⟩
      · exact Or.inl h
      · exact Or.inr ⟨zf, List.mem_cons_self _ _, h1, h2, h3⟩
    unfold zip.unzipEntries
    dsimp only
    split
    · exact ⟨hp, hhead⟩
    · obtain ⟨i1, i2⟩ := ih (zip.unzipEntry env dir pfx ops zf).ops
        (fun z hz => hpre z (List.mem_cons_of_mem _ hz))
      refine ⟨i1, fun op hop => ?_⟩
      rcases i2 op hop with h | ⟨zf2, hmem, hrest⟩
      · exact hhead op h
      · exact Or.inr ⟨zf2, List.mem_cons_of_mem _ hmem, hrest⟩

/-- The entries of an archive that `checkZip` accepts: each has the prefix,
and the stripped name of each file entry is clean and passes
`module.CheckFilePath`. -/
theorem checkZip_ok_names (M : ModuleLib) (U : zip.UnicodeLib) (L : zip.Limits)
    (m : module.Version) (f : zip.ZipSource) (files : List zip.ZipFile) (cf : zip.CheckedFiles)
    (h : zip.checkZip M U L m f = some (some files, cf, none)) :
    ∀ zf ∈ files, HasPrefix zf.Name (zip.entryPrefix m) = true
      ∧ (zf.Name.drop (zip.entryPrefix m).length ≠ [] →
          HasSuffix (zf.Name.drop (zip.entryPrefix m).length) ['/'] = false →
          path.Clean (zf.Name.drop (zip.entryPrefix m).length)
            = zf.Name.drop (zip.entryPrefix m).length
          ∧ M.CheckFilePath (zf.Name.drop (zip.entryPrefix m).length) = none) := by
  obtain ⟨hinv, -, st, hst, hcf⟩ := checkZip_ok M U L m f files cf h
  subst hcf
  intro zf hzf
  obtain ⟨hp, hrest⟩ := checkEntries_ok M U L _ _ st files hst hinv zf hzf
  refine ⟨hp, fun hne hfile => ?_⟩
  have hdir : zip.entryIsDir (zip.entryPrefix m) zf = false := hfile
  have hname : zip.entryName (zip.entryPrefix m) zf = zf.Name.drop (zip.entryPrefix m).length := by
    unfold zip.entryName
    dsimp only
    rw [hdir]
    rfl
  rcases hrest with hd | ⟨hc, hfp, -⟩
  · exact absurd hd hne
  · rw [hname] at hc hfp
    exact ⟨hc, hfp⟩

/-- The ways in which `UnzipFS` returns: before any call that changes the file
system, with an error; after `xfs.MkdirAll` failed; or after the loop over
the entries of an archive that `checkZip` accepts. -/
theorem unzipFS_cases (M : ModuleLib) (U : zip.UnicodeLib) (L : zip.Limits)
    (env : zip.UnzipEnv) (dir : Str) (m : module.Version) (zipFile : Str)
    (res : zip.UnzipResult (zip.ZipError zip.UnzipError))
    (h : zip.UnzipFS M U L env dir m zipFile = some res) :
    (res.ops = [] ∧ res.panicked = false ∧ res.err ≠ none)
    ∨ (res.ops = [zip.FsOp.xfsMkdirAll dir] ∧ res.panicked = false ∧ res.err ≠ none)
    ∨ ∃ f files cf, env.Open zipFile = Except.ok f
        ∧ zip.checkZip M U L m f = some (some files, cf, none)
        ∧ res.ops = (zip.unzipEntries env dir (zip.entryPrefix m)
            [zip.FsOp.xfsMkdirAll dir] files).ops
        ∧ res.err = (zip.unzipEntries env dir (zip.entryPrefix m)
            [zip.FsOp.xfsMkdirAll dir] files).err.map (zip.unzipWrap zipFile)
        ∧ res.panicked = (zip.unzipEntries env dir (zip.entryPrefix m)
            [zip.FsOp.xfsMkdirAll dir] files).panicked := by
  unfold zip.UnzipFS at h
  split at h
  · cases h
    exact Or.inl ⟨rfl, rfl, by simp⟩
  · split at h
    · cases h
      exact Or.inl ⟨rfl, rfl, by simp⟩
    · rename_i f hopen
      split at h
      · cases h
      · cases h
        exact Or.inl ⟨rfl, rfl, by simp⟩
      · rename_i z cf hchk
        split at h
        · cases h
          exact Or.inl ⟨rfl, rfl, by simp⟩
        · split at h
          · cases h
            exact Or.inr (Or.inl ⟨rfl, rfl, by simp⟩)
          · split at h
            · exfalso
              rcases checkZip_cases M U L m f none cf none hchk with ⟨-, -, he⟩ | ⟨-, ⟨e, hs⟩, he⟩
                | ⟨⟨files, hz⟩, -⟩
              · rcases he with he | ⟨e, he⟩ <;> cases he
              · have := (err_ne_none_iff cf).mpr (Or.inr (by rw [hs]; simp))
                exact this he.symm
              · cases hz
            · rename_i files
              cases h
              exact Or.inr (Or.inr ⟨f, files, cf, hopen, hchk, rfl, rfl, rfl⟩)

/-- The file paths that the strict library of the fixtures accepts are clean
relative paths. -/
theorem fixture_strict_cleanRel (p : Str) (h : fixture.strictLib.CheckFilePath p = none) :
    IsCleanRel p := by
  have hp : p = "go.mod".toList ∨ p = "main.go".toList := by
    by_contra hn
    have : fixture.strictLib.CheckFilePath p = some fixture.errInvalid := if_neg hn
    rw [this] at h
    cases h
  rcases hp with hp | hp
  · subst hp
    exact ⟨["go.mod".toList], by simp, by decide, rfl⟩
  · subst hp
    exact ⟨["main.go".toList], by simp, by decide, rfl⟩

/-! ## `listFilesInDirFS` at the root of the walk -/

/-- No path begins with itself followed by a slash. -/
theorem not_hasPrefix_self_slash (dir : Str) : HasPrefix dir (dir ++ ['/']) = false := by
  cases h : HasPrefix dir (dir ++ ['/']) with
  | false => rfl
  | true =>
    exfalso
    have hp := (List.isPrefixOf_iff_prefix.mp h).length_le
    simp at hp

/-- The function that `listFilesInDirFS` passes to `fs.WalkDir` returns an
error when it is called for the root of the walk. -/
theorem listWalkFn_root (fsys : fs.FS) (dir : Str) (s : zip.ListState) (info : Option fs.DirEntry) :
    zip.listWalkFn fsys dir s dir info none
      = (s, some (fs.WalkError.other (zip.ListError.notRelative dir dir))) := by
  unfold zip.listWalkFn
  dsimp only
  have hcut : CutPrefix dir (dir ++ ['/']) = (dir, false) := by
    unfold CutPrefix
    rw [not_hasPrefix_self_slash]
    rfl
  rw [hcut]

/-- `listFilesInDirFS` returns an error for every file system and every
directory: that of `fs.Stat` on the directory, or "not relative to" for the
directory itself. -/
theorem listFiles_fails (fsys : fs.FS) (fuel : Nat) (dir : Str) :
    zip.listFilesInDirFS fsys (fuel + 1) dir
      = some (Except.error
          (match fsys.Stat dir with
           | Except.error err => zip.ListError.lib err
           | Except.ok _ => zip.ListError.notRelative dir dir)) := by
  unfold zip.listFilesInDirFS fs.WalkDir
  cases hstat : fsys.Stat dir with
  | error err => rfl
  | ok info =>
    dsimp only
    unfold fs.walkDir
    dsimp only
    rw [listWalkFn_root]
    dsimp only
    rw [if_pos (Or.inl (by simp))]
    simp

/-! ## Collisions of folded names -/

/-- A file entry that passes the checks of its path and has the folded form of a
valid entry with another name is recorded in `Invalid` with the case-insensitive
collision error, and the error returned is not nil. -/
theorem collision_reported (M : ModuleLib) (U : zip.UnicodeLib) (L : zip.Limits)
    (m : module.Version) (f : zip.ZipSource) :
    ∀ files cf err, zip.checkZip M U L m f = some (some files, cf, err) →
      ∀ (e2 : zip.ZipFile) (n1 n2 : Str), e2 ∈ files →
        e2.Name = zip.entryPrefix m ++ n2 → n2 ≠ [] → n2.getLast? ≠ some '/' →
        path.Clean n2 = n2 → M.CheckFilePath n2 = none →
        zip.entryPrefix m ++ n1 ∈ cf.Valid →
        n1 ≠ n2 → zip.strToFold U n1 = zip.strToFold U n2 →
        ({ Path := e2.Name, Err := zip.EntryError.caseCollision n1 n2 } : zip.FileError)
            ∈ cf.Invalid
          ∧ err ≠ none := by
  intro files cf err h e2 n1 n2 he2 hname hne hlast hclean hfp hvalid hn12 hfold
  obtain ⟨st, hst, hcf, herr⟩ := checkZip_loop M U L m f files cf err h
  subst hcf
  obtain ⟨pre, post, hfiles⟩ := List.append_of_mem he2
  rw [hfiles, checkEntries_append] at hst
  cases hpre : zip.checkEntries M U L (zip.entryPrefix m) zip.CheckState.init pre with
  | none => rw [hpre] at hst; cases hst
  | some stb =>
    rw [hpre] at hst
    simp only [Option.some_bind] at hst
    unfold zip.checkEntries at hst
    cases hstep : zip.checkEntry M U L (zip.entryPrefix m) stb e2 with
    | none => rw [hstep] at hst; cases hst
    | some sta =>
      rw [hstep] at hst
      dsimp only at hst
      have hinv := checkEntries_valid_bound M U L _ _ stb pre hpre
        (fun rel hrel => by cases hrel)
      have hstatic := checkEntry_static M U L (zip.entryPrefix m) n2 stb e2 hname hne hlast
        hclean hfp
      have hmem : ({ Path := e2.Name, Err := zip.EntryError.caseCollision n1 n2 }
          : zip.FileError) ∈ st.cf.Invalid := by
        by_cases hin : zip.entryPrefix m ++ n1 ∈ stb.cf.Valid
        · have hb := hinv n1 hin
          rw [hfold] at hb
          have hcol := (check_bound_file U n2.length stb.collisions n2 _ hb).2
            (fun h => hn12 h.symm)
          rw [hstatic, hcol] at hstep
          cases hstep
          obtain ⟨⟨l, hl⟩, -⟩ := checkEntries_mono M U L _ _ st post hst
          rw [hl, addError_invalid]
          simp
        · exfalso
          have hva : zip.entryPrefix m ++ n1 ∉ sta.cf.Valid := by
            obtain ⟨-, -, hv⟩ := checkEntry_step M U L _ stb sta e2 hstep
            rcases hv with hv | ⟨hv, -⟩
            · rw [hv]; exact hin
            · rw [hv]
              intro hmem
              rcases List.mem_append.mp hmem with hmem | hmem
              · exact hin hmem
              · have : zip.entryPrefix m ++ n1 = e2.Name := by simpa using hmem
                rw [hname] at this
                exact hn12 (List.append_cancel_left this)
          have hba : ∃ v, sta.collisions.lookup (zip.strToFold U n1) = some v := by
            rw [hfold]
            rw [hstatic] at hstep
            cases hchk : zip.collisionChecker.check U (n2.length + 1) stb.collisions n2 false with
            | none => rw [hchk] at hstep; cases hstep
            | some res =>
              rcases res with ⟨e, cc⟩
              have hkey := check_key_bound U _ _ _ _ _ _ hchk
              rw [hchk] at hstep
              cases e with
              | none =>
                dsimp only at hstep
                cases hstep
                rw [checkFile_collisions]
                exact hkey
              | some e =>
                dsimp only at hstep
                cases hstep
                exact hkey
          exact checkEntries_never_valid M U L _ n1 sta st post hst hva hba hvalid
      refine ⟨hmem, ?_⟩
      rw [herr]
      unfold zip.CheckedFiles.Err
      cases st.cf.SizeError with
      | some e => simp
      | none =>
        dsimp only
        rw [if_pos (List.ne_nil_of_mem hmem)]
        simp

/-- The key of `strToFold` has as many runes as the string. -/
theorem strToFold_length (U : zip.UnicodeLib) (s : Str) :
    (zip.strToFold U s).length = s.length := by
  unfold zip.strToFold
  split
  · rfl
  · exact List.length_map _ _

/-! ## Runes, their code points and their keys -/

theorem char_lt_iff (a b : Char) : a < b ↔ a.toNat < b.toNat := Iff.rfl

theorem char_le_iff (a b : Char) : a ≤ b ↔ a.toNat ≤ b.toNat := Iff.rfl

theorem char_toNat_inj (a b : Char) (h : a.toNat = b.toNat) : a = b := by
  rw [← Char.ofNat_toNat a, ← Char.ofNat_toNat b, h]

theorem toNat_ofNat_small (n : Nat) (h : n < 55296) : (Char.ofNat n).toNat = n := by
  unfold Char.ofNat
  rw [dif_pos (Or.inl h)]
  unfold Char.ofNatAux Char.toNat
  simp [UInt32.toNat]

/-- The code point of `asciiLower r`. -/
theorem asciiLower_toNat (r : Char) :
    (zip.asciiLower r).toNat
      = if 65 ≤ r.toNat ∧ r.toNat ≤ 90 then r.toNat + 32 else r.toNat := by
  unfold zip.asciiLower
  have hA : 'A'.toNat = 65 := by decide
  have hZ : 'Z'.toNat = 90 := by decide
  have ha : 'a'.toNat - 'A'.toNat = 32 := by decide
  by_cases h : 'A' ≤ r ∧ r ≤ 'Z'
  · have h' : 65 ≤ r.toNat ∧ r.toNat ≤ 90 := by
      rw [char_le_iff, char_le_iff, hA, hZ] at h
      exact h
    rw [if_pos h, if_pos h', ha, toNat_ofNat_small _ (by omega)]
  · have h' : ¬ (65 ≤ r.toNat ∧ r.toNat ≤ 90) := by
      rw [char_le_iff, char_le_iff, hA, hZ] at h
      exact h
    rw [if_neg h, if_neg h']

/-- Runes with the same `asciiLower` are equal or both in ASCII. -/
theorem asciiLower_eq (a b : Char) (h : zip.asciiLower a = zip.asciiLower b) :
    a = b ∨ (a.toNat < 128 ∧ b.toNat < 128) := by
  have h1 := congrArg Char.toNat h
  rw [asciiLower_toNat, asciiLower_toNat] at h1
  by_cases hab : a.toNat = b.toNat
  · exact Or.inl (char_toNat_inj a b hab)
  · right
    split at h1 <;> split at h1 <;> omega

/-- The test of `EqualFold` for two runes `lo < hi` of ASCII says whether
they have the same `asciiLower`. -/
theorem asciiPair_iff (lo hi : Char) (hlt : lo < hi) :
    asciiPair lo hi = true ↔ zip.asciiLower lo = zip.asciiLower hi := by
  have hA : 'A'.toNat = 65 := by decide
  have hZ : 'Z'.toNat = 90 := by decide
  have ha : 'a'.toNat - 'A'.toNat = 32 := by decide
  rw [char_lt_iff] at hlt
  unfold asciiPair
  rw [decide_eq_true_iff, ha, char_le_iff, char_le_iff, hA, hZ]
  constructor
  · intro h
    apply char_toNat_inj
    rw [asciiLower_toNat, asciiLower_toNat]
    split <;> split <;> omega
  · intro h
    have h1 := congrArg Char.toNat h
    rw [asciiLower_toNat, asciiLower_toNat] at h1
    split at h1 <;> split at h1 <;> omega

/-- The inner loop of `strToFold` ends at the smallest equivalent rune. -/
theorem foldLoop_least (U : zip.UnicodeLib) (least : Char → Char)
    (H : zip.SimpleFoldLaws U.SimpleFold least) (fuel : Nat) (r : Char)
    (hf : 1114111 ≤ r.toNat + fuel) : zip.foldLoop U fuel r = least r := by
  induction fuel generalizing r with
  | zero =>
    unfold zip.foldLoop
    dsimp only
    rcases H.next r with hn | hn
    · exfalso
      rw [char_lt_iff] at hn
      have := char_toNat_le (U.SimpleFold r)
      omega
    · rw [if_pos (by rw [hn]; exact H.le r), hn]
  | succ n ih =>
    unfold zip.foldLoop
    dsimp only
    by_cases hle : U.SimpleFold r ≤ r
    · rw [if_pos hle]
      rcases H.next r with hn | hn
      · rw [char_lt_iff] at hn
        rw [char_le_iff] at hle
        omega
      · exact hn
    · rw [if_neg hle]
      rw [char_le_iff] at hle
      rw [ih _ (by omega), H.orbit]

/-- The key of a rune: the smallest equivalent rune, in lower case for `A` to
`Z`. -/
theorem foldRune_least (U : zip.UnicodeLib) (least : Char → Char)
    (H : zip.SimpleFoldLaws U.SimpleFold least) (r : Char) :
    zip.foldRune U r = zip.asciiLower (least r) := by
  have h := foldLoop_least U least H (1114112 - r.toNat) r (by omega)
  unfold zip.foldRune zip.asciiLower
  dsimp only
  rw [h]

/-- Two runes have the same key exactly when they are equivalent. -/
theorem key_eq_iff (SimpleFold least : Char → Char) (H : zip.SimpleFoldLaws SimpleFold least)
    (a b : Char) :
    zip.asciiLower (least a) = zip.asciiLower (least b) ↔ least a = least b := by
  constructor
  · intro h
    rcases asciiLower_eq _ _ h with h1 | ⟨h1, h2⟩
    · exact h1
    · have := (H.ascii (least a) (least b) h1 h2).mpr h
      rw [H.idem, H.idem] at this
      exact this
  · intro h
    rw [h]

/-- The key of a rune of ASCII is its `asciiLower`. -/
theorem key_ascii (SimpleFold least : Char → Char) (H : zip.SimpleFoldLaws SimpleFold least)
    (c : Char) (hc : c.toNat < 128) : zip.asciiLower (least c) = zip.asciiLower c := by
  have hle := H.le c
  rw [char_le_iff] at hle
  exact (H.ascii (least c) c (by omega) hc).mp (H.idem c)

/-- Under the laws of `unicode.SimpleFold`, `strToFold` maps every rune to its
key. -/
theorem strToFold_map (U : zip.UnicodeLib) (least : Char → Char)
    (H : zip.SimpleFoldLaws U.SimpleFold least) (s : Str) :
    zip.strToFold U s = s.map fun r => zip.asciiLower (least r) := by
  unfold zip.strToFold
  split
  · rename_i hall
    symm
    rw [List.all_eq_true] at hall
    conv_rhs => rw [← List.map_id s]
    apply List.map_congr_left
    intro c hc
    have h := hall c hc
    have h' : ¬ (c.toNat ≥ 128 ∨ ('A' ≤ c ∧ c ≤ 'Z')) := of_decide_eq_true h
    have h1 : c.toNat < 128 := by
      by_contra hh
      exact h' (Or.inl (by omega))
    have h2 : ¬ ('A' ≤ c ∧ c ≤ 'Z') := fun hh => h' (Or.inr hh)
    rw [key_ascii U.SimpleFold least H c h1]
    unfold zip.asciiLower
    rw [if_neg h2]
    rfl
  · apply List.map_congr_left
    intro c _
    exact foldRune_least U least H c

/-! ## The walk of `strings.EqualFold` along `unicode.SimpleFold` -/

/-- The walk of `EqualFold` stops where its condition fails. -/
theorem foldWalk_stop (SimpleFold : Char → Char) (fuel : Nat) (sr tr r : Char)
    (h : ¬ (r ≠ sr ∧ r < tr)) : foldWalk SimpleFold fuel sr tr r = some r := by
  unfold foldWalk
  rw [if_neg h]

/-- The walk of `EqualFold` from an equivalent rune below `lo` ends at `lo`. -/
theorem foldWalk_below (SimpleFold least : Char → Char)
    (H : zip.SimpleFoldLaws SimpleFold least) (lo hi : Char) (hlt : lo < hi) :
    ∀ (fuel : Nat) (r : Char), least r = least lo → r < lo → lo.toNat - r.toNat ≤ fuel →
      foldWalk SimpleFold fuel lo hi r = some lo := by
  intro fuel
  induction fuel with
  | zero =>
    intro r _ hr hf
    rw [char_lt_iff] at hr
    omega
  | succ n ih =>
    intro r hm hr hf
    have hcond : r ≠ lo ∧ r < hi := by
      rw [char_lt_iff] at hr hlt
      refine ⟨fun h => ?_, ?_⟩
      · rw [h] at hr
        omega
      · rw [char_lt_iff]
        omega
    obtain ⟨g1, g2⟩ := H.gap r lo hm.symm hr
    unfold foldWalk
    rw [if_pos hcond]
    dsimp only
    by_cases heq : SimpleFold r = lo
    · rw [heq]
      exact foldWalk_stop SimpleFold n lo hi lo (fun h => h.1 rfl)
    · rw [char_lt_iff] at hr g1
      rw [char_le_iff] at g2
      have hne : (SimpleFold r).toNat ≠ lo.toNat := fun h => heq (char_toNat_inj _ _ h)
      apply ih (SimpleFold r) (by rw [H.orbit]; exact hm)
      · rw [char_lt_iff]
        omega
      · omega

/-- The walk of `EqualFold` from an equivalent rune above `lo` ends, and it
ends at `hi` exactly when `hi` is equivalent to `lo`. -/
theorem foldWalk_above (SimpleFold least : Char → Char)
    (H : zip.SimpleFoldLaws SimpleFold least) (lo hi : Char) (hlt : lo < hi) :
    ∀ (fuel : Nat) (r : Char), least r = least lo → lo < r →
      (least hi = least lo → r ≤ hi) → (1114112 - r.toNat) + lo.toNat ≤ fuel →
      ∃ r1, foldWalk SimpleFold fuel lo hi r = some r1 ∧ (r1 = hi ↔ least hi = least lo) := by
  intro fuel
  induction fuel with
  | zero =>
    intro r _ _ _ hf
    have := char_toNat_le r
    omega
  | succ n ih =>
    intro r hm hr hJ hf
    have hrle := char_toNat_le r
    by_cases hc : r < hi
    · have hcond : r ≠ lo ∧ r < hi := by
        refine ⟨fun h => ?_, hc⟩
        rw [h, char_lt_iff] at hr
        omega
      unfold foldWalk
      rw [if_pos hcond]
      dsimp only
      by_cases hgt : r < SimpleFold r
      · apply ih (SimpleFold r) (by rw [H.orbit]; exact hm)
        · rw [char_lt_iff] at hr hgt ⊢
          omega
        · intro hh
          exact (H.gap r hi (by rw [hh, hm]) hc).2
        · rw [char_lt_iff] at hgt
          omega
      · have hn : SimpleFold r = least r := by
          rcases H.next r with h | h
          · exact absurd h hgt
          · exact h
        have hne : least hi ≠ least lo := by
          intro hh
          exact hgt (H.gap r hi (by rw [hh, hm]) hc).1
        have hlo : lo ≠ hi := by
          intro h
          rw [h, char_lt_iff] at hlt
          omega
        refine ⟨lo, ?_, ⟨fun h => absurd h hlo, fun h => absurd h hne⟩⟩
        rw [hn, hm]
        have hle := H.le lo
        by_cases heq : least lo = lo
        · rw [heq]
          exact foldWalk_stop SimpleFold n lo hi lo (fun h => h.1 rfl)
        · rw [char_le_iff] at hle
          have hne2 : (least lo).toNat ≠ lo.toNat := fun h => heq (char_toNat_inj _ _ h)
          apply foldWalk_below SimpleFold least H lo hi hlt n (least lo) (H.idem lo)
          · rw [char_lt_iff]
            omega
          · omega
    · refine ⟨r, foldWalk_stop SimpleFold _ lo hi r (fun h => hc h.2), ?_⟩
      constructor
      · intro h
        rw [← h, hm]
      · intro h
        have h1 := hJ h
        rw [char_lt_iff] at hc
        rw [char_le_iff] at h1
        exact char_toNat_inj _ _ (by omega)

/-- The test that `EqualFold` makes for two runes `lo < hi` says whether they
are equivalent. -/
theorem runeTest_eq (SimpleFold least : Char → Char)
    (H : zip.SimpleFoldLaws SimpleFold least) (lo hi : Char) (hlt : lo < hi) :
    runeTest SimpleFold lo hi = some (decide (least lo = least hi)) := by
  unfold runeTest
  have hlt' := hlt
  rw [char_lt_iff] at hlt'
  by_cases hascii : hi.toNat < 128
  · rw [if_pos hascii]
    congr 1
    rw [Bool.eq_iff_iff, decide_eq_true_iff, asciiPair_iff lo hi hlt]
    exact (H.ascii lo hi (by omega) hascii).symm
  · rw [if_neg hascii]
    have hlole := char_toNat_le lo
    have hwalk : ∃ r1, foldWalk SimpleFold (2 * 1114112) lo hi (SimpleFold lo) = some r1
        ∧ (r1 = hi ↔ least hi = least lo) := by
      by_cases hgt : lo < SimpleFold lo
      · apply foldWalk_above SimpleFold least H lo hi hlt _ _ (H.orbit lo) hgt
        · intro hh
          exact (H.gap lo hi hh hlt).2
        · have := char_toNat_le (SimpleFold lo)
          omega
      · have hn : SimpleFold lo = least lo := by
          rcases H.next lo with h | h
          · exact absurd h hgt
          · exact h
        have hne : least hi ≠ least lo := by
          intro hh
          exact hgt (H.gap lo hi hh hlt).1
        have hlo : lo ≠ hi := by
          intro h
          rw [h] at hlt'
          omega
        refine ⟨lo, ?_, ⟨fun h => absurd h hlo, fun h => absurd h hne⟩⟩
        rw [hn]
        have hle := H.le lo
        by_cases heq : least lo = lo
        · rw [heq]
          exact foldWalk_stop SimpleFold _ lo hi lo (fun h => h.1 rfl)
        · rw [char_le_iff] at hle
          have hne2 : (least lo).toNat ≠ lo.toNat := fun h => heq (char_toNat_inj _ _ h)
          apply foldWalk_below SimpleFold least H lo hi hlt _ (least lo) (H.idem lo)
          · rw [char_lt_iff]
            omega
          · omega
    obtain ⟨r1, h1, h2⟩ := hwalk
    rw [h1]
    dsimp only
    congr 1
    rw [Bool.eq_iff_iff, decide_eq_true_iff, decide_eq_true_iff, h2]
    exact eq_comm

/-- The body of the loop of `EqualFold` says whether the two runes are
equivalent. -/
theorem runeEqualFold_eq (SimpleFold least : Char → Char)
    (H : zip.SimpleFoldLaws SimpleFold least) (sr tr : Char) :
    runeEqualFold SimpleFold sr tr = some (decide (least sr = least tr)) := by
  unfold runeEqualFold
  by_cases heq : tr = sr
  · rw [if_pos heq, heq]
    simp
  · rw [if_neg heq]
    by_cases hts : tr < sr
    · rw [if_pos hts, runeTest_eq SimpleFold least H tr sr hts]
      congr 1
      rw [Bool.eq_iff_iff, decide_eq_true_iff, decide_eq_true_iff]
      exact eq_comm
    · rw [if_neg hts]
      have hlt : sr < tr := by
        rw [char_lt_iff] at hts ⊢
        have : tr.toNat ≠ sr.toNat := fun h => heq (char_toNat_inj _ _ h)
        omega
      exact runeTest_eq SimpleFold least H sr tr hlt

/-! ## `strings.EqualFold` and `strToFold` -/

/-- The loop of `EqualFold` after `hasUnicode` says whether the strings are
equivalent rune by rune. -/
theorem unicodeLoop_eq (SimpleFold least : Char → Char)
    (H : zip.SimpleFoldLaws SimpleFold least) (s t : Str) :
    unicodeLoop SimpleFold s t = some (decide (s.map least = t.map least)) := by
  induction s generalizing t with
  | nil =>
    unfold unicodeLoop
    cases t with
    | nil => rfl
    | cons c u => simp
  | cons sr s ih =>
    cases t with
    | nil =>
      unfold unicodeLoop
      simp
    | cons tr t =>
      unfold unicodeLoop
      rw [runeEqualFold_eq SimpleFold least H sr tr]
      by_cases h : least sr = least tr
      · rw [decide_eq_true h]
        dsimp only
        rw [ih t]
        simp [h]
      · rw [decide_eq_false h]
        dsimp only
        simp [h]

/-- Go `strings.EqualFold` returns, and says whether the strings are
equivalent rune by rune. -/
theorem equalFold_eq (SimpleFold least : Char → Char)
    (H : zip.SimpleFoldLaws SimpleFold least) (s t : Str) :
    EqualFold SimpleFold s t = some (decide (s.map least = t.map least)) := by
  induction s generalizing t with
  | nil =>
    unfold EqualFold
    cases t with
    | nil => rfl
    | cons c u => simp
  | cons sr s ih =>
    cases t with
    | nil =>
      unfold EqualFold
      simp
    | cons tr t =>
      unfold EqualFold
      by_cases hu : sr.toNat ≥ 128 ∨ tr.toNat ≥ 128
      · rw [if_pos hu]
        exact unicodeLoop_eq SimpleFold least H _ _
      · rw [if_neg hu]
        have h1 : sr.toNat < 128 := by
          by_contra h
          exact hu (Or.inl (by omega))
        have h2 : tr.toNat < 128 := by
          by_contra h
          exact hu (Or.inr (by omega))
        by_cases heq : tr = sr
        · rw [if_pos heq, ih t, heq]
          simp
        · rw [if_neg heq]
          have hpair : asciiPair (if tr < sr then tr else sr) (if tr < sr then sr else tr) = true
              ↔ least sr = least tr := by
            by_cases hts : tr < sr
            · rw [if_pos hts, if_pos hts, asciiPair_iff tr sr hts, ← H.ascii tr sr h2 h1]
              exact eq_comm
            · rw [if_neg hts, if_neg hts]
              have hlt : sr < tr := by
                rw [char_lt_iff] at hts ⊢
                have : tr.toNat ≠ sr.toNat := fun h => heq (char_toNat_inj _ _ h)
                omega
              rw [asciiPair_iff sr tr hlt, ← H.ascii sr tr h1 h2]
          by_cases h : least sr = least tr
          · rw [if_pos (hpair.mpr h), ih t]
            simp [h]
          · rw [if_neg (fun hp => h (hpair.mp hp))]
            simp [h]

/-- Two maps that identify the same pairs of elements identify the same pairs
of lists. -/
theorem map_eq_map_iff {α β γ : Type} (f : α → β) (g : α → γ)
    (h : ∀ a b, f a = f b ↔ g a = g b) (s t : List α) :
    s.map f = t.map f ↔ s.map g = t.map g := by
  induction s generalizing t with
  | nil => cases t <;> simp
  | cons a s ih =>
    cases t with
    | nil => simp
    | cons b t =>
      simp only [List.map_cons, List.cons.injEq]
      rw [h a b, ih t]

/-- Under the laws of `unicode.SimpleFold`, Go `strings.EqualFold` returns, and
it returns true exactly for the strings with the same key. -/
theorem equalFold_strToFold (U : zip.UnicodeLib) (least : Char → Char)
    (H : zip.SimpleFoldLaws U.SimpleFold least) (s t : Str) :
    EqualFold U.SimpleFold s t = some (decide (zip.strToFold U s = zip.strToFold U t)) := by
  rw [equalFold_eq U.SimpleFold least H, strToFold_map U least H, strToFold_map U least H]
  congr 1
  rw [Bool.eq_iff_iff, decide_eq_true_iff, decide_eq_true_iff]
  exact map_eq_map_iff least (fun r => zip.asciiLower (least r))
    (fun a b => (key_eq_iff U.SimpleFold least H a b).symm) s t

/-! ## The folding of the fixtures -/

/-- The code point of `SimpleFold` of the fixture. -/
theorem asciiFold_toNat (c : Char) :
    (fixture.asciiFold.SimpleFold c).toNat
      = if 65 ≤ c.toNat ∧ c.toNat ≤ 90 then c.toNat + 32
        else if 97 ≤ c.toNat ∧ c.toNat ≤ 122 then c.toNat - 32 else c.toNat := by
  have hA : 'A'.toNat = 65 := by decide
  have hZ : 'Z'.toNat = 90 := by decide
  have ha : 'a'.toNat = 97 := by decide
  have hz : 'z'.toNat = 122 := by decide
  show (if 'A' ≤ c ∧ c ≤ 'Z' then Char.ofNat (c.toNat + 32)
      else if 'a' ≤ c ∧ c ≤ 'z' then Char.ofNat (c.toNat - 32) else c).toNat = _
  by_cases h1 : 'A' ≤ c ∧ c ≤ 'Z'
  · have h1' : 65 ≤ c.toNat ∧ c.toNat ≤ 90 := by
      rw [char_le_iff, char_le_iff, hA, hZ] at h1
      exact h1
    rw [if_pos h1, if_pos h1', toNat_ofNat_small _ (by omega)]
  · have h1' : ¬ (65 ≤ c.toNat ∧ c.toNat ≤ 90) := by
      rw [char_le_iff, char_le_iff, hA, hZ] at h1
      exact h1
    rw [if_neg h1, if_neg h1']
    by_cases h2 : 'a' ≤ c ∧ c ≤ 'z'
    · have h2' : 97 ≤ c.toNat ∧ c.toNat ≤ 122 := by
        rw [char_le_iff, char_le_iff, ha, hz] at h2
        exact h2
      rw [if_pos h2, if_pos h2', toNat_ofNat_small _ (by omega)]
    · have h2' : ¬ (97 ≤ c.toNat ∧ c.toNat ≤ 122) := by
        rw [char_le_iff, char_le_iff, ha, hz] at h2
        exact h2
      rw [if_neg h2, if_neg h2']

/-- The code point of the smallest equivalent rune of the fixture. -/
theorem asciiLeast_toNat (c : Char) :
    (fixture.asciiLeast c).toNat
      = if 97 ≤ c.toNat ∧ c.toNat ≤ 122 then c.toNat - 32 else c.toNat := by
  have ha : 'a'.toNat = 97 := by decide
  have hz : 'z'.toNat = 122 := by decide
  unfold fixture.asciiLeast
  by_cases h2 : 'a' ≤ c ∧ c ≤ 'z'
  · have h2' : 97 ≤ c.toNat ∧ c.toNat ≤ 122 := by
      rw [char_le_iff, char_le_iff, ha, hz] at h2
      exact h2
    rw [if_pos h2, if_pos h2', toNat_ofNat_small _ (by omega)]
  · have h2' : ¬ (97 ≤ c.toNat ∧ c.toNat ≤ 122) := by
      rw [char_le_iff, char_le_iff, ha, hz] at h2
      exact h2
    rw [if_neg h2, if_neg h2']

/-- The folding of the fixture satisfies the laws of `unicode.SimpleFold`. -/
theorem fixture_foldLaws :
    zip.SimpleFoldLaws fixture.asciiFold.SimpleFold fixture.asciiLeast where
  orbit := by
    intro r
    apply char_toNat_inj
    rw [asciiLeast_toNat, asciiLeast_toNat, asciiFold_toNat]
    split_ifs <;> omega
  le := by
    intro r
    rw [char_le_iff, asciiLeast_toNat]
    split_ifs <;> omega
  idem := by
    intro r
    apply char_toNat_inj
    rw [asciiLeast_toNat, asciiLeast_toNat]
    split_ifs <;> omega
  next := by
    intro r
    by_cases h : 65 ≤ r.toNat ∧ r.toNat ≤ 90
    · left
      rw [char_lt_iff, asciiFold_toNat, if_pos h]
      omega
    · right
      apply char_toNat_inj
      rw [asciiFold_toNat, asciiLeast_toNat, if_neg h]
  gap := by
    intro r x hx hlt
    have h1 := congrArg Char.toNat hx
    rw [asciiLeast_toNat, asciiLeast_toNat] at h1
    rw [char_lt_iff] at hlt
    rw [char_lt_iff, char_le_iff, asciiFold_toNat]
    split_ifs at h1 ⊢ <;> omega
  ascii := by
    intro a b _ _
    constructor
    · intro h
      have h1 := congrArg Char.toNat h
      rw [asciiLeast_toNat, asciiLeast_toNat] at h1
      apply char_toNat_inj
      rw [asciiLower_toNat, asciiLower_toNat]
      split_ifs at h1 ⊢ <;> omega
    · intro h
      have h1 := congrArg Char.toNat h
      rw [asciiLower_toNat, asciiLower_toNat] at h1
      apply char_toNat_inj
      rw [asciiLeast_toNat, asciiLeast_toNat]
      split_ifs at h1 ⊢ <;> omega

/-- The Unicode library `goFold` of the fixtures satisfies the laws. -/
theorem fixture_unicodeLaws : zip.UnicodeLaws fixture.goFold fixture.asciiLeast where
  fold := fixture_foldLaws
  equalFold := by
    intro s t
    show EqualFold fixture.asciiFold.SimpleFold s t
      = some (decide (EqualFold fixture.asciiFold.SimpleFold s t = some true))
    rw [equalFold_eq fixture.asciiFold.SimpleFold fixture.asciiLeast fixture_foldLaws]
    by_cases h : s.map fixture.asciiLeast = t.map fixture.asciiLeast
    · simp [h]
    · simp [h]

/-! ## The bytes of a string, and `isVendoredPackage` -/

/-- A continuation byte is not the byte of the slash. -/
theorem cont_byte_ne (x : UInt8) : (x &&& 63 ||| 128).toNat ≠ 47 := by
  rcases x with ⟨v⟩
  revert v
  decide

/-- The leading byte of a sequence of two bytes is not the byte of the
slash. -/
theorem lead2_byte_ne (x : UInt8) : (x &&& 31 ||| 192).toNat ≠ 47 := by
  rcases x with ⟨v⟩
  revert v
  decide

/-- The leading byte of a sequence of three bytes is not the byte of the
slash. -/
theorem lead3_byte_ne (x : UInt8) : (x &&& 15 ||| 224).toNat ≠ 47 := by
  rcases x with ⟨v⟩
  revert v
  decide

/-- The leading byte of a sequence of four bytes is not the byte of the
slash. -/
theorem lead4_byte_ne (x : UInt8) : (x &&& 7 ||| 240).toNat ≠ 47 := by
  rcases x with ⟨v⟩
  revert v
  decide

/-- The byte 47 occurs in the encoding of a rune only when the rune is the
slash. -/
theorem utf8_char_slash (c : Char) :
    47 ∈ (String.utf8EncodeChar c).map UInt8.toNat ↔ c = '/' := by
  constructor
  · intro h
    unfold String.utf8EncodeChar at h
    dsimp only at h
    split_ifs at h with h1 h2 h3
    · simp only [List.map_cons, List.map_nil, List.mem_singleton] at h
      apply char_toNat_inj
      have hle : c.val.toNat ≤ 127 := h1
      have hv : c.val.toUInt8.toNat = c.val.toNat % 256 := rfl
      rw [hv, Nat.mod_eq_of_lt (by omega)] at h
      show c.val.toNat = 47
      exact h.symm
    · simp only [List.map_cons, List.map_nil, List.mem_cons, List.mem_singleton,
        List.not_mem_nil, or_false] at h
      rcases h with h | h
      · exact absurd h.symm (lead2_byte_ne _)
      · exact absurd h.symm (cont_byte_ne _)
    · simp only [List.map_cons, List.map_nil, List.mem_cons, List.mem_singleton,
        List.not_mem_nil, or_false] at h
      rcases h with h | h | h
      · exact absurd h.symm (lead3_byte_ne _)
      · exact absurd h.symm (cont_byte_ne _)
      · exact absurd h.symm (cont_byte_ne _)
    · simp only [List.map_cons, List.map_nil, List.mem_cons, List.mem_singleton,
        List.not_mem_nil, or_false] at h
      rcases h with h | h | h | h
      · exact absurd h.symm (lead4_byte_ne _)
      · exact absurd h.symm (cont_byte_ne _)
      · exact absurd h.symm (cont_byte_ne _)
      · exact absurd h.symm (cont_byte_ne _)
  · intro h
    subst h
    decide

theorem utf8_append (a b : Str) : zip.utf8 (a ++ b) = zip.utf8 a ++ zip.utf8 b := by
  unfold zip.utf8
  rw [List.flatMap_append]

/-- The byte of the slash occurs in a string exactly when the slash does. -/
theorem utf8_slash (s : Str) : 47 ∈ zip.utf8 s ↔ '/' ∈ s := by
  unfold zip.utf8
  rw [List.mem_flatMap]
  constructor
  · rintro ⟨c, hc, h⟩
    rw [(utf8_char_slash c).mp h] at hc
    exact hc
  · intro h
    exact ⟨'/', h, (utf8_char_slash '/').mpr rfl⟩

/-- A string that is not empty has at least one byte. -/
theorem utf8_length_pos (s : Str) (h : s ≠ []) : 0 < (zip.utf8 s).length := by
  cases s with
  | nil => exact absurd rfl h
  | cons c t =>
    have hc : 0 < ((String.utf8EncodeChar c).map UInt8.toNat).length := by
      unfold String.utf8EncodeChar
      dsimp only
      split_ifs <;> simp
    have : zip.utf8 (c :: t) = (String.utf8EncodeChar c).map UInt8.toNat ++ zip.utf8 t := by
      unfold zip.utf8
      rw [List.flatMap_cons]
    rw [this, List.length_append]
    omega

/-- `strings.Cut` finds the separator exactly when it occurs in the string. -/
theorem cut_found_iff (s sep : Str) : (Cut s sep).2.2 = true ↔ sep <:+: s := by
  induction s with
  | nil =>
    unfold Cut
    by_cases h : sep = []
    · simp [h]
    · simp [h]
  | cons c t ih =>
    rw [Cut]
    by_cases hp : sep.isPrefixOf (c :: t) = true
    · rw [if_pos hp]
      simp only [true_iff]
      exact (List.isPrefixOf_iff_prefix.mp hp).isInfix
    · rw [if_neg hp, List.infix_cons_iff]
      have hp2 : ¬ sep <+: c :: t := fun h => hp (List.isPrefixOf_iff_prefix.mpr h)
      rcases hcut : Cut t sep with ⟨before, after, found⟩
      rw [hcut] at ih
      cases found with
      | true =>
        simp only [true_iff] at ih ⊢
        exact Or.inr ih
      | false =>
        simp only [Bool.false_eq_true, false_iff] at ih ⊢
        exact fun h => h.elim hp2 ih

/-- `strings.Index` is not negative exactly when the string occurs. -/
theorem index_nonneg_iff (s sub : Str) : Index s sub ≥ 0 ↔ sub <:+: s := by
  rw [← cut_found_iff]
  unfold Index
  rcases hcut : Cut s sub with ⟨before, after, found⟩
  cases found with
  | true => simp
  | false => simp

/-- The bytes of `vendor/` and of `/vendor/`. -/
theorem utf8_vendor :
    zip.utf8 "vendor/".toList = [118, 101, 110, 100, 111, 114, 47]
      ∧ zip.utf8 "/vendor/".toList = [47, 118, 101, 110, 100, 111, 114, 47] := by
  constructor <;> rfl

/-- The two branches of `isVendoredPackage`. -/
theorem isVendoredPackage_eq (name : Str) :
    zip.isVendoredPackage name = true ↔
      (HasPrefix name "vendor/".toList = true ∧ 47 ∈ (zip.utf8 name).drop 7)
      ∨ (HasPrefix name "vendor/".toList = false ∧ "/vendor/".toList <:+: name
          ∧ 47 ∈ (zip.utf8 name).drop 8) := by
  unfold zip.isVendoredPackage
  generalize "vendor/".toList = a
  generalize "/vendor/".toList = b
  by_cases hp : HasPrefix name a = true
  · rw [if_pos hp]
    simp [hp]
  · rw [if_neg hp]
    have hp2 : HasPrefix name a = false := by simpa using hp
    by_cases hi : Index name b ≥ 0
    · rw [if_pos hi]
      have := (index_nonneg_iff _ _).mp hi
      simp [hp2, this]
    · rw [if_neg hi]
      have : ¬ b <:+: name := fun h => hi ((index_nonneg_iff _ _).mpr h)
      simp [hp2, this]

/-- A path below a directory `vendor` that is not at the top is vendored. -/
theorem isVendoredPackage_inner (d f : Str) (hd : d ≠ []) :
    zip.isVendoredPackage (d ++ "/vendor/".toList ++ f) = true := by
  have hbytes : zip.utf8 (d ++ "/vendor/".toList ++ f)
      = (zip.utf8 d ++ [47, 118, 101, 110, 100, 111, 114]) ++ (47 :: zip.utf8 f) := by
    rw [utf8_append, utf8_append, utf8_vendor.2]
    simp
  have hpos := utf8_length_pos d hd
  have hmem : ∀ k, k ≤ 8 → 47 ∈ (zip.utf8 (d ++ "/vendor/".toList ++ f)).drop k := by
    intro k hk
    rw [hbytes, List.drop_append_of_le_length (by simp; omega)]
    simp
  rw [isVendoredPackage_eq]
  by_cases hp : HasPrefix (d ++ "/vendor/".toList ++ f) "vendor/".toList = true
  · exact Or.inl ⟨hp, hmem 7 (by omega)⟩
  · refine Or.inr ⟨by simpa using hp, ?_, hmem 8 (by omega)⟩
    exact ⟨d, f, rfl⟩

/-- A file directly in the directory `vendor` at the top is not vendored. -/
theorem isVendoredPackage_top (f : Str) (hf : '/' ∉ f) :
    zip.isVendoredPackage ("vendor/".toList ++ f) = false := by
  cases h : zip.isVendoredPackage ("vendor/".toList ++ f) with
  | false => rfl
  | true =>
    exfalso
    rw [isVendoredPackage_eq] at h
    have hp : HasPrefix ("vendor/".toList ++ f) "vendor/".toList = true := by
      unfold HasPrefix
      exact List.isPrefixOf_iff_prefix.mpr (List.prefix_append _ _)
    rcases h with ⟨_, h⟩ | ⟨h, _⟩
    · rw [utf8_append, utf8_vendor.1] at h
      have h2 : 47 ∈ zip.utf8 f := h
      exact hf ((utf8_slash f).mp h2)
    · rw [hp] at h
      exact Bool.noConfusion h

/-! ## Lemmas on `bytes.Split` and `bytes.ReplaceAll` -/

/-- `strings.Cut` finds no separator whose first byte does not occur. -/
theorem cut_absent (s rest : Str) (c : Char) (h : c ∉ s) : Cut s (c :: rest) = (s, [], false) := by
  induction s with
  | nil => simp [Cut]
  | cons x t ih =>
    have hx : ¬ c = x := fun e => h (by simp [e])
    have ht : c ∉ t := fun e => h (by simp [e])
    have hpre : ¬ (List.isPrefixOf (c :: rest) (x :: t) = true) := by
      simp [List.isPrefixOf, hx]
    rw [Cut, if_neg hpre, ih ht]

/-- `strings.Cut` at the first instance of a separator of one byte. -/
theorem cut_single (v rest : Str) (c : Char) (h : c ∉ v) :
    Cut (v ++ c :: rest) [c] = (v, rest, true) := by
  induction v with
  | nil => simp [Cut, List.isPrefixOf]
  | cons x t ih =>
    have hx : ¬ c = x := fun e => h (by simp [e])
    have ht : c ∉ t := fun e => h (by simp [e])
    have hpre : ¬ (List.isPrefixOf [c] (x :: (t ++ c :: rest)) = true) := by
      simp [List.isPrefixOf, hx]
    rw [List.cons_append, Cut, if_neg hpre, ih ht]

/-- `bytes.ReplaceAll` returns its argument when the first byte of `old` does
not occur in it. -/
theorem replaceAll_absent (s rest new : Str) (c : Char) (h : c ∉ s) :
    bytes.ReplaceAll s (c :: rest) new = s := by
  unfold bytes.ReplaceAll
  cases s.length with
  | zero => rfl
  | succ n =>
    unfold bytes.replaceLoop
    rw [cut_absent s rest c h]

/-- `bytes.ReplaceAll` with a replacement that is not empty returns no empty
result for an argument that is not empty. -/
theorem replaceLoop_ne_nil (old new : Str) (hnew : new ≠ []) (fuel : Nat) (s : Str) (hs : s ≠ []) :
    bytes.replaceLoop old new fuel s ≠ [] := by
  cases fuel with
  | zero => exact hs
  | succ n =>
    unfold bytes.replaceLoop
    rcases hcut : Cut s old with ⟨before, after, found⟩
    cases found with
    | true =>
      dsimp only
      intro h
      have h1 := List.append_eq_nil.mp h
      have h2 := List.append_eq_nil.mp h1.1
      exact hnew h2.2
    | false => exact hs

/-- `bytes.Split` returns at least one element. -/
theorem splitLoop_ne_nil (sep : Str) (fuel : Nat) (s : Str) : bytes.splitLoop sep fuel s ≠ [] := by
  cases fuel with
  | zero => simp [bytes.splitLoop]
  | succ n =>
    unfold bytes.splitLoop
    rcases hcut : Cut s sep with ⟨before, after, found⟩
    cases found <;> simp

/-- The length of a joined list. -/
theorem join_length_ge (vs : List Str) (c : Char) : vs.length - 1 ≤ (Join vs [c]).length := by
  induction vs with
  | nil => simp
  | cons v rest ih =>
    cases rest with
    | nil => simp
    | cons w rest2 =>
      rw [join_cons_cons]
      simp only [List.length_append, List.length_cons, List.length_nil] at ih ⊢
      omega

/-- `bytes.Split` inverts `strings.Join` for elements without the
separator. -/
theorem splitLoop_join (c : Char) (vs : List Str) (hne : vs ≠ []) (hv : ∀ v ∈ vs, c ∉ v)
    (fuel : Nat) (hfuel : vs.length - 1 ≤ fuel) :
    bytes.splitLoop [c] fuel (Join vs [c]) = vs := by
  induction vs generalizing fuel with
  | nil => exact absurd rfl hne
  | cons v rest ih =>
    have hc : c ∉ v := hv v (by simp)
    cases rest with
    | nil =>
      rw [Join]
      cases fuel with
      | zero => rfl
      | succ n =>
        unfold bytes.splitLoop
        rw [cut_absent v [] c hc]
    | cons w rest2 =>
      rw [join_cons_cons]
      cases fuel with
      | zero => simp at hfuel
      | succ n =>
        unfold bytes.splitLoop
        rw [List.append_assoc, List.singleton_append, cut_single v _ c hc]
        dsimp only
        rw [ih (by simp) (fun x hx => hv x (List.mem_cons_of_mem _ hx)) n
          (by simp only [List.length_cons] at hfuel ⊢; omega)]

/-- `bytes.Split` of a joined list. -/
theorem split_join (c : Char) (vs : List Str) (hne : vs ≠ []) (hv : ∀ v ∈ vs, c ∉ v) :
    bytes.Split (Join vs [c]) [c] = vs :=
  splitLoop_join c vs hne hv _ (join_length_ge vs c)

/-- A joined list ends with the last byte of one of its elements. -/
theorem join_ends (vs : List Str) (sep : Str) (hne : vs ≠ []) (hv : ∀ v ∈ vs, v ≠ []) :
    ∃ init x v, v ∈ vs ∧ x ∈ v ∧ Join vs sep = init ++ [x] := by
  induction vs with
  | nil => exact absurd rfl hne
  | cons v rest ih =>
    cases rest with
    | nil =>
      have hv0 : v ≠ [] := hv v (by simp)
      refine ⟨v.dropLast, v.getLast hv0, v, by simp, List.getLast_mem hv0, ?_⟩
      rw [Join]
      exact (List.dropLast_append_getLast hv0).symm
    | cons w rest2 =>
      obtain ⟨init, x, u, hu, hx, hj⟩ :=
        ih (by simp) (fun y hy => hv y (List.mem_cons_of_mem _ hy))
      refine ⟨v ++ sep ++ init, x, u, List.mem_cons_of_mem _ hu, hx, ?_⟩
      rw [join_cons_cons, hj]
      simp

/-- Removing one trailing line feed, in the words of `strings.TrimSuffix`. -/
theorem dropLast_eq_trimSuffix (s : Str) (c : Char) (h : s.getLast? = some c) :
    (if c = '\n' then s.dropLast else s) = TrimSuffix s ['\n'] := by
  have hs : s ≠ [] := by
    intro e
    rw [e] at h
    simp at h
  have hlast : s.getLast hs = c := by
    rw [List.getLast?_eq_getLast s hs] at h
    exact Option.some.inj h
  have hsplit : s = s.dropLast ++ [c] := by
    rw [← hlast]
    exact (List.dropLast_append_getLast hs).symm
  by_cases hc : c = '\n'
  · rw [if_pos hc]
    subst hc
    conv_rhs => rw [hsplit]
    rw [trimSuffix_append]
  · rw [if_neg hc]
    unfold TrimSuffix
    have : HasSuffix s ['\n'] = false := by
      rw [hsplit]
      unfold HasSuffix
      have hc2 : ¬ '\n' = c := fun e => hc e.symm
      simp [List.isPrefixOf, hc2]
    rw [this]
    rfl

/-! ## `(*Repo).Versions` -/

/-- The empty string is a leading part of every string. -/
theorem hasPrefix_nil (s : Str) : HasPrefix s [] = true := by
  cases s <;> rfl

/-- The loop of `Versions` when `module.Check` accepts every line. -/
theorem versionsLoop_ok (M : ModuleLib) (path pfx : Str) (lines acc : List Str)
    (h : ∀ l ∈ lines, M.Check path l = none) :
    proxy.Repo.versionsLoop M path pfx lines acc
      = Except.ok (acc ++ lines.filter fun v => HasPrefix v pfx) := by
  induction lines generalizing acc with
  | nil => simp [proxy.Repo.versionsLoop]
  | cons l rest ih =>
    unfold proxy.Repo.versionsLoop
    rw [h l (by simp)]
    dsimp only
    by_cases hp : HasPrefix l pfx = true
    · rw [if_pos hp, ih _ (fun x hx => h x (List.mem_cons_of_mem _ hx)), List.filter_cons,
        if_pos hp]
      simp
    · rw [if_neg hp, ih _ (fun x hx => h x (List.mem_cons_of_mem _ hx)), List.filter_cons,
        if_neg hp]

/-- The loop of `Versions` stops at the first line that `module.Check`
rejects, with its error. -/
theorem versionsLoop_error (M : ModuleLib) (path pfx : Str) (pre post : List Str) (line : Str)
    (err : GoError) (acc : List Str) (hpre : ∀ l ∈ pre, M.Check path l = none)
    (hline : M.Check path line = some err) :
    proxy.Repo.versionsLoop M path pfx (pre ++ line :: post) acc = Except.error err := by
  induction pre generalizing acc with
  | nil =>
    rw [List.nil_append]
    unfold proxy.Repo.versionsLoop
    rw [hline]
  | cons l rest ih =>
    rw [List.cons_append]
    unfold proxy.Repo.versionsLoop
    rw [hpre l (by simp)]
    dsimp only
    exact ih _ (fun x hx => hpre x (List.mem_cons_of_mem _ hx))

/-- A list with a line that `module.Check` rejects has a first such line. -/
theorem first_failure (M : ModuleLib) (path : Str) (lines : List Str)
    (h : ∃ l ∈ lines, M.Check path l ≠ none) :
    ∃ pre line post err, lines = pre ++ line :: post ∧ (∀ l ∈ pre, M.Check path l = none)
      ∧ M.Check path line = some err := by
  induction lines with
  | nil =>
    obtain ⟨l, hl, _⟩ := h
    simp at hl
  | cons l rest ih =>
    cases hc : M.Check path l with
    | some err => exact ⟨[], l, rest, err, rfl, by simp, hc⟩
    | none =>
      have h2 : ∃ x ∈ rest, M.Check path x ≠ none := by
        obtain ⟨x, hx, hne⟩ := h
        rcases List.mem_cons.mp hx with e | hx
        · rw [e] at hne
          exact absurd hc hne
        · exact ⟨x, hx, hne⟩
      obtain ⟨pre, line, post, err, e, hpre, hline⟩ := ih h2
      refine ⟨l :: pre, line, post, err, by rw [e]; rfl, ?_, hline⟩
      intro x hx
      rcases List.mem_cons.mp hx with e2 | hx
      · rw [e2]
        exact hc
      · exact hpre x hx

/-- When the loop of `Versions` ends without error, `module.Check` has
accepted every line. -/
theorem versionsLoop_ok_inv (M : ModuleLib) (path pfx : Str) (lines acc vs : List Str)
    (h : proxy.Repo.versionsLoop M path pfx lines acc = Except.ok vs) :
    ∀ l ∈ lines, M.Check path l = none := by
  by_contra hcon
  have hex : ∃ l ∈ lines, M.Check path l ≠ none := by
    by_contra h2
    apply hcon
    intro l hl
    by_contra h3
    exact h2 ⟨l, hl, h3⟩
  obtain ⟨pre, line, post, err, e, hpre, hline⟩ := first_failure M path lines hex
  rw [e, versionsLoop_error M path pfx pre post line err acc hpre hline] at h
  exact Except.noConfusion h

/-- The lines of a response: after the replacement of `\r\n` by `\n` and the
removal of one trailing `\n`, split at `\n`. -/
theorem versions_eq (M : ModuleLib) (r : proxy.Repo) (pfx ep data : Str)
    (hep : M.EscapePath r.path = Except.ok ep)
    (hread : r.ops.ReadRemote (proxy.listTarget ep) = Except.ok data) (hne : data ≠ []) :
    proxy.Repo.Versions M r pfx
      = { reads := [proxy.listTarget ep],
          out := some (proxy.Repo.versionsLoop M r.path pfx
            (bytes.Split (TrimSuffix (bytes.ReplaceAll data ['\r', '\n'] ['\n']) ['\n']) ['\n'])
            []) } := by
  unfold proxy.Repo.Versions
  rw [hep]
  dsimp only
  rw [hread]
  dsimp only
  cases hlast : (bytes.ReplaceAll data ['\r', '\n'] ['\n']).getLast? with
  | none =>
    exfalso
    rw [List.getLast?_eq_none_iff] at hlast
    exact replaceLoop_ne_nil _ _ (by simp) _ data hne hlast
  | some c =>
    dsimp only
    rw [dropLast_eq_trimSuffix _ c hlast]

/-- The reads of `Versions` for a path that can be escaped. -/
theorem versions_reads (M : ModuleLib) (r : proxy.Repo) (pfx ep : Str)
    (hep : M.EscapePath r.path = Except.ok ep) :
    (proxy.Repo.Versions M r pfx).reads = [proxy.listTarget ep] := by
  unfold proxy.Repo.Versions
  rw [hep]
  dsimp only
  cases r.ops.ReadRemote (proxy.listTarget ep) with
  | error err => rfl
  | ok data =>
    dsimp only
    cases (bytes.ReplaceAll data ['\r', '\n'] ['\n']).getLast? <;> rfl

/-- A list that `Versions` returns for the empty filter is not empty. -/
theorem versions_nonempty (M : ModuleLib) (r : proxy.Repo) (versions : List Str)
    (h : (proxy.Repo.Versions M r []).out = some (Except.ok versions)) : versions ≠ [] := by
  unfold proxy.Repo.Versions at h
  cases hep : M.EscapePath r.path with
  | error err =>
    rw [hep] at h
    exact absurd (Option.some.inj h) (fun e => Except.noConfusion e)
  | ok ep =>
    rw [hep] at h
    dsimp only at h
    cases hread : r.ops.ReadRemote (proxy.listTarget ep) with
    | error err =>
      rw [hread] at h
      exact absurd (Option.some.inj h) (fun e => Except.noConfusion e)
    | ok data =>
      rw [hread] at h
      dsimp only at h
      cases hlast : (bytes.ReplaceAll data ['\r', '\n'] ['\n']).getLast? with
      | none =>
        rw [hlast] at h
        exact Option.noConfusion h
      | some c =>
        rw [hlast] at h
        dsimp only at h
        have hloop := Option.some.inj h
        have hall := versionsLoop_ok_inv M r.path [] _ [] versions hloop
        rw [versionsLoop_ok M r.path [] _ [] hall] at hloop
        have hvs := Except.ok.inj hloop
        rw [← hvs, List.nil_append, List.filter_eq_self.mpr (fun v _ => hasPrefix_nil v)]
        exact splitLoop_ne_nil _ _ _

/-! ## `(*Repo).Stat` and `(*Repo).Latest` -/

/-- The end of `Stat` and `Latest` when the decoded pointer is not nil: an
error, or a `RevInfo` with a version. -/
theorem decode_some (L : proxy.ClientLib) (data : Str) (ri : proxy.RevInfo)
    (h : L.jsonUnmarshal data = Except.ok (some ri)) :
    (ri.Version = [] ∧ proxy.Repo.decode L data
        = some (Except.error (proxy.errorsNew "RevInfo missing Version")))
      ∨ (ri.Version ≠ [] ∧ proxy.Repo.decode L data = some (Except.ok ri)) := by
  unfold proxy.Repo.decode
  rw [h]
  dsimp only
  by_cases hv : ri.Version = []
  · rw [if_pos hv]
    exact Or.inl ⟨hv, rfl⟩
  · rw [if_neg hv]
    exact Or.inr ⟨hv, rfl⟩

/-- The end of `Stat` and `Latest` when the decoded pointer is nil. -/
theorem decode_nil (L : proxy.ClientLib) (data : Str)
    (h : L.jsonUnmarshal data = Except.ok none) : proxy.Repo.decode L data = none := by
  unfold proxy.Repo.decode
  rw [h]

/-- An error of the route `@latest` other than not-found is returned as it
is, after this one read. -/
theorem latest_error (L : proxy.ClientLib) (r : proxy.Repo) (ep : Str) (e : GoError)
    (hep : L.module.EscapePath r.path = Except.ok ep)
    (hread : r.ops.ReadRemote (proxy.latestTarget ep) = Except.error e)
    (hne : e.isNotExist = false) :
    proxy.Repo.Latest L r = { reads := [proxy.latestTarget ep], out := some (Except.error e) } := by
  unfold proxy.Repo.Latest
  rw [hep]
  dsimp only
  rw [hread]
  dsimp only
  rw [if_neg (by rw [hne]; exact Bool.false_ne_true)]

/-- `Latest` when the route `@latest` is not found. -/
theorem latest_notFound (L : proxy.ClientLib) (r : proxy.Repo) (ep : Str) (e : GoError)
    (hep : L.module.EscapePath r.path = Except.ok ep)
    (hread : r.ops.ReadRemote (proxy.latestTarget ep) = Except.error e)
    (hnf : e.isNotExist = true) :
    proxy.Repo.Latest L r
      = { reads := proxy.latestTarget ep :: (proxy.Repo.latestFallback L r).reads,
          out := (proxy.Repo.latestFallback L r).out } := by
  unfold proxy.Repo.Latest
  rw [hep]
  dsimp only
  rw [hread]
  dsimp only
  rw [if_pos hnf]

/-- The greatest element of a sorted list of versions. -/
theorem sort_last (L : proxy.ClientLib) (hS : proxy.SemverLaws L) (canon : List Str)
    (hne : canon ≠ []) :
    ∃ m, (L.semverSort canon).getLast? = some m ∧ m ∈ canon
      ∧ ∀ v ∈ canon, L.semverCompare v m ≤ 0 := by
  have hperm := hS.sort_perm canon
  have hs : L.semverSort canon ≠ [] := by
    intro e
    rw [e] at hperm
    exact hne hperm.symm.eq_nil
  have hsplit := (List.dropLast_append_getLast hs).symm
  refine ⟨(L.semverSort canon).getLast hs, List.getLast?_eq_getLast _ hs,
    hperm.mem_iff.mp (List.getLast_mem hs), ?_⟩
  intro v hv
  have hv2 : v ∈ L.semverSort canon := hperm.mem_iff.mpr hv
  have hsorted := hS.sort_sorted canon
  rw [hsplit, List.pairwise_append] at hsorted
  rw [hsplit] at hv2
  rcases List.mem_append.mp hv2 with h | h
  · exact hsorted.2.2 v h _ (by simp)
  · rw [List.mem_singleton] at h
    rw [h, hS.compare_self]

/-- The fallback of `Latest` when no listed version is canonical. -/
theorem latestFallback_none (L : proxy.ClientLib) (r : proxy.Repo) (versions : List Str)
    (hvs : (proxy.Repo.Versions L.module r []).out = some (Except.ok versions))
    (hnone : ∀ v ∈ versions, L.module.CanonicalVersion v ≠ v) :
    proxy.Repo.latestFallback L r
      = { reads := (proxy.Repo.Versions L.module r []).reads,
          out := some (Except.error (proxy.errorsNew "no canonical versions found")) } := by
  have hne := versions_nonempty L.module r versions hvs
  unfold proxy.Repo.latestFallback
  dsimp only
  rw [hvs]
  dsimp only
  have hlen : ¬ versions.length = 0 := fun e => hne (List.length_eq_zero.mp e)
  rw [if_neg hlen]
  have hfilter : versions.filter (fun v => decide (L.module.CanonicalVersion v = v)) = [] := by
    rw [List.filter_eq_nil_iff]
    intro v hv
    simpa using hnone v hv
  rw [hfilter]
  rfl

/-- The fallback of `Latest` when a listed version is canonical: `Stat` of a
canonical listed version of the highest precedence. -/
theorem latestFallback_stat (L : proxy.ClientLib) (hS : proxy.SemverLaws L) (r : proxy.Repo)
    (versions : List Str)
    (hvs : (proxy.Repo.Versions L.module r []).out = some (Except.ok versions))
    (hcanon : ∃ v ∈ versions, L.module.CanonicalVersion v = v) :
    ∃ m, m ∈ versions ∧ L.module.CanonicalVersion m = m
      ∧ (∀ v ∈ versions, L.module.CanonicalVersion v = v → L.semverCompare v m ≤ 0)
      ∧ proxy.Repo.latestFallback L r
        = { reads := (proxy.Repo.Versions L.module r []).reads ++ (proxy.Repo.Stat L r m).reads,
            out := (proxy.Repo.Stat L r m).out } := by
  have hne := versions_nonempty L.module r versions hvs
  have hfilter : versions.filter (fun v => decide (L.module.CanonicalVersion v = v)) ≠ [] := by
    obtain ⟨v, hv, hc⟩ := hcanon
    intro e
    have : v ∈ versions.filter (fun v => decide (L.module.CanonicalVersion v = v)) :=
      List.mem_filter.mpr ⟨hv, by simpa using hc⟩
    rw [e] at this
    simp at this
  obtain ⟨m, hlast, hm, hmax⟩ := sort_last L hS _ hfilter
  have hm2 := List.mem_filter.mp hm
  refine ⟨m, hm2.1, by simpa using hm2.2, ?_, ?_⟩
  · intro v hv hc
    exact hmax v (List.mem_filter.mpr ⟨hv, by simpa using hc⟩)
  · unfold proxy.Repo.latestFallback
    dsimp only
    rw [hvs]
    dsimp only
    have hlen : ¬ versions.length = 0 := fun e => hne (List.length_eq_zero.mp e)
    have hlen2 : ¬ (versions.filter (fun v => decide (L.module.CanonicalVersion v = v))).length = 0 :=
      fun e => hfilter (List.length_eq_zero.mp e)
    rw [if_neg hlen, if_neg hlen2, hlast]

/-! ## The client after a lookup -/

/-- A lookup sets the flag of the client. -/
theorem lookup_didLookup (L : proxy.ClientLib) (c : proxy.Client) (path : Str) :
    (proxy.Client.Lookup L c path).1 = { c with didLookup := true } := by
  unfold proxy.Client.Lookup
  dsimp only
  split
  · rfl
  · split <;> rfl

/-- No call clears the flag of the client. -/
theorem after_didLookup (L : proxy.ClientLib) (c : proxy.Client) (call : proxy.ClientCall)
    (h : c.didLookup = true) : (proxy.Client.after L c call).didLookup = true := by
  cases call with
  | Lookup path =>
    show (proxy.Client.Lookup L c path).1.didLookup = true
    rw [lookup_didLookup]
  | SetGONOPROXY list =>
    show (proxy.Client.SetGONOPROXY c list).1.didLookup = true
    unfold proxy.Client.SetGONOPROXY
    rw [if_pos h]
    exact h

/-- The flag of the client stays set during every sequence of calls. -/
theorem foldl_didLookup (L : proxy.ClientLib) (calls : List proxy.ClientCall) (c : proxy.Client)
    (h : c.didLookup = true) : (calls.foldl (proxy.Client.after L) c).didLookup = true := by
  induction calls generalizing c with
  | nil => exact h
  | cons call rest ih => exact ih _ (after_didLookup L c call h)

/-! ## The libraries of the fixtures -/

theorem fixture_semverLaws : proxy.SemverLaws fixture.clientLib where
  sort_perm := fun l => List.perm_insertionSort _ l
  sort_sorted := by
    intro l
    haveI : IsTotal Str (fun a b => fixture.semverKey a ≤ fixture.semverKey b) :=
      ⟨fun a b => Nat.le_total _ _⟩
    haveI : IsTrans Str (fun a b => fixture.semverKey a ≤ fixture.semverKey b) :=
      ⟨fun a b c h1 h2 => Nat.le_trans h1 h2⟩
    have hsorted := List.sorted_insertionSort (fun a b => fixture.semverKey a ≤ fixture.semverKey b) l
    refine List.Pairwise.imp ?_ hsorted
    intro a b hab
    show fixture.semverCompare a b ≤ 0
    unfold fixture.semverCompare
    split_ifs <;> omega
  compare_self := by
    intro v
    show fixture.semverCompare v v = 0
    unfold fixture.semverCompare
    simp

theorem fixture_versionLaws : proxy.VersionLaws fixture.moduleLib where
  check_line := by
    intro p v h
    have hv : v = fixture.v100 ∨ v = fixture.v1 := by
      by_contra hcon
      have : fixture.moduleLib.Check p v = some fixture.errInvalid := by
        show (if p = fixture.awesome ∧ (v = fixture.v100 ∨ v = fixture.v1) then none
          else some fixture.errInvalid) = _
        rw [if_neg (fun hh => hcon hh.2)]
      rw [this] at h
      exact Option.noConfusion h
    rcases hv with e | e <;> subst e <;> decide

/-- Once the flag is set, no call changes the exclusion list. -/
theorem foldl_gonoproxy (L : proxy.ClientLib) (calls : List proxy.ClientCall) (c : proxy.Client)
    (h : c.didLookup = true) :
    (calls.foldl (proxy.Client.after L) c).gonoproxy = c.gonoproxy := by
  induction calls generalizing c with
  | nil => rfl
  | cons call rest ih =>
    rw [List.foldl_cons, ih _ (after_didLookup L c call h)]
    cases call with
    | Lookup path =>
      show (proxy.Client.Lookup L c path).1.gonoproxy = c.gonoproxy
      rw [lookup_didLookup]
    | SetGONOPROXY list =>
      show (proxy.Client.SetGONOPROXY c list).1.gonoproxy = c.gonoproxy
      unfold proxy.Client.SetGONOPROXY
      rw [if_pos h]

/-! ## The version of a `RevInfo` that `Stat` or `Latest` returns -/

theorem decode_ok (L : proxy.ClientLib) (data : Str) (ri : proxy.RevInfo)
    (h : proxy.Repo.decode L data = some (Except.ok ri)) : ri.Version ≠ [] := by
  unfold proxy.Repo.decode at h
  cases hj : L.jsonUnmarshal data with
  | error err =>
    rw [hj] at h
    exact absurd (Option.some.inj h) (fun e => Except.noConfusion e)
  | ok o =>
    rw [hj] at h
    cases o with
    | none => exact Option.noConfusion h
    | some ri2 =>
      dsimp only at h
      by_cases hv : ri2.Version = []
      · rw [if_pos hv] at h
        exact absurd (Option.some.inj h) (fun e => Except.noConfusion e)
      · rw [if_neg hv] at h
        have := Except.ok.inj (Option.some.inj h)
        rw [← this]
        exact hv

/-- A `RevInfo` that `Stat` returns has a version. -/
theorem stat_ok (L : proxy.ClientLib) (r : proxy.Repo) (version : Str) (ri : proxy.RevInfo)
    (h : (proxy.Repo.Stat L r version).out = some (Except.ok ri)) : ri.Version ≠ [] := by
  unfold proxy.Repo.Stat at h
  cases hep : L.module.EscapePath r.path with
  | error err =>
    rw [hep] at h
    exact absurd (Option.some.inj h) (fun e => Except.noConfusion e)
  | ok ep =>
    rw [hep] at h
    dsimp only at h
    cases hev : L.module.EscapeVersion version with
    | error err =>
      rw [hev] at h
      exact absurd (Option.some.inj h) (fun e => Except.noConfusion e)
    | ok ev =>
      rw [hev] at h
      dsimp only at h
      cases hread : r.ops.ReadRemote (proxy.infoTarget ep ev) with
      | error err =>
        rw [hread] at h
        exact absurd (Option.some.inj h) (fun e => Except.noConfusion e)
      | ok data =>
        rw [hread] at h
        exact decode_ok L data ri h

/-- A `RevInfo` that the fallback of `Latest` returns has a version. -/
theorem latestFallback_ok (L : proxy.ClientLib) (r : proxy.Repo) (ri : proxy.RevInfo)
    (h : (proxy.Repo.latestFallback L r).out = some (Except.ok ri)) : ri.Version ≠ [] := by
  unfold proxy.Repo.latestFallback at h
  dsimp only at h
  split at h
  · exact Option.noConfusion h
  · exact absurd (Option.some.inj h) (fun e => Except.noConfusion e)
  · split at h
    · exact absurd (Option.some.inj h) (fun e => Except.noConfusion e)
    · split at h
      · exact absurd (Option.some.inj h) (fun e => Except.noConfusion e)
      · split at h
        · exact Option.noConfusion h
        · exact stat_ok L r _ ri h

/-- A `RevInfo` that `Latest` returns has a version. -/
theorem latest_ok (L : proxy.ClientLib) (r : proxy.Repo) (ri : proxy.RevInfo)
    (h : (proxy.Repo.Latest L r).out = some (Except.ok ri)) : ri.Version ≠ [] := by
  unfold proxy.Repo.Latest at h
  cases hep : L.module.EscapePath r.path with
  | error err =>
    rw [hep] at h
    exact absurd (Option.some.inj h) (fun e => Except.noConfusion e)
  | ok ep =>
    rw [hep] at h
    dsimp only at h
    cases hread : r.ops.ReadRemote (proxy.latestTarget ep) with
    | error err =>
      rw [hread] at h
      dsimp only at h
      by_cases hnf : err.isNotExist = true
      · rw [if_pos hnf] at h
        exact latestFallback_ok L r ri h
      · rw [if_neg hnf] at h
        exact absurd (Option.some.inj h) (fun e => Except.noConfusion e)
    | ok data =>
      rw [hread] at h
      exact decode_ok L data ri h

/-- The body of the list that `serveList` writes. -/
theorem serveList_ok (p : Proxy) (req : Request) (modulePath : Str) (ops : List WriterOp)
    (vs : List Str) (h : p.Proxier.List req modulePath = { ops := ops, res := Except.ok vs }) :
    (Proxy.serveList p req modulePath).ops
      = ops ++ [WriterOp.headerSet contentType "text/plain; charset=utf-8".toList,
                WriterOp.headerSet contentLength (strconv.Itoa (len (Join vs ['\n']))),
                WriterOp.write (Join vs ['\n'])] := by
  unfold Proxy.serveList
  dsimp only
  rw [h]

/-- A byte that occurs neither in the elements nor in the separator does not
occur in the joined list. -/
theorem join_not_mem (c : Char) (vs : List Str) (sep : Str) (hsep : c ∉ sep)
    (hv : ∀ v ∈ vs, c ∉ v) : c ∉ Join vs sep := by
  induction vs with
  | nil => simp [Join]
  | cons v rest ih =>
    cases rest with
    | nil =>
      rw [Join]
      exact hv v (by simp)
    | cons w rest2 =>
      rw [join_cons_cons]
      intro hmem
      rcases List.mem_append.mp hmem with h1 | h1
      · rcases List.mem_append.mp h1 with h2 | h2
        · exact hv v (by simp) h2
        · exact hsep h2
      · exact ih (fun y hy => hv y (List.mem_cons_of_mem _ hy)) h1

/-- `Versions("")` on a joined list of valid versions, with or without one
line feed after it. -/
theorem versions_join (M : ModuleLib) (hV : proxy.VersionLaws M) (r : proxy.Repo) (ep : Str)
    (vs : List Str) (body : Str) (hne : vs ≠ [])
    (hcheck : ∀ v ∈ vs, M.Check r.path v = none)
    (hbody : body = Join vs ['\n'] ∨ body = Join vs ['\n'] ++ ['\n'])
    (hep : M.EscapePath r.path = Except.ok ep)
    (hread : r.ops.ReadRemote (proxy.listTarget ep) = Except.ok body) :
    proxy.Repo.Versions M r [] = { reads := [proxy.listTarget ep], out := some (Except.ok vs) } := by
  have hlaw : ∀ v ∈ vs, v ≠ [] ∧ '\n' ∉ v ∧ '\r' ∉ v :=
    fun v hv => hV.check_line r.path v (hcheck v hv)
  obtain ⟨init, x, u, hu, hx, hj⟩ := join_ends vs ['\n'] hne (fun v hv => (hlaw v hv).1)
  have hxn : x ≠ '\n' := fun e => (hlaw u hu).2.1 (e ▸ hx)
  have hjr : '\r' ∉ Join vs ['\n'] :=
    join_not_mem '\r' vs ['\n'] (by decide) (fun v hv => (hlaw v hv).2.2)
  have hbr : '\r' ∉ body := by
    rcases hbody with e | e <;> rw [e]
    · exact hjr
    · intro hmem
      rcases List.mem_append.mp hmem with h1 | h1
      · exact hjr h1
      · simp at h1
  have hbne : body ≠ [] := by
    rcases hbody with e | e <;> rw [e, hj] <;> simp
  have htrim : TrimSuffix body ['\n'] = Join vs ['\n'] := by
    rcases hbody with e | e <;> rw [e]
    · have hlast : (Join vs ['\n']).getLast? = some x := by
        rw [hj]
        simp
      rw [← dropLast_eq_trimSuffix _ x hlast, if_neg hxn]
    · exact trimSuffix_append _ _
  rw [versions_eq M r [] ep body hep hread hbne, replaceAll_absent body ['\n'] ['\n'] '\r' hbr,
    htrim, split_join '\n' vs hne (fun v hv => (hlaw v hv).2.1), versionsLoop_ok M r.path [] vs []
      hcheck, List.nil_append, List.filter_eq_self.mpr (fun v _ => hasPrefix_nil v)]

/-! ## `Proxy.ServeHTTP` does not panic -/

theorem serveLatest_panicked (E : Extern) (p : Proxy) (r : Request) (modulePath : Str) :
    (p.serveLatest E r modulePath).panicked = false := by
  unfold Proxy.serveLatest
  split
  · rfl
  · dsimp only
    split
    · rfl
    · split <;> rfl

theorem serveList_panicked (p : Proxy) (r : Request) (modulePath : Str) :
    (p.serveList r modulePath).panicked = false := by
  unfold Proxy.serveList
  dsimp only
  split <;> rfl

theorem serveInfo_panicked (E : Extern) (p : Proxy) (r : Request) (modulePath version : Str) :
    (p.serveInfo E r modulePath version).panicked = false := by
  unfold Proxy.serveInfo
  dsimp only
  split
  · rfl
  · split <;> rfl

theorem serveMod_panicked (p : Proxy) (r : Request) (modulePath version : Str) :
    (p.serveMod r modulePath version).panicked = false := by
  unfold Proxy.serveMod
  dsimp only
  split <;> rfl

theorem serveZip_panicked (p : Proxy) (r : Request) (modulePath version : Str) :
    (p.serveZip r modulePath version).panicked = false := by
  unfold Proxy.serveZip
  dsimp only
  split <;> rfl

/-- With one of the three extensions, `serveVersion` does not reach
`panic("unreachable")`. -/
theorem serveVersion_panicked (E : Extern) (p : Proxy) (r : Request) (modulePath after ext : Str)
    (hext : ext = extInfo ∨ ext = extMod ∨ ext = extZip) :
    (p.serveVersion E r modulePath after ext).panicked = false := by
  unfold Proxy.serveVersion
  dsimp only
  split
  · rfl
  · split
    · rfl
    · split
      · exact serveInfo_panicked E p r modulePath _
      · split
        · rfl
        · split
          · rfl
          · split
            · exact serveMod_panicked p r modulePath _
            · split
              · exact serveZip_panicked p r modulePath _
              · exfalso
                rcases hext with h | h | h <;> simp_all

theorem dispatch_panicked (E : Extern) (p : Proxy) (r : Request) (modulePath after : Str) :
    (p.dispatch E r modulePath after).panicked = false := by
  unfold Proxy.dispatch
  split
  · exact serveLatest_panicked E p r modulePath
  · split
    · exact serveList_panicked p r modulePath
    · split
      · rfl
      · dsimp only
        split
        · rfl
        · rename_i h
          exact serveVersion_panicked E p r modulePath _ _ (not_not.mp h)

/-- A path that `cleanPath` leaves as it is is not empty. -/
theorem cleanPath_ne_nil (p : Str) (h : cleanPath p = p) : p ≠ [] := by
  intro e
  rw [e] at h
  simp [cleanPath] at h

theorem serveHTTP_panicked (E : Extern) (p : Proxy) (r : Request) :
    (p.ServeHTTP E r).panicked = false := by
  unfold Proxy.ServeHTTP
  split
  · rfl
  · split
    · rfl
    · split
      · rfl
      · rename_i _ hclean _
        split
        · rename_i hnil
          exact absurd hnil (cleanPath_ne_nil r.Path (by simpa using hclean))
        · split
          · rfl
          · split
            · rfl
            · exact dispatch_panicked E p r _ _

/-! ## Lengths in bytes -/

/-- A string that is not empty has at least one byte. -/
theorem len_pos (s : Str) (h : s ≠ []) : 1 ≤ len s := by
  cases s with
  | nil => exact absurd rfl h
  | cons c t =>
    unfold len
    rw [List.map_cons, List.sum_cons]
    have := Char.utf8Size_pos c
    omega

/-! ## The directories above a path -/

theorem dir_nil : path.Dir [] = ['.'] := by decide

theorem ancestorsLoop_succ (n : Nat) (p : Str) :
    zip.ancestorsLoop (n + 1) p
      = if path.Dir p = ['.'] then [] else path.Dir p :: zip.ancestorsLoop n (path.Dir p) := rfl

theorem ancestorsLoop_fuel (f1 f2 : Nat) (p : Str) (hp : p.head? ≠ some '/')
    (h1 : p.length ≤ f1) (h2 : p.length ≤ f2) :
    zip.ancestorsLoop f1 p = zip.ancestorsLoop f2 p := by
  induction f1 generalizing f2 p with
  | zero =>
    have hnil : p = [] := List.length_eq_zero.mp (Nat.le_zero.mp h1)
    subst hnil
    cases f2 with
    | zero => rfl
    | succ m =>
      unfold zip.ancestorsLoop
      rw [if_pos dir_nil]
  | succ n ih =>
    cases f2 with
    | zero =>
      have hnil : p = [] := List.length_eq_zero.mp (Nat.le_zero.mp h2)
      subst hnil
      unfold zip.ancestorsLoop
      rw [if_pos dir_nil]
    | succ m =>
      unfold zip.ancestorsLoop
      by_cases hd : path.Dir p = ['.']
      · rw [if_pos hd, if_pos hd]
      · rw [if_neg hd, if_neg hd]
        rcases dir_rel p hp with h | ⟨hlen, hhead⟩
        · exact absurd h hd
        · rw [ih m (path.Dir p) hhead (by omega) (by omega)]

/-- The directories above a path whose parent is `.`: none. -/
theorem ancestors_of_dot (p : Str) (hd : path.Dir p = ['.']) : zip.ancestors p = [] := by
  unfold zip.ancestors
  cases p.length with
  | zero => rfl
  | succ n =>
    unfold zip.ancestorsLoop
    rw [if_pos hd]

/-- The directories above a path: its parent and the directories above
that. -/
theorem ancestors_cons (p : Str) (hp : p.head? ≠ some '/') (hd : path.Dir p ≠ ['.']) :
    zip.ancestors p = path.Dir p :: zip.ancestors (path.Dir p) := by
  rcases dir_rel p hp with h | ⟨hlen, hhead⟩
  · exact absurd h hd
  · show zip.ancestorsLoop p.length p
      = path.Dir p :: zip.ancestorsLoop (path.Dir p).length (path.Dir p)
    cases hl : p.length with
    | zero => omega
    | succ n =>
      rw [ancestorsLoop_succ, if_neg hd, ancestorsLoop_fuel n (path.Dir p).length (path.Dir p)
        hhead (by omega) (Nat.le_refl _)]

/-- A directory above a path is shorter than the path, and not rooted. -/
theorem ancestors_length (n : Nat) (p : Str) (hn : p.length ≤ n) (hp : p.head? ≠ some '/') :
    ∀ a ∈ zip.ancestors p, a.length < p.length ∧ a.head? ≠ some '/' := by
  induction n generalizing p with
  | zero =>
    have hnil : p = [] := List.length_eq_zero.mp (Nat.le_zero.mp hn)
    subst hnil
    intro a ha
    rw [ancestors_of_dot [] dir_nil] at ha
    simp at ha
  | succ n ih =>
    intro a ha
    by_cases hd : path.Dir p = ['.']
    · rw [ancestors_of_dot p hd] at ha
      simp at ha
    · rcases dir_rel p hp with h | ⟨hlen, hhead⟩
      · exact absurd h hd
      · rw [ancestors_cons p hp hd] at ha
        rcases List.mem_cons.mp ha with e | ha2
        · rw [e]
          exact ⟨hlen, hhead⟩
        · have := ih (path.Dir p) (by omega) hhead a ha2
          exact ⟨by omega, this.2⟩

/-! ## The bindings that `check` adds -/

theorem lookup_cons_ne (cc : zip.collisionChecker) (k key : Str) (info : zip.pathInfo)
    (h : k ≠ key) : List.lookup k ((key, info) :: cc) = cc.lookup k := by
  rw [List.lookup_cons]
  have : (k == key) = false := by simpa using h
  rw [this]

/-- Whatever `check` returns, a binding of the index after the call was there
before, or binds the folded form of the path to the path with its kind, or
that of a directory above it to that directory. -/
theorem check_frame (U : zip.UnicodeLib) (fuel : Nat) (cc cc2 : zip.collisionChecker) (p : Str)
    (isDir : Bool) (e : Option zip.EntryError) (hp : p.head? ≠ some '/')
    (h : zip.collisionChecker.check U fuel cc p isDir = some (e, cc2)) :
    ∀ k v, cc2.lookup k = some v → cc.lookup k = some v
      ∨ (k = zip.strToFold U v.path
          ∧ ((v.path = p ∧ v.isDir = isDir) ∨ (v.path ∈ zip.ancestors p ∧ v.isDir = true))) := by
  induction fuel generalizing cc p isDir with
  | zero => exact absurd h (by simp [zip.collisionChecker.check])
  | succ n ih =>
    intro k v hk
    unfold zip.collisionChecker.check at h
    dsimp only at h
    have hrec : ∀ cc1 : zip.collisionChecker, path.Dir p ≠ ['.'] →
        zip.collisionChecker.check U n cc1 (path.Dir p) true = some (e, cc2) →
        cc1.lookup k = some v
          ∨ (k = zip.strToFold U v.path ∧ v.path ∈ zip.ancestors p ∧ v.isDir = true) := by
      intro cc1 hd hcall
      rcases dir_rel p hp with hdot | ⟨_, hhead⟩
      · exact absurd hdot hd
      · rcases ih cc1 (path.Dir p) true hhead hcall k v hk with h1 | ⟨hkey, h2⟩
        · exact Or.inl h1
        · refine Or.inr ⟨hkey, ?_⟩
          rw [ancestors_cons p hp hd]
          rcases h2 with ⟨h3, h4⟩ | ⟨h3, h4⟩
          · exact ⟨by rw [h3]; exact List.mem_cons_self _ _, h4⟩
          · exact ⟨List.mem_cons_of_mem _ h3, h4⟩
    cases hl : cc.lookup (zip.strToFold U p) with
    | some other =>
      rw [hl] at h
      dsimp only at h
      split at h
      · cases h; exact Or.inl hk
      · split at h
        · cases h; exact Or.inl hk
        · split at h
          · cases h; exact Or.inl hk
          · split at h
            · rename_i hd
              rcases hrec cc hd h with h1 | ⟨h1, h2⟩
              · exact Or.inl h1
              · exact Or.inr ⟨h1, Or.inr h2⟩
            · cases h; exact Or.inl hk
    | none =>
      rw [hl] at h
      dsimp only at h
      have hcons : ∀ v2, List.lookup k ((zip.strToFold U p, ({ path := p, isDir := isDir } :
          zip.pathInfo)) :: cc) = some v2 →
          cc.lookup k = some v2 ∨ (k = zip.strToFold U p ∧ v2 = { path := p, isDir := isDir }) := by
        intro v2 hv2
        by_cases hkey : k = zip.strToFold U p
        · rw [hkey, lookup_cons_self] at hv2
          exact Or.inr ⟨hkey, (Option.some.inj hv2).symm⟩
        · rw [lookup_cons_ne cc k _ _ hkey] at hv2
          exact Or.inl hv2
      split at h
      · rename_i hd
        rcases hrec _ hd h with h1 | ⟨h1, h2⟩
        · rcases hcons v h1 with h3 | ⟨h3, h4⟩
          · exact Or.inl h3
          · subst h4
            exact Or.inr ⟨h3, Or.inl ⟨rfl, rfl⟩⟩
        · exact Or.inr ⟨h1, Or.inr h2⟩
      · cases h
        rcases hcons v hk with h3 | ⟨h3, h4⟩
        · exact Or.inl h3
        · subst h4
          exact Or.inr ⟨h3, Or.inl ⟨rfl, rfl⟩⟩

/-- An error that `check` finds at the path itself leaves the index as it
was. -/
theorem check_error_self (U : zip.UnicodeLib) (fuel : Nat) (cc cc2 : zip.collisionChecker)
    (p : Str) (isDir : Bool) (e : Option zip.EntryError) (other : zip.pathInfo)
    (h : zip.collisionChecker.check U fuel cc p isDir = some (e, cc2))
    (hl : cc.lookup (zip.strToFold U p) = some other)
    (hbad : p ≠ other.path ∨ isDir ≠ other.isDir ∨ isDir = false) : cc2 = cc ∧ e ≠ none := by
  cases fuel with
  | zero => exact absurd h (by simp [zip.collisionChecker.check])
  | succ n =>
    unfold zip.collisionChecker.check at h
    dsimp only at h
    rw [hl] at h
    dsimp only at h
    split at h
    · cases h; exact ⟨rfl, by simp⟩
    · split at h
      · cases h; exact ⟨rfl, by simp⟩
      · split at h
        · cases h; exact ⟨rfl, by simp⟩
        · rename_i h1 h2 h3
          exfalso
          rcases hbad with hb | hb | hb
          · exact h1 hb
          · exact h2 hb
          · rw [hb] at h3
            exact h3 (by simp)

/-! ## Calls of `check` that succeed -/

/-- `check` succeeds when the folded forms of the path and of the directories
above it are those of different strings, the folded form of the path is not
bound (or bound to the path as a directory, for a directory), and that of
each directory above it is not bound or bound to it as a directory. -/
theorem check_succeeds (U : zip.UnicodeLib) (fuel : Nat) (cc : zip.collisionChecker) (p : Str)
    (isDir : Bool) (hp : p.head? ≠ some '/') (hf : p.length < fuel)
    (hinj : ∀ a ∈ p :: zip.ancestors p, ∀ b ∈ p :: zip.ancestors p,
      zip.strToFold U a = zip.strToFold U b → a = b)
    (hself : cc.lookup (zip.strToFold U p) = none
      ∨ (isDir = true ∧ cc.lookup (zip.strToFold U p) = some { path := p, isDir := true }))
    (hanc : ∀ a ∈ zip.ancestors p, cc.lookup (zip.strToFold U a) = none
      ∨ cc.lookup (zip.strToFold U a) = some { path := a, isDir := true }) :
    ∃ cc2, zip.collisionChecker.check U fuel cc p isDir = some (none, cc2) := by
  induction fuel generalizing cc p isDir with
  | zero => omega
  | succ n ih =>
    unfold zip.collisionChecker.check
    dsimp only
    -- the recursive call, on an index that agrees with `cc` above the path
    have hrec : ∀ cc1 : zip.collisionChecker, path.Dir p ≠ ['.'] →
        (∀ a ∈ zip.ancestors p, cc1.lookup (zip.strToFold U a) = cc.lookup (zip.strToFold U a)) →
        ∃ cc2, zip.collisionChecker.check U n cc1 (path.Dir p) true = some (none, cc2) := by
      intro cc1 hd hsame
      rcases dir_rel p hp with hdot | ⟨hlen, hhead⟩
      · exact absurd hdot hd
      · have hanc_eq := ancestors_cons p hp hd
        have hsub : ∀ a ∈ path.Dir p :: zip.ancestors (path.Dir p), a ∈ zip.ancestors p := by
          intro a ha
          rw [hanc_eq]
          exact ha
        apply ih cc1 (path.Dir p) true hhead (by omega)
        · intro a ha b hb
          exact hinj a (List.mem_cons_of_mem _ (hsub a ha)) b (List.mem_cons_of_mem _ (hsub b hb))
        · have hmem : path.Dir p ∈ zip.ancestors p := hsub _ (List.mem_cons_self _ _)
          rw [hsame _ hmem]
          rcases hanc _ hmem with h | h
          · exact Or.inl h
          · exact Or.inr ⟨rfl, h⟩
        · intro a ha
          have hmem : a ∈ zip.ancestors p := hsub _ (List.mem_cons_of_mem _ ha)
          rw [hsame _ hmem]
          exact hanc _ hmem
    rcases hself with hnone | ⟨hdir, hsome⟩
    · rw [hnone]
      dsimp only
      by_cases hd : path.Dir p ≠ ['.']
      · rw [if_pos hd]
        apply hrec _ hd
        intro a ha
        have hne : zip.strToFold U a ≠ zip.strToFold U p := by
          intro e
          have := hinj a (List.mem_cons_of_mem _ ha) p (List.mem_cons_self _ _) e
          have hl := (ancestors_length p.length p (Nat.le_refl _) hp a ha).1
          rw [this] at hl
          omega
        exact lookup_cons_ne cc _ _ _ hne
      · rw [if_neg hd]
        exact ⟨_, rfl⟩
    · rw [hsome]
      dsimp only
      subst hdir
      rw [if_neg (by simp), if_neg (by simp), if_neg (by simp)]
      by_cases hd : path.Dir p ≠ ['.']
      · rw [if_pos hd]
        exact hrec cc hd (fun _ _ => rfl)
      · rw [if_neg hd]
        exact ⟨_, rfl⟩

/-- After a call of `check` without error, the folded form of every directory
above the path is bound to that directory. -/
theorem check_ok_ancestors (U : zip.UnicodeLib) (fuel : Nat) (cc cc2 : zip.collisionChecker)
    (p : Str) (isDir : Bool) (hp : p.head? ≠ some '/')
    (h : zip.collisionChecker.check U fuel cc p isDir = some (none, cc2)) :
    ∀ a ∈ zip.ancestors p, cc2.lookup (zip.strToFold U a) = some { path := a, isDir := true } := by
  induction fuel generalizing cc p isDir with
  | zero => exact absurd h (by simp [zip.collisionChecker.check])
  | succ n ih =>
    intro a ha
    by_cases hd : path.Dir p = ['.']
    · rw [ancestors_of_dot p hd] at ha
      simp at ha
    · rcases dir_rel p hp with hdot | ⟨_, hhead⟩
      · exact absurd hdot hd
      · rw [ancestors_cons p hp hd] at ha
        have hrec : ∀ cc1 : zip.collisionChecker,
            zip.collisionChecker.check U n cc1 (path.Dir p) true = some (none, cc2) →
            cc2.lookup (zip.strToFold U a) = some { path := a, isDir := true } := by
          intro cc1 hcall
          rcases List.mem_cons.mp ha with e | ha2
          · rw [e]
            exact check_ok_self U n cc1 cc2 (path.Dir p) true hcall
          · exact ih cc1 (path.Dir p) true hhead hcall a ha2
        unfold zip.collisionChecker.check at h
        dsimp only at h
        cases hl : cc.lookup (zip.strToFold U p) with
        | some other =>
          rw [hl] at h
          dsimp only at h
          split at h
          · cases h
          · split at h
            · cases h
            · split at h
              · cases h
              · try rw [if_pos hd] at h
                exact hrec cc h
        | none =>
          rw [hl] at h
          dsimp only at h
          try rw [if_pos hd] at h
          exact hrec _ h

/-- The calls of `check` for a list of paths without collisions all succeed,
on an index built from paths that they do not collide with either. -/
theorem checkAll_succeeds (U : zip.UnicodeLib) (ps done : List Str) (cc : zip.collisionChecker)
    (hrel : ∀ p ∈ done ++ ps, p.head? ≠ some '/')
    (hinj : ∀ a ∈ (done ++ ps) ++ (done ++ ps).flatMap zip.ancestors,
      ∀ b ∈ (done ++ ps) ++ (done ++ ps).flatMap zip.ancestors,
      zip.strToFold U a = zip.strToFold U b → a = b)
    (hnodup : (done ++ ps).Nodup)
    (hnoanc : ∀ p ∈ done ++ ps, ∀ q ∈ done ++ ps, p ∉ zip.ancestors q)
    (hidx : zip.IndexOf U cc done)
    (hfiles : ∀ p ∈ done, cc.lookup (zip.strToFold U p) = some { path := p, isDir := false })
    (hdirs : ∀ p ∈ done, ∀ a ∈ zip.ancestors p,
      cc.lookup (zip.strToFold U a) = some { path := a, isDir := true }) :
    ∃ cc2, zip.checkAll U cc ps = some (none, cc2)
      ∧ (∀ p ∈ done ++ ps, cc2.lookup (zip.strToFold U p) = some { path := p, isDir := false })
      ∧ (∀ p ∈ done ++ ps, ∀ a ∈ zip.ancestors p,
          cc2.lookup (zip.strToFold U a) = some { path := a, isDir := true }) := by
  induction ps generalizing done cc with
  | nil =>
    refine ⟨cc, rfl, ?_, ?_⟩
    · intro p hp
      rw [List.append_nil] at hp
      exact hfiles p hp
    · intro p hp
      rw [List.append_nil] at hp
      exact hdirs p hp
  | cons p rest ih =>
    have hpmem : p ∈ done ++ p :: rest := by simp
    have hprel := hrel p hpmem
    have hS : ∀ a, a ∈ p :: zip.ancestors p →
        a ∈ (done ++ p :: rest) ++ (done ++ p :: rest).flatMap zip.ancestors := by
      intro a ha
      rcases List.mem_cons.mp ha with e | ha2
      · rw [e]
        exact List.mem_append_left _ hpmem
      · exact List.mem_append_right _ (List.mem_flatMap.mpr ⟨p, hpmem, ha2⟩)
    have hSdone : ∀ q ∈ done, ∀ a, a ∈ q :: zip.ancestors q →
        a ∈ (done ++ p :: rest) ++ (done ++ p :: rest).flatMap zip.ancestors := by
      intro q hq a ha
      have hqmem : q ∈ done ++ p :: rest := List.mem_append_left _ hq
      rcases List.mem_cons.mp ha with e | ha2
      · rw [e]
        exact List.mem_append_left _ hqmem
      · exact List.mem_append_right _ (List.mem_flatMap.mpr ⟨q, hqmem, ha2⟩)
    have hpnot : p ∉ done := by
      intro hin
      have := List.nodup_append.mp hnodup
      exact this.2.2 hin (List.mem_cons_self _ _)
    -- what the index binds to the folded form of a string of the set
    have hbound : ∀ a, a ∈ p :: zip.ancestors p → ∀ v, cc.lookup (zip.strToFold U a) = some v →
        v.path = a ∧ ((a ∈ done ∧ v.isDir = false)
          ∨ (∃ q ∈ done, a ∈ zip.ancestors q ∧ v.isDir = true)) := by
      intro a ha v hv
      obtain ⟨hkey, hkind⟩ := hidx _ v hv
      have hvS : v.path ∈ (done ++ p :: rest) ++ (done ++ p :: rest).flatMap zip.ancestors := by
        rcases hkind with ⟨hvd, _⟩ | ⟨q, hq, hva, _⟩
        · exact hSdone v.path hvd _ (List.mem_cons_self _ _)
        · exact hSdone q hq _ (List.mem_cons_of_mem _ hva)
      have heq : a = v.path := hinj a (hS a ha) v.path hvS hkey
      refine ⟨heq.symm, ?_⟩
      rw [heq]
      exact hkind
    have hself : cc.lookup (zip.strToFold U p) = none := by
      cases hl : cc.lookup (zip.strToFold U p) with
      | none => rfl
      | some v =>
        exfalso
        rcases (hbound p (List.mem_cons_self _ _) v hl).2 with ⟨hd, _⟩ | ⟨q, hq, hpa, _⟩
        · exact hpnot hd
        · exact hnoanc p hpmem q (List.mem_append_left _ hq) hpa
    have hanc : ∀ a ∈ zip.ancestors p, cc.lookup (zip.strToFold U a) = none
        ∨ cc.lookup (zip.strToFold U a) = some { path := a, isDir := true } := by
      intro a ha
      cases hl : cc.lookup (zip.strToFold U a) with
      | none => exact Or.inl rfl
      | some v =>
        right
        obtain ⟨hpath, hkind⟩ := hbound a (List.mem_cons_of_mem _ ha) v hl
        rcases hkind with ⟨hd, _⟩ | ⟨q, _, _, hdir⟩
        · exact absurd ha (hnoanc a (List.mem_append_left _ hd) p hpmem)
        · cases v with
          | mk vp vd =>
            simp only at hpath hdir
            rw [hpath, hdir]
    obtain ⟨cc1, hcall⟩ := check_succeeds U (p.length + 1) cc p false hprel (Nat.lt_succ_self _)
      (fun a ha b hb => hinj a (hS a ha) b (hS b hb)) (Or.inl hself) hanc
    have hmono := check_lookup_mono U (p.length + 1) cc cc1 p false none hcall
    have hframe := check_frame U (p.length + 1) cc cc1 p false none hprel hcall
    have happ : done ++ p :: rest = (done ++ [p]) ++ rest := by simp
    have hidx1 : zip.IndexOf U cc1 (done ++ [p]) := by
      intro k v hv
      rcases hframe k v hv with hold | ⟨hkey, hnew⟩
      · obtain ⟨hkey, hkind⟩ := hidx k v hold
        refine ⟨hkey, ?_⟩
        rcases hkind with ⟨hd, hf⟩ | ⟨q, hq, hva, hdir⟩
        · exact Or.inl ⟨List.mem_append_left _ hd, hf⟩
        · exact Or.inr ⟨q, List.mem_append_left _ hq, hva, hdir⟩
      · refine ⟨hkey, ?_⟩
        rcases hnew with ⟨hvp, hf⟩ | ⟨hva, hdir⟩
        · exact Or.inl ⟨by rw [hvp]; simp, hf⟩
        · exact Or.inr ⟨p, by simp, hva, hdir⟩
    have hfiles1 : ∀ q ∈ done ++ [p],
        cc1.lookup (zip.strToFold U q) = some { path := q, isDir := false } := by
      intro q hq
      rcases List.mem_append.mp hq with hd | hq2
      · exact hmono _ _ (hfiles q hd)
      · rw [List.mem_singleton] at hq2
        rw [hq2]
        exact check_ok_self U (p.length + 1) cc cc1 p false hcall
    have hdirs1 : ∀ q ∈ done ++ [p], ∀ a ∈ zip.ancestors q,
        cc1.lookup (zip.strToFold U a) = some { path := a, isDir := true } := by
      intro q hq a ha
      rcases List.mem_append.mp hq with hd | hq2
      · exact hmono _ _ (hdirs q hd a ha)
      · rw [List.mem_singleton] at hq2
        rw [hq2] at ha
        exact check_ok_ancestors U (p.length + 1) cc cc1 p false hprel hcall a ha
    obtain ⟨cc2, hall, hf2, hd2⟩ := ih (done ++ [p]) cc1 (by rw [← happ]; exact hrel)
      (by rw [← happ]; exact hinj) (by rw [← happ]; exact hnodup) (by rw [← happ]; exact hnoanc)
      hidx1 hfiles1 hdirs1
    refine ⟨cc2, ?_, by rw [happ]; exact hf2, by rw [happ]; exact hd2⟩
    show (match zip.collisionChecker.check U (p.length + 1) cc p false with
      | none => none
      | some (some err, cc1) => some (some err, cc1)
      | some (none, cc1) => zip.checkAll U cc1 rest) = _
    rw [hcall]
    exact hall

/-! ## Escaping and unescaping of ASCII strings -/

/-- The encoding of an ASCII character is its code. -/
theorem utf8_ascii_char (c : Char) (h : c.toNat < 128) :
    (String.utf8EncodeChar c).map UInt8.toNat = [c.toNat] := by
  unfold String.utf8EncodeChar
  dsimp only
  have hle : c.val ≤ 127 := by
    show c.val.toNat ≤ 127
    have : c.toNat = c.val.toNat := rfl
    omega
  rw [if_pos hle]
  simp only [List.map_cons, List.map_nil]
  have hv : c.val.toUInt8.toNat = c.val.toNat % 256 := rfl
  rw [hv, Nat.mod_eq_of_lt (by have : c.toNat = c.val.toNat := rfl; omega)]
  rfl

theorem utf8_cons (c : Char) (s : Str) :
    zip.utf8 (c :: s) = (String.utf8EncodeChar c).map UInt8.toNat ++ zip.utf8 s := by
  unfold zip.utf8
  rw [List.flatMap_cons]

/-- The bytes of an ASCII string are the codes of its characters. -/
theorem utf8_ascii (s : Str) (h : ∀ c ∈ s, c.toNat < 128) : zip.utf8 s = s.map Char.toNat := by
  induction s with
  | nil => rfl
  | cons c t ih =>
    rw [utf8_cons, utf8_ascii_char c (h c (by simp)),
      ih (fun x hx => h x (List.mem_cons_of_mem _ hx))]
    rfl

theorem decodeRune_ascii (b : Nat) (rest : List Nat) (h : b < 128) :
    utf8.DecodeRune (b :: rest) = (Char.ofNat b, 1) := by
  unfold utf8.DecodeRune
  have hw : utf8.width b = 1 := by
    unfold utf8.width
    rw [if_pos h]
  dsimp only
  rw [if_pos hw]

/-- The string with the codes of an ASCII string as bytes is that string. -/
theorem ofBytes_ascii (s : Str) (h : ∀ c ∈ s, c.toNat < 128) :
    utf8.ofBytes (s.map Char.toNat) = s := by
  unfold utf8.ofBytes
  rw [List.length_map]
  induction s with
  | nil => rfl
  | cons c t ih =>
    have hc := h c (by simp)
    show utf8.runesLoop (t.length + 1) (c.toNat :: t.map Char.toNat) = c :: t
    unfold utf8.runesLoop
    rw [if_neg (by simp), decodeRune_ascii _ _ hc]
    dsimp only
    rw [List.drop_one, List.tail_cons, ih (fun x hx => h x (List.mem_cons_of_mem _ hx)),
      Char.ofNat_toNat]

theorem unescapeBytes_plain (s : Str) (h : ∀ c ∈ s, c.toNat < 128 ∧ c ≠ '%') :
    url.unescapeBytes s = some (s.map Char.toNat) := by
  induction s with
  | nil => rfl
  | cons c t ih =>
    have hc := h c (by simp)
    unfold url.unescapeBytes
    rw [if_neg hc.2, ih (fun x hx => h x (List.mem_cons_of_mem _ hx))]
    have : zip.utf8 [c] = [c.toNat] := by
      rw [utf8_ascii [c] (by intro x hx; rw [List.mem_singleton] at hx; rw [hx]; exact hc.1)]
      rfl
    rw [this]
    rfl

/-- `unescape` returns an ASCII string without `%` as it is. -/
theorem unescape_plain (s : Str) (h : ∀ c ∈ s, c.toNat < 128 ∧ c ≠ '%') :
    url.unescape s = Except.ok s := by
  unfold url.unescape
  rw [unescapeBytes_plain s h]
  dsimp only
  rw [ofBytes_ascii s (fun c hc => (h c hc).1)]

theorem escape_cons (c : Char) (s : Str) (mode : url.encoding) (hc : c.toNat < 128) :
    url.escape (c :: s) mode = url.escapeByte mode c.toNat ++ url.escape s mode := by
  unfold url.escape
  rw [utf8_cons, utf8_ascii_char c hc, List.flatMap_append]
  simp

theorem escape_append (a b : Str) (mode : url.encoding) :
    url.escape (a ++ b) mode = url.escape a mode ++ url.escape b mode := by
  unfold url.escape
  rw [utf8_append, List.flatMap_append]

/-- The two digits that `escape` writes for a byte below 128 are hexadecimal
digits that stand for the byte, and neither is a slash. -/
theorem hex_round_trip : ∀ b : Fin 128,
    url.ishex (url.upperhex (b.val / 16)) = true ∧ url.ishex (url.upperhex (b.val % 16)) = true
      ∧ url.unhex (url.upperhex (b.val / 16)) * 16 + url.unhex (url.upperhex (b.val % 16)) = b.val
      ∧ url.upperhex (b.val / 16) ≠ '/' ∧ url.upperhex (b.val % 16) ≠ '/'
      ∧ (url.upperhex (b.val / 16)).toNat < 128 ∧ (url.upperhex (b.val % 16)).toNat < 128 := by
  decide

/-- The bytes that are not escaped in a path are not `%`, and those that are
not escaped in a segment of a path are not the slash either. -/
theorem shouldEscape_special : ∀ b : Fin 128,
    (url.shouldEscape b.val url.encoding.encodePath = false → b.val ≠ 37)
      ∧ (url.shouldEscape b.val url.encoding.encodePathSegment = false →
          b.val ≠ 37 ∧ b.val ≠ 47) := by
  decide

theorem unescapeBytes_escape (s : Str) (mode : url.encoding) (h : ∀ c ∈ s, c.toNat < 128) :
    url.unescapeBytes (url.escape s mode) = some (s.map Char.toNat) := by
  induction s with
  | nil => rfl
  | cons c t ih =>
    have hc := h c (by simp)
    have iht := ih (fun x hx => h x (List.mem_cons_of_mem _ hx))
    rw [escape_cons c t mode hc]
    unfold url.escapeByte
    by_cases hs : url.shouldEscape c.toNat mode = true
    · rw [if_pos hs]
      obtain ⟨h1, h2, h3, _⟩ := hex_round_trip ⟨c.toNat, hc⟩
      simp only at h1 h2 h3
      show url.unescapeBytes ('%' :: url.upperhex (c.toNat / 16) :: url.upperhex (c.toNat % 16)
        :: url.escape t mode) = _
      unfold url.unescapeBytes
      rw [if_pos rfl]
      dsimp only
      rw [if_pos ⟨h1, h2⟩, iht, h3]
      rfl
    · rw [if_neg hs]
      have hs2 : url.shouldEscape c.toNat mode = false := by simpa using hs
      have hne : c ≠ '%' := by
        intro e
        have := shouldEscape_special ⟨c.toNat, hc⟩
        simp only at this
        cases mode with
        | encodePath => exact this.1 hs2 (by rw [e]; rfl)
        | encodePathSegment => exact (this.2 hs2).1 (by rw [e]; rfl)
      rw [Char.ofNat_toNat]
      show url.unescapeBytes (c :: url.escape t mode) = _
      unfold url.unescapeBytes
      rw [if_neg hne, iht]
      have : zip.utf8 [c] = [c.toNat] := by
        rw [utf8_ascii [c] (by intro x hx; rw [List.mem_singleton] at hx; rw [hx]; exact hc)]
        rfl
      rw [this]
      rfl

/-- `unescape` inverts `escape` on ASCII strings. -/
theorem unescape_escape (s : Str) (mode : url.encoding) (h : ∀ c ∈ s, c.toNat < 128) :
    url.unescape (url.escape s mode) = Except.ok s := by
  unfold url.unescape
  rw [unescapeBytes_escape s mode h]
  dsimp only
  rw [ofBytes_ascii s h]

/-- The characters that `escape` writes for an ASCII string are ASCII, and a
slash among them is a slash of the string that the mode does not escape. -/
theorem escape_chars (s : Str) (mode : url.encoding) (h : ∀ c ∈ s, c.toNat < 128) :
    ∀ x ∈ url.escape s mode, x.toNat < 128
      ∧ (x = '/' → '/' ∈ s ∧ url.shouldEscape 47 mode = false) := by
  induction s with
  | nil =>
    intro x hx
    simp [url.escape, zip.utf8] at hx
  | cons c t ih =>
    have hc := h c (by simp)
    intro x hx
    rw [escape_cons c t mode hc] at hx
    rcases List.mem_append.mp hx with h1 | h1
    · unfold url.escapeByte at h1
      obtain ⟨_, _, _, h4, h5, h6, h7⟩ := hex_round_trip ⟨c.toNat, hc⟩
      simp only at h4 h5 h6 h7
      by_cases hs : url.shouldEscape c.toNat mode = true
      · rw [if_pos hs] at h1
        simp only [List.mem_cons, List.mem_singleton, List.not_mem_nil, or_false] at h1
        rcases h1 with e | e | e
        · rw [e]
          exact ⟨by decide, fun e2 => absurd e2 (by decide)⟩
        · rw [e]
          exact ⟨h6, fun e2 => absurd e2 h4⟩
        · rw [e]
          exact ⟨h7, fun e2 => absurd e2 h5⟩
      · rw [if_neg hs, Char.ofNat_toNat, List.mem_singleton] at h1
        rw [h1]
        refine ⟨hc, fun e2 => ⟨by rw [e2]; simp, ?_⟩⟩
        have : c.toNat = 47 := by rw [e2]; rfl
        rw [this] at hs
        simpa using hs
    · have := ih (fun y hy => h y (List.mem_cons_of_mem _ hy)) x h1
      exact ⟨this.1, fun e2 => ⟨List.mem_cons_of_mem _ (this.2 e2).1, (this.2 e2).2⟩⟩

/-- `url.PathEscape` of an ASCII string has no slash. -/
theorem pathEscape_no_slash (s : Str) (h : ∀ c ∈ s, c.toNat < 128) : '/' ∉ url.PathEscape s := by
  intro hmem
  have := (escape_chars s url.encoding.encodePathSegment h '/' hmem).2 rfl
  exact absurd this.2 (by decide)

/-- An ASCII string whose bytes the mode `encodePath` leaves alone, apart
from `!`, is a valid encoding of itself. -/
theorem validEncoded_plain (s : Str)
    (h : ∀ c ∈ s, c.toNat < 128
      ∧ (url.shouldEscape c.toNat url.encoding.encodePath = false ∨ c = '!')) :
    url.validEncoded s url.encoding.encodePath = true := by
  unfold url.validEncoded
  rw [utf8_ascii s (fun c hc => (h c hc).1), List.all_eq_true]
  intro b hb
  obtain ⟨c, hc, rfl⟩ := List.mem_map.mp hb
  rcases (h c hc).2 with h1 | h1
  · rw [h1]
    simp
  · rw [h1]
    decide

/-- The path of the request line of such a string: `setPath` succeeds, the
field `Path` is the string, and `EscapedPath` returns it. -/
theorem setPath_plain (s : Str)
    (h : ∀ c ∈ s, c.toNat < 128 ∧ c ≠ '%'
      ∧ (url.shouldEscape c.toNat url.encoding.encodePath = false ∨ c = '!')) :
    ∃ u, url.setPath s = Except.ok u ∧ u.Path = s ∧ u.EscapedPath = s := by
  have hun := unescape_plain s (fun c hc => ⟨(h c hc).1, (h c hc).2.1⟩)
  have hvalid := validEncoded_plain s (fun c hc => ⟨(h c hc).1, (h c hc).2.2⟩)
  unfold url.setPath
  rw [hun]
  dsimp only
  by_cases he : s = url.escape s url.encoding.encodePath
  · rw [if_pos he]
    refine ⟨_, rfl, rfl, ?_⟩
    unfold url.URL.EscapedPath
    dsimp only
    rw [if_neg (by simp)]
    by_cases hstar : s = ['*']
    · rw [if_pos hstar]
      exact hstar.symm
    · rw [if_neg hstar]
      exact he.symm
  · rw [if_neg he]
    refine ⟨_, rfl, rfl, ?_⟩
    unfold url.URL.EscapedPath
    dsimp only
    have hne : s ≠ [] := by
      intro e
      apply he
      rw [e]
      rfl
    rw [if_pos ⟨hne, hvalid⟩, hun]
    dsimp only
    rw [if_pos rfl]

/-! ## The two `ServeMux` of the server -/

theorem cleanRel_ne_dots (p : Str) (hp : IsCleanRel p) :
    p ≠ [] ∧ p ≠ ['.'] ∧ p ≠ ['.', '.'] := by
  refine ⟨(clean_of_cleanRel p hp).2, ?_⟩
  obtain ⟨es, hes, hgood, rfl⟩ := hp
  cases es with
  | nil => exact absurd rfl hes
  | cons e r =>
    cases r with
    | nil =>
      have he : e ≠ [] ∧ '/' ∉ e ∧ e ≠ ['.'] ∧ e ≠ ['.', '.'] := by
        simpa [cleanElem] using hgood e (by simp)
      have : Join [e] ['/'] = e := by simp [Join]
      rw [this]
      exact ⟨he.2.2.1, he.2.2.2⟩
    | cons e2 r2 =>
      have hmem : '/' ∈ Join (e :: e2 :: r2) ['/'] := by
        rw [join_cons_cons]
        simp
      constructor
      · intro h
        rw [h] at hmem
        exact absurd hmem (by decide)
      · intro h
        rw [h] at hmem
        exact absurd hmem (by decide)

theorem pathUnescape_plain (s : Str) (h : ∀ c ∈ s, c.toNat < 128 ∧ c ≠ '%') :
    http.pathUnescape s = s := by
  unfold http.pathUnescape url.PathUnescape
  rw [unescape_plain s h]

theorem pathUnescape_escape (s : Str) (mode : url.encoding) (h : ∀ c ∈ s, c.toNat < 128) :
    http.pathUnescape (url.escape s mode) = s := by
  unfold http.pathUnescape url.PathUnescape
  rw [unescape_escape s mode h]

theorem unescapeOrEmpty_plain (s : Str) (h : ∀ c ∈ s, c.toNat < 128 ∧ c ≠ '%') :
    proxy.unescapeOrEmpty s = s := by
  unfold proxy.unescapeOrEmpty url.PathUnescape
  rw [unescape_plain s h]

theorem unescapeOrEmpty_escape (s : Str) (mode : url.encoding) (h : ∀ c ∈ s, c.toNat < 128) :
    proxy.unescapeOrEmpty (url.escape s mode) = s := by
  unfold proxy.unescapeOrEmpty url.PathUnescape
  rw [unescape_escape s mode h]

/-- The first segment of a path with two segments or more. -/
theorem firstSegment_cons (q rest : Str) (hq : '/' ∉ q) :
    http.firstSegment ('/' :: (q ++ '/' :: rest)) = (http.pathUnescape q, '/' :: rest) := by
  unfold http.firstSegment
  rw [if_neg (by simp)]
  rw [List.drop_one, List.tail_cons, cut_single q rest '/' hq]

/-- `mux` hands every `GET` of a clean path to the handler that rewrites the
path, with the unescaped path after the first slash as the wildcard. -/
theorem serveHTTP_clean (L : proxy.ServerLib) (ops : proxy.ServerOps) (u : url.URL) (t : Str)
    (hE : u.EscapedPath = '/' :: t) (hclean : cleanPath ('/' :: t) = '/' :: t) :
    proxy.Server.ServeHTTP L ops { Method := MethodGet, URL := u }
      = proxy.Server.rewrite L ops MethodGet (http.pathUnescape t) u := by
  unfold proxy.Server.ServeHTTP http.findHandler
  dsimp only
  rw [if_neg (by decide), hE, hclean, if_neg (by simp)]
  have hm : http.firstMatch proxy.muxPatterns 0 ('/' :: t) = some (0, [http.pathUnescape t]) := by
    unfold proxy.muxPatterns http.firstMatch http.matchPath
    rw [if_neg (by simp)]
    rfl
  rw [hm]
  dsimp only
  rw [if_pos (Or.inl rfl)]
  rfl

/-- The handler of `mux` returns at the route of the list of versions, before
the call of `remux`. -/
theorem rewrite_list (L : proxy.ServerLib) (ops : proxy.ServerOps) (method ep p : Str)
    (u : url.URL) (hat : '@' ∉ ep) (hun : L.module.UnescapePath ep = Except.ok p) :
    proxy.Server.rewrite L ops method (ep ++ "/@v/list".toList) u
      = proxy.Reply.handled { ops := [], calls := [], panicked := false } := by
  unfold proxy.Server.rewrite
  have hcut : Cut (ep ++ "/@v/list".toList) ['/', '@'] = (ep, "v/list".toList, true) :=
    cut_at ep "v/list".toList hat
  rw [hcut]
  dsimp only
  rw [hun]
  dsimp only
  rw [if_pos (by decide)]

/-- The handler of `mux` at the route of the latest version. -/
theorem rewrite_latest (L : proxy.ServerLib) (ops : proxy.ServerOps) (method ep p : Str)
    (u : url.URL) (hat : '@' ∉ ep) (hun : L.module.UnescapePath ep = Except.ok p) :
    proxy.Server.rewrite L ops method (ep ++ "/@latest".toList) u
      = proxy.Server.remux L ops method
          { Path := ['/'] ++ url.PathEscape p ++ "/@latest".toList, RawPath := u.Path } := by
  unfold proxy.Server.rewrite
  have hcut : Cut (ep ++ "/@latest".toList) ['/', '@'] = (ep, "latest".toList, true) :=
    cut_at ep "latest".toList hat
  rw [hcut]
  dsimp only
  rw [hun]
  dsimp only
  rw [if_neg (by decide), if_neg (by decide), if_pos (by decide)]

/-- A slash, a clean relative path and the route `@latest` make a clean
path. -/
theorem cleanPath_latest (ep : Str) (hep : IsCleanRel ep) :
    cleanPath ('/' :: (ep ++ "/@latest".toList)) = '/' :: (ep ++ "/@latest".toList) := by
  obtain ⟨es, hes, hgood, rfl⟩ := hep
  have hj : Join (es ++ ["@latest".toList]) ['/'] = Join es ['/'] ++ "/@latest".toList := by
    rw [join_append_single _ _ _ hes]
    simp
  have hc := clean_rooted (es ++ ["@latest".toList]) (by simp) (by
    intro e he
    rcases List.mem_append.mp he with he | he
    · exact hgood e he
    · rw [List.mem_singleton] at he
      rw [he]
      decide)
  rw [hj] at hc
  apply cleanPath_of_clean _ hc
  rw [← List.cons_append, List.getLast?_append]
  have : "/@latest".toList.getLast? = some 't' := by decide
  rw [this]
  simp

/-- A slash, a clean relative path and the route `@v/list` make a clean
path. -/
theorem cleanPath_list (ep : Str) (hep : IsCleanRel ep) :
    cleanPath ('/' :: (ep ++ "/@v/list".toList)) = '/' :: (ep ++ "/@v/list".toList) := by
  obtain ⟨es, hes, hgood, rfl⟩ := hep
  have hj : Join (es ++ ["@v".toList] ++ ["list".toList]) ['/']
      = Join es ['/'] ++ "/@v/list".toList := by
    rw [join_append_single _ _ _ (by simp), join_append_single _ _ _ hes]
    simp
  have hc := clean_rooted (es ++ ["@v".toList] ++ ["list".toList]) (by simp) (by
    intro e he
    rcases List.mem_append.mp he with he | he
    · rcases List.mem_append.mp he with he | he
      · exact hgood e he
      · rw [List.mem_singleton] at he
        rw [he]
        decide
    · rw [List.mem_singleton] at he
      rw [he]
      decide)
  rw [hj] at hc
  apply cleanPath_of_clean _ hc
  rw [← List.cons_append, List.getLast?_append]
  have : "/@v/list".toList.getLast? = some 't' := by decide
  rw [this]
  simp

/-- `remux` hands a path of one segment and the route `@latest` to the handler
of the latest version, with the unescaped segment as the wildcard. -/
theorem remux_latest (L : proxy.ServerLib) (ops : proxy.ServerOps) (u : url.URL) (q : Str)
    (hE : u.EscapedPath = '/' :: (q ++ "/@latest".toList)) (hq : cleanElem q = true)
    (hun : http.pathUnescape q ≠ ['/']) :
    proxy.Server.remux L ops MethodGet u
      = proxy.Reply.handled (proxy.Server.latestHandler L ops (http.pathUnescape q)) := by
  have hslash : '/' ∉ q := by
    have : q ≠ [] ∧ '/' ∉ q ∧ q ≠ ['.'] ∧ q ≠ ['.', '.'] := by simpa [cleanElem] using hq
    exact this.2.1
  have hfs : http.firstSegment ('/' :: (q ++ "/@latest".toList))
      = (http.pathUnescape q, "/@latest".toList) := firstSegment_cons q "@latest".toList hslash
  have hno : ∀ pat : List http.Seg,
      http.matchPath (http.Seg.wild :: http.Seg.lit "@v".toList :: pat)
        ('/' :: (q ++ "/@latest".toList)) = none := by
    intro pat
    rw [http.matchPath, if_neg (by simp), hfs, if_pos hun]
    dsimp only
    rw [http.matchPath, if_neg (by decide), if_neg (by decide)]
    rfl
  have hyes : http.matchPath [http.Seg.wild, http.Seg.lit "@latest".toList]
      ('/' :: (q ++ "/@latest".toList)) = some [http.pathUnescape q] := by
    rw [http.matchPath, if_neg (by simp), hfs, if_pos hun]
    dsimp only
    have : http.matchPath [http.Seg.lit "@latest".toList] "/@latest".toList = some [] := by
      decide
    rw [this]
    rfl
  have hm : http.firstMatch proxy.remuxPatterns 0 ('/' :: (q ++ "/@latest".toList))
      = some (4, [http.pathUnescape q]) := by
    unfold proxy.remuxPatterns
    rw [http.firstMatch, hno, http.firstMatch, hno, http.firstMatch, hno, http.firstMatch, hno,
      http.firstMatch, hyes]
  unfold proxy.Server.remux http.findHandler
  dsimp only
  rw [if_neg (by decide), hE, cleanPath_latest q ⟨[q], by simp, by simpa using hq, by simp [Join]⟩,
    if_neg (by simp), hm]
  dsimp only
  rw [if_pos (Or.inl rfl)]
  rfl

/-! ## The route of the latest version, from the request to the backend -/

theorem pathChar_ascii (c : Char) (h : module.pathChar c = true) : c.toNat < 128 := by
  unfold module.pathChar at h
  rw [Bool.or_eq_true] at h
  rcases h with h | h
  · unfold url.isAlnum at h
    rw [decide_eq_true_eq] at h
    omega
  · rw [decide_eq_true_eq] at h
    simp only [List.mem_cons, List.mem_singleton, List.not_mem_nil, or_false] at h
    rcases h with h | h | h | h | h <;> rw [h] <;> decide

theorem pathChar_codes : ∀ b : Fin 128, module.pathChar (Char.ofNat b.val) = true →
    b.val ≠ 37 ∧ b.val ≠ 64 ∧ url.shouldEscape b.val url.encoding.encodePath = false := by
  decide

/-- A character of a module path is an ASCII character other than `%` that
is not escaped in a path. -/
theorem pathChar_plain (c : Char) (h : module.pathChar c = true) :
    c.toNat < 128 ∧ c ≠ '%' ∧ url.shouldEscape c.toNat url.encoding.encodePath = false := by
  have hlt := pathChar_ascii c h
  have := pathChar_codes ⟨c.toNat, hlt⟩ (by simpa [Char.ofNat_toNat] using h)
  simp only at this
  refine ⟨hlt, ?_, this.2.2⟩
  intro e
  apply this.1
  rw [e]
  rfl

/-- The request path of the latest version of a module whose escaped path has
the characters of a module path and `!` only. -/
theorem latestTarget_plain (ep : Str) (h : ∀ c ∈ ep, module.pathChar c = true ∨ c = '!') :
    ∀ c ∈ '/' :: (ep ++ "/@latest".toList), c.toNat < 128 ∧ c ≠ '%'
      ∧ (url.shouldEscape c.toNat url.encoding.encodePath = false ∨ c = '!') := by
  have hconst : ∀ c ∈ "/@latest".toList, c.toNat < 128 ∧ c ≠ '%'
      ∧ (url.shouldEscape c.toNat url.encoding.encodePath = false ∨ c = '!') := by decide
  intro c hc
  rcases List.mem_cons.mp hc with hc | hc
  · rw [hc]
    decide
  · rcases List.mem_append.mp hc with hc | hc
    · rcases h c hc with h1 | h1
      · have := pathChar_plain c h1
        exact ⟨this.1, this.2.1, Or.inl this.2.2⟩
      · rw [h1]
        decide
    · exact hconst c hc

/-- The request path of the list of versions of such a module. -/
theorem listTarget_plain (ep : Str) (h : ∀ c ∈ ep, module.pathChar c = true ∨ c = '!') :
    ∀ c ∈ '/' :: (ep ++ "/@v/list".toList), c.toNat < 128 ∧ c ≠ '%'
      ∧ (url.shouldEscape c.toNat url.encoding.encodePath = false ∨ c = '!') := by
  have hconst : ∀ c ∈ "/@v/list".toList, c.toNat < 128 ∧ c ≠ '%'
      ∧ (url.shouldEscape c.toNat url.encoding.encodePath = false ∨ c = '!') := by decide
  intro c hc
  rcases List.mem_cons.mp hc with hc | hc
  · rw [hc]
    decide
  · rcases List.mem_append.mp hc with hc | hc
    · rcases h c hc with h1 | h1
      · have := pathChar_plain c h1
        exact ⟨this.1, this.2.1, Or.inl this.2.2⟩
      · rw [h1]
        decide
    · exact hconst c hc

/-- What `EscapedPath` returns for the URL that the handler of `mux` hands to
`remux` at the route of the latest version, when the path of the request has
no escape: a slash, one clean segment that unescapes twice to the module
path, and the route. -/
theorem escapedPath_rewritten (p raw : Str) (hplain : ∀ c ∈ p, c.toNat < 128 ∧ c ≠ '%')
    (hclean : IsCleanRel p) (hraw : url.unescape raw = Except.ok raw) :
    ∃ q, (url.URL.EscapedPath
          { Path := ['/'] ++ url.PathEscape p ++ "/@latest".toList, RawPath := raw })
        = '/' :: (q ++ "/@latest".toList)
      ∧ cleanElem q = true ∧ http.pathUnescape q ≠ ['/']
      ∧ proxy.unescapeOrEmpty (http.pathUnescape q) = p := by
  have hascii : ∀ c ∈ p, c.toNat < 128 := fun c hc => (hplain c hc).1
  have hdots := cleanRel_ne_dots p hclean
  have hhead := cleanRel_head p hclean
  have hpe_ascii : ∀ c ∈ url.PathEscape p, c.toNat < 128 := fun c hc =>
    (escape_chars p url.encoding.encodePathSegment hascii c hc).1
  have hpe_slash : '/' ∉ url.PathEscape p := pathEscape_no_slash p hascii
  have hun1 : url.unescape (url.PathEscape p) = Except.ok p :=
    unescape_escape p url.encoding.encodePathSegment hascii
  have hpu1 : http.pathUnescape (url.PathEscape p) = p :=
    pathUnescape_escape p url.encoding.encodePathSegment hascii
  have hq1 : cleanElem (url.PathEscape p) = true := by
    simp only [cleanElem, decide_eq_true_eq]
    refine ⟨?_, hpe_slash, ?_, ?_⟩
    · intro e
      rw [e] at hun1
      exact hdots.1 (Except.ok.inj hun1).symm
    · intro e
      rw [e] at hun1
      exact hdots.2.1 (Except.ok.inj hun1).symm
    · intro e
      rw [e] at hun1
      exact hdots.2.2 (Except.ok.inj hun1).symm
  have hun2 : url.unescape (url.escape (url.PathEscape p) url.encoding.encodePath)
      = Except.ok (url.PathEscape p) := unescape_escape _ _ hpe_ascii
  have hq2 : cleanElem (url.escape (url.PathEscape p) url.encoding.encodePath) = true := by
    simp only [cleanElem, decide_eq_true_eq]
    refine ⟨?_, ?_, ?_, ?_⟩
    · intro e
      rw [e] at hun2
      have h0 : url.PathEscape p = [] := (Except.ok.inj hun2).symm
      rw [h0] at hun1
      exact hdots.1 (Except.ok.inj hun1).symm
    · intro hmem
      exact hpe_slash ((escape_chars _ _ hpe_ascii '/' hmem).2 rfl).1
    · intro e
      rw [e] at hun2
      have h0 : url.PathEscape p = ['.'] := (Except.ok.inj hun2).symm
      rw [h0] at hun1
      exact hdots.2.1 (Except.ok.inj hun1).symm
    · intro e
      rw [e] at hun2
      have h0 : url.PathEscape p = ['.', '.'] := (Except.ok.inj hun2).symm
      rw [h0] at hun1
      exact hdots.2.2 (Except.ok.inj hun1).symm
  have hcase1 : ∃ q, ['/'] ++ url.PathEscape p ++ "/@latest".toList
        = '/' :: (q ++ "/@latest".toList)
      ∧ cleanElem q = true ∧ http.pathUnescape q ≠ ['/']
      ∧ proxy.unescapeOrEmpty (http.pathUnescape q) = p := by
    refine ⟨url.PathEscape p, rfl, hq1, ?_, ?_⟩
    · rw [hpu1]
      intro e
      rw [e] at hhead
      exact hhead rfl
    · rw [hpu1]
      exact unescapeOrEmpty_plain p hplain
  have hcase2 : ∃ q, url.escape (['/'] ++ url.PathEscape p ++ "/@latest".toList)
          url.encoding.encodePath
        = '/' :: (q ++ "/@latest".toList)
      ∧ cleanElem q = true ∧ http.pathUnescape q ≠ ['/']
      ∧ proxy.unescapeOrEmpty (http.pathUnescape q) = p := by
    refine ⟨url.escape (url.PathEscape p) url.encoding.encodePath, ?_, hq2, ?_, ?_⟩
    · rw [escape_append, escape_append]
      have h1 : url.escape ['/'] url.encoding.encodePath = ['/'] := by decide
      have h2 : url.escape "/@latest".toList url.encoding.encodePath = "/@latest".toList := by
        decide
      rw [h1, h2]
      rfl
    · rw [pathUnescape_escape _ _ hpe_ascii]
      intro e
      apply hpe_slash
      rw [e]
      simp
    · rw [pathUnescape_escape _ _ hpe_ascii]
      exact unescapeOrEmpty_escape p _ hascii
  have hstar : ¬ (['/'] ++ url.PathEscape p ++ "/@latest".toList = ['*']) := by
    intro e
    have := congrArg List.head? e
    simp at this
  unfold url.URL.EscapedPath
  dsimp only
  rw [if_neg hstar]
  by_cases hv : raw ≠ [] ∧ url.validEncoded raw url.encoding.encodePath = true
  · rw [if_pos hv, hraw]
    dsimp only
    by_cases he : raw = ['/'] ++ url.PathEscape p ++ "/@latest".toList
    · rw [if_pos he, he]
      exact hcase1
    · rw [if_neg he]
      exact hcase2
  · rw [if_neg hv]
    exact hcase2

/-- The server hands a `GET` of the route `@latest` of an escaped module path
to the handler of the latest version, whose wildcard `path` unescapes to the
module path. -/
theorem serveHTTP_latest (L : proxy.ServerLib) (hM : ModuleLaws L.module)
    (hP : PathLaws L.module) (ops : proxy.ServerOps) (p ep : Str)
    (hep : L.module.EscapePath p = Except.ok ep) :
    ∃ u pathValue, url.setPath (proxy.latestTarget ep) = Except.ok u
      ∧ proxy.Server.ServeHTTP L ops { Method := MethodGet, URL := u }
          = proxy.Reply.handled (proxy.Server.latestHandler L ops pathValue)
      ∧ proxy.unescapeOrEmpty pathValue = p := by
  obtain ⟨hepclean, hat⟩ := hM.escapePath_clean p ep hep
  have hun := hM.unescapePath_escapePath p ep hep
  have hpchars := hP.path_chars p ep hep
  have hplain : ∀ c ∈ p, c.toNat < 128 ∧ c ≠ '%' := fun c hc =>
    ⟨(pathChar_plain c (hpchars c hc)).1, (pathChar_plain c (hpchars c hc)).2.1⟩
  have htarget := latestTarget_plain ep (hP.escaped_chars p ep hep)
  obtain ⟨u, hset, hpath, hesc⟩ := setPath_plain _ htarget
  have hraw : url.unescape u.Path = Except.ok u.Path := by
    rw [hpath]
    exact unescape_plain _ (fun c hc => ⟨(htarget c hc).1, (htarget c hc).2.1⟩)
  obtain ⟨q, hq, hqclean, hqslash, hqp⟩ :=
    escapedPath_rewritten p u.Path hplain (hP.path_clean p ep hep) hraw
  refine ⟨u, http.pathUnescape q, hset, ?_, hqp⟩
  rw [serveHTTP_clean L ops u _ hesc (cleanPath_latest ep hepclean)]
  have hrest : http.pathUnescape (ep ++ "/@latest".toList) = ep ++ "/@latest".toList :=
    pathUnescape_plain _ (fun c hc =>
      ⟨(htarget c (List.mem_cons_of_mem _ hc)).1, (htarget c (List.mem_cons_of_mem _ hc)).2.1⟩)
  rw [hrest, rewrite_latest L ops MethodGet ep p u hat hun]
  exact remux_latest L ops _ q hq hqclean hqslash

/-- The server answers a `GET` of the route `@v/list` of an escaped module
path from the handler of `mux`, which returns before the call of `remux`. -/
theorem serveHTTP_list (L : proxy.ServerLib) (hM : ModuleLaws L.module)
    (hP : PathLaws L.module) (ops : proxy.ServerOps) (p ep : Str)
    (hep : L.module.EscapePath p = Except.ok ep) :
    ∃ u, url.setPath (proxy.listTarget ep) = Except.ok u
      ∧ proxy.Server.ServeHTTP L ops { Method := MethodGet, URL := u }
          = proxy.Reply.handled { ops := [], calls := [], panicked := false } := by
  obtain ⟨hepclean, hat⟩ := hM.escapePath_clean p ep hep
  have hun := hM.unescapePath_escapePath p ep hep
  have htarget := listTarget_plain ep (hP.escaped_chars p ep hep)
  obtain ⟨u, hset, hpath, hesc⟩ := setPath_plain _ htarget
  refine ⟨u, hset, ?_⟩
  rw [serveHTTP_clean L ops u _ hesc (cleanPath_list ep hepclean)]
  have hrest : http.pathUnescape (ep ++ "/@v/list".toList) = ep ++ "/@v/list".toList :=
    pathUnescape_plain _ (fun c hc =>
      ⟨(htarget c (List.mem_cons_of_mem _ hc)).1, (htarget c (List.mem_cons_of_mem _ hc)).2.1⟩)
  rw [hrest, rewrite_list L ops MethodGet ep p u hat hun]

/-- The module library of the fixtures satisfies the laws of module paths. -/
theorem fixture_pathLaws : PathLaws fixture.moduleLib where
  path_chars := by
    intro p ep h
    have hp : p = fixture.awesome := by
      by_contra hne
      simp [fixture.moduleLib, hne] at h
    rw [hp]
    decide
  escaped_chars := by
    intro p ep h
    have hp : p = fixture.awesome := by
      by_contra hne
      simp [fixture.moduleLib, hne] at h
    have he : ep = fixture.awesome := by
      rw [hp] at h
      simpa [fixture.moduleLib] using h.symm
    rw [he]
    decide
  path_clean := by
    intro p ep h
    have hp : p = fixture.awesome := by
      by_contra hne
      simp [fixture.moduleLib, hne] at h
    rw [hp]
    exact ⟨["octocat.github.io".toList, "awesome".toList], by simp, by decide, by decide⟩

/-- The encoder and the decoder of the fixtures satisfy the law of
`encoding/json`. -/
theorem fixture_jsonLaws : JsonLaws fixture.jsonEncode fixture.jsonDecode where
  round_trip := by
    intro ri body h
    unfold fixture.jsonEncode at h
    dsimp only at h
    by_cases hq : '"' ∈ ri.Version ∨ '\\' ∈ ri.Version
    · rw [if_pos hq] at h
      cases h
    · rw [if_neg hq] at h
      have hb := (Except.ok.inj h).symm
      refine ⟨fixture.revInfo ri.Version, ?_, rfl⟩
      have hquote : '"' ∉ ri.Version := fun e => hq (Or.inl e)
      unfold fixture.jsonDecode
      have h1 : TrimSuffix body ['\n']
          = "\x7b\"Version\":\"".toList ++ (ri.Version ++ "\"\x7d".toList) := by
        rw [hb]
        have : "\x7b\"Version\":\"".toList ++ ri.Version ++ "\"\x7d\n".toList
            = ("\x7b\"Version\":\"".toList ++ (ri.Version ++ "\"\x7d".toList)) ++ ['\n'] := by
          simp
        rw [this, trimSuffix_append]
      rw [h1]
      unfold fixture.jsonUnmarshal
      rw [if_neg (by simp), if_neg (by simp)]
      have h2 : CutPrefix ("\x7b\"Version\":\"".toList ++ (ri.Version ++ "\"\x7d".toList))
          "\x7b\"Version\":\"".toList = (ri.Version ++ "\"\x7d".toList, true) := by
        unfold CutPrefix
        rw [hasPrefix_append, if_pos rfl, List.drop_left]
      rw [h2]
      dsimp only
      rw [hasSuffix_append, trimSuffix_append, if_pos ⟨rfl, hquote⟩]

/-! ## `zip/fs.go`: the root of a `fileGroup` -/

/-- The buffer of `path.Clean` on a rooted path never has a second slash
after the slash of the root. -/
theorem cleanLoop_rooted_single (n : Nat) :
    ∀ (fuel : Nat) (rest o : Str), rest.length ≤ n → o.getLast? ≠ some '/' →
      ∃ o2, path.cleanLoop true fuel rest (o ++ ['/']) 1 = o2 ++ ['/']
        ∧ o2.getLast? ≠ some '/' := by
  induction n with
  | zero =>
    intro fuel rest o hn h
    have : rest = [] := List.length_eq_zero.mp (Nat.le_zero.mp hn)
    subst this
    rw [cleanLoop_nil]
    exact ⟨o, rfl, h⟩
  | succ n ih =>
    intro fuel rest o hn h
    cases fuel with
    | zero => exact ⟨o, rfl, h⟩
    | succ k =>
      cases rest with
      | nil =>
        rw [cleanLoop_nil]
        exact ⟨o, rfl, h⟩
      | cons c t =>
        simp only [List.length_cons] at hn
        by_cases hc : c = '/'
        · subst hc
          rw [cleanLoop_slash]
          exact ih k t o (by omega) h
        · obtain ⟨e, rest, hd, hne, hns, hrest, hlen⟩ := first_elem c t hc
          rw [hd]
          by_cases hdot : e = ['.']
          · subst hdot
            obtain ⟨s1, s2⟩ := dot_step true (o ++ ['/']) 1
            rcases hrest with hr | ⟨u, hr⟩
            · subst hr
              simp only [List.append_nil]
              rw [s2, cleanLoop_nil]
              exact ⟨o, rfl, h⟩
            · subst hr
              simp only [List.singleton_append]
              rw [s1]
              exact ih k _ o (by omega) h
          · by_cases hdd : e = ['.', '.']
            · subst hdd
              obtain ⟨out1, dd1, s1, s2, s3⟩ := dotdot_step true (o ++ ['/']) 1
              obtain ⟨hdd1, hsuf, hlen1⟩ := s3 rfl
              subst hdd1
              have hne1 : out1 ≠ [] := by
                have := hlen1 (by simp)
                intro h0
                rw [h0] at this
                simp at this
              obtain ⟨o1, ho1, hlast1⟩ : ∃ o1, out1 = o1 ++ ['/'] ∧ o1.getLast? ≠ some '/' := by
                rcases List.eq_nil_or_concat out1 with h0 | ⟨l, b, hl⟩
                · exact absurd h0 hne1
                · obtain ⟨pre, hpre⟩ := hsuf
                  rw [hl, List.concat_eq_append, ← List.append_assoc] at hpre
                  have hinj := List.append_inj' hpre rfl
                  have hb : b = '/' := by simpa using hinj.2
                  refine ⟨l, by rw [hl, List.concat_eq_append, hb], ?_⟩
                  exact getLast?_ne_of_suffix ⟨pre, hinj.1⟩ h
              rw [ho1] at s1 s2
              rcases hrest with hr | ⟨u, hr⟩
              · subst hr
                simp only [List.append_nil]
                rw [s2, cleanLoop_nil]
                exact ⟨o1, rfl, hlast1⟩
              · subst hr
                simp only [List.cons_append, List.nil_append]
                rw [s1]
                exact ih k _ o1 (by omega) hlast1
            · have he : cleanElem e = true := by
                simp [cleanElem, hne, hns, hdot, hdd]
              rw [cleanLoop_elem_gen true k e _ (o ++ ['/']) 1 he hrest]
              cases o with
              | nil =>
                have : e.reverse ++ (if (true = true ∧ (([] : Str) ++ ['/']).length ≠ 1)
                    ∨ (¬ true = true ∧ (([] : Str) ++ ['/']).length ≠ 0)
                    then '/' :: (([] : Str) ++ ['/']) else ([] : Str) ++ ['/'])
                    = e.reverse ++ ['/'] := by simp
                rw [this]
                apply ih k rest _ (by omega)
                rw [List.getLast?_reverse]
                intro hh
                cases e with
                | nil => exact hne rfl
                | cons a b =>
                  simp only [List.head?_cons, Option.some.injEq] at hh
                  exact hns (by rw [hh]; simp)
              | cons a b =>
                have : e.reverse ++ (if (true = true ∧ ((a :: b) ++ ['/']).length ≠ 1)
                    ∨ (¬ true = true ∧ ((a :: b) ++ ['/']).length ≠ 0)
                    then '/' :: ((a :: b) ++ ['/']) else (a :: b) ++ ['/'])
                    = (e.reverse ++ '/' :: (a :: b)) ++ ['/'] := by simp
                rw [this]
                apply ih k rest _ (by omega)
                rw [List.getLast?_append_of_ne_nil _ (List.cons_ne_nil _ _)]
                rw [← getLast?_of_suffix (List.suffix_cons '/' (a :: b)) (List.cons_ne_nil _ _)]
                exact h

/-- What `path.Clean` returns for a rooted path begins with one slash and no
more. -/
theorem clean_rooted_single (t : Str) :
    ∃ x, path.Clean ('/' :: t) = '/' :: x ∧ x.head? ≠ some '/' := by
  obtain ⟨o2, h2, hlast⟩ := cleanLoop_rooted_single t.length (t.length + 1) t [] (Nat.le_refl _)
    (by simp)
  refine ⟨o2.reverse, ?_, by rw [List.head?_reverse]; exact hlast⟩
  unfold path.Clean
  dsimp only
  rw [if_pos rfl]
  have h3 : path.cleanLoop true (t.length + 1) t ['/'] 1 = o2 ++ ['/'] := h2
  simp only [List.length_cons]
  rw [h3, if_neg (by simp)]
  simp

/-- The key under which `FS` registers a file, and the name that `Open` looks
up, begins with one slash and no more. -/
theorem join_root_single (p : Str) :
    ∃ y, path.Clean (path.Join [['/'], p]) = '/' :: y ∧ y.head? ≠ some '/' := by
  have hj : path.Join [['/'], p] = path.Clean ('/' :: '/' :: p) := by
    unfold path.Join
    rw [if_neg (by simp)]
    simp [path.joinBuf]
  obtain ⟨x, hx, -⟩ := clean_rooted_single ('/' :: p)
  rw [hj, hx]
  exact clean_rooted_single x

/-- For the root, `Open` finds no file below the name: no key begins with two
slashes. -/
theorem filesBelow_root (f : zip.fileGroup) : zip.filesBelow f ['/'] = [] := by
  unfold zip.filesBelow
  induction f with
  | nil => rfl
  | cons kv rest ih =>
    rw [List.foldl_cons]
    obtain ⟨y, hy, hhead⟩ := join_root_single kv.2.Path
    have hno : HasPrefix (path.Clean (path.Join [['/'], kv.2.Path])) (['/'] ++ ['/']) = false := by
      rw [hy]
      cases y with
      | nil => rfl
      | cons a b =>
        have : a ≠ '/' := fun e => hhead (by rw [e]; rfl)
        simp [HasPrefix, List.isPrefixOf, Ne.symm this]
    have hcp : CutPrefix (path.Clean (path.Join [['/'], kv.2.Path])) (['/'] ++ ['/'])
        = (path.Clean (path.Join [['/'], kv.2.Path]), false) := by
      unfold CutPrefix
      rw [hno]
      rfl
    rw [hcp]
    exact ih

theorem root_name : path.Clean (path.Join [['/'], ['.']]) = ['/'] := by decide

/-- `Open` of the root never returns a directory. -/
theorem open_root_not_dir (f : zip.fileGroup) (name : Str) (files : zip.StrMap zip.File) :
    zip.fileGroup.Open f ['.'] ≠ Except.ok (zip.Opened.dir name files) := by
  unfold zip.fileGroup.Open
  dsimp only
  rw [root_name, filesBelow_root]
  cases f.lookup ['/'] with
  | none =>
    dsimp only
    rw [if_pos List.length_nil]
    intro h
    cases h
  | some file =>
    dsimp only
    cases file.Open with
    | error err =>
      intro h
      cases h
    | ok rc =>
      intro h
      cases h

/-- `Open` of the root fails with `fs.ErrNotExist` when no file is registered
under the key of the root. -/
theorem open_root_none (f : zip.fileGroup) (h : f.lookup ['/'] = none) :
    zip.fileGroup.Open f ['.'] = Except.error fs.ErrNotExist := by
  unfold zip.fileGroup.Open
  dsimp only
  rw [root_name, filesBelow_root, h]
  dsimp only
  rw [if_pos List.length_nil]

/-- The keys of the map that `FS` builds are the cleaned rooted paths of the
files. -/
theorem fs_keys (files : List zip.File) :
    ∀ kv ∈ zip.FS files, ∃ file ∈ files, kv.1 = path.Clean (path.Join [['/'], file.Path]) := by
  unfold zip.FS
  have hgen : ∀ (fl : List zip.File) (acc : zip.StrMap zip.File) (Q : Str → Prop),
      (∀ kv ∈ acc, Q kv.1) →
      (∀ file ∈ fl, Q (path.Clean (path.Join [['/'], file.Path]))) →
      ∀ kv ∈ fl.foldl
        (fun fsys file =>
          zip.StrMap.set fsys (path.Clean (path.Join [['/'], file.Path])) file) acc,
        Q kv.1 := by
    intro fl
    induction fl with
    | nil =>
      intro acc Q hacc _ kv hkv
      exact hacc kv hkv
    | cons file rest ih =>
      intro acc Q hacc hfl
      rw [List.foldl_cons]
      apply ih _ Q
      · intro kv hkv
        unfold zip.StrMap.set at hkv
        rcases List.mem_cons.mp hkv with h | h
        · rw [h]
          exact hfl file (by simp)
        · exact hacc kv (List.mem_filter.mp h).1
      · intro f2 hf2
        exact hfl f2 (List.mem_cons_of_mem _ hf2)
  exact hgen files []
    (fun k => ∃ file ∈ files, k = path.Clean (path.Join [['/'], file.Path]))
    (fun kv hkv => absurd hkv (List.not_mem_nil _))
    (fun file hfile => ⟨file, hfile, rfl⟩)

/-- The key of a file with a clean relative path is the path after a slash. -/
theorem join_root (p : Str) (hp : IsCleanRel p) :
    path.Clean (path.Join [['/'], p]) = '/' :: p := by
  have hhead := cleanRel_head p hp
  obtain ⟨y, hy, hyhead⟩ := join_root_single p
  have hclean : path.Clean ('/' :: p) = '/' :: p := by
    obtain ⟨es, hes, hgood, rfl⟩ := hp
    exact clean_rooted es hes hgood
  rcases join_dir_name ['/'] p hp with ⟨-, h2⟩ | ⟨h1, -⟩ | h3
  · exact absurd h2 (by decide)
  · rw [h1, hclean]
  · have hc : path.Clean ['/'] = ['/'] := by decide
    rw [hc] at h3
    have hj : path.Join [['/'], p] = path.Clean ('/' :: '/' :: p) := by
      unfold path.Join
      rw [if_neg (by simp)]
      simp [path.joinBuf]
    obtain ⟨x, hx, hxhead⟩ := clean_rooted_single ('/' :: p)
    rw [hj, hx] at h3
    have : x = '/' :: p := by simpa using h3
    rw [this] at hxhead
    exact absurd rfl hxhead

/-- No file with a clean relative path is registered under the key of the
root. -/
theorem fs_root_none (files : List zip.File) (h : ∀ file ∈ files, IsCleanRel file.Path) :
    (zip.FS files).lookup ['/'] = none := by
  rw [List.lookup_eq_none_iff]
  intro kv hkv
  obtain ⟨file, hfile, hk⟩ := fs_keys files kv hkv
  rw [hk, join_root file.Path (h file hfile)]
  have := (clean_of_cleanRel file.Path (h file hfile)).2
  simp [this]

/-- `Files` on a `fileGroup` whose root cannot be opened returns the error
of `Open`, whatever the depth of the tree. -/
theorem files_root_error (f : zip.fileGroup) (fuel : Nat) (err : GoError)
    (h : zip.fileGroup.Open f ['.'] = Except.error err) :
    zip.Files (zip.fileGroup.toFS f) fuel = some ([], some (zip.FilesError.lib err)) := by
  unfold zip.Files fs.WalkDir zip.fileGroup.toFS
  dsimp only
  have hs : zip.fileGroup.Stat f ['.'] = Except.error err := by
    unfold zip.fileGroup.Stat
    rw [h]
  rw [hs]
  rfl

/-! ## A clean path has no two slashes in a row -/

/-- Where the loop `out.w--` of `path.Clean` stops: at the mark, or right
after it has dropped a slash. -/
theorem popLoop_stop (dotdot : Nat) (popped : Char) (cur : Str) :
    (path.popLoop dotdot popped cur).length ≤ dotdot
      ∨ ('/' :: path.popLoop dotdot popped cur) <:+ (popped :: cur) := by
  induction cur generalizing popped with
  | nil =>
    left
    simp [path.popLoop]
  | cons c t ih =>
    unfold path.popLoop
    by_cases h : (c :: t).length > dotdot ∧ popped ≠ '/'
    · rw [if_pos h]
      rcases ih c with h1 | h1
      · exact Or.inl h1
      · exact Or.inr (h1.trans (List.suffix_cons popped (c :: t)))
    · rw [if_neg h]
      by_cases hl : (c :: t).length > dotdot
      · right
        have hp : popped = '/' := by
          by_contra hne
          exact h ⟨hl, hne⟩
        rw [hp]
      · left
        omega

/-- One iteration of the loop of `path.Clean` on an element `..` of a rooted
path: the new buffer is an end of the old one, is not empty when the old one
is not, and is the root alone or follows a slash in the old one. -/
theorem dotdot_rooted (out : Str) :
    ∃ out1 : Str,
      (∀ k t, path.cleanLoop true (k + 1) ('.' :: '.' :: '/' :: t) out 1
        = path.cleanLoop true k ('/' :: t) out1 1)
      ∧ (∀ k, path.cleanLoop true (k + 1) ['.', '.'] out 1 = path.cleanLoop true k [] out1 1)
      ∧ out1 <:+ out ∧ (1 ≤ out.length → 1 ≤ out1.length)
      ∧ (out1.length ≤ 1 ∨ ('/' :: out1) <:+ out) := by
  cases out with
  | nil =>
    have h : ¬ (([] : Str).length > 1) := by simp
    refine ⟨[], ?_, ?_, List.suffix_refl _, fun h => h, Or.inl (by simp)⟩
    · intro k t
      rw [path.cleanLoop, if_neg h]
      rfl
    · intro k
      rw [path.cleanLoop, if_neg h]
      rfl
  | cons c o =>
    by_cases h : (c :: o).length > 1
    · refine ⟨path.popLoop 1 c o, ?_, ?_,
        (popLoop_suffix 1 c o).trans (List.suffix_cons c o), fun _ => ?_, popLoop_stop 1 c o⟩
      · intro k t
        rw [path.cleanLoop, if_pos h]
      · intro k
        rw [path.cleanLoop, if_pos h]
      · apply popLoop_length
        simp only [List.length_cons] at h
        omega
    · refine ⟨c :: o, ?_, ?_, List.suffix_refl _, fun h => h, Or.inl (by omega)⟩
      · intro k t
        rw [path.cleanLoop, if_neg h]
        rfl
      · intro k
        rw [path.cleanLoop, if_neg h]
        rfl

theorem singleSlashes_of_not_mem (l : Str) (h : '/' ∉ l) : path.SingleSlashes l := by
  unfold path.SingleSlashes
  induction l with
  | nil => exact List.chain'_nil
  | cons a t ih =>
    rw [List.chain'_cons']
    refine ⟨fun y _ hy => h (by rw [hy.1]; simp), ih (fun hm => h (List.mem_cons_of_mem _ hm))⟩

theorem singleSlashes_reverse (l : Str) :
    path.SingleSlashes l.reverse ↔ path.SingleSlashes l := by
  unfold path.SingleSlashes
  rw [List.chain'_reverse]
  have : (flip fun a b : Char => ¬ (a = '/' ∧ b = '/')) = fun a b => ¬ (a = '/' ∧ b = '/') := by
    funext a b
    simp [flip, and_comm]
  rw [this]

/-- A path with two slashes in a row somewhere. -/
theorem not_singleSlashes (a b : Str) : ¬ path.SingleSlashes (a ++ '/' :: '/' :: b) := by
  intro h
  have h2 : path.SingleSlashes ['/', '/'] :=
    List.Chain'.infix h ⟨a, b, by simp⟩
  unfold path.SingleSlashes at h2
  rw [List.chain'_cons'] at h2
  exact h2.1 '/' rfl ⟨rfl, rfl⟩

/-- The buffer of `path.Clean` on a rooted path has no two slashes in a row
and ends with a slash only when it is the root. -/
theorem cleanLoop_rooted_slashes (n : Nat) :
    ∀ (fuel : Nat) (rest out : Str), rest.length ≤ n →
      out.getLast? = some '/' → path.SingleSlashes out → (∀ t, out = '/' :: t → t = []) →
      (path.cleanLoop true fuel rest out 1).getLast? = some '/'
        ∧ path.SingleSlashes (path.cleanLoop true fuel rest out 1)
        ∧ (∀ t, path.cleanLoop true fuel rest out 1 = '/' :: t → t = []) := by
  induction n with
  | zero =>
    intro fuel rest out hn h1 h2 h3
    have : rest = [] := List.length_eq_zero.mp (Nat.le_zero.mp hn)
    subst this
    rw [cleanLoop_nil]
    exact ⟨h1, h2, h3⟩
  | succ n ih =>
    intro fuel rest out hn h1 h2 h3
    cases fuel with
    | zero => exact ⟨h1, h2, h3⟩
    | succ k =>
      have hout : 1 ≤ out.length := by
        cases out with
        | nil => cases h1
        | cons _ _ => simp
      cases rest with
      | nil =>
        rw [cleanLoop_nil]
        exact ⟨h1, h2, h3⟩
      | cons c t =>
        simp only [List.length_cons] at hn
        by_cases hc : c = '/'
        · subst hc
          rw [cleanLoop_slash]
          exact ih k t out (by omega) h1 h2 h3
        · obtain ⟨e, rest, hd, hne, hns, hrest, hlen⟩ := first_elem c t hc
          rw [hd]
          by_cases hdot : e = ['.']
          · subst hdot
            obtain ⟨s1, s2⟩ := dot_step true out 1
            rcases hrest with hr | ⟨u, hr⟩
            · subst hr
              simp only [List.append_nil]
              rw [s2, cleanLoop_nil]
              exact ⟨h1, h2, h3⟩
            · subst hr
              simp only [List.singleton_append]
              rw [s1]
              exact ih k _ out (by omega) h1 h2 h3
          · by_cases hdd : e = ['.', '.']
            · subst hdd
              obtain ⟨out1, s1, s2, hsuf, hlen1, hstop⟩ := dotdot_rooted out
              have hne1 : out1 ≠ [] := by
                have := hlen1 hout
                intro h0
                rw [h0] at this
                simp at this
              have k1 : out1.getLast? = some '/' := by
                rw [getLast?_of_suffix hsuf hne1]
                exact h1
              have k2 : path.SingleSlashes out1 := List.Chain'.suffix h2 hsuf
              have k3 : ∀ t, out1 = '/' :: t → t = [] := by
                intro t ht
                rcases hstop with hs | hs
                · rw [ht] at hs
                  simp only [List.length_cons] at hs
                  exact List.length_eq_zero.mp (by omega)
                · exfalso
                  rw [ht] at hs
                  obtain ⟨pre, hpre⟩ := hs
                  rw [← hpre] at h2
                  exact not_singleSlashes pre t h2
              rcases hrest with hr | ⟨u, hr⟩
              · subst hr
                simp only [List.append_nil]
                rw [s2, cleanLoop_nil]
                exact ⟨k1, k2, k3⟩
              · subst hr
                simp only [List.cons_append, List.nil_append]
                rw [s1]
                exact ih k _ out1 (by omega) k1 k2 k3
            · have he : cleanElem e = true := by
                simp [cleanElem, hne, hns, hdot, hdd]
              rw [cleanLoop_elem_gen true k e _ out 1 he hrest]
              have hout0 : out ≠ [] := by
                intro h0
                rw [h0] at hout
                simp at hout
              have hrev : '/' ∉ e.reverse := fun hm => hns (List.mem_reverse.mp hm)
              have hrne : e.reverse ≠ [] := fun h0 => hne (List.reverse_eq_nil_iff.mp h0)
              have hhead : ∀ x : Str, ∀ t, e.reverse ++ x = '/' :: t → False := by
                intro x t hx
                cases hr : e.reverse with
                | nil => exact hrne hr
                | cons a b =>
                  rw [hr] at hx hrev
                  simp only [List.cons_append, List.cons.injEq] at hx
                  exact hrev (by rw [hx.1]; simp)
              have hjoin : ∀ x : Str, path.SingleSlashes x → path.SingleSlashes (e.reverse ++ x) := by
                intro x hx
                unfold path.SingleSlashes
                rw [List.chain'_append]
                refine ⟨singleSlashes_of_not_mem _ hrev, hx, ?_⟩
                intro a ha b _ hab
                have : a ∈ e.reverse := List.mem_of_mem_getLast? ha
                exact hrev (by rw [← hab.1]; exact this)
              by_cases hl : out.length = 1
              · have hcond : ¬ ((true = true ∧ out.length ≠ 1) ∨ (¬ true = true ∧ out.length ≠ 0)) := by
                  simp [hl]
                rw [if_neg hcond]
                apply ih k rest _ (by omega)
                · rw [List.getLast?_append_of_ne_nil _ hout0]
                  exact h1
                · exact hjoin out h2
                · intro t ht
                  exact absurd ht (fun h => hhead out t h)
              · have hcond : (true = true ∧ out.length ≠ 1) ∨ (¬ true = true ∧ out.length ≠ 0) :=
                  Or.inl ⟨rfl, hl⟩
                rw [if_pos hcond]
                apply ih k rest _ (by omega)
                · rw [List.getLast?_append_of_ne_nil _ (List.cons_ne_nil _ _),
                    ← getLast?_of_suffix (List.suffix_cons '/' out) hout0]
                  exact h1
                · apply hjoin
                  unfold path.SingleSlashes
                  rw [List.chain'_cons']
                  refine ⟨?_, h2⟩
                  intro y hy hand
                  cases out with
                  | nil => exact hout0 rfl
                  | cons o1 o2 =>
                    simp only [List.head?_cons, Option.mem_def, Option.some.injEq] at hy
                    have := h3 o2 (by rw [hy, hand.2])
                    rw [this] at hl
                    exact hl rfl
                · intro t ht
                  exact (hhead _ t ht).elim

/-- What `path.Clean` returns for a rooted path begins with a slash, has no
two slashes in a row, and ends with a slash only when it is the root. -/
theorem clean_rooted_slashes (t : Str) :
    (path.Clean ('/' :: t)).head? = some '/'
      ∧ path.SingleSlashes (path.Clean ('/' :: t))
      ∧ ((path.Clean ('/' :: t)).getLast? = some '/' → path.Clean ('/' :: t) = ['/']) := by
  obtain ⟨k1, k2, k3⟩ := cleanLoop_rooted_slashes t.length (t.length + 1) t ['/'] (Nat.le_refl _)
    rfl (List.chain'_singleton _) (fun t ht => by simpa using ht.symm)
  have hne : path.cleanLoop true (t.length + 1) t ['/'] 1 ≠ [] := by
    intro h0
    rw [h0] at k1
    cases k1
  have hc : path.Clean ('/' :: t) = (path.cleanLoop true (t.length + 1) t ['/'] 1).reverse := by
    unfold path.Clean
    dsimp only
    rw [if_pos rfl]
    simp only [List.length_cons]
    rw [if_neg hne]
  rw [hc]
  refine ⟨?_, (singleSlashes_reverse _).mpr k2, ?_⟩
  · rw [List.head?_reverse]
    exact k1
  · intro hl
    rw [List.getLast?_reverse] at hl
    cases ho : path.cleanLoop true (t.length + 1) t ['/'] 1 with
    | nil => exact absurd ho hne
    | cons a b =>
      rw [ho] at hl
      simp only [List.head?_cons, Option.some.injEq] at hl
      have := k3 b (by rw [ho, hl])
      rw [this, hl]
      rfl

/-- A string of one byte is one character. -/
theorem len_eq_one (s : Str) (h : len s = 1) : ∃ c, s = [c] := by
  cases s with
  | nil => cases h
  | cons c t =>
    cases t with
    | nil => exact ⟨c, rfl⟩
    | cons d r =>
      exfalso
      have h1 := Char.utf8Size_pos c
      have h2 := Char.utf8Size_pos d
      simp only [len, List.map_cons, List.sum_cons] at h
      omega

/-- The end of `cleanPath`: the result is the path when it is the cleaned
path or the cleaned path and a slash. -/
theorem cleanPath_end (p np : Str) (hnp : path.SingleSlashes np)
    (hlast : np.getLast? = some '/' → np = ['/'])
    (h : (if p.getLast? = some '/' ∧ np ≠ ['/'] then
            if len p = len np + 1 ∧ HasPrefix p np = true then p else np ++ ['/']
          else np) = p) :
    path.SingleSlashes p := by
  have hadd : np ≠ ['/'] → path.SingleSlashes (np ++ ['/']) := by
    intro hroot
    unfold path.SingleSlashes
    rw [List.chain'_append]
    refine ⟨hnp, List.chain'_singleton _, ?_⟩
    intro a ha b _ hab
    apply hroot
    apply hlast
    rw [← hab.1]
    exact ha
  by_cases hb : p.getLast? = some '/' ∧ np ≠ ['/']
  · rw [if_pos hb] at h
    by_cases hp : len p = len np + 1 ∧ HasPrefix p np = true
    · have hrest := eq_append_of_hasPrefix _ _ hp.2
      generalize p.drop np.length = rest at hrest
      have hlen : len rest = 1 := by
        have := hp.1
        rw [hrest, len_append] at this
        omega
      obtain ⟨x, hx⟩ := len_eq_one rest hlen
      have hx2 : x = '/' := by
        have := hb.1
        rw [hrest, hx, List.getLast?_append_of_ne_nil _ (List.cons_ne_nil _ _)] at this
        simpa using this
      rw [hrest, hx, hx2]
      exact hadd hb.2
    · rw [if_neg hp] at h
      rw [← h]
      exact hadd hb.2
  · rw [if_neg hb] at h
    rw [← h]
    exact hnp

/-- A path that `cleanPath` leaves as it is has no two slashes in a row. -/
theorem cleanPath_singleSlashes (s : Str) (h : cleanPath s = s) : path.SingleSlashes s := by
  have hs : s ≠ [] := cleanPath_ne_nil s h
  cases s with
  | nil => exact absurd rfl hs
  | cons c t =>
    by_cases hc : c = '/'
    · subst hc
      obtain ⟨k1, k2, k3⟩ := clean_rooted_slashes t
      unfold cleanPath at h
      rw [if_neg (List.cons_ne_nil _ _)] at h
      dsimp only at h
      have hp0 : (if ('/' :: t).head? ≠ some '/' then '/' :: '/' :: t else '/' :: t) = '/' :: t :=
        if_neg (by simp)
      rw [hp0] at h
      exact cleanPath_end _ _ k2 k3 h
    · exfalso
      unfold cleanPath at h
      rw [if_neg (List.cons_ne_nil _ _)] at h
      dsimp only at h
      have hh : (c :: t).head? ≠ some '/' := by
        simp only [List.head?_cons, ne_eq, Option.some.injEq]
        exact hc
      have hp1 : (if (c :: t).head? ≠ some '/' then '/' :: c :: t else c :: t) = '/' :: c :: t :=
        if_pos hh
      rw [hp1] at h
      obtain ⟨j1, -, -⟩ := clean_rooted_slashes (c :: t)
      have hfirst : ∀ r : Str, r.head? = some '/' → r ≠ c :: t := by
        intro r hr e
        rw [e] at hr
        exact hh hr
      split at h
      · split at h
        · exact hfirst ('/' :: c :: t) rfl h
        · refine hfirst _ ?_ h
          cases hcl : path.Clean ('/' :: c :: t) with
          | nil =>
            rw [hcl] at j1
            cases j1
          | cons a b =>
            rw [hcl] at j1
            simpa using j1
      · exact hfirst _ j1 h

/-! ## The routes of a version on `proxy.Server` -/

/-- `remux` answers a path with two slashes in a row with a redirect to the
cleaned path. -/
theorem remux_double_slash (L : proxy.ServerLib) (ops : proxy.ServerOps) (u : url.URL)
    (h : ¬ path.SingleSlashes u.EscapedPath) :
    proxy.Server.remux L ops MethodGet u
      = proxy.Reply.redirect (url.escape (cleanPath u.EscapedPath) url.encoding.encodePath) := by
  unfold proxy.Server.remux http.findHandler
  dsimp only
  rw [if_neg (by decide), if_pos (fun e => h (cleanPath_singleSlashes _ e))]

/-- What `EscapedPath` returns for a path with two slashes in a row, when the
field `RawPath` has no escape, has two slashes in a row. -/
theorem escapedPath_double (a b raw : Str) (hraw : url.unescape raw = Except.ok raw) :
    ¬ path.SingleSlashes
      (url.URL.EscapedPath { Path := a ++ '/' :: '/' :: b, RawPath := raw }) := by
  have hstar : ¬ (a ++ '/' :: '/' :: b = ['*']) := by
    intro e
    have := congrArg List.length e
    simp at this
    omega
  have hcomp : ¬ path.SingleSlashes (url.escape (a ++ '/' :: '/' :: b) url.encoding.encodePath) := by
    have h1 : url.escape ('/' :: '/' :: b) url.encoding.encodePath
        = '/' :: '/' :: url.escape b url.encoding.encodePath := by
      have h2 : '/' :: '/' :: b = ['/', '/'] ++ b := rfl
      have h3 : url.escape ['/', '/'] url.encoding.encodePath = ['/', '/'] := by decide
      rw [h2, escape_append, h3]
      rfl
    rw [escape_append, h1]
    exact not_singleSlashes _ _
  unfold url.URL.EscapedPath
  dsimp only
  rw [if_neg hstar]
  by_cases hv : raw ≠ [] ∧ url.validEncoded raw url.encoding.encodePath = true
  · rw [if_pos hv, hraw]
    dsimp only
    by_cases he : raw = a ++ '/' :: '/' :: b
    · rw [if_pos he, he]
      exact not_singleSlashes _ _
    · rw [if_neg he]
      exact hcomp
  · rw [if_neg hv]
    exact hcomp

/-- The handler of `mux` at a route of a version: the path that it hands to
`remux` has the route `/@v/` before the route of the request, which begins
with `/@v/` itself. -/
theorem rewrite_version (L : proxy.ServerLib) (ops : proxy.ServerOps) (method ep p ev ext : Str)
    (u : url.URL) (hat : '@' ∉ ep) (hun : L.module.UnescapePath ep = Except.ok p)
    (hext : ext = extInfo ∨ ext = extMod ∨ ext = extZip) :
    proxy.Server.rewrite L ops method (ep ++ '/' :: '@' :: 'v' :: '/' :: (ev ++ ext)) u
      = proxy.Server.remux L ops method
          { Path := ('/' :: url.PathEscape p ++ "/@v".toList) ++ '/' :: '/' :: ('@' :: 'v' :: '/' :: ev
              ++ '/' :: ext),
            RawPath := u.Path } := by
  unfold proxy.Server.rewrite
  have hcut : Cut (ep ++ '/' :: '@' :: 'v' :: '/' :: (ev ++ ext)) ['/', '@']
      = (ep, 'v' :: '/' :: (ev ++ ext), true) := cut_at ep _ hat
  rw [hcut]
  dsimp only
  rw [hun]
  dsimp only
  have hroute : ['/', '@'] ++ 'v' :: '/' :: (ev ++ ext) = ('/' :: '@' :: 'v' :: '/' :: ev) ++ ext := by
    simp
  rw [hroute]
  have hnl : ¬ (('/' :: '@' :: 'v' :: '/' :: ev) ++ ext = "/@v/list".toList) := by
    intro e
    have h1 : '.' ∈ ('/' :: '@' :: 'v' :: '/' :: ev) ++ ext := by
      rcases hext with h | h | h <;> subst h <;> simp [extInfo, extMod, extZip]
    rw [e] at h1
    exact absurd h1 (by decide)
  have hpre : HasPrefix (('/' :: '@' :: 'v' :: '/' :: ev) ++ ext) "/@v/".toList = true := by
    simp [HasPrefix, List.isPrefixOf]
  rw [if_neg hnl, if_pos hpre, ext_append _ ext hext, if_pos hext, trimSuffix_append]
  congr 1
  simp

/-- The request path of a file of a version, for an escaped module path and
an escaped version written with the characters of module paths, `!` and `+`. -/
theorem versionTarget_plain (ep ev ext : Str)
    (hep : ∀ c ∈ ep, module.pathChar c = true ∨ c = '!')
    (hev : ∀ c ∈ ev, module.pathChar c = true ∨ c = '!' ∨ c = '+')
    (hext : ext = extInfo ∨ ext = extMod ∨ ext = extZip) :
    ∀ c ∈ '/' :: (ep ++ '/' :: '@' :: 'v' :: '/' :: (ev ++ ext)), c.toNat < 128 ∧ c ≠ '%'
      ∧ (url.shouldEscape c.toNat url.encoding.encodePath = false ∨ c = '!') := by
  have hconst : ∀ c ∈ "/@v/.infomdzp+!".toList, c.toNat < 128 ∧ c ≠ '%'
      ∧ (url.shouldEscape c.toNat url.encoding.encodePath = false ∨ c = '!') := by decide
  have hchar : ∀ c, module.pathChar c = true → c.toNat < 128 ∧ c ≠ '%'
      ∧ (url.shouldEscape c.toNat url.encoding.encodePath = false ∨ c = '!') :=
    fun c h => ⟨(pathChar_plain c h).1, (pathChar_plain c h).2.1, Or.inl (pathChar_plain c h).2.2⟩
  have hextc : ∀ c ∈ ext, c ∈ "/@v/.infomdzp+!".toList := by
    rcases hext with h | h | h <;> subst h <;> decide
  intro c hc
  simp only [List.mem_cons, List.mem_append] at hc
  rcases hc with h | h | h | h | h | h | h | h
  · exact hconst c (by rw [h]; decide)
  · rcases hep c h with h1 | h1
    · exact hchar c h1
    · exact hconst c (by rw [h1]; decide)
  · exact hconst c (by rw [h]; decide)
  · exact hconst c (by rw [h]; decide)
  · exact hconst c (by rw [h]; decide)
  · exact hconst c (by rw [h]; decide)
  · rcases hev c h with h1 | h1 | h1
    · exact hchar c h1
    · exact hconst c (by rw [h1]; decide)
    · exact hconst c (by rw [h1]; decide)
  · exact hconst c (hextc c h)

/-- The server answers a `GET` of a file of a version with a redirect of
`remux`: the rewritten path has two slashes in a row, so no handler of
`remux` is reached and no operation of the backend is invoked. -/
theorem serveHTTP_version_redirect (L : proxy.ServerLib) (hM : ModuleLaws L.module)
    (hP : PathLaws L.module) (ops : proxy.ServerOps) (p ep ev ext : Str)
    (hep : L.module.EscapePath p = Except.ok ep) (hslash : '/' ∉ ev)
    (hev : ∀ c ∈ ev, module.pathChar c = true ∨ c = '!' ∨ c = '+')
    (hext : ext = extInfo ∨ ext = extMod ∨ ext = extZip) :
    ∃ u location, url.setPath ('/' :: ep ++ ['/', '@', 'v', '/'] ++ ev ++ ext) = Except.ok u
      ∧ proxy.Server.ServeHTTP L ops { Method := MethodGet, URL := u }
          = proxy.Reply.redirect location := by
  obtain ⟨hepclean, hat⟩ := hM.escapePath_clean p ep hep
  have hun := hM.unescapePath_escapePath p ep hep
  have hform : '/' :: ep ++ ['/', '@', 'v', '/'] ++ ev ++ ext
      = '/' :: (ep ++ '/' :: '@' :: 'v' :: '/' :: (ev ++ ext)) := by simp
  have hclean := cleanPath_request ep ev ext hepclean hslash hext
  rw [hform] at hclean
  rw [hform]
  have htarget := versionTarget_plain ep ev ext (hP.escaped_chars p ep hep) hev hext
  obtain ⟨u, hset, hpath, hesc⟩ := setPath_plain _ htarget
  have hraw : url.unescape u.Path = Except.ok u.Path := by
    rw [hpath]
    exact unescape_plain _ (fun c hc => ⟨(htarget c hc).1, (htarget c hc).2.1⟩)
  have hrest : http.pathUnescape (ep ++ '/' :: '@' :: 'v' :: '/' :: (ev ++ ext))
      = ep ++ '/' :: '@' :: 'v' :: '/' :: (ev ++ ext) :=
    pathUnescape_plain _ (fun c hc =>
      ⟨(htarget c (List.mem_cons_of_mem _ hc)).1, (htarget c (List.mem_cons_of_mem _ hc)).2.1⟩)
  have h1 := serveHTTP_clean L ops u _ hesc hclean
  rw [hrest, rewrite_version L ops MethodGet ep p ev ext u hat hun hext,
    remux_double_slash L ops _ (escapedPath_double _ _ _ hraw)] at h1
  exact ⟨u, _, hset, h1⟩

/-! ## The archive handler of `remux` -/

/-- The archive handler of `remux`, which calls `w.WriteHeader(http.StatusOK)`
before `ops.Zip`: the status of what it writes is 200 whatever `ops.Zip`
does; when `ops.Zip` fails with nothing written it calls `http.Error` after
the header, and when the size is not zero it writes nothing after the bytes
of `ops.Zip`. -/
theorem zipHandler_status (ops : proxy.ServerOps) (pathValue versionValue : Str) :
    statusOf (proxy.Server.zipHandler ops pathValue versionValue).ops = 200
    ∧ (∀ err : GoError,
        proxy.sizeWriterSize (ops.Zip
            { Path := proxy.unescapeOrEmpty pathValue,
              Version := proxy.unescapeOrEmpty versionValue }).writes = 0 →
        (ops.Zip
            { Path := proxy.unescapeOrEmpty pathValue,
              Version := proxy.unescapeOrEmpty versionValue }).err = some err →
        (proxy.Server.zipHandler ops pathValue versionValue).ops
          = [WriterOp.headerSet contentType "application/zip".toList, WriterOp.writeHeader 200]
            ++ (ops.Zip
                { Path := proxy.unescapeOrEmpty pathValue,
                  Version := proxy.unescapeOrEmpty versionValue }).writes.map
                (fun w => WriterOp.write w.1)
            ++ proxy.serverError err)
    ∧ (proxy.sizeWriterSize (ops.Zip
            { Path := proxy.unescapeOrEmpty pathValue,
              Version := proxy.unescapeOrEmpty versionValue }).writes ≠ 0 →
        (proxy.Server.zipHandler ops pathValue versionValue).ops
          = [WriterOp.headerSet contentType "application/zip".toList, WriterOp.writeHeader 200]
            ++ (ops.Zip
                { Path := proxy.unescapeOrEmpty pathValue,
                  Version := proxy.unescapeOrEmpty versionValue }).writes.map
                (fun w => WriterOp.write w.1)) := by
  refine ⟨?_, ?_, ?_⟩
  · unfold proxy.Server.zipHandler
    dsimp only
    split
    · split <;> rfl
    · rfl
  · intro err hsize herr
    unfold proxy.Server.zipHandler
    dsimp only
    rw [if_pos hsize, herr]
  · intro hsize
    unfold proxy.Server.zipHandler
    dsimp only
    rw [if_neg hsize]

/-! # Part III: the claims -/

/-- C1: a `GET` or `HEAD` request whose path is clean and of the form
`/<ep>/@v/<ev><ext>`, with `ext` one of `.info`, `.mod`, `.zip`, `ep` (free of
`@`, as every escaped module path is) unescaping to a module path and `ev`
unescaping to `latest`, `upgrade` or `patch`, is answered by one `http.Error`
with status 400, and no `Proxier` operation is invoked. -/
theorem reserved_version_rejected (E : Extern) (p : Proxy) (r : Request)
    (ep ev ext modulePath version : Str)
    (hmethod : r.Method = MethodGet ∨ r.Method = MethodHead)
    (hclean : cleanPath r.Path = r.Path)
    (hform : r.Path = '/' :: ep ++ ['/', '@', 'v', '/'] ++ ev ++ ext)
    (hat : '@' ∉ ep)
    (hext : ext = extInfo ∨ ext = extMod ∨ ext = extZip)
    (hep : E.module.UnescapePath ep = Except.ok modulePath)
    (hev : E.module.UnescapeVersion ev = Except.ok version)
    (hkw : version = kwLatest ∨ version = kwUpgrade ∨ version = kwPatch) :
    (p.ServeHTTP E r).ops
        = [WriterOp.httpError (ErrorText.versionSpecial modulePath version) 400]
      ∧ statusOf (p.ServeHTTP E r).ops = 400
      ∧ (p.ServeHTTP E r).calls = []
      ∧ (p.ServeHTTP E r).panicked = false := by
  rw [serveHTTP_version E p r ep ev ext modulePath hmethod hclean hform hat hext hep]
  unfold Proxy.serveVersion
  simp only [trimSuffix_append, hev, if_pos hkw]
  simp [Outcome.reject, statusOf, StatusBadRequest]

/-- Witness of C1: `GET /octocat.github.io/awesome/@v/latest.zip` on the test
backend. -/
theorem reserved_version_rejected_witness :
    (fixture.memProxy.ServeHTTP fixture.env
        (fixture.get "/octocat.github.io/awesome/@v/latest.zip")).ops
        = [WriterOp.httpError (ErrorText.versionSpecial fixture.awesome kwLatest) 400]
      ∧ statusOf (fixture.memProxy.ServeHTTP fixture.env
          (fixture.get "/octocat.github.io/awesome/@v/latest.zip")).ops = 400
      ∧ (fixture.memProxy.ServeHTTP fixture.env
          (fixture.get "/octocat.github.io/awesome/@v/latest.zip")).calls = []
      ∧ (fixture.memProxy.ServeHTTP fixture.env
          (fixture.get "/octocat.github.io/awesome/@v/latest.zip")).panicked = false :=
  reserved_version_rejected fixture.env fixture.memProxy
    (fixture.get "/octocat.github.io/awesome/@v/latest.zip")
    fixture.awesome kwLatest extZip fixture.awesome kwLatest
    (by decide) (by decide) (by decide) (by decide) (by decide) (by rfl) (by rfl) (by decide)

/-- C2: on a per-version route `/<ep>/@v/<ev><ext>` whose module path unescapes
to `modulePath` and whose version unescapes to a `version` that is not
reserved: `.info` invokes `Proxier.Info` with the coordinate whatever the
version; `.mod` and `.zip` invoke `Proxier.Mod` / `Proxier.Zip` with the
coordinate exactly when `module.Check` succeeds and the version is canonical,
and otherwise answer 400 without any backend operation. -/
theorem version_route_dispatch (E : Extern) (p : Proxy) (r : Request)
    (ep ev ext modulePath version : Str)
    (hmethod : r.Method = MethodGet ∨ r.Method = MethodHead)
    (hclean : cleanPath r.Path = r.Path)
    (hform : r.Path = '/' :: ep ++ ['/', '@', 'v', '/'] ++ ev ++ ext)
    (hat : '@' ∉ ep)
    (hep : E.module.UnescapePath ep = Except.ok modulePath)
    (hev : E.module.UnescapeVersion ev = Except.ok version)
    (hkw : ¬ (version = kwLatest ∨ version = kwUpgrade ∨ version = kwPatch)) :
    (ext = extInfo →
        p.ServeHTTP E r = p.serveInfo E r modulePath version
        ∧ (p.ServeHTTP E r).calls = [Call.Info { Path := modulePath, Version := version }])
    ∧ (ext = extMod →
        ((p.ServeHTTP E r).calls = [Call.Mod { Path := modulePath, Version := version }]
          ↔ (E.module.Check modulePath version = none
              ∧ E.module.CanonicalVersion version = version))
        ∧ (E.module.Check modulePath version = none
              ∧ E.module.CanonicalVersion version = version →
            p.ServeHTTP E r = p.serveMod r modulePath version)
        ∧ (¬ (E.module.Check modulePath version = none
              ∧ E.module.CanonicalVersion version = version) →
            (p.ServeHTTP E r).RejectedWith 400))
    ∧ (ext = extZip →
        ((p.ServeHTTP E r).calls = [Call.Zip { Path := modulePath, Version := version }]
          ↔ (E.module.Check modulePath version = none
              ∧ E.module.CanonicalVersion version = version))
        ∧ (E.module.Check modulePath version = none
              ∧ E.module.CanonicalVersion version = version →
            p.ServeHTTP E r = p.serveZip r modulePath version)
        ∧ (¬ (E.module.Check modulePath version = none
              ∧ E.module.CanonicalVersion version = version) →
            (p.ServeHTTP E r).RejectedWith 400)) := by
  have key : ∀ hext : ext = extInfo ∨ ext = extMod ∨ ext = extZip,
      p.ServeHTTP E r =
        if ext = extInfo then p.serveInfo E r modulePath version
        else
          match E.module.Check modulePath version with
          | some err => Outcome.reject (ErrorText.ofError err) StatusBadRequest
          | none =>
            if E.module.CanonicalVersion version ≠ version then
              Outcome.reject (ErrorText.versionNotCanonical modulePath version) StatusBadRequest
            else if ext = extMod then p.serveMod r modulePath version
            else if ext = extZip then p.serveZip r modulePath version
            else Outcome.panic := fun hext => by
    rw [serveHTTP_version E p r ep ev ext modulePath hmethod hclean hform hat hext hep,
      serveVersion_ok E p r ev ext modulePath version hev hkw]
  have hbad : ∀ (good : Outcome),
      ¬ (E.module.Check modulePath version = none
          ∧ E.module.CanonicalVersion version = version) →
      (match E.module.Check modulePath version with
        | some err => Outcome.reject (ErrorText.ofError err) StatusBadRequest
        | none =>
          if E.module.CanonicalVersion version ≠ version then
            Outcome.reject (ErrorText.versionNotCanonical modulePath version) StatusBadRequest
          else good).RejectedWith 400 := by
    intro good hn
    cases hc : E.module.Check modulePath version with
    | some err => exact rejectedWith_reject _ _
    | none =>
      dsimp only
      have : E.module.CanonicalVersion version ≠ version := fun h => hn ⟨hc, h⟩
      rw [if_pos this]
      exact rejectedWith_reject _ _
  refine ⟨?_, ?_, ?_⟩
  · intro hext
    have h := key (Or.inl hext)
    rw [if_pos hext] at h
    exact ⟨h, by rw [h]; exact serveInfo_calls E p r modulePath version⟩
  · intro hext
    have h := key (Or.inr (Or.inl hext))
    have hne : ¬ ext = extInfo := by rw [hext]; decide
    rw [if_neg hne] at h
    have hgood : E.module.Check modulePath version = none
        ∧ E.module.CanonicalVersion version = version →
        p.ServeHTTP E r = p.serveMod r modulePath version := by
      intro ⟨h1, h2⟩
      rw [h, h1]
      dsimp only
      rw [if_neg (not_not.mpr h2), if_pos hext]
    have hrej : ¬ (E.module.Check modulePath version = none
        ∧ E.module.CanonicalVersion version = version) →
        (p.ServeHTTP E r).RejectedWith 400 := by
      intro hn
      rw [h]
      exact hbad _ hn
    refine ⟨⟨?_, ?_⟩, hgood, hrej⟩
    · intro hcalls
      by_contra hn
      have := (hrej hn).2.2.1
      rw [this] at hcalls
      cases hcalls
    · intro hc
      rw [hgood hc]
      exact serveMod_calls p r modulePath version
  · intro hext
    have h := key (Or.inr (Or.inr hext))
    have hne : ¬ ext = extInfo := by rw [hext]; decide
    have hne2 : ¬ ext = extMod := by rw [hext]; decide
    rw [if_neg hne] at h
    have hgood : E.module.Check modulePath version = none
        ∧ E.module.CanonicalVersion version = version →
        p.ServeHTTP E r = p.serveZip r modulePath version := by
      intro ⟨h1, h2⟩
      rw [h, h1]
      dsimp only
      rw [if_neg (not_not.mpr h2), if_neg hne2, if_pos hext]
    have hrej : ¬ (E.module.Check modulePath version = none
        ∧ E.module.CanonicalVersion version = version) →
        (p.ServeHTTP E r).RejectedWith 400 := by
      intro hn
      rw [h]
      exact hbad _ hn
    refine ⟨⟨?_, ?_⟩, hgood, hrej⟩
    · intro hcalls
      by_contra hn
      have := (hrej hn).2.2.1
      rw [this] at hcalls
      cases hcalls
    · intro hc
      rw [hgood hc]
      exact serveZip_calls p r modulePath version

/-- Witness of C2: `GET /octocat.github.io/awesome/@v/v1.info` reaches
`Proxier.Info` with the version `v1`, which is valid but not canonical; the
same version is answered 400 on the `.mod` route; `v1.0.0.zip` reaches
`Proxier.Zip`. -/
theorem version_route_dispatch_witness :
    (fixture.memProxy.ServeHTTP fixture.env
        (fixture.get "/octocat.github.io/awesome/@v/v1.info")).calls
        = [Call.Info { Path := fixture.awesome, Version := fixture.v1 }]
    ∧ (fixture.memProxy.ServeHTTP fixture.env
        (fixture.get "/octocat.github.io/awesome/@v/v1.mod")).RejectedWith 400
    ∧ (fixture.memProxy.ServeHTTP fixture.env
        (fixture.get "/octocat.github.io/awesome/@v/v1.0.0.zip")).calls
        = [Call.Zip { Path := fixture.awesome, Version := fixture.v100 }] :=
  ⟨((version_route_dispatch fixture.env fixture.memProxy
      (fixture.get "/octocat.github.io/awesome/@v/v1.info")
      fixture.awesome fixture.v1 extInfo fixture.awesome fixture.v1
      (by decide) (by decide) (by decide) (by decide) (by rfl) (by rfl) (by decide)).1 rfl).2,
   ((version_route_dispatch fixture.env fixture.memProxy
      (fixture.get "/octocat.github.io/awesome/@v/v1.mod")
      fixture.awesome fixture.v1 extMod fixture.awesome fixture.v1
      (by decide) (by decide) (by decide) (by decide) (by rfl) (by rfl) (by decide)).2.1 rfl).2.2
      (by decide),
   ((version_route_dispatch fixture.env fixture.memProxy
      (fixture.get "/octocat.github.io/awesome/@v/v1.0.0.zip")
      fixture.awesome fixture.v100 extZip fixture.awesome fixture.v100
      (by decide) (by decide) (by decide) (by decide) (by rfl) (by rfl) (by decide)).2.2 rfl).1.mpr
      (by decide)⟩

/-- C3: the router invokes no backend operation for a malformed request.  A
method other than `GET` and `HEAD` is answered 405; with `GET` or `HEAD`, a path
that differs from its cleaned form, or ends in a slash, or contains no `/@`
token, or whose part before the first `/@` fails `module.UnescapePath`, or
whose part after it is none of `latest`, `v/list` and `v/...` with extension
`.info`, `.mod` or `.zip`, is answered 400.  In each case the answer is a
single `http.Error` and no `Proxier` operation is invoked. -/
theorem malformed_request_rejected (E : Extern) (p : Proxy) (r : Request) :
    (¬ (r.Method = MethodGet ∨ r.Method = MethodHead) → (p.ServeHTTP E r).RejectedWith 405)
    ∧ ((r.Method = MethodGet ∨ r.Method = MethodHead) →
        (cleanPath r.Path ≠ r.Path
          ∨ r.Path.getLast? = some '/'
          ∨ ¬ (['/', '@'] <:+: r.Path)
          ∨ (∃ err, E.module.UnescapePath (Cut (r.Path.drop 1) ['/', '@']).1 = Except.error err)
          ∨ ((Cut (r.Path.drop 1) ['/', '@']).2.1 ≠ kwLatest
              ∧ (Cut (r.Path.drop 1) ['/', '@']).2.1 ≠ routeList
              ∧ ¬ (HasPrefix (Cut (r.Path.drop 1) ['/', '@']).2.1 ['v', '/'] = true
                  ∧ (path.Ext ((Cut (r.Path.drop 1) ['/', '@']).2.1.drop 2) = extInfo
                    ∨ path.Ext ((Cut (r.Path.drop 1) ['/', '@']).2.1.drop 2) = extMod
                    ∨ path.Ext ((Cut (r.Path.drop 1) ['/', '@']).2.1.drop 2) = extZip)))) →
        (p.ServeHTTP E r).RejectedWith 400) := by
  constructor
  · intro hm
    unfold Proxy.ServeHTTP
    rw [if_pos hm]
    exact rejectedWith_reject _ _
  · intro hm hbad
    unfold Proxy.ServeHTTP
    rw [if_neg (not_not.mpr hm)]
    by_cases hc : cleanPath r.Path ≠ r.Path
    · rw [if_pos hc]; exact rejectedWith_reject _ _
    rw [if_neg hc]
    by_cases hs : HasSuffix r.Path ['/'] = true
    · rw [if_pos hs]; exact rejectedWith_reject _ _
    rw [if_neg hs]
    rcases hp : r.Path with _ | ⟨c, path1⟩
    · exfalso; apply hc; rw [hp]; simp [cleanPath]
    rw [hp] at hbad
    simp only [List.drop_succ_cons, List.drop_zero] at hbad
    rcases hcut : Cut path1 ['/', '@'] with ⟨a, b, ok⟩
    rw [hcut] at hbad
    dsimp only
    rw [hcut]
    cases ok with
    | false => exact rejectedWith_reject _ _
    | true =>
      dsimp only
      cases hu : E.module.UnescapePath a with
      | error err => exact rejectedWith_reject _ _
      | ok modulePath =>
        dsimp only
        rcases hbad with h | h | h | h | h
        · exact absurd (hp ▸ h) hc
        · exact absurd ((hasSuffix_slash_iff _).mpr (hp ▸ h)) hs
        · exfalso; apply h
          have := cut_true_infix ['/', '@'] path1 (by rw [hcut])
          exact this.trans (List.infix_cons (List.infix_refl path1))
        · obtain ⟨err, he⟩ := h
          rw [hu] at he
          cases he
        · obtain ⟨h1, h2, h3⟩ := h
          dsimp only at h1 h2 h3
          unfold Proxy.dispatch
          rw [if_neg h1, if_neg h2]
          by_cases hv : HasPrefix b ['v', '/'] = true
          · rw [if_neg (not_not.mpr hv)]
            dsimp only
            rw [if_pos (fun hx => h3 ⟨hv, hx⟩)]
            exact rejectedWith_reject _ _
          · rw [if_pos hv]
            exact rejectedWith_reject _ _

/-- Witness of C3: a `POST`, a path that is not clean, one with a trailing
slash, one without `/@`, one whose module path does not unescape, and one
with an unknown sub-route. -/
theorem malformed_request_rejected_witness :
    (fixture.memProxy.ServeHTTP fixture.env
        { Method := "POST".toList, Path := "/octocat.github.io/awesome/@v/list".toList }
      ).RejectedWith 405
    ∧ (fixture.memProxy.ServeHTTP fixture.env
        (fixture.get "/octocat.github.io/../awesome/@v/list")).RejectedWith 400
    ∧ (fixture.memProxy.ServeHTTP fixture.env
        (fixture.get "/octocat.github.io/awesome/@v/")).RejectedWith 400
    ∧ (fixture.memProxy.ServeHTTP fixture.env
        (fixture.get "/octocat.github.io/awesome")).RejectedWith 400
    ∧ (fixture.memProxy.ServeHTTP fixture.env
        (fixture.get "/octocat.github.io/Awesome/@v/list")).RejectedWith 400
    ∧ (fixture.memProxy.ServeHTTP fixture.env
        (fixture.get "/octocat.github.io/awesome/@v/v1.0.0.txt")).RejectedWith 400 :=
  ⟨(malformed_request_rejected fixture.env fixture.memProxy _).1 (by decide),
   (malformed_request_rejected fixture.env fixture.memProxy _).2 (by decide)
      (Or.inl (by decide)),
   (malformed_request_rejected fixture.env fixture.memProxy _).2 (by decide)
      (Or.inr (Or.inl (by decide))),
   (malformed_request_rejected fixture.env fixture.memProxy _).2 (by decide)
      (Or.inr (Or.inr (Or.inl (by decide)))),
   (malformed_request_rejected fixture.env fixture.memProxy _).2 (by decide)
      (Or.inr (Or.inr (Or.inr (Or.inl ⟨fixture.errInvalid, by rfl⟩)))),
   (malformed_request_rejected fixture.env fixture.memProxy _).2 (by decide)
      (Or.inr (Or.inr (Or.inr (Or.inr (by decide)))))⟩

/-- C4: for a module library with the laws of `ModuleLaws`, and every module
path `p` and version `v` such that `module.Check(p, v)` succeeds and `v` is
canonical: `Repo.GoMod` reads the path `/ep/@v/ev.mod` and `Repo.Zip` fetches
`/ep/@v/ev.zip`, where `ep` and `ev` are the escaped path and version, and a
`GET` of these paths is not rejected by `Proxy.ServeHTTP` but reaches
`Proxier.Mod`, respectively `Proxier.Zip`, with exactly the coordinate
`{p, v}`, this being the only backend operation invoked. -/
theorem client_server_round_trip (E : Extern) (P : Proxy) (p v : Str)
    (hlaws : ModuleLaws E.module)
    (hcheck : E.module.Check p v = none)
    (hcanon : E.module.CanonicalVersion v = v) :
    ∃ ep ev, E.module.EscapePath p = Except.ok ep ∧ E.module.EscapeVersion v = Except.ok ev
      ∧ (∀ ops, proxy.Repo.GoMod E.module { ops := ops, path := p } v
          = ops.ReadRemote ('/' :: ep ++ ['/', '@', 'v', '/'] ++ ev ++ extMod))
      ∧ P.ServeHTTP E { Method := MethodGet, Path := '/' :: ep ++ ['/', '@', 'v', '/'] ++ ev ++ extMod }
          = P.serveMod { Method := MethodGet, Path := '/' :: ep ++ ['/', '@', 'v', '/'] ++ ev ++ extMod }
              p v
      ∧ (P.ServeHTTP E
            { Method := MethodGet, Path := '/' :: ep ++ ['/', '@', 'v', '/'] ++ ev ++ extMod }).calls
          = [Call.Mod { Path := p, Version := v }]
      ∧ (∀ copy ops dst, proxy.Repo.Zip E.module copy { ops := ops, path := p } dst v
          = proxy.Repo.zipFrom copy ops dst ('/' :: ep ++ ['/', '@', 'v', '/'] ++ ev ++ extZip))
      ∧ P.ServeHTTP E { Method := MethodGet, Path := '/' :: ep ++ ['/', '@', 'v', '/'] ++ ev ++ extZip }
          = P.serveZip { Method := MethodGet, Path := '/' :: ep ++ ['/', '@', 'v', '/'] ++ ev ++ extZip }
              p v
      ∧ (P.ServeHTTP E
            { Method := MethodGet, Path := '/' :: ep ++ ['/', '@', 'v', '/'] ++ ev ++ extZip }).calls
          = [Call.Zip { Path := p, Version := v }] := by
  obtain ⟨ep, hep⟩ := hlaws.escapePath_of_check p v hcheck
  obtain ⟨ev, hev⟩ := hlaws.escapeVersion_of_check p v hcheck
  have hup := hlaws.unescapePath_escapePath p ep hep
  have huv := hlaws.unescapeVersion_escapeVersion v ev hev
  obtain ⟨hrel, hat⟩ := hlaws.escapePath_clean p ep hep
  have hns := hlaws.escapeVersion_noSlash v ev hev
  have hkw := hlaws.check_not_keyword p v hcheck
  have hroute : ∀ ext, ext = extInfo ∨ ext = extMod ∨ ext = extZip →
      P.ServeHTTP E { Method := MethodGet, Path := '/' :: ep ++ ['/', '@', 'v', '/'] ++ ev ++ ext }
        = if ext = extInfo then
            P.serveInfo E
              { Method := MethodGet, Path := '/' :: ep ++ ['/', '@', 'v', '/'] ++ ev ++ ext } p v
          else if ext = extMod then
            P.serveMod
              { Method := MethodGet, Path := '/' :: ep ++ ['/', '@', 'v', '/'] ++ ev ++ ext } p v
          else if ext = extZip then
            P.serveZip
              { Method := MethodGet, Path := '/' :: ep ++ ['/', '@', 'v', '/'] ++ ev ++ ext } p v
          else Outcome.panic := by
    intro ext hext
    rw [serveHTTP_version E P _ ep ev ext p (Or.inl rfl)
        (cleanPath_request ep ev ext hrel hns hext) rfl hat hext hup,
      serveVersion_ok E P _ ev ext p v huv hkw, hcheck]
    dsimp only
    rw [if_neg (not_not.mpr hcanon)]
  have hmod := hroute extMod (Or.inr (Or.inl rfl))
  rw [if_neg (by decide), if_pos rfl] at hmod
  have hzip := hroute extZip (Or.inr (Or.inr rfl))
  rw [if_neg (by decide), if_neg (by decide), if_pos rfl] at hzip
  refine ⟨ep, ev, hep, hev, ?_, hmod, ?_, ?_, hzip, ?_⟩
  · intro ops
    unfold proxy.Repo.GoMod
    simp only [hep, hev]
  · rw [hmod]; exact serveMod_calls P _ p v
  · intro copy ops dst
    unfold proxy.Repo.Zip
    simp only [hep, hev]
  · rw [hzip]; exact serveZip_calls P _ p v

/-- Witness of C4: the module and version of `TestProxy`; `Repo.GoMod` requests
`/octocat.github.io/awesome/@v/v1.0.0.mod`. -/
theorem client_server_round_trip_witness :
    ∃ ep ev, fixture.env.module.EscapePath fixture.awesome = Except.ok ep
      ∧ fixture.env.module.EscapeVersion fixture.v100 = Except.ok ev
      ∧ (fixture.memProxy.ServeHTTP fixture.env
            { Method := MethodGet, Path := '/' :: ep ++ ['/', '@', 'v', '/'] ++ ev ++ extMod }).calls
          = [Call.Mod { Path := fixture.awesome, Version := fixture.v100 }]
      ∧ (fixture.memProxy.ServeHTTP fixture.env
            { Method := MethodGet, Path := '/' :: ep ++ ['/', '@', 'v', '/'] ++ ev ++ extZip }).calls
          = [Call.Zip { Path := fixture.awesome, Version := fixture.v100 }] :=
  match client_server_round_trip fixture.env fixture.memProxy fixture.awesome fixture.v100
      fixture_moduleLaws (by decide) (by decide) with
  | ⟨ep, ev, h1, h2, _, _, h5, _, _, h8⟩ => ⟨ep, ev, h1, h2, h5, h8⟩

/-- C5: on each of the five routes, when the backend operation returns an error
that is not `fs.SkipAll`, the router's whole reaction is one `http.Error` with
the text of the error and status 404 if the error is not-exist, else 403 if it
is a permission error, else 500 (this is the response status whenever the
backend has not itself committed a header): no success header and no body of the
route is written. -/
theorem backend_error_status (E : Extern) (p : Proxy) (r : Request) (modulePath version : Str)
    (err : GoError) (hskip : err.isSkipAll = false) :
    (∀ latest, p.Proxier.Latest = some latest → (latest r modulePath).res = Except.error err →
        (p.serveLatest E r modulePath).ErrorMapped (latest r modulePath).ops err
          (Call.Latest modulePath))
    ∧ ((p.Proxier.List r modulePath).res = Except.error err →
        (p.serveList r modulePath).ErrorMapped (p.Proxier.List r modulePath).ops err
          (Call.List modulePath))
    ∧ ((p.Proxier.Info r { Path := modulePath, Version := version }).res = Except.error err →
        (p.serveInfo E r modulePath version).ErrorMapped
          (p.Proxier.Info r { Path := modulePath, Version := version }).ops err
          (Call.Info { Path := modulePath, Version := version }))
    ∧ ((p.Proxier.Mod r { Path := modulePath, Version := version }).res = Except.error err →
        (p.serveMod r modulePath version).ErrorMapped
          (p.Proxier.Mod r { Path := modulePath, Version := version }).ops err
          (Call.Mod { Path := modulePath, Version := version }))
    ∧ ((p.Proxier.Zip r { Path := modulePath, Version := version }).res = Except.error err →
        (p.serveZip r modulePath version).ErrorMapped
          (p.Proxier.Zip r { Path := modulePath, Version := version }).ops err
          (Call.Zip { Path := modulePath, Version := version })) := by
  refine ⟨?_, ?_, ?_, ?_, ?_⟩
  · intro latest hl hres
    unfold Proxy.serveLatest
    rw [hl]
    dsimp only
    rw [hres]
    exact errorMapped_of_errorReply _ _ _ hskip
  · intro hres
    unfold Proxy.serveList
    dsimp only
    rw [hres]
    exact errorMapped_of_errorReply _ _ _ hskip
  · intro hres
    unfold Proxy.serveInfo
    dsimp only
    rw [hres]
    exact errorMapped_of_errorReply _ _ _ hskip
  · intro hres
    unfold Proxy.serveMod
    dsimp only
    rw [hres]
    exact errorMapped_of_errorReply _ _ _ hskip
  · intro hres
    unfold Proxy.serveZip
    dsimp only
    rw [hres]
    exact errorMapped_of_errorReply _ _ _ hskip

/-- Witness of C5: a backend whose operations fail with `fs.ErrNotExist`. -/
theorem backend_error_status_witness :
    (∀ latest, (fixture.failingProxy fixture.ErrNotExist).Proxier.Latest = some latest →
        (latest (fixture.get "/x/@latest") fixture.awesome).res
          = Except.error fixture.ErrNotExist →
        ((fixture.failingProxy fixture.ErrNotExist).serveLatest fixture.env
            (fixture.get "/x/@latest") fixture.awesome).ErrorMapped
          (latest (fixture.get "/x/@latest") fixture.awesome).ops fixture.ErrNotExist
          (Call.Latest fixture.awesome))
    ∧ ((fixture.failingProxy fixture.ErrNotExist).serveZip
          (fixture.get "/x/@latest") fixture.awesome fixture.v100).ErrorMapped
        [] fixture.ErrNotExist (Call.Zip { Path := fixture.awesome, Version := fixture.v100 }) :=
  ⟨(backend_error_status fixture.env (fixture.failingProxy fixture.ErrNotExist)
      (fixture.get "/x/@latest") fixture.awesome fixture.v100 fixture.ErrNotExist rfl).1,
   (backend_error_status fixture.env (fixture.failingProxy fixture.ErrNotExist)
      (fixture.get "/x/@latest") fixture.awesome fixture.v100 fixture.ErrNotExist rfl).2.2.2.2
      rfl⟩

/-- C6: on each of the five routes, when the backend operation returns an error
matching `fs.SkipAll`, the calls made on the response writer are exactly those
of the backend: the router adds nothing. -/
theorem skipAll_router_silent (E : Extern) (p : Proxy) (r : Request) (modulePath version : Str)
    (err : GoError) (hskip : err.isSkipAll = true) :
    (∀ latest, p.Proxier.Latest = some latest → (latest r modulePath).res = Except.error err →
        (p.serveLatest E r modulePath).ops = (latest r modulePath).ops)
    ∧ ((p.Proxier.List r modulePath).res = Except.error err →
        (p.serveList r modulePath).ops = (p.Proxier.List r modulePath).ops)
    ∧ ((p.Proxier.Info r { Path := modulePath, Version := version }).res = Except.error err →
        (p.serveInfo E r modulePath version).ops
          = (p.Proxier.Info r { Path := modulePath, Version := version }).ops)
    ∧ ((p.Proxier.Mod r { Path := modulePath, Version := version }).res = Except.error err →
        (p.serveMod r modulePath version).ops
          = (p.Proxier.Mod r { Path := modulePath, Version := version }).ops)
    ∧ ((p.Proxier.Zip r { Path := modulePath, Version := version }).res = Except.error err →
        (p.serveZip r modulePath version).ops
          = (p.Proxier.Zip r { Path := modulePath, Version := version }).ops) := by
  have hreply : errorReply err = [] := by simp [errorReply, hskip]
  refine ⟨?_, ?_, ?_, ?_, ?_⟩
  · intro latest hl hres
    unfold Proxy.serveLatest
    rw [hl]
    dsimp only
    rw [hres]
    simp [hreply]
  · intro hres
    unfold Proxy.serveList
    dsimp only
    rw [hres]
    simp [hreply]
  · intro hres
    unfold Proxy.serveInfo
    dsimp only
    rw [hres]
    simp [hreply]
  · intro hres
    unfold Proxy.serveMod
    dsimp only
    rw [hres]
    simp [hreply]
  · intro hres
    unfold Proxy.serveZip
    dsimp only
    rw [hres]
    simp [hreply]

/-- Witness of C6: the redirecting backend of `TestProxy_CustomResponse`; the
response of `GET /octocat.github.io/awesome/@v/list` is the redirect of the
backend, with status 302. -/
theorem skipAll_router_silent_witness :
    (fixture.redirectProxy.serveList (fixture.get "/octocat.github.io/awesome/@v/list")
        fixture.awesome).ops = fixture.redirectOps
    ∧ (fixture.redirectProxy.ServeHTTP fixture.env
        (fixture.get "/octocat.github.io/awesome/@v/list")).ops = fixture.redirectOps
    ∧ statusOf fixture.redirectOps = 302 :=
  ⟨(skipAll_router_silent fixture.env fixture.redirectProxy
      (fixture.get "/octocat.github.io/awesome/@v/list") fixture.awesome fixture.v100
      fixture.SkipAll rfl).2.1 rfl,
   by decide, by decide⟩

/-- C7: a well-formed request to the `@latest` route of a backend that does not
implement `ProxierLatest` is answered with status 501 and no backend operation
is invoked; on every other sub-route the outcome is the same for any two
backends with the same `List`, `Info`, `Mod` and `Zip`, whether or not they
implement `Latest`. -/
theorem latest_not_implemented (E : Extern) (p : Proxy) (r : Request) (ep modulePath : Str)
    (hmethod : r.Method = MethodGet ∨ r.Method = MethodHead)
    (hclean : cleanPath r.Path = r.Path)
    (hform : r.Path = '/' :: ep ++ ['/', '@'] ++ kwLatest)
    (hat : '@' ∉ ep)
    (hep : E.module.UnescapePath ep = Except.ok modulePath)
    (hno : p.Proxier.Latest = none) :
    ((p.ServeHTTP E r).ops = [WriterOp.httpError ErrorText.noProxierLatest 501]
      ∧ statusOf (p.ServeHTTP E r).ops = 501
      ∧ (p.ServeHTTP E r).calls = []
      ∧ (p.ServeHTTP E r).panicked = false)
    ∧ (∀ (q : Proxy) (r2 : Request),
        q.Proxier.List = p.Proxier.List → q.Proxier.Info = p.Proxier.Info →
        q.Proxier.Mod = p.Proxier.Mod → q.Proxier.Zip = p.Proxier.Zip →
        (Cut (r2.Path.drop 1) ['/', '@']).2.1 ≠ kwLatest →
        q.ServeHTTP E r2 = p.ServeHTTP E r2) := by
  constructor
  · have hsuf : ¬ HasSuffix r.Path ['/'] = true := by
      rw [hform]
      simp [HasSuffix, kwLatest, List.reverse_append, List.isPrefixOf]
    have hcut : Cut (ep ++ ['/', '@'] ++ kwLatest) ['/', '@'] = (ep, kwLatest, true) := by
      have := cut_at ep kwLatest hat
      simpa using this
    have hserve : p.ServeHTTP E r
        = Outcome.reject ErrorText.noProxierLatest StatusNotImplemented := by
      unfold Proxy.ServeHTTP
      rw [if_neg (not_not.mpr hmethod), if_neg (not_not.mpr hclean), if_neg hsuf, hform]
      simp only [List.cons_append, hcut, hep]
      unfold Proxy.dispatch
      rw [if_pos rfl]
      unfold Proxy.serveLatest
      rw [hno]
    rw [hserve]
    exact ⟨rfl, rfl, rfl, rfl⟩
  · intro q r2 hList hInfo hMod hZip hafter
    unfold Proxy.ServeHTTP
    by_cases h1 : ¬ (r2.Method = MethodGet ∨ r2.Method = MethodHead)
    · rw [if_pos h1, if_pos h1]
    rw [if_neg h1, if_neg h1]
    by_cases h2 : cleanPath r2.Path ≠ r2.Path
    · rw [if_pos h2, if_pos h2]
    rw [if_neg h2, if_neg h2]
    by_cases h3 : HasSuffix r2.Path ['/'] = true
    · rw [if_pos h3, if_pos h3]
    rw [if_neg h3, if_neg h3]
    rcases hp : r2.Path with _ | ⟨c, path1⟩
    · rfl
    rw [hp] at hafter
    simp only [List.drop_succ_cons, List.drop_zero] at hafter
    dsimp only
    rcases hcut : Cut path1 ['/', '@'] with ⟨a, b, ok⟩
    rw [hcut] at hafter
    cases ok with
    | false => rfl
    | true =>
      dsimp only
      cases hu : E.module.UnescapePath a with
      | error err => rfl
      | ok mp =>
        dsimp only
        exact dispatch_congr E p q r2 mp b hList hInfo hMod hZip hafter

/-- Witness of C7: the test backend without `Latest`, on
`GET /octocat.github.io/awesome/@latest`. -/
theorem latest_not_implemented_witness :
    (fixture.memProxyNoLatest.ServeHTTP fixture.env
        (fixture.get "/octocat.github.io/awesome/@latest")).ops
        = [WriterOp.httpError ErrorText.noProxierLatest 501]
    ∧ fixture.memProxy.ServeHTTP fixture.env (fixture.get "/octocat.github.io/awesome/@v/list")
        = fixture.memProxyNoLatest.ServeHTTP fixture.env
            (fixture.get "/octocat.github.io/awesome/@v/list") :=
  ⟨(latest_not_implemented fixture.env fixture.memProxyNoLatest
      (fixture.get "/octocat.github.io/awesome/@latest") fixture.awesome fixture.awesome
      (by decide) (by decide) (by decide) (by decide) (by rfl) rfl).1.1,
   (latest_not_implemented fixture.env fixture.memProxyNoLatest
      (fixture.get "/octocat.github.io/awesome/@latest") fixture.awesome fixture.awesome
      (by decide) (by decide) (by decide) (by decide) (by rfl) rfl).2
      fixture.memProxy (fixture.get "/octocat.github.io/awesome/@v/list") rfl rfl rfl rfl
      (by decide)⟩

/-- C8: for a coordinate whose version is not canonical or that fails
`module.Check`, `checkZip` fails at once: whatever the archive, it returns the
same non-nil error, an empty `CheckedFiles` and no reader.  Conversely, for a
canonical version that passes `module.Check`, an archive within the size limit
without entries is accepted, and whenever `checkZip` fails the reason lies in
the archive: `Stat` or the zip reader failed, the file is too large, an entry
is invalid or the contents are too large. -/
theorem checkZip_version_gate (M : ModuleLib) (U : zip.UnicodeLib) (L : zip.Limits)
    (m : module.Version) :
    ((M.CanonicalVersion m.Version ≠ m.Version ∨ M.Check m.Path m.Version ≠ none) →
      ∃ err, ∀ f, zip.checkZip M U L m f = some (none, zip.CheckedFiles.empty, some err))
    ∧ ((M.CanonicalVersion m.Version = m.Version ∧ M.Check m.Path m.Version = none) →
        (∀ f size, f.Stat = Except.ok size → size ≤ L.MaxZipFile →
            f.NewReader size = Except.ok [] →
            zip.checkZip M U L m f = some (some [], zip.CheckedFiles.empty, none))
        ∧ (∀ f z cf err, zip.checkZip M U L m f = some (z, cf, some err) →
            (∃ e, f.Stat = Except.error e)
            ∨ (∃ size, f.Stat = Except.ok size
                ∧ (L.MaxZipFile < size ∨ (∃ e, f.NewReader size = Except.error e)
                    ∨ cf.Invalid ≠ [] ∨ cf.SizeError ≠ none)))) := by
  constructor
  · intro hbad
    by_cases hc : M.CanonicalVersion m.Version ≠ m.Version
    · refine ⟨zip.CheckError.notCanonical m.Version (M.CanonicalVersion m.Version), fun f => ?_⟩
      unfold zip.checkZip
      rw [if_pos hc]
    · have hchk : M.Check m.Path m.Version ≠ none := by
        rcases hbad with h | h
        · exact absurd h hc
        · exact h
      cases hk : M.Check m.Path m.Version with
      | none => exact absurd hk hchk
      | some e =>
        refine ⟨zip.CheckError.lib e, fun f => ?_⟩
        unfold zip.checkZip
        rw [if_neg hc, hk]
  · intro ⟨hc, hk⟩
    constructor
    · intro f size hstat hsize hreader
      unfold zip.checkZip
      rw [if_neg (not_not.mpr hc), hk]
      dsimp only
      rw [hstat]
      dsimp only
      rw [if_neg (not_lt.mpr hsize), hreader]
      rfl
    · intro f z cf err h
      unfold zip.checkZip at h
      rw [if_neg (not_not.mpr hc), hk] at h
      dsimp only at h
      cases hstat : f.Stat with
      | error e => exact Or.inl ⟨e, rfl⟩
      | ok size =>
        right
        refine ⟨size, rfl, ?_⟩
        rw [hstat] at h
        dsimp only at h
        by_cases hsz : size > L.MaxZipFile
        · exact Or.inl hsz
        · rw [if_neg hsz] at h
          right
          cases hr : f.NewReader size with
          | error e => exact Or.inl ⟨e, rfl⟩
          | ok files =>
            right
            rw [hr] at h
            dsimp only at h
            cases hl : zip.checkEntries M U L (zip.entryPrefix m) zip.CheckState.init files with
            | none => rw [hl] at h; cases h
            | some st =>
              rw [hl] at h
              simp only [Option.some.injEq, Prod.mk.injEq] at h
              obtain ⟨-, hcf, herr⟩ := h
              subst hcf
              unfold zip.CheckedFiles.Err at herr
              by_cases hs : st.cf.SizeError = none
              · left
                rw [hs] at herr
                dsimp only at herr
                intro hi
                rw [if_neg (not_not.mpr hi)] at herr
                cases herr
              · exact Or.inr hs

/-- Witness of C8: the version `v1` of the test module is valid but not
canonical; `v1.0.0` is canonical. -/
theorem checkZip_version_gate_witness :
    (∃ err, ∀ f, zip.checkZip fixture.moduleLib fixture.asciiFold fixture.limits
        { Path := fixture.awesome, Version := fixture.v1 } f
          = some (none, zip.CheckedFiles.empty, some err))
    ∧ zip.checkZip fixture.moduleLib fixture.asciiFold fixture.limits fixture.coord
        (fixture.archive 22 []) = some (some [], zip.CheckedFiles.empty, none) :=
  ⟨(checkZip_version_gate fixture.moduleLib fixture.asciiFold fixture.limits
      { Path := fixture.awesome, Version := fixture.v1 }).1 (Or.inl (by decide)),
   ((checkZip_version_gate fixture.moduleLib fixture.asciiFold fixture.limits
      fixture.coord).2 ⟨by decide, by decide⟩).1 (fixture.archive 22 []) 22 rfl (by decide) rfl⟩

/-- C9: in the result of `checkZip` on an archive, every entry whose name does
not start with `<path>@<version>/` is recorded in `Invalid`, and every name in
`Valid` is the prefix followed by a non-empty `rel` that does not end in a
slash, is clean and passes `module.CheckFilePath`.  The function returns
whenever the file paths accepted by `module.CheckFilePath` are relative. -/
theorem checkZip_entry_classification (M : ModuleLib) (U : zip.UnicodeLib) (L : zip.Limits)
    (m : module.Version) (f : zip.ZipSource) :
    (∀ z cf err, zip.checkZip M U L m f = some (z, cf, err) →
      (∀ files, z = some files → ∀ zf ∈ files, HasPrefix zf.Name (zip.entryPrefix m) = false →
        ({ Path := zf.Name, Err := zip.EntryError.noPrefix (zip.entryPrefix m) } : zip.FileError)
          ∈ cf.Invalid)
      ∧ (∀ n ∈ cf.Valid, ∃ rel, n = zip.entryPrefix m ++ rel ∧ rel ≠ []
          ∧ rel.getLast? ≠ some '/' ∧ path.Clean rel = rel ∧ M.CheckFilePath rel = none))
    ∧ ((∀ p, M.CheckFilePath p = none → p.head? ≠ some '/') →
        ∃ res, zip.checkZip M U L m f = some res) := by
  refine ⟨?_, checkZip_returns M U L m f⟩
  intro z cf err h
  cases z with
  | none =>
    refine ⟨fun files hz => (by cases hz), ?_⟩
    have hv : cf.Valid = [] := by
      unfold zip.checkZip at h
      split at h
      · cases h; rfl
      · split at h
        · cases h; rfl
        · split at h
          · cases h; rfl
          · split at h
            · cases h; rfl
            · split at h
              · cases h; rfl
              · split at h <;> cases h
    intro n hn
    rw [hv] at hn
    cases hn
  | some files =>
    obtain ⟨st, hst, hcf, -⟩ := checkZip_loop M U L m f files cf err h
    subst hcf
    constructor
    · intro files2 hz zf hzf hpre
      cases hz
      exact checkEntries_noPrefix M U L _ _ st files hst zf hzf hpre
    · exact checkEntries_valid M U L _ _ st files hst
        (fun n => ∃ rel, n = zip.entryPrefix m ++ rel ∧ rel ≠ []
          ∧ rel.getLast? ≠ some '/' ∧ path.Clean rel = rel ∧ M.CheckFilePath rel = none)
        (fun rel h1 h2 h3 h4 => ⟨rel, rfl, h1, h2, h3, h4⟩)
        (fun n hn => by cases hn)

/-- Witness of C9: the archive with `Foo.txt`, `foo.txt` and an entry of another
module: that entry is in `Invalid`. -/
theorem checkZip_entry_classification_witness :
    zip.checkZip fixture.moduleLib fixture.asciiFold fixture.limits fixture.coord
        (fixture.archive 300 fixture.collidingFiles)
      = some (some fixture.collidingFiles, fixture.collidingResult,
          some (zip.CheckError.invalid fixture.collidingResult.Invalid))
    ∧ ({ Path := "octocat.github.io/other@v1.0.0/x.go".toList,
         Err := zip.EntryError.noPrefix (zip.entryPrefix fixture.coord) } : zip.FileError)
        ∈ fixture.collidingResult.Invalid :=
  ⟨by decide,
   ((checkZip_entry_classification fixture.moduleLib fixture.asciiFold fixture.limits
      fixture.coord (fixture.archive 300 fixture.collidingFiles)).1
    (some fixture.collidingFiles) fixture.collidingResult
    (some (zip.CheckError.invalid fixture.collidingResult.Invalid))
    (by decide)).1 fixture.collidingFiles rfl
    (fixture.entry "octocat.github.io/other@v1.0.0/x.go" 1) (by decide) (by decide)⟩

/-- C10: let an archive examined by `checkZip` hold a file entry
`<prefix>n2` that passes the checks of its path (non-empty, no trailing
slash, clean, accepted by `module.CheckFilePath`), and let `<prefix>n1` be a
valid entry of the result, where `n1` and `n2` are different strings with the
same folded form.  Then the entry `<prefix>n2` is recorded in `Invalid` with
the case-insensitive collision error naming `n1` and `n2`, and the error
returned is not nil.  The function returns whenever the file paths accepted by
`module.CheckFilePath` are relative. -/
theorem case_collision_detected (M : ModuleLib) (U : zip.UnicodeLib) (L : zip.Limits)
    (m : module.Version) (f : zip.ZipSource) :
    (∀ files cf err, zip.checkZip M U L m f = some (some files, cf, err) →
      ∀ (e2 : zip.ZipFile) (n1 n2 : Str), e2 ∈ files →
        e2.Name = zip.entryPrefix m ++ n2 → n2 ≠ [] → n2.getLast? ≠ some '/' →
        path.Clean n2 = n2 → M.CheckFilePath n2 = none →
        zip.entryPrefix m ++ n1 ∈ cf.Valid →
        n1 ≠ n2 → zip.strToFold U n1 = zip.strToFold U n2 →
        ({ Path := e2.Name, Err := zip.EntryError.caseCollision n1 n2 } : zip.FileError)
            ∈ cf.Invalid
          ∧ err ≠ none)
    ∧ ((∀ p, M.CheckFilePath p = none → p.head? ≠ some '/') →
        ∃ res, zip.checkZip M U L m f = some res) := by
  exact ⟨collision_reported M U L m f, checkZip_returns M U L m f⟩

/-- Witness of C10: `Foo.txt` and `foo.txt` in the same directory. -/
theorem case_collision_detected_witness :
    ({ Path := (fixture.entry "octocat.github.io/awesome@v1.0.0/foo.txt" 1).Name,
       Err := zip.EntryError.caseCollision "Foo.txt".toList "foo.txt".toList }
        : zip.FileError) ∈ fixture.collidingResult.Invalid
    ∧ some (zip.CheckError.invalid fixture.collidingResult.Invalid) ≠ none :=
  (case_collision_detected fixture.moduleLib fixture.asciiFold fixture.limits fixture.coord
      (fixture.archive 300 fixture.collidingFiles)).1
    fixture.collidingFiles fixture.collidingResult
    (some (zip.CheckError.invalid fixture.collidingResult.Invalid)) (by decide)
    (fixture.entry "octocat.github.io/awesome@v1.0.0/foo.txt" 1)
    "Foo.txt".toList "foo.txt".toList
    (by decide) (by decide) (by decide) (by decide) (by decide) (by decide) (by decide)
    (by decide) (by decide)

/-- C11: let the folded form of a relative path `p` be bound in the index to `p`
itself with the kind `d`.  Then `check(p, isDir)` returns the error "is both a
file and a directory" for `p` if and only if `isDir` differs from `d`, the
error "multiple entries for file" for `p` if and only if both are files, and
when both are directories it returns what the check of the parent directory
returns (no error when the parent is `.`); the index is not changed at this
level.  Consequently, for a path `x` and a name `y` without a slash: when
`checkZip` reads an archive in which the file `x` is valid, a file entry `x/y`
that passes the checks of its path is recorded in `Invalid`, and when the file
`x/y` is valid, a file entry `x` that passes the checks of its path is
recorded in `Invalid`; the error returned is then not nil.  The function
returns whenever the file paths accepted by `module.CheckFilePath` are
relative. -/
theorem file_directory_conflict (M : ModuleLib) (U : zip.UnicodeLib) (L : zip.Limits)
    (m : module.Version) (f : zip.ZipSource) :
    (∀ (fuel : Nat) (cc : zip.collisionChecker) (p : Str) (isDir d : Bool),
      cc.lookup (zip.strToFold U p) = some { path := p, isDir := d } →
      p.head? ≠ some '/' →
      (∀ cc2, zip.collisionChecker.check U (fuel + 1) cc p isDir
          = some (some (zip.EntryError.fileAndDir p), cc2) ↔ (isDir ≠ d ∧ cc2 = cc))
      ∧ (∀ cc2, zip.collisionChecker.check U (fuel + 1) cc p isDir
          = some (some (zip.EntryError.multipleEntries p), cc2)
            ↔ (isDir = false ∧ d = false ∧ cc2 = cc))
      ∧ (isDir = true → d = true →
          zip.collisionChecker.check U (fuel + 1) cc p isDir
            = if path.Dir p ≠ ['.'] then zip.collisionChecker.check U fuel cc (path.Dir p) true
              else some (none, cc)))
    ∧ (∀ files cf err, zip.checkZip M U L m f = some (some files, cf, err) →
      ∀ (e2 : zip.ZipFile) (x y n1 n2 : Str), e2 ∈ files → x ≠ [] → '/' ∉ y →
        ((n1 = x ∧ n2 = x ++ '/' :: y) ∨ (n1 = x ++ '/' :: y ∧ n2 = x)) →
        e2.Name = zip.entryPrefix m ++ n2 → n2 ≠ [] → n2.getLast? ≠ some '/' →
        path.Clean n2 = n2 → M.CheckFilePath n2 = none →
        zip.entryPrefix m ++ n1 ∈ cf.Valid →
        (∃ e, ({ Path := e2.Name, Err := e } : zip.FileError) ∈ cf.Invalid) ∧ err ≠ none)
    ∧ ((∀ p, M.CheckFilePath p = none → p.head? ≠ some '/') →
        ∃ res, zip.checkZip M U L m f = some res) := by
  refine ⟨?_, ?_, checkZip_returns M U L m f⟩
  · intro fuel cc p isDir d hb hp
    have hrun : zip.collisionChecker.check U (fuel + 1) cc p isDir
        = if isDir ≠ d then some (some (zip.EntryError.fileAndDir p), cc)
          else if ¬ isDir = true then some (some (zip.EntryError.multipleEntries p), cc)
          else if path.Dir p ≠ ['.'] then zip.collisionChecker.check U fuel cc (path.Dir p) true
          else some (none, cc) := by
      conv_lhs => unfold zip.collisionChecker.check
      dsimp only
      rw [hb]
      dsimp only
      rw [if_neg (not_not.mpr rfl)]
    have hparent : ∀ (e : zip.EntryError) cc2, path.Dir p ≠ ['.'] →
        zip.collisionChecker.check U fuel cc (path.Dir p) true = some (some e, cc2) →
        e ≠ zip.EntryError.fileAndDir p ∧ e ≠ zip.EntryError.multipleEntries p := by
      intro e cc2 hne hc
      rcases dir_rel p hp with hd | ⟨hlt, hhead⟩
      · exact absurd hd hne
      · obtain ⟨q, hq, hcase⟩ := check_error_path U fuel cc cc2 (path.Dir p) true e hc hhead
        rcases hcase with ⟨h1, -⟩ | ⟨-, -, h3⟩ | ⟨o, h3⟩
        · subst h1
          refine ⟨fun h => ?_, fun h => (by cases h)⟩
          injection h with h
          rw [h] at hq
          omega
        · cases h3
        · subst h3
          exact ⟨fun h => (by cases h), fun h => (by cases h)⟩
    refine ⟨fun cc2 => ?_, fun cc2 => ?_, fun h1 h2 => ?_⟩
    · rw [hrun]
      constructor
      · intro h
        split at h
        · rename_i hne
          cases h
          exact ⟨hne, rfl⟩
        · split at h
          · cases h
          · split at h
            · rename_i hdne
              exact absurd rfl (hparent _ cc2 hdne h).1
            · cases h
      · rintro ⟨hne, rfl⟩
        rw [if_pos hne]
    · rw [hrun]
      constructor
      · intro h
        split at h
        · cases h
        · rename_i heq
          have heq' : isDir = d := not_not.mp heq
          split at h
          · rename_i hnd
            cases h
            have : isDir = false := by simpa using hnd
            exact ⟨this, by rw [← heq', this], rfl⟩
          · split at h
            · rename_i hdne
              exact absurd rfl (hparent _ cc2 hdne h).2
            · cases h
      · rintro ⟨h1, h2, rfl⟩
        subst h1 h2
        rw [if_neg (not_not.mpr rfl), if_pos (by simp)]
    · rw [hrun]
      subst h1 h2
      rw [if_neg (not_not.mpr rfl), if_neg (not_not.mpr rfl)]
  · intro files cf err h e2 x y n1 n2 he2 hx hy hcase hname hne hlast hclean hfp hvalid
    obtain ⟨st, hst, hcf, herr⟩ := checkZip_loop M U L m f files cf err h
    subst hcf
    have hinv : ∃ e, ({ Path := e2.Name, Err := e } : zip.FileError) ∈ st.cf.Invalid := by
      rcases checkEntries_file_entry M U L _ n2 st files e2 hst he2 hname hne hlast hclean hfp
        with hdone | ⟨cc, cc2, hchk, hmono⟩
      · exact hdone
      · exfalso
        have hv1 := checkEntries_valid M U L _ _ st files hst
          (fun n => ∃ rel, n = zip.entryPrefix m ++ rel ∧ path.Clean rel = rel)
          (fun rel _ _ h3 _ => ⟨rel, rfl, h3⟩) (fun n hn => by cases hn) _ hvalid
        obtain ⟨rel, hrel, hclean1⟩ := hv1
        have hrel' : rel = n1 := (List.append_cancel_left hrel).symm
        subst hrel'
        rcases hcase with ⟨h1, h2⟩ | ⟨h1, h2⟩
        · subst h1 h2
          have hxdot : rel ≠ ['.'] := by
            intro hd
            rw [hd] at hclean
            exact clean_dot_slash_ne y hclean
          have hdir : path.Dir (rel ++ '/' :: y) = rel := by
            rw [dir_child rel y hx hy, hclean1]
          have hb1 := hmono _ _ (check_ok_parent U _ cc cc2 _ false hchk (by rw [hdir]; exact hxdot))
          rw [hdir] at hb1
          have hb2 := checkEntries_valid_bound M U L _ _ st files hst
            (fun rel hrel => by cases hrel) rel hvalid
          rw [hb1] at hb2
          cases hb2
        · subst h1 h2
          have hxdot : n2 ≠ ['.'] := by
            intro hd
            rw [hd] at hclean1
            exact clean_dot_slash_ne y hclean1
          have hdir : path.Dir (n2 ++ '/' :: y) = n2 := by
            rw [dir_child n2 y hx hy, hclean]
          have hb1 := hmono _ _ (check_ok_file U _ cc cc2 n2 hchk)
          have hb2 := checkEntries_valid_parent M U L _ _ st files hst
            (fun rel hrel => by cases hrel) (n2 ++ '/' :: y) hvalid (by rw [hdir]; exact hxdot)
          rw [hdir, hb1] at hb2
          cases hb2
    refine ⟨hinv, ?_⟩
    obtain ⟨e, he⟩ := hinv
    rw [herr]
    exact (err_ne_none_iff st.cf).mpr (Or.inl (List.ne_nil_of_mem he))

/-- Witness of C11: in the archive with the file `docs` and the file
`docs/readme.md` the second entry is recorded in `Invalid`. -/
theorem file_directory_conflict_witness :
    (∃ e, ({ Path := (fixture.entry "octocat.github.io/awesome@v1.0.0/docs/readme.md" 2).Name,
             Err := e } : zip.FileError) ∈ fixture.conflictResult.Invalid)
    ∧ some (zip.CheckError.invalid fixture.conflictResult.Invalid) ≠ none :=
  (file_directory_conflict fixture.moduleLib fixture.asciiFold fixture.limits fixture.coord
      (fixture.archive 300 fixture.conflictFiles)).2.1
    fixture.conflictFiles fixture.conflictResult
    (some (zip.CheckError.invalid fixture.conflictResult.Invalid)) (by decide)
    (fixture.entry "octocat.github.io/awesome@v1.0.0/docs/readme.md" 2)
    "docs".toList "readme.md".toList "docs".toList "docs/readme.md".toList
    (by decide) (by decide) (by decide) (Or.inl ⟨rfl, rfl⟩) (by decide) (by decide) (by decide)
    (by decide) (by decide) (by decide)

/-- C12: in the result of `checkZip` on an archive, let `n` be a stripped path
whose last element is `go.mod` up to case.  If `<prefix>n` is in `Valid` then
`n` is exactly `go.mod`, and it is the name of a file entry whose declared size
is within `MaxGoMod`.  If a file entry `<prefix>n` passes the checks of the
prefix, of `path.Clean`, of `module.CheckFilePath` and, in the state that the
entries before it have left, of the collisions, then it is recorded in
`Invalid`: with "go.mod file not in module root directory" when `n` contains a
slash, and with the error of the casing when `n` has no slash and is not
`go.mod`; in both cases `<prefix>n` is not in `Valid`.  The function returns
whenever the file paths accepted by `module.CheckFilePath` are relative. -/
theorem goMod_only_in_root (M : ModuleLib) (U : zip.UnicodeLib) (L : zip.Limits)
    (m : module.Version) (f : zip.ZipSource) :
    (∀ files cf err, zip.checkZip M U L m f = some (some files, cf, err) →
      ∀ n : Str, U.EqualFold (path.Base n) zip.goMod = true →
        (zip.entryPrefix m ++ n ∈ cf.Valid →
          n = zip.goMod
          ∧ ∃ zf ∈ files, zf.Name = zip.entryPrefix m ++ n
              ∧ zip.toInt64 zf.UncompressedSize64 ≤ L.MaxGoMod)
        ∧ (∀ (pre post : List zip.ZipFile) (zf : zip.ZipFile) (stb : zip.CheckState)
            (cc : zip.collisionChecker),
            files = pre ++ zf :: post →
            zf.Name = zip.entryPrefix m ++ n → n ≠ [] → n.getLast? ≠ some '/' →
            path.Clean n = n → M.CheckFilePath n = none →
            zip.checkEntries M U L (zip.entryPrefix m) zip.CheckState.init pre = some stb →
            zip.collisionChecker.check U (n.length + 1) stb.collisions n false
              = some (none, cc) →
            ('/' ∈ n →
              ({ Path := zf.Name, Err := zip.EntryError.goModNotInRoot } : zip.FileError)
                ∈ cf.Invalid)
            ∧ ('/' ∉ n → n ≠ zip.goMod →
              ({ Path := zf.Name, Err := zip.EntryError.goModCase } : zip.FileError)
                ∈ cf.Invalid)
            ∧ (('/' ∈ n ∨ n ≠ zip.goMod) → zip.entryPrefix m ++ n ∉ cf.Valid ∧ err ≠ none)))
    ∧ ((∀ p, M.CheckFilePath p = none → p.head? ≠ some '/') →
        ∃ res, zip.checkZip M U L m f = some res) := by
  refine ⟨?_, checkZip_returns M U L m f⟩
  intro files cf err h n hfold
  obtain ⟨st, hst, hcf, herr⟩ := checkZip_loop M U L m f files cf err h
  subst hcf
  have hvalid : zip.entryPrefix m ++ n ∈ st.cf.Valid →
      n = zip.goMod
      ∧ ∃ zf ∈ files, zf.Name = zip.entryPrefix m ++ n
          ∧ zip.toInt64 zf.UncompressedSize64 ≤ L.MaxGoMod := by
    intro hv
    rcases checkEntries_valid_file M U L _ _ st files hst _ hv with h0 | ⟨zf, hmem, hn, hd, c1, c2, -⟩
    · cases h0
    · have hen := entryName_of_name _ n zf hn hd
      rw [hen] at c1 c2
      exact ⟨c1 hfold, zf, hmem, hn, c2 (c1 hfold)⟩
  refine ⟨hvalid, ?_⟩
  intro pre post zf stb cc hfiles hname hne hlast hclean hfp hpre hchk
  rw [hfiles, checkEntries_append, hpre] at hst
  simp only [Option.some_bind] at hst
  unfold zip.checkEntries at hst
  rw [checkEntry_static M U L _ n stb zf hname hne hlast hclean hfp, hchk] at hst
  dsimp only at hst
  obtain ⟨⟨l, hl⟩, -⟩ := checkEntries_mono M U L _ _ st post hst
  obtain ⟨g1, g2⟩ := checkFile_goMod U L { stb with collisions := cc } zf n hfold
  have hslash : '/' ∈ n → n ≠ zip.goMod := by
    intro hs heq
    rw [heq] at hs
    revert hs
    decide
  have hinv1 : '/' ∈ n →
      ({ Path := zf.Name, Err := zip.EntryError.goModNotInRoot } : zip.FileError)
        ∈ st.cf.Invalid := by
    intro hs
    rw [hl, g1 (base_ne_of_slash n hs hlast), addError_invalid]
    simp
  have hinv2 : '/' ∉ n → n ≠ zip.goMod →
      ({ Path := zf.Name, Err := zip.EntryError.goModCase } : zip.FileError)
        ∈ st.cf.Invalid := by
    intro hs hn
    rw [hl, g2 (base_eq_self n hne hs) hn, addError_invalid]
    simp
  refine ⟨hinv1, hinv2, ?_⟩
  intro hor
  have hn : n ≠ zip.goMod := by
    rcases hor with hs | hn
    · exact hslash hs
    · exact hn
  refine ⟨fun hv => hn (hvalid hv).1, ?_⟩
  rw [herr]
  apply (err_ne_none_iff st.cf).mpr
  left
  by_cases hs : '/' ∈ n
  · exact List.ne_nil_of_mem (hinv1 hs)
  · exact List.ne_nil_of_mem (hinv2 hs hn)

/-- Witness of C12: in the archive with `go.mod`, `sub/go.mod` and `main.go`
the entry `sub/go.mod` is recorded in `Invalid`. -/
theorem goMod_only_in_root_witness :
    ({ Path := "octocat.github.io/awesome@v1.0.0/sub/go.mod".toList,
       Err := zip.EntryError.goModNotInRoot } : zip.FileError) ∈ fixture.goModResult.Invalid :=
  (((goMod_only_in_root fixture.moduleLib fixture.asciiFold fixture.limits fixture.coord
      (fixture.archive 300 fixture.goModFiles)).1
    fixture.goModFiles fixture.goModResult
    (some (zip.CheckError.invalid fixture.goModResult.Invalid))
    (by decide) "sub/go.mod".toList (by decide)).2
    [fixture.entry "octocat.github.io/awesome@v1.0.0/go.mod" 33]
    [fixture.entry "octocat.github.io/awesome@v1.0.0/main.go" 27]
    (fixture.entry "octocat.github.io/awesome@v1.0.0/sub/go.mod" 5)
    fixture.goModState
    [("sub".toList, { path := "sub".toList, isDir := true }),
     ("sub/go.mod".toList, { path := "sub/go.mod".toList, isDir := false }),
     ("go.mod".toList, { path := "go.mod".toList, isDir := false })]
    (by decide) (by decide) (by decide) (by decide) (by decide) (by decide) (by decide)
    (by decide)).1 (by decide)

/-- C13: let `MaxZipFile` be between 0 and the largest `int64`.  When `checkZip`
reads an archive, `SizeError` is set in the result if and only if the sum of
the declared sizes, as unsigned 64-bit values, of the file entries that reach
the size accounting (those passing the prefix, path, collision and go.mod-name
checks) exceeds `MaxZipFile`.  After every prefix of the entries the running
total is between 0 and `MaxZipFile`, hence within `int64`, it is at most the
sum of the sizes accounted so far and equal to it while no size error is set;
and a size error that is set is the error of the contents and is still the
size error of the result.  The function returns whenever the file paths
accepted by `module.CheckFilePath` are relative. -/
theorem size_accounting (M : ModuleLib) (U : zip.UnicodeLib) (L : zip.Limits)
    (m : module.Version) (f : zip.ZipSource)
    (h0 : 0 ≤ L.MaxZipFile) (h63 : L.MaxZipFile < 2 ^ 63) :
    (∀ files cf err, zip.checkZip M U L m f = some (some files, cf, err) →
      (cf.SizeError ≠ none ↔
        (((zip.accountedSizes M U L (zip.entryPrefix m) zip.CheckState.init files).sum : Nat)
          : Int) > L.MaxZipFile)
      ∧ (∀ (pre post : List zip.ZipFile) (stp : zip.CheckState), files = pre ++ post →
          zip.checkEntries M U L (zip.entryPrefix m) zip.CheckState.init pre = some stp →
          0 ≤ stp.size ∧ stp.size ≤ L.MaxZipFile ∧ stp.size < 2 ^ 63
          ∧ stp.size ≤ (((zip.accountedSizes M U L (zip.entryPrefix m) zip.CheckState.init
                pre).sum : Nat) : Int)
          ∧ (stp.cf.SizeError = none →
              stp.size = (((zip.accountedSizes M U L (zip.entryPrefix m) zip.CheckState.init
                pre).sum : Nat) : Int))
          ∧ (∀ e, stp.cf.SizeError = some e →
              e = zip.SizeError.contentsTooLarge ∧ cf.SizeError = some e)))
    ∧ ((∀ p, M.CheckFilePath p = none → p.head? ≠ some '/') →
        ∃ res, zip.checkZip M U L m f = some res) := by
  refine ⟨?_, checkZip_returns M U L m f⟩
  intro files cf err h
  obtain ⟨st, hst, hcf, -⟩ := checkZip_loop M U L m f files cf err h
  subst hcf
  have hinit : ∀ (l : List zip.ZipFile) (s : zip.CheckState),
      zip.checkEntries M U L (zip.entryPrefix m) zip.CheckState.init l = some s →
      0 ≤ s.size ∧ s.size ≤ L.MaxZipFile
      ∧ s.size ≤ (((zip.accountedSizes M U L (zip.entryPrefix m) zip.CheckState.init l).sum
          : Nat) : Int)
      ∧ (s.cf.SizeError = none →
          s.size = (((zip.accountedSizes M U L (zip.entryPrefix m) zip.CheckState.init l).sum
            : Nat) : Int))
      ∧ (s.cf.SizeError ≠ none →
          (((zip.accountedSizes M U L (zip.entryPrefix m) zip.CheckState.init l).sum
            : Nat) : Int) > L.MaxZipFile)
      ∧ (∀ e, s.cf.SizeError = some e → e = zip.SizeError.contentsTooLarge) := by
    intro l s hl
    obtain ⟨k1, k2, k3, k4, k5, -, k7⟩ := checkEntries_accounting M U L (zip.entryPrefix m)
      zip.CheckState.init s l 0 hl h63 (le_refl _) h0 (le_refl _) (fun _ => rfl)
      (fun hn => absurd rfl hn)
    rw [Nat.zero_add] at k3 k4 k5
    refine ⟨k1, k2, k3, k4, k5, fun e he => ?_⟩
    rcases k7 e he with h7 | h7
    · cases h7
    · exact h7
  constructor
  · obtain ⟨k1, k2, -, k4, k5, -⟩ := hinit files st hst
    constructor
    · exact k5
    · intro hgt hnone
      have := k4 hnone
      omega
  · intro pre post stp hfiles hpre
    obtain ⟨k1, k2, k3, k4, -, k6⟩ := hinit pre stp hpre
    refine ⟨k1, k2, by omega, k3, k4, fun e he => ⟨k6 e he, ?_⟩⟩
    rw [hfiles, checkEntries_append, hpre] at hst
    simp only [Option.some_bind] at hst
    obtain ⟨-, -, -, -, -, j6, -⟩ := checkEntries_accounting M U L (zip.entryPrefix m)
      stp st post (zip.accountedSizes M U L (zip.entryPrefix m) zip.CheckState.init pre).sum
      hst h63 k1 k2 k3 k4 (fun hn => by
        cases hse : stp.cf.SizeError with
        | none => exact absurd hse hn
        | some e2 =>
          obtain ⟨-, -, -, -, k5, -⟩ := hinit pre stp hpre
          exact k5 hn)
    exact j6 e he

/-- Witness of C13: with a limit of 50 bytes, the archive with `go.mod` (33
bytes), `sub/go.mod` and `main.go` (27 bytes) has the accounted sizes 33 and
27, and the size error is set. -/
theorem size_accounting_witness :
    zip.accountedSizes fixture.moduleLib fixture.asciiFold fixture.smallLimits
        (zip.entryPrefix fixture.coord) zip.CheckState.init fixture.goModFiles = [33, 27]
    ∧ ({ fixture.goModResult with SizeError := some zip.SizeError.contentsTooLarge }
        : zip.CheckedFiles).SizeError ≠ none :=
  ⟨by decide,
   (((size_accounting fixture.moduleLib fixture.asciiFold fixture.smallLimits fixture.coord
      (fixture.archive 40 fixture.goModFiles) (by decide) (by decide)).1
    fixture.goModFiles
    { fixture.goModResult with SizeError := some zip.SizeError.contentsTooLarge }
    (some (zip.CheckError.size zip.SizeError.contentsTooLarge))
    (by decide)).1).mpr (by decide)⟩

/-- Counterexample to C14 as stated: for the coordinate with the version `v1`,
which is not canonical, `checkZip` returns an error together with a report
that has no invalid entry and no size error, so "the error is not nil if and
only if there is an invalid entry or a size error" fails. -/
theorem checkZip_error_iff_counterexample :
    ¬ (∀ (m : module.Version) (f : zip.ZipSource) z cf err,
        zip.checkZip fixture.moduleLib fixture.asciiFold fixture.limits m f = some (z, cf, err) →
        (err ≠ none ↔ (cf.Invalid ≠ [] ∨ cf.SizeError ≠ none))) := by
  intro h
  have h1 := h { Path := fixture.awesome, Version := fixture.v1 } (fixture.archive 22 []) none
    zip.CheckedFiles.empty (some (zip.CheckError.notCanonical fixture.v1 fixture.v100))
    (by decide)
  have h2 := h1.mp (by simp)
  rcases h2 with h2 | h2
  · exact h2 rfl
  · exact h2 rfl

/-- C14, amended: whenever `checkZip` returns, an invalid entry or a size error
in the report implies a non-nil error; when the archive was read (a reader is
returned) the error is not nil if and only if the report has an invalid entry or
a size error; and when no reader is returned the error is not nil, the report
being empty apart from the size error of an archive file that is too large. -/
theorem checkZip_error_iff (M : ModuleLib) (U : zip.UnicodeLib) (L : zip.Limits)
    (m : module.Version) (f : zip.ZipSource) (z : Option (List zip.ZipFile))
    (cf : zip.CheckedFiles) (err : Option zip.CheckError)
    (h : zip.checkZip M U L m f = some (z, cf, err)) :
    ((cf.Invalid ≠ [] ∨ cf.SizeError ≠ none) → err ≠ none)
    ∧ (z ≠ none → (err ≠ none ↔ (cf.Invalid ≠ [] ∨ cf.SizeError ≠ none)))
    ∧ (z = none → err ≠ none ∧ cf.Valid = [] ∧ cf.Invalid = []) := by
  rcases checkZip_cases M U L m f z cf err h with ⟨hz, hcf, he⟩ | ⟨hz, ⟨e, hs⟩, he⟩ | ⟨⟨files, hz⟩, he⟩
  · subst hz hcf
    have hne : err ≠ none := by
      rcases he with he | ⟨e, he⟩ <;> rw [he] <;> simp
    refine ⟨fun _ => hne, fun hz => absurd rfl hz, fun _ => ⟨hne, rfl, rfl⟩⟩
  · subst hz
    have hne : err ≠ none := by
      rw [he]
      exact (err_ne_none_iff cf).mpr (Or.inr (by rw [hs]; simp))
    refine ⟨fun _ => hne, fun hz => absurd rfl hz, fun _ => ⟨hne, ?_, ?_⟩⟩
    all_goals
      unfold zip.checkZip at h
      split at h
      · cases h; rfl
      · split at h
        · cases h; rfl
        · split at h
          · cases h; rfl
          · split at h
            · cases h; rfl
            · split at h
              · cases h; rfl
              · split at h <;> cases h
  · subst hz
    rw [he]
    exact ⟨(err_ne_none_iff cf).mpr, fun _ => err_ne_none_iff cf, fun hz => by cases hz⟩

/-- Witness of C14: the archive with `Foo.txt` and `foo.txt` has an invalid
entry, and the error returned is not nil. -/
theorem checkZip_error_iff_witness :
    (fixture.collidingResult.Invalid ≠ [] ∨ fixture.collidingResult.SizeError ≠ none)
    ∧ some (zip.CheckError.invalid fixture.collidingResult.Invalid) ≠ none :=
  ⟨Or.inl (by decide),
   (checkZip_error_iff fixture.moduleLib fixture.asciiFold fixture.limits fixture.coord
      (fixture.archive 300 fixture.collidingFiles) (some fixture.collidingFiles)
      fixture.collidingResult (some (zip.CheckError.invalid fixture.collidingResult.Invalid))
      (by decide)).1 (Or.inl (by decide))⟩

/-- C15: let `unicode.SimpleFold` satisfy its documented contract (it walks
through the runes equivalent under simple case folding in increasing order and
then wraps around to the smallest, and in ASCII the equivalent runes are the
same letter in upper and lower case), and let `strings.EqualFold` be the
function of the Go library over it.  Then, for all strings `s` and `t`,
`strings.EqualFold(s, t)` holds if and only if `strToFold(s) == strToFold(t)`;
the function of the library returns for all strings. -/
theorem equalFold_iff_strToFold (U : zip.UnicodeLib) (least : Char → Char)
    (H : zip.UnicodeLaws U least) (s t : Str) :
    (U.EqualFold s t = true ↔ zip.strToFold U s = zip.strToFold U t)
    ∧ EqualFold U.SimpleFold s t = some (decide (zip.strToFold U s = zip.strToFold U t)) := by
  have h := equalFold_strToFold U least H.fold s t
  refine ⟨?_, h⟩
  have h2 := H.equalFold s t
  rw [h] at h2
  injection h2 with h2
  rw [← h2, decide_eq_true_iff]

/-- Witness of C15: with the folding of the fixtures, `Go.Mod` and `gO.mOD` are
equal under `strings.EqualFold` and have the same key. -/
theorem equalFold_iff_strToFold_witness :
    fixture.goFold.EqualFold "Go.Mod".toList "gO.mOD".toList = true
    ∧ zip.strToFold fixture.goFold "Go.Mod".toList = zip.strToFold fixture.goFold "gO.mOD".toList :=
  ⟨by decide,
   (equalFold_iff_strToFold fixture.goFold fixture.asciiLeast fixture_unicodeLaws
      "Go.Mod".toList "gO.mOD".toList).1.mp (by decide)⟩

/-- Counterexample to C16 as stated: whatever `unicode.SimpleFold` is, the keys
of `straße.txt` and `strasse.txt`, which are equal under full case folding,
differ, and `checkZip` accepts an archive that holds both files. -/
theorem full_folding_counterexample :
    (¬ ∃ U : zip.UnicodeLib,
        zip.strToFold U "straße.txt".toList = zip.strToFold U "strasse.txt".toList)
    ∧ zip.checkZip fixture.moduleLib fixture.asciiFold fixture.limits fixture.coord
        (fixture.archive 300 fixture.sharpFiles)
      = some (some fixture.sharpFiles, fixture.sharpResult, none) := by
  refine ⟨?_, by decide⟩
  rintro ⟨U, h⟩
  have h1 := congrArg List.length h
  rw [strToFold_length, strToFold_length] at h1
  revert h1
  decide

/-- C16, amended: the key computed by `strToFold` folds rune by rune: it is the
string itself when the string has no upper case ASCII letter and no rune
outside ASCII, and otherwise the string with every rune replaced by the end of
its walk along `unicode.SimpleFold`, lower case for `A` to `Z`.  The key has
as many runes as the string, so strings with different numbers of runes have
different keys.  Two different paths with the same key are reported by
`checkZip` as a case-insensitive collision: a file entry that passes the checks
of its path and has the key of a valid entry with another name is recorded in
`Invalid` with that error, and the error returned is not nil.  The function
returns whenever the file paths accepted by `module.CheckFilePath` are
relative. -/
theorem simple_folding_key (M : ModuleLib) (U : zip.UnicodeLib) (L : zip.Limits)
    (m : module.Version) (f : zip.ZipSource) :
    (∀ s : Str, (zip.strToFold U s).length = s.length
      ∧ ((s.all (fun c => ¬ (c.toNat ≥ 128 ∨ ('A' ≤ c ∧ c ≤ 'Z'))) = true →
            zip.strToFold U s = s)
        ∧ (s.all (fun c => ¬ (c.toNat ≥ 128 ∨ ('A' ≤ c ∧ c ≤ 'Z'))) = false →
            zip.strToFold U s = s.map (zip.foldRune U))))
    ∧ (∀ s t : Str, s.length ≠ t.length → zip.strToFold U s ≠ zip.strToFold U t)
    ∧ (∀ files cf err, zip.checkZip M U L m f = some (some files, cf, err) →
      ∀ (e2 : zip.ZipFile) (n1 n2 : Str), e2 ∈ files →
        e2.Name = zip.entryPrefix m ++ n2 → n2 ≠ [] → n2.getLast? ≠ some '/' →
        path.Clean n2 = n2 → M.CheckFilePath n2 = none →
        zip.entryPrefix m ++ n1 ∈ cf.Valid →
        n1 ≠ n2 → zip.strToFold U n1 = zip.strToFold U n2 →
        ({ Path := e2.Name, Err := zip.EntryError.caseCollision n1 n2 } : zip.FileError)
            ∈ cf.Invalid
          ∧ err ≠ none)
    ∧ ((∀ p, M.CheckFilePath p = none → p.head? ≠ some '/') →
        ∃ res, zip.checkZip M U L m f = some res) := by
  refine ⟨fun s => ⟨strToFold_length U s, ?_, ?_⟩, ?_, collision_reported M U L m f,
    checkZip_returns M U L m f⟩
  · intro h
    unfold zip.strToFold
    rw [if_pos h]
  · intro h
    unfold zip.strToFold
    rw [if_neg (by rw [h]; simp)]
  · intro s t hlen h
    apply hlen
    have h1 := congrArg List.length h
    rw [strToFold_length, strToFold_length] at h1
    exact h1

/-- Witness of C16: `Foo.txt` and `foo.txt` have the same key, and the second
of them is reported as a collision. -/
theorem simple_folding_key_witness :
    zip.strToFold fixture.asciiFold "Foo.txt".toList
        = zip.strToFold fixture.asciiFold "foo.txt".toList
    ∧ ({ Path := (fixture.entry "octocat.github.io/awesome@v1.0.0/foo.txt" 1).Name,
         Err := zip.EntryError.caseCollision "Foo.txt".toList "foo.txt".toList }
          : zip.FileError) ∈ fixture.collidingResult.Invalid :=
  ⟨by decide,
   ((simple_folding_key fixture.moduleLib fixture.asciiFold fixture.limits fixture.coord
      (fixture.archive 300 fixture.collidingFiles)).2.2.1
    fixture.collidingFiles fixture.collidingResult
    (some (zip.CheckError.invalid fixture.collidingResult.Invalid)) (by decide)
    (fixture.entry "octocat.github.io/awesome@v1.0.0/foo.txt" 1)
    "Foo.txt".toList "foo.txt".toList
    (by decide) (by decide) (by decide) (by decide) (by decide) (by decide) (by decide)
    (by decide) (by decide)).1⟩

/-- Counterexample to C17 as stated: `UnzipFS` unpacks the archive of the tests
into the target directory `.` without an error, and the destination that it
computes for the entry `go.mod` is `go.mod`, which is not `.` followed by a
slash and a relative path. -/
theorem unzip_destination_counterexample :
    zip.UnzipFS fixture.strictLib fixture.asciiFold fixture.limits
        (fixture.unzipEnv fixture.awesomeFiles 0) ".".toList fixture.coord "awesome.zip".toList
      = some { ops := fixture.unzipDotOps, err := none, panicked := false }
    ∧ zip.FsOp.openFile "go.mod".toList ∈ fixture.unzipDotOps
    ∧ path.Join [".".toList, "go.mod".toList] = "go.mod".toList
    ∧ ¬ ∃ rel : Str, "go.mod".toList = ".".toList ++ '/' :: rel := by
  refine ⟨by decide, by decide, by decide, ?_⟩
  rintro ⟨rel, hrel⟩
  cases hrel

/-- C17, amended: assume that the names accepted by `module.CheckFilePath` are
clean relative paths, that is, one or more elements joined by single slashes,
none of them empty, `.` or `..`.  Then `UnzipFS` returns, no slice expression
is out of range, and every call that changes the file system, apart from the
call of `xfs.MkdirAll` for `dir`, is made for the destination `dst =
path.Join(dir, name)` of a file entry `<prefix>name` of the archive, where
`name` is such a clean relative path and `dst` is `path.Clean(dir)` followed by
a slash and `name`, except that it is `name` itself when `path.Clean(dir)` is
`.` (as for an empty `dir`) and a slash followed by `name` when
`path.Clean(dir)` is the root. -/
theorem unzip_destination_inside (M : ModuleLib) (U : zip.UnicodeLib) (L : zip.Limits)
    (env : zip.UnzipEnv) (dir : Str) (m : module.Version) (zipFile : Str)
    (hfp : ∀ p, M.CheckFilePath p = none → IsCleanRel p) :
    (∃ res, zip.UnzipFS M U L env dir m zipFile = some res)
    ∧ ∀ res, zip.UnzipFS M U L env dir m zipFile = some res →
      res.panicked = false
      ∧ ∀ op ∈ res.ops, op = zip.FsOp.xfsMkdirAll dir
        ∨ ∃ name dst : Str, IsCleanRel name ∧ dst = path.Join [dir, name]
          ∧ ((dst = name ∧ path.Clean dir = ['.'])
            ∨ (dst = '/' :: name ∧ path.Clean dir = ['/'])
            ∨ dst = path.Clean dir ++ '/' :: name)
          ∧ (op = zip.FsOp.osMkdirAll (path.Dir dst) ∨ op = zip.FsOp.openFile dst
            ∨ op = zip.FsOp.close dst ∨ ∃ data, op = zip.FsOp.write dst data) := by
  constructor
  · unfold zip.UnzipFS
    split
    · exact ⟨_, rfl⟩
    · split
      · exact ⟨_, rfl⟩
      · rename_i f hopen
        obtain ⟨r, hr⟩ := checkZip_returns M U L m f (fun p hp => cleanRel_head p (hfp p hp))
        rw [hr]
        rcases r with ⟨z, cf, _ | e⟩
        · dsimp only
          split
          · exact ⟨_, rfl⟩
          · split
            · exact ⟨_, rfl⟩
            · split <;> exact ⟨_, rfl⟩
        · exact ⟨_, rfl⟩
  · intro res h
    rcases unzipFS_cases M U L env dir m zipFile res h with ⟨h1, h2, -⟩ | ⟨h1, h2, -⟩
      | ⟨f, files, cf, -, hchk, h1, -, h3⟩
    · refine ⟨h2, fun op hop => ?_⟩
      rw [h1] at hop
      cases hop
    · refine ⟨h2, fun op hop => ?_⟩
      rw [h1] at hop
      left
      simpa using hop
    · have hnames := checkZip_ok_names M U L m f files cf hchk
      obtain ⟨i1, i2⟩ := unzipEntries_ops env dir (zip.entryPrefix m)
        [zip.FsOp.xfsMkdirAll dir] files (fun zf hzf => (hnames zf hzf).1)
      refine ⟨by rw [h3]; exact i1, fun op hop => ?_⟩
      rw [h1] at hop
      rcases i2 op hop with h | ⟨zf, hzf, hne, hfile, hops⟩
      · left
        simpa using h
      · right
        obtain ⟨-, hcfp⟩ := (hnames zf hzf).2 hne hfile
        have hrel := hfp _ hcfp
        refine ⟨zf.Name.drop (zip.entryPrefix m).length, _, hrel, rfl,
          join_dir_name dir _ hrel, ?_⟩
        rcases hops with h | h | h | ⟨r, k, -, h⟩
        · exact Or.inl h
        · exact Or.inr (Or.inl h)
        · exact Or.inr (Or.inr (Or.inl h))
        · exact Or.inr (Or.inr (Or.inr ⟨_, h⟩))

/-- Witness of C17: unpacking the archive of the tests into `out/x/..`, the
file created for the entry `go.mod` is `out/go.mod`, the destination of a
clean relative name. -/
theorem unzip_destination_inside_witness :
    ∃ name dst : Str, IsCleanRel name ∧ dst = path.Join ["out/x/..".toList, name]
      ∧ ((dst = name ∧ path.Clean "out/x/..".toList = ['.'])
        ∨ (dst = '/' :: name ∧ path.Clean "out/x/..".toList = ['/'])
        ∨ dst = path.Clean "out/x/..".toList ++ '/' :: name)
      ∧ (zip.FsOp.openFile "out/go.mod".toList = zip.FsOp.osMkdirAll (path.Dir dst)
        ∨ zip.FsOp.openFile "out/go.mod".toList = zip.FsOp.openFile dst
        ∨ zip.FsOp.openFile "out/go.mod".toList = zip.FsOp.close dst
        ∨ ∃ data, zip.FsOp.openFile "out/go.mod".toList = zip.FsOp.write dst data) :=
  ((((unzip_destination_inside fixture.strictLib fixture.asciiFold fixture.limits
    (fixture.unzipEnv fixture.awesomeFiles 0) "out/x/..".toList fixture.coord
    "awesome.zip".toList fixture_strict_cleanRel).2
      { ops := fixture.unzipOutOps, err := none, panicked := false } (by decide)).2
      (zip.FsOp.openFile "out/go.mod".toList) (by decide)).resolve_left (by decide))

/-- C18: when `checkZip` reports an invalid entry or a size error for the
archive that `fsys.Open(zipFile)` returns, `UnzipFS` returns an error, wrapped
as `ZipError` of the verb `unzip`, without any call that changes the file
system: no `MkdirAll`, no `OpenFile`, no write.  The error is that of
`checkZip` unless the target directory is not empty. -/
theorem unzip_checks_first (M : ModuleLib) (U : zip.UnicodeLib) (L : zip.Limits)
    (env : zip.UnzipEnv) (dir : Str) (m : module.Version) (zipFile : Str) (f : zip.ZipSource)
    (z : Option (List zip.ZipFile)) (cf : zip.CheckedFiles) (err : Option zip.CheckError)
    (hopen : env.Open zipFile = Except.ok f)
    (hchk : zip.checkZip M U L m f = some (z, cf, err))
    (hbad : cf.Invalid ≠ [] ∨ cf.SizeError ≠ none) :
    ∃ e, zip.UnzipFS M U L env dir m zipFile
        = some { ops := [], err := some { Verb := "unzip".toList, Path := zipFile, Err := e },
                 panicked := false }
      ∧ (env.ReadDir dir = 0 → ∃ c, err = some c ∧ e = zip.UnzipError.check c) := by
  obtain ⟨c, hc⟩ := checkZip_err_of_bad M U L m f z cf err hchk hbad
  subst hc
  unfold zip.UnzipFS
  by_cases hd : env.ReadDir dir > 0
  · rw [if_pos hd]
    exact ⟨_, rfl, fun h0 => absurd h0 (by omega)⟩
  · rw [if_neg hd, hopen]
    dsimp only
    rw [hchk]
    exact ⟨_, rfl, fun _ => ⟨c, rfl, rfl⟩⟩

/-- Witness of C18: the archive with `Foo.txt` and `foo.txt` is not unpacked. -/
theorem unzip_checks_first_witness :
    ∃ e, zip.UnzipFS fixture.moduleLib fixture.asciiFold fixture.limits
          (fixture.unzipEnv fixture.collidingFiles 0) "out".toList fixture.coord
          "awesome.zip".toList
        = some { ops := [],
                 err := some { Verb := "unzip".toList, Path := "awesome.zip".toList, Err := e },
                 panicked := false }
      ∧ ((fixture.unzipEnv fixture.collidingFiles 0).ReadDir "out".toList = 0 →
          ∃ c, some (zip.CheckError.invalid fixture.collidingResult.Invalid) = some c
            ∧ e = zip.UnzipError.check c) :=
  unzip_checks_first fixture.moduleLib fixture.asciiFold fixture.limits
    (fixture.unzipEnv fixture.collidingFiles 0) "out".toList fixture.coord "awesome.zip".toList
    (fixture.archive 300 fixture.collidingFiles) (some fixture.collidingFiles)
    fixture.collidingResult (some (zip.CheckError.invalid fixture.collidingResult.Invalid))
    rfl (by decide) (Or.inl (by decide))

/-- C19: let `zf` be a file entry of an archive that `checkZip` accepts, with
the declared size `n` (an unsigned 64-bit number), where `MaxZipFile` is
between 0 and the largest `int64` less one, and let the calls of `UnzipFS` to
the file system succeed for this entry and the stream of the entry yield `L`
bytes and then end.  Then the body of the loop of `UnzipFS` makes the parent
directory, creates the destination, copies the first `min L (n+1)` bytes of
the stream to it and closes it; it returns the error of the declared size if
and only if `L > n`, and no error otherwise.  Whatever the file system and
the stream do, no write of more than `n+1` bytes is made for the entry. -/
theorem unzip_declared_size (M : ModuleLib) (U : zip.UnicodeLib) (L : zip.Limits)
    (env : zip.UnzipEnv) (dir : Str) (m : module.Version) (f : zip.ZipSource)
    (files : List zip.ZipFile) (cf : zip.CheckedFiles) (ops : List zip.FsOp)
    (zf : zip.ZipFile) (r : zip.Stream)
    (h0 : 0 ≤ L.MaxZipFile) (h63 : L.MaxZipFile < 2 ^ 63 - 1)
    (hchk : zip.checkZip M U L m f = some (some files, cf, none)) (hmem : zf ∈ files)
    (hu64 : zf.UncompressedSize64 < 2 ^ 64)
    (hname : zf.Name.drop (zip.entryPrefix m).length ≠ [])
    (hfile : HasSuffix (zf.Name.drop (zip.entryPrefix m).length) ['/'] = false)
    (hmk : env.osMkdirAll ops
        (path.Dir (path.Join [dir, zf.Name.drop (zip.entryPrefix m).length])) = none)
    (hof : env.OpenFile
        (ops ++ [zip.FsOp.osMkdirAll
          (path.Dir (path.Join [dir, zf.Name.drop (zip.entryPrefix m).length]))])
        (path.Join [dir, zf.Name.drop (zip.entryPrefix m).length]) = none)
    (hzf : env.zfOpen zf = Except.ok r) (hr : r.err = none)
    (hw : ∀ tr data, env.Write tr (path.Join [dir, zf.Name.drop (zip.entryPrefix m).length]) data
      = (data.length, none))
    (hc : ∀ tr, env.Close tr (path.Join [dir, zf.Name.drop (zip.entryPrefix m).length]) = none) :
    (zip.unzipEntry env dir (zip.entryPrefix m) ops zf).ops
      = ops ++ [zip.FsOp.osMkdirAll
                  (path.Dir (path.Join [dir, zf.Name.drop (zip.entryPrefix m).length])),
                zip.FsOp.openFile (path.Join [dir, zf.Name.drop (zip.entryPrefix m).length]),
                zip.FsOp.write (path.Join [dir, zf.Name.drop (zip.entryPrefix m).length])
                  (r.data.take (zf.UncompressedSize64 + 1)),
                zip.FsOp.close (path.Join [dir, zf.Name.drop (zip.entryPrefix m).length])]
    ∧ (r.data.take (zf.UncompressedSize64 + 1)).length
        = min r.data.length (zf.UncompressedSize64 + 1)
    ∧ ((zip.unzipEntry env dir (zip.entryPrefix m) ops zf).err
          = some (zip.UnzipError.sizeMismatch zf.Name zf.UncompressedSize64)
        ↔ r.data.length > zf.UncompressedSize64)
    ∧ (r.data.length ≤ zf.UncompressedSize64 →
        (zip.unzipEntry env dir (zip.entryPrefix m) ops zf).err = none)
    ∧ (∀ (env2 : zip.UnzipEnv) (dir2 : Str) (ops2 : List zip.FsOp) (dst : Str)
        (data : List Nat),
        zip.FsOp.write dst data ∈ (zip.unzipEntry env2 dir2 (zip.entryPrefix m) ops2 zf).ops →
        zip.FsOp.write dst data ∈ ops2 ∨ data.length ≤ zf.UncompressedSize64 + 1) := by
  obtain ⟨hp, hrest⟩ := checkZip_ok_entries M U L m f files cf h0 (by omega) hchk zf hmem
  obtain ⟨-, -, hsz⟩ := hrest hname hfile
  have hmod : zf.UncompressedSize64 % 2 ^ 64 = zf.UncompressedSize64 := Nat.mod_eq_of_lt hu64
  rw [hmod] at hsz
  have hn : zf.UncompressedSize64 < 2 ^ 63 - 1 := by omega
  have hrun := unzipEntry_success env dir (zip.entryPrefix m) ops zf r hn
    (len_of_hasPrefix _ _ hp) hname hfile hmk hof hzf hr hw hc
  rw [hrun]
  dsimp only
  refine ⟨by simp, ?_, ?_, ?_, ?_⟩
  · rw [List.length_take, Nat.min_comm]
  · constructor
    · intro h
      by_contra hle
      rw [if_neg hle] at h
      cases h
    · intro h
      rw [if_pos h]
  · intro h
    rw [if_neg (by omega)]
  · intro env2 dir2 ops2 dst data hop
    rcases unzipEntry_ops env2 dir2 (zip.entryPrefix m) ops2 zf _ hop with h | ⟨-, -, -, h⟩
    · exact Or.inl h
    · right
      rcases h with h | h | h | ⟨r2, k, -, h⟩
      · cases h
      · cases h
      · cases h
      · injection h with _ hd
        rw [hd, List.length_take]
        have := limitedData_length r2 zf.UncompressedSize64
        omega

/-- Witness of C19: the entry `go.mod` of the archive of the tests declares 33
bytes; when its stream holds 38 bytes, 34 of them are copied and the error of
the declared size is returned. -/
theorem unzip_declared_size_witness :
    (zip.unzipEntry (fixture.unzipEnv fixture.awesomeFiles 5) "out".toList
        (zip.entryPrefix fixture.coord) []
        (fixture.entry "octocat.github.io/awesome@v1.0.0/go.mod" 33)).err
      = some (zip.UnzipError.sizeMismatch "octocat.github.io/awesome@v1.0.0/go.mod".toList 33) :=
  (unzip_declared_size fixture.moduleLib fixture.asciiFold fixture.limits
    (fixture.unzipEnv fixture.awesomeFiles 5) "out".toList fixture.coord
    (fixture.archive 300 fixture.awesomeFiles) fixture.awesomeFiles
    { Valid := ["octocat.github.io/awesome@v1.0.0/go.mod".toList,
                "octocat.github.io/awesome@v1.0.0/main.go".toList],
      Omitted := [], Invalid := [], SizeError := none }
    [] (fixture.entry "octocat.github.io/awesome@v1.0.0/go.mod" 33)
    { data := List.replicate 38 0, err := none }
    (by decide) (by decide) (by decide) (by decide) (by decide) (by decide) (by decide)
    rfl rfl rfl rfl (fun _ _ => rfl) (fun _ => rfl)).2.2.1.mpr (by decide)

/-- C20, evaluated: on the file tree with `go.mod` and `main.go`, `CreateFromFS`
for the directory `.` returns the error "not relative to" and does not call
`zip.Create`.  For every file system, every directory and every depth of the
walk, `listFilesInDirFS` returns an error, that of `fs.Stat` or "not relative
to" for the directory itself, since the function it passes to `fs.WalkDir`
fails at the root of the walk, and so `CreateFromFS` returns an error.  And
the file that this function records for a regular file `sub/main.go` under
the directory `sub` has that whole path as its `Path()`. -/
theorem createFromFS_always_fails :
    zip.CreateFromFS (fun _ _ => none) fixture.treeFS 3 fixture.coord ".".toList
      = some (some { Verb := "create zip from directory".toList, Path := ".".toList,
                     Err := zip.CreateError.list
                       (zip.ListError.notRelative ".".toList ".".toList) })
    ∧ (∀ (fsys : fs.FS) (fuel : Nat) (dir : Str),
        ∃ e, zip.listFilesInDirFS fsys (fuel + 1) dir = some (Except.error e)
          ∧ (∀ info, fsys.Stat dir = Except.ok info → e = zip.ListError.notRelative dir dir)
          ∧ ∀ create m, zip.CreateFromFS create fsys (fuel + 1) m dir
              = some (some { Verb := "create zip from directory".toList, Path := dir,
                             Err := zip.CreateError.list e }))
    ∧ ((zip.listWalkFn fixture.treeFS "sub".toList { files := [], omitted := [] }
          "sub/main.go".toList
          (some { Name := "main.go".toList, IsDir := false, IsRegular := true }) none).1.files.map
        zip.dirFileFS.Path = ["sub/main.go".toList]) := by
  refine ⟨by decide, ?_, by decide⟩
  intro fsys fuel dir
  have h := listFiles_fails fsys fuel dir
  refine ⟨_, h, ?_, ?_⟩
  · intro info hinfo
    rw [hinfo]
  · intro create m
    unfold zip.CreateFromFS
    rw [h]

/-! ## C21: directories of version control systems -/

/-- C21, evaluated: on the file tree that holds the module in the directory
`src`, with the directory `src/.git` and its file `src/.git/config`,
`listFilesInDirFS` for `src` returns the error "not relative to" at the root of
the walk, so it returns neither files nor omissions, and `CreateFromFS` fails
without calling `zip.Create`.  The function that is passed to `fs.WalkDir`,
called for `src/.git`, records the directory as omitted and returns
`fs.SkipDir`, and `walkDir` at `src/.git` with this function adds no file and
does not read the directory; the walk from the root does not get there. -/
theorem vcs_directory_listing_fails (fuel : Nat) :
    zip.listFilesInDirFS fixture.vcsFS (fuel + 1) "src".toList
      = some (Except.error (zip.ListError.notRelative "src".toList "src".toList))
    ∧ (∀ create m, zip.CreateFromFS create fixture.vcsFS (fuel + 1) m "src".toList
        = some (some { Verb := "create zip from directory".toList, Path := "src".toList,
                       Err := zip.CreateError.list
                         (zip.ListError.notRelative "src".toList "src".toList) }))
    ∧ zip.listWalkFn fixture.vcsFS "src".toList { files := [], omitted := [] }
          "src/.git".toList (some fixture.gitDir) none
        = ({ files := [], omitted := [{ Path := ".git".toList, Err := zip.OmitError.vcs }] },
            some fs.WalkError.skipDir)
    ∧ fs.walkDir fixture.vcsFS (zip.listWalkFn fixture.vcsFS "src".toList) 3
          { files := [], omitted := [] } "src/.git".toList fixture.gitDir
        = some ({ files := [], omitted := [{ Path := ".git".toList, Err := zip.OmitError.vcs }] },
            none) := by
  have h := listFiles_fails fixture.vcsFS fuel "src".toList
  have hstat : fixture.vcsFS.Stat "src".toList
      = Except.ok { Name := "src".toList, IsDir := true, IsRegular := false } := by rfl
  rw [hstat] at h
  refine ⟨h, ?_, by decide, by decide⟩
  intro create m
  unfold zip.CreateFromFS
  rw [h]

/-! ## C22: `isVendoredPackage` -/

/-- C22: `isVendoredPackage name` is true exactly when `name` starts with
`vendor/` and its bytes after the first 7 hold a slash, or `name` does not
start with `vendor/`, holds `/vendor/` somewhere, and its bytes after the
first 8 hold a slash.  So every path below a directory `vendor` that is itself
below a directory, such as `a/vendor/x.go`, is reported as vendored, and a file
directly in the directory `vendor` at the top, such as `vendor/x.go`, is
not. -/
theorem isVendoredPackage_iff :
    (∀ name : Str, zip.isVendoredPackage name = true ↔
      (HasPrefix name "vendor/".toList = true ∧ 47 ∈ (zip.utf8 name).drop 7)
      ∨ (HasPrefix name "vendor/".toList = false ∧ "/vendor/".toList <:+: name
          ∧ 47 ∈ (zip.utf8 name).drop 8))
    ∧ (∀ d f : Str, d ≠ [] → zip.isVendoredPackage (d ++ "/vendor/".toList ++ f) = true)
    ∧ (∀ f : Str, '/' ∉ f → zip.isVendoredPackage ("vendor/".toList ++ f) = false)
    ∧ zip.isVendoredPackage "a/vendor/x.go".toList = true
    ∧ zip.isVendoredPackage "vendor/x.go".toList = false :=
  ⟨isVendoredPackage_eq, isVendoredPackage_inner, isVendoredPackage_top, by decide, by decide⟩

/-- C22 at `dir/vendor/x.go` and at `vendor/x.go`. -/
theorem isVendoredPackage_iff_witness :
    "dir".toList ≠ [] ∧ '/' ∉ "x.go".toList
    ∧ zip.isVendoredPackage ("dir".toList ++ "/vendor/".toList ++ "x.go".toList) = true
    ∧ zip.isVendoredPackage ("vendor/".toList ++ "x.go".toList) = false :=
  ⟨by decide, by decide, isVendoredPackage_iff.2.1 "dir".toList "x.go".toList (by decide),
    isVendoredPackage_iff.2.2.1 "x.go".toList (by decide)⟩

/-! ## C23: the fallback of `Latest` -/

/-- C23: when the route `@latest` is not found and the list that
`Versions("")` returns holds a canonical version, `Latest` returns what
`Stat(m)` returns, after the reads of `@latest`, of the list and of `Stat(m)`,
for a listed canonical version `m` such that no listed canonical version has a
higher precedence. -/
theorem latest_fallback_highest (L : proxy.ClientLib) (hS : proxy.SemverLaws L) (r : proxy.Repo)
    (ep : Str) (e : GoError) (versions : List Str)
    (hep : L.module.EscapePath r.path = Except.ok ep)
    (hread : r.ops.ReadRemote (proxy.latestTarget ep) = Except.error e)
    (hnf : e.isNotExist = true)
    (hvs : (proxy.Repo.Versions L.module r []).out = some (Except.ok versions))
    (hcanon : ∃ v ∈ versions, L.module.CanonicalVersion v = v) :
    ∃ m, m ∈ versions ∧ L.module.CanonicalVersion m = m
      ∧ (∀ v ∈ versions, L.module.CanonicalVersion v = v → L.semverCompare v m ≤ 0)
      ∧ (proxy.Repo.Latest L r).out = (proxy.Repo.Stat L r m).out
      ∧ (proxy.Repo.Latest L r).reads
          = proxy.latestTarget ep :: proxy.listTarget ep :: (proxy.Repo.Stat L r m).reads := by
  obtain ⟨m, hm, hc, hmax, hfb⟩ := latestFallback_stat L hS r versions hvs hcanon
  refine ⟨m, hm, hc, hmax, ?_, ?_⟩
  · rw [latest_notFound L r ep e hep hread hnf, hfb]
  · rw [latest_notFound L r ep e hep hread hnf, hfb, versions_reads L.module r [] ep hep]
    rfl

/-- C23 for the list `v0.0.1`, `v1.0.0`, `v0.9.0`: `Latest` reads `@latest`,
the list and the metadata of `v1.0.0`, and returns `v1.0.0`; for the list
`v0.9.0`, `v0.10.0`, `v0.2.0` it returns `v0.10.0`, which is neither the
greatest as a string nor the last one listed. -/
theorem latest_fallback_highest_witness :
    (∃ m, m ∈ [fixture.v001, fixture.v100, fixture.v090]
      ∧ fixture.clientLib.module.CanonicalVersion m = m
      ∧ (∀ v ∈ [fixture.v001, fixture.v100, fixture.v090],
          fixture.clientLib.module.CanonicalVersion v = v → fixture.clientLib.semverCompare v m ≤ 0)
      ∧ (proxy.Repo.Latest fixture.clientLib (fixture.repo fixture.listOnly)).out
          = (proxy.Repo.Stat fixture.clientLib (fixture.repo fixture.listOnly) m).out
      ∧ (proxy.Repo.Latest fixture.clientLib (fixture.repo fixture.listOnly)).reads
          = proxy.latestTarget fixture.awesome :: proxy.listTarget fixture.awesome
              :: (proxy.Repo.Stat fixture.clientLib (fixture.repo fixture.listOnly) m).reads)
    ∧ (proxy.Repo.Latest fixture.clientLib (fixture.repo fixture.listOnly)).out
        = some (Except.ok (fixture.revInfo fixture.v100))
    ∧ (proxy.Repo.Latest fixture.clientLib (fixture.repo fixture.listOnly)).reads
        = ["/octocat.github.io/awesome/@latest".toList, "/octocat.github.io/awesome/@v/list".toList,
           "/octocat.github.io/awesome/@v/v1.0.0.info".toList]
    ∧ (proxy.Repo.Latest fixture.clientLib (fixture.repo fixture.listTens)).out
        = some (Except.ok (fixture.revInfo fixture.v0100)) :=
  ⟨latest_fallback_highest fixture.clientLib fixture_semverLaws (fixture.repo fixture.listOnly)
      fixture.awesome fixture.ErrNotExist [fixture.v001, fixture.v100, fixture.v090]
      rfl rfl rfl rfl ⟨fixture.v100, by decide, by decide⟩,
    rfl, rfl, rfl⟩

/-! ## C24: other errors of the route `@latest` -/

/-- C24: when the read of the route `@latest` fails with an error `e` that is
not a not-found error, `Latest` returns `e` itself, and this read is its only
read of the transport. -/
theorem latest_error_unchanged (L : proxy.ClientLib) (r : proxy.Repo) (ep : Str) (e : GoError)
    (hep : L.module.EscapePath r.path = Except.ok ep)
    (hread : r.ops.ReadRemote (proxy.latestTarget ep) = Except.error e)
    (hne : e.isNotExist = false) :
    (proxy.Repo.Latest L r).out = some (Except.error e)
      ∧ (proxy.Repo.Latest L r).reads = [proxy.latestTarget ep] := by
  rw [latest_error L r ep e hep hread hne]
  exact ⟨rfl, rfl⟩

/-- C24 on a transport whose every request fails with "invalid". -/
theorem latest_error_unchanged_witness :
    (proxy.Repo.Latest fixture.clientLib (fixture.repo (fixture.failingRemote fixture.errInvalid))).out
        = some (Except.error fixture.errInvalid)
      ∧ (proxy.Repo.Latest fixture.clientLib
          (fixture.repo (fixture.failingRemote fixture.errInvalid))).reads
        = ["/octocat.github.io/awesome/@latest".toList] :=
  latest_error_unchanged fixture.clientLib (fixture.repo (fixture.failingRemote fixture.errInvalid))
    fixture.awesome fixture.errInvalid rfl rfl rfl

/-! ## C25: a list without a canonical version -/

/-- C25 fails on the code: on a proxy without the route `@latest` whose list
holds only `v1`, which is valid and not canonical, `Latest` fails with the
error "no canonical versions found", not with "no versions found". -/
theorem latest_no_canonical_counterexample :
    fixture.ErrNotExist.isNotExist = true
    ∧ (fixture.repo fixture.listShort).ops.ReadRemote (proxy.latestTarget fixture.awesome)
        = Except.error fixture.ErrNotExist
    ∧ (proxy.Repo.Versions fixture.clientLib.module (fixture.repo fixture.listShort) []).out
        = some (Except.ok [fixture.v1])
    ∧ (∀ v ∈ [fixture.v1], fixture.clientLib.module.CanonicalVersion v ≠ v)
    ∧ (proxy.Repo.Latest fixture.clientLib (fixture.repo fixture.listShort)).out
        = some (Except.error (proxy.errorsNew "no canonical versions found"))
    ∧ (proxy.Repo.Latest fixture.clientLib (fixture.repo fixture.listShort)).out
        ≠ some (Except.error (proxy.errorsNew "no versions found")) := by
  refine ⟨rfl, rfl, rfl, by decide, rfl, ?_⟩
  have h : (proxy.Repo.Latest fixture.clientLib (fixture.repo fixture.listShort)).out
      = some (Except.error (proxy.errorsNew "no canonical versions found")) := rfl
  rw [h]
  intro e
  have h2 := Except.error.inj (Option.some.inj e)
  have h3 : (proxy.errorsNew "no canonical versions found").msg
      = (proxy.errorsNew "no versions found").msg := by rw [h2]
  revert h3
  decide

/-- C25, amended: when the route `@latest` is not found and `Versions("")`
returns a list none of whose versions is canonical, `Latest` fails with the
error "no canonical versions found", and its only reads of the transport are
those of `@latest` and of the list, so there is no request of `Stat`.  A list
that `Versions("")` returns is never empty. -/
theorem latest_no_canonical (L : proxy.ClientLib) (r : proxy.Repo) (ep : Str) (e : GoError)
    (versions : List Str)
    (hep : L.module.EscapePath r.path = Except.ok ep)
    (hread : r.ops.ReadRemote (proxy.latestTarget ep) = Except.error e)
    (hnf : e.isNotExist = true)
    (hvs : (proxy.Repo.Versions L.module r []).out = some (Except.ok versions))
    (hnone : ∀ v ∈ versions, L.module.CanonicalVersion v ≠ v) :
    (proxy.Repo.Latest L r).out
        = some (Except.error (proxy.errorsNew "no canonical versions found"))
      ∧ (proxy.Repo.Latest L r).reads = [proxy.latestTarget ep, proxy.listTarget ep]
      ∧ versions ≠ [] := by
  rw [latest_notFound L r ep e hep hread hnf, latestFallback_none L r versions hvs hnone,
    versions_reads L.module r [] ep hep]
  exact ⟨rfl, rfl, versions_nonempty L.module r versions hvs⟩

/-- C25, amended, on the proxy whose list holds only `v1`. -/
theorem latest_no_canonical_witness :
    (proxy.Repo.Latest fixture.clientLib (fixture.repo fixture.listShort)).out
        = some (Except.error (proxy.errorsNew "no canonical versions found"))
      ∧ (proxy.Repo.Latest fixture.clientLib (fixture.repo fixture.listShort)).reads
        = [proxy.latestTarget fixture.awesome, proxy.listTarget fixture.awesome]
      ∧ [fixture.v1] ≠ [] :=
  latest_no_canonical fixture.clientLib (fixture.repo fixture.listShort) fixture.awesome
    fixture.ErrNotExist [fixture.v1] rfl rfl rfl rfl (by decide)

/-! ## C26: `Versions` -/

/-- C26: for a response that is not empty, with its lines as the
specification defines them, `Versions(prefix)` fails when `module.Check`
rejects a line, whether or not the line starts with the prefix, and its error
is that of the first such line; otherwise it returns the lines that start
with the prefix, in the order of the response.  The list is its only read of
the transport. -/
theorem versions_lines (M : ModuleLib) (r : proxy.Repo) (pfx ep data : Str)
    (hep : M.EscapePath r.path = Except.ok ep)
    (hread : r.ops.ReadRemote (proxy.listTarget ep) = Except.ok data) (hne : data ≠ []) :
    ((∃ line ∈ proxy.listLines data, M.Check r.path line ≠ none) →
        ∃ pre line post err, proxy.listLines data = pre ++ line :: post
          ∧ (∀ l ∈ pre, M.Check r.path l = none) ∧ M.Check r.path line = some err
          ∧ (proxy.Repo.Versions M r pfx).out = some (Except.error err))
    ∧ ((∀ line ∈ proxy.listLines data, M.Check r.path line = none) →
        (proxy.Repo.Versions M r pfx).out
          = some (Except.ok ((proxy.listLines data).filter fun v => HasPrefix v pfx)))
    ∧ (proxy.Repo.Versions M r pfx).reads = [proxy.listTarget ep] := by
  have hv := versions_eq M r pfx ep data hep hread hne
  refine ⟨?_, ?_, versions_reads M r pfx ep hep⟩
  · intro hbad
    obtain ⟨pre, line, post, err, e, hpre, hline⟩ := first_failure M r.path _ hbad
    refine ⟨pre, line, post, err, e, hpre, hline, ?_⟩
    rw [hv]
    show some (proxy.Repo.versionsLoop M r.path pfx (proxy.listLines data) []) = _
    rw [e, versionsLoop_error M r.path pfx pre post line err [] hpre hline]
  · intro hall
    rw [hv]
    show some (proxy.Repo.versionsLoop M r.path pfx (proxy.listLines data) []) = _
    rw [versionsLoop_ok M r.path pfx _ [] hall, List.nil_append]

/-- C26 on the list `v0.9.0`, `v0.10.0`, `v0.2.0` with the prefix `v0.1`, and
on a list with the line `bogus` with the prefix `v0.10`. -/
theorem versions_lines_witness :
    "v0.9.0\nv0.10.0\nv0.2.0\n".toList ≠ []
    ∧ (proxy.Repo.Versions fixture.tagLib (fixture.repo fixture.listTens) "v0.1".toList).out
        = some (Except.ok [fixture.v0100])
    ∧ proxy.listLines "v0.9.0\r\nbogus\r\nv0.10.0\r\n".toList
        = [fixture.v090, "bogus".toList, fixture.v0100]
    ∧ (∃ pre line post err,
        proxy.listLines "v0.9.0\r\nbogus\r\nv0.10.0\r\n".toList = pre ++ line :: post
          ∧ (∀ l ∈ pre, fixture.tagLib.Check fixture.awesome l = none)
          ∧ fixture.tagLib.Check fixture.awesome line = some err
          ∧ (proxy.Repo.Versions fixture.tagLib (fixture.repo fixture.listBad) "v0.10".toList).out
              = some (Except.error err)) :=
  ⟨by decide,
    (versions_lines fixture.tagLib (fixture.repo fixture.listTens) "v0.1".toList fixture.awesome
      "v0.9.0\nv0.10.0\nv0.2.0\n".toList rfl rfl (by decide)).2.1 (by decide),
    rfl,
    (versions_lines fixture.tagLib (fixture.repo fixture.listBad) "v0.10".toList fixture.awesome
      "v0.9.0\r\nbogus\r\nv0.10.0\r\n".toList rfl rfl (by decide)).1
      ⟨"bogus".toList, by decide, by decide⟩⟩

/-! ## C27: the round trip of the version list -/

/-- C27: let the backend list the versions `vs` of a module, not none and
each accepted by `module.Check` for the path of the repository.  Then the body
that `serveList` writes is `vs` joined by `\n`, and `Versions("")`, reading this
body with or without one `\n` after it, returns `vs`. -/
theorem versions_round_trip (M : ModuleLib) (hM : ModuleLaws M) (hV : proxy.VersionLaws M)
    (p : Proxy) (req : Request) (r : proxy.Repo) (vs : List Str) (ops : List WriterOp)
    (body : Str) (hne : vs ≠ [])
    (hcheck : ∀ v ∈ vs, M.Check r.path v = none)
    (hlist : p.Proxier.List req r.path = { ops := ops, res := Except.ok vs })
    (hbody : body = Join vs ['\n'] ∨ body = Join vs ['\n'] ++ ['\n'])
    (hread : ∀ ep, M.EscapePath r.path = Except.ok ep →
      r.ops.ReadRemote (proxy.listTarget ep) = Except.ok body) :
    (Proxy.serveList p req r.path).ops
        = ops ++ [WriterOp.headerSet contentType "text/plain; charset=utf-8".toList,
                  WriterOp.headerSet contentLength (strconv.Itoa (len (Join vs ['\n']))),
                  WriterOp.write (Join vs ['\n'])]
      ∧ (proxy.Repo.Versions M r []).out = some (Except.ok vs) := by
  refine ⟨serveList_ok p req r.path ops vs hlist, ?_⟩
  obtain ⟨v, hv⟩ := List.exists_mem_of_ne_nil vs hne
  obtain ⟨ep, hep⟩ := hM.escapePath_of_check r.path v (hcheck v hv)
  rw [versions_join M hV r ep vs body hne hcheck hbody hep (hread ep hep)]

/-- C27 for the backend with the versions `v1.0.0` and `v1`, the body being
followed by a line feed. -/
theorem versions_round_trip_witness :
    [fixture.v100, fixture.v1] ≠ []
    ∧ (∀ v ∈ [fixture.v100, fixture.v1],
        fixture.moduleLib.Check (fixture.repo fixture.twoVersionsRemote).path v = none)
    ∧ (Proxy.serveList fixture.twoVersions (fixture.get "/octocat.github.io/awesome/@v/list")
          fixture.awesome).ops
        = [WriterOp.headerSet contentType "text/plain; charset=utf-8".toList,
           WriterOp.headerSet contentLength "9".toList,
           WriterOp.write "v1.0.0\nv1".toList]
    ∧ (proxy.Repo.Versions fixture.moduleLib (fixture.repo fixture.twoVersionsRemote) []).out
        = some (Except.ok [fixture.v100, fixture.v1]) :=
  ⟨by decide, by decide,
    (versions_round_trip fixture.moduleLib fixture_moduleLaws fixture_versionLaws fixture.twoVersions
      (fixture.get "/octocat.github.io/awesome/@v/list") (fixture.repo fixture.twoVersionsRemote)
      [fixture.v100, fixture.v1] [] "v1.0.0\nv1\n".toList (by decide) (by decide) rfl
      (Or.inr rfl) (fun ep hep => by
        have : ep = fixture.awesome := (Except.ok.inj hep).symm
        rw [this]
        rfl)).1,
    (versions_round_trip fixture.moduleLib fixture_moduleLaws fixture_versionLaws fixture.twoVersions
      (fixture.get "/octocat.github.io/awesome/@v/list") (fixture.repo fixture.twoVersionsRemote)
      [fixture.v100, fixture.v1] [] "v1.0.0\nv1\n".toList (by decide) (by decide) rfl
      (Or.inr rfl) (fun ep hep => by
        have : ep = fixture.awesome := (Except.ok.inj hep).symm
        rw [this]
        rfl)).2⟩

/-! ## C28: the version of the metadata -/

/-- C28, evaluated: on a proxy that answers with the document `null`, both
`Stat("v1.0.0")` and `Latest` read the response and then panic, since
`json.Unmarshal` leaves the pointer nil and `ri.Version` dereferences it; they
return neither an error nor a `RevInfo`.  On the empty object both return the
error "RevInfo missing Version", and on every transport a `RevInfo` that `Stat`
or `Latest` returns has a version. -/
theorem stat_null_panics :
    proxy.Repo.Stat fixture.clientLib (fixture.repo fixture.nullInfo) fixture.v100
      = { reads := ["/octocat.github.io/awesome/@v/v1.0.0.info".toList], out := none }
    ∧ proxy.Repo.Latest fixture.clientLib (fixture.repo fixture.nullInfo)
      = { reads := ["/octocat.github.io/awesome/@latest".toList], out := none }
    ∧ (proxy.Repo.Stat fixture.clientLib (fixture.repo fixture.emptyInfo) fixture.v100).out
      = some (Except.error (proxy.errorsNew "RevInfo missing Version"))
    ∧ (proxy.Repo.Latest fixture.clientLib (fixture.repo fixture.emptyInfo)).out
      = some (Except.error (proxy.errorsNew "RevInfo missing Version"))
    ∧ (∀ (L : proxy.ClientLib) (r : proxy.Repo) (version : Str) (ri : proxy.RevInfo),
        (proxy.Repo.Stat L r version).out = some (Except.ok ri) → ri.Version ≠ [])
    ∧ (∀ (L : proxy.ClientLib) (r : proxy.Repo) (ri : proxy.RevInfo),
        (proxy.Repo.Latest L r).out = some (Except.ok ri) → ri.Version ≠ []) :=
  ⟨rfl, rfl, rfl, rfl, stat_ok, latest_ok⟩

/-! ## C29: the exclusion list -/

/-- C29: for a path that matches the exclusion list of the client, `Lookup`
returns `ErrGONOPROXY` and no `Repo`, whatever `module.CheckPath` says of the
path, and reads nothing from the transport; it sets the flag of the client. -/
theorem lookup_skipped (L : proxy.ClientLib) (c : proxy.Client) (path : Str)
    (h : L.MatchPrefixPatterns c.gonoproxy path = true) :
    proxy.Client.Lookup L c path
      = ({ c with didLookup := true },
          { reads := [], out := some (Except.error proxy.ErrGONOPROXY) }) := by
  unfold proxy.Client.Lookup
  dsimp only
  have hskip : proxy.Client.skip L { c with didLookup := true } path = true := h
  rw [if_pos hskip]

/-- C29 for the list `example.com,octocat.github.io` and a path below
`octocat.github.io` that `module.CheckPath` rejects. -/
theorem lookup_skipped_witness :
    fixture.clientLib.MatchPrefixPatterns (fixture.client "example.com,octocat.github.io").gonoproxy
        "octocat.github.io/not valid".toList = true
    ∧ fixture.clientLib.module.CheckPath "octocat.github.io/not valid".toList ≠ none
    ∧ (proxy.Client.Lookup fixture.clientLib (fixture.client "example.com,octocat.github.io")
          "octocat.github.io/not valid".toList).2.out = some (Except.error proxy.ErrGONOPROXY)
    ∧ (proxy.Client.Lookup fixture.clientLib (fixture.client "example.com,octocat.github.io")
          "octocat.github.io/not valid".toList).2.reads = [] := by
  have h := lookup_skipped fixture.clientLib (fixture.client "example.com,octocat.github.io")
    "octocat.github.io/not valid".toList (by decide)
  refine ⟨by decide, by decide, ?_, ?_⟩ <;> rw [h]

/-! ## C30: `SetGONOPROXY` after a lookup -/

/-- C30: after a call of `Lookup`, whatever it returned, and after any further
calls of `Lookup` and `SetGONOPROXY`, a call of `SetGONOPROXY` panics with
"SetGONOPROXY used after lookup" and leaves the client, and with it the
exclusion list, as it was. -/
theorem setGONOPROXY_after_lookup (L : proxy.ClientLib) (c : proxy.Client) (path : Str)
    (calls : List proxy.ClientCall) (list : Str) :
    proxy.Client.SetGONOPROXY
        (calls.foldl (proxy.Client.after L) (proxy.Client.Lookup L c path).1) list
      = (calls.foldl (proxy.Client.after L) (proxy.Client.Lookup L c path).1,
          some "SetGONOPROXY used after lookup".toList)
    ∧ (calls.foldl (proxy.Client.after L) (proxy.Client.Lookup L c path).1).gonoproxy
      = c.gonoproxy := by
  have hflag : (proxy.Client.Lookup L c path).1.didLookup = true := by
    rw [lookup_didLookup]
  constructor
  · unfold proxy.Client.SetGONOPROXY
    rw [if_pos (foldl_didLookup L calls _ hflag)]
  · have hlist : (proxy.Client.Lookup L c path).1.gonoproxy = c.gonoproxy := by
      rw [lookup_didLookup]
    exact (foldl_gonoproxy L calls _ hflag).trans hlist

/-! ## C31: setting the exclusion list twice -/

/-- C31 fails on the code: on a new client, `SetGONOPROXY("")` followed by
`SetGONOPROXY("example.com")` does not panic at the second call, which sets the
list. -/
theorem setGONOPROXY_twice_counterexample :
    (proxy.Client.SetGONOPROXY
        (proxy.Client.SetGONOPROXY (proxy.NewClient (fixture.failingRemote fixture.errInvalid))
          []).1
        "example.com".toList).2 = none
    ∧ (proxy.Client.SetGONOPROXY
        (proxy.Client.SetGONOPROXY (proxy.NewClient (fixture.failingRemote fixture.errInvalid))
          []).1
        "example.com".toList).1.gonoproxy = "example.com".toList :=
  ⟨rfl, rfl⟩

/-- C31, amended: for every client and all lists `a` and `b` with `a` not
empty, `SetGONOPROXY(a)` followed by `SetGONOPROXY(b)` panics at the second
call, which leaves the client as it was. -/
theorem setGONOPROXY_twice (c : proxy.Client) (a b : Str) (ha : a ≠ []) :
    (proxy.Client.SetGONOPROXY (proxy.Client.SetGONOPROXY c a).1 b).2 ≠ none
    ∧ (proxy.Client.SetGONOPROXY (proxy.Client.SetGONOPROXY c a).1 b).1
        = (proxy.Client.SetGONOPROXY c a).1 := by
  unfold proxy.Client.SetGONOPROXY
  by_cases h1 : c.didLookup = true
  · simp [h1]
  · by_cases h2 : c.gonoproxy ≠ []
    · simp [h1, h2]
    · simp [h1, h2, ha]

/-- C31, amended, for the lists `example.com` and `example.org` on a new
client: the second call panics with "multiple calls to SetGONOPROXY". -/
theorem setGONOPROXY_twice_witness :
    "example.com".toList ≠ []
    ∧ (proxy.Client.SetGONOPROXY
        (proxy.Client.SetGONOPROXY (fixture.client "") "example.com".toList).1
        "example.org".toList).2 = some "multiple calls to SetGONOPROXY".toList
    ∧ (proxy.Client.SetGONOPROXY
        (proxy.Client.SetGONOPROXY (fixture.client "") "example.com".toList).1
        "example.org".toList).2 ≠ none
    ∧ (proxy.Client.SetGONOPROXY
        (proxy.Client.SetGONOPROXY (fixture.client "") "example.com".toList).1
        "example.org".toList).1
      = (proxy.Client.SetGONOPROXY (fixture.client "") "example.com".toList).1 :=
  ⟨by decide, rfl,
    (setGONOPROXY_twice (fixture.client "") "example.com".toList "example.org".toList
      (by decide)).1,
    (setGONOPROXY_twice (fixture.client "") "example.com".toList "example.org".toList
      (by decide)).2⟩

/-! ## C32: the route of the list of versions on `proxy.Server` -/

/-- C32, evaluated: the server does not dispatch `GET /<ep>/@v/list` to
`ops.Versions`.  For the request `GET /octocat.github.io/awesome/@v/list` on
the backend of the tests, whose `Versions` returns `v0.0.1` and `v1.0.0` for
the module, the handler of `mux` returns at the route `/@v/list` before it
calls `remux`: no operation of the backend is invoked and nothing is written,
so the response is an empty 200 without a content type, where the claim has
the two versions, one per line.  The same holds for every module path with an
escaped form, on every backend.  The handler of `remux` for the list, were it
reached, asks `Versions` for `r.URL.Path[1:]`, which is the whole rewritten
path and not the module path. -/
theorem server_list_not_dispatched :
    proxy.Server.ServeHTTP fixture.serverLib fixture.staticOps
        (fixture.serverGet "/octocat.github.io/awesome/@v/list")
      = proxy.Reply.handled { ops := [], calls := [], panicked := false }
    ∧ fixture.staticOps.Versions fixture.awesome = Except.ok [fixture.v001, fixture.v100]
    ∧ statusOf ([] : List WriterOp) = 200
    ∧ (∀ (L : proxy.ServerLib) (ops : proxy.ServerOps) (p ep : Str),
        ModuleLaws L.module → PathLaws L.module → L.module.EscapePath p = Except.ok ep →
        ∃ u, url.setPath (proxy.listTarget ep) = Except.ok u
          ∧ proxy.Server.ServeHTTP L ops { Method := MethodGet, URL := u }
              = proxy.Reply.handled { ops := [], calls := [], panicked := false })
    ∧ (proxy.Server.listHandler fixture.staticOps
          { Path := "/octocat.github.io%2Fawesome/@v/list".toList,
            RawPath := "/octocat.github.io/awesome/@v/list".toList }).calls
        = [proxy.ServerCall.Versions "octocat.github.io%2Fawesome/@v/list".toList] := by
  refine ⟨by decide!, rfl, rfl, ?_, by decide!⟩
  intro L ops p ep hM hP hep
  exact serveHTTP_list L hM hP ops p ep hep

/-! ## C33: the archive of a version on `proxy.Server` -/

/-- C33, evaluated: a request for the archive of a version does not reach the
archive handler of `proxy.Server`, so a failure of `ops.Zip` with nothing
written gets neither the status 404 nor the status 500.  For the request
`GET /octocat.github.io/awesome/@v/v9.9.9.zip` on the backend of the tests,
whose `Zip` writes nothing and returns `fs.ErrNotExist` for this version, the
server answers with the redirect of `remux` to
`/octocat.github.io%25252Fawesome/@v/@v/v9.9.9/.zip` and invokes no operation
of the backend: the handler of `mux` builds the new route as `/@v/` followed
by the route of the request, which begins with `/@v/` itself, and `remux`
redirects a path with two slashes in a row.  A `GET` of the location of the
redirect is answered with the status 400.  The request for the archive of a
version whose `Zip` writes two bytes and then fails gets the same redirect,
and so does the `GET` of the archive of every version, written with the
characters of module paths, `!` and `+`, of every module path with an escaped
form, on every backend. -/
theorem server_zip_redirected :
    proxy.Server.ServeHTTP fixture.serverLib fixture.staticOps
        (fixture.serverGet "/octocat.github.io/awesome/@v/v9.9.9.zip")
      = proxy.Reply.redirect "/octocat.github.io%25252Fawesome/@v/@v/v9.9.9/.zip".toList
    ∧ (fixture.staticOps.Zip { Path := fixture.awesome, Version := "v9.9.9".toList }).writes = []
    ∧ (fixture.staticOps.Zip { Path := fixture.awesome, Version := "v9.9.9".toList }).err
        = some fs.ErrNotExist
    ∧ proxy.Server.ServeHTTP fixture.serverLib fixture.staticOps
        (fixture.serverGet "/octocat.github.io%25252Fawesome/@v/@v/v9.9.9/.zip")
      = proxy.Reply.handled (proxy.Handled.error fixture.errInvalid StatusBadRequest)
    ∧ proxy.Server.ServeHTTP fixture.serverLib fixture.truncatedZip
        (fixture.serverGet "/octocat.github.io/awesome/@v/v1.0.0.zip")
      = proxy.Reply.redirect "/octocat.github.io%25252Fawesome/@v/@v/v1.0.0/.zip".toList
    ∧ (∀ (L : proxy.ServerLib) (ops : proxy.ServerOps) (p ep ev : Str),
        ModuleLaws L.module → PathLaws L.module → L.module.EscapePath p = Except.ok ep →
        '/' ∉ ev → (∀ c ∈ ev, module.pathChar c = true ∨ c = '!' ∨ c = '+') →
        ∃ u location,
          url.setPath ('/' :: ep ++ ['/', '@', 'v', '/'] ++ ev ++ extZip) = Except.ok u
          ∧ proxy.Server.ServeHTTP L ops { Method := MethodGet, URL := u }
              = proxy.Reply.redirect location) := by
  refine ⟨by decide!, rfl, rfl, by decide!, by decide!, ?_⟩
  intro L ops p ep ev hM hP hep hslash hev
  exact serveHTTP_version_redirect L hM hP ops p ep ev extZip hep hslash hev (Or.inr (Or.inr rfl))

/-! ## C34: the route of the latest version on `proxy.Server` -/

/-- C34: for every module path `p` with the escaped form `ep` for which the
method `Latest` of the backend returns a `RevInfo` `ri`, the path
`/<ep>/@latest` is the path of a request, and the server answers the `GET` of
it through the rewrite and `remux`: the backend is invoked once, with
`Latest` for exactly `p`, and the response has the content type
`application/json`, the status 200 and, for the bytes `body` that the encoder
of `encoding/json` writes for `ri`, the body `body`, which decodes to a
`RevInfo` with the version of `ri`. -/
theorem server_latest (L : proxy.ServerLib) (hM : ModuleLaws L.module)
    (hP : PathLaws L.module) (decode : Str → Except GoError (Option proxy.RevInfo))
    (hJ : JsonLaws L.jsonEncode decode) (ops : proxy.ServerOps)
    (latest : Str → Except GoError (Option proxy.RevInfo)) (p ep body : Str)
    (ri : proxy.RevInfo) (hep : L.module.EscapePath p = Except.ok ep)
    (hops : ops.Latest = some latest) (hri : latest p = Except.ok (some ri))
    (henc : L.jsonEncode (some ri) = Except.ok body) :
    ∃ u, url.setPath (proxy.latestTarget ep) = Except.ok u
      ∧ proxy.Server.ServeHTTP L ops { Method := MethodGet, URL := u }
          = proxy.Reply.handled
              { ops := [WriterOp.headerSet contentType "application/json".toList,
                        WriterOp.writeHeader 200, WriterOp.write body],
                calls := [proxy.ServerCall.Latest p], panicked := false }
      ∧ statusOf [WriterOp.headerSet contentType "application/json".toList,
                  WriterOp.writeHeader 200, WriterOp.write body] = 200
      ∧ ∃ ri2, decode body = Except.ok (some ri2) ∧ ri2.Version = ri.Version := by
  obtain ⟨u, pathValue, hset, hserve, hvalue⟩ := serveHTTP_latest L hM hP ops p ep hep
  refine ⟨u, hset, ?_, rfl, hJ.round_trip ri body henc⟩
  rw [hserve]
  unfold proxy.Server.latestHandler
  dsimp only
  rw [hvalue, hops]
  dsimp only
  rw [hri]
  dsimp only
  unfold proxy.encodeOps
  rw [henc]
  rfl

/-- C34 for the request `GET /octocat.github.io/awesome/@latest` of
`TestServer_Redirect`, whose backend has `v1.0.0` as the latest version. -/
theorem server_latest_witness :
    fixture.serverLib.module.EscapePath fixture.awesome = Except.ok fixture.awesome
    ∧ fixture.staticOps.Latest = some fixture.staticData.Latest
    ∧ fixture.staticData.Latest fixture.awesome
        = Except.ok (some (fixture.revInfo fixture.v100))
    ∧ fixture.serverLib.jsonEncode (some (fixture.revInfo fixture.v100))
        = Except.ok "\x7b\"Version\":\"v1.0.0\"\x7d\n".toList
    ∧ proxy.Server.ServeHTTP fixture.serverLib fixture.staticOps
        (fixture.serverGet "/octocat.github.io/awesome/@latest")
      = proxy.Reply.handled
          { ops := [WriterOp.headerSet contentType "application/json".toList,
                    WriterOp.writeHeader 200,
                    WriterOp.write "\x7b\"Version\":\"v1.0.0\"\x7d\n".toList],
            calls := [proxy.ServerCall.Latest fixture.awesome], panicked := false }
    ∧ ∃ u, url.setPath (proxy.latestTarget fixture.awesome) = Except.ok u
      ∧ proxy.Server.ServeHTTP fixture.serverLib fixture.staticOps
            { Method := MethodGet, URL := u }
          = proxy.Reply.handled
              { ops := [WriterOp.headerSet contentType "application/json".toList,
                        WriterOp.writeHeader 200,
                        WriterOp.write "\x7b\"Version\":\"v1.0.0\"\x7d\n".toList],
                calls := [proxy.ServerCall.Latest fixture.awesome], panicked := false }
      ∧ statusOf [WriterOp.headerSet contentType "application/json".toList,
                  WriterOp.writeHeader 200,
                  WriterOp.write "\x7b\"Version\":\"v1.0.0\"\x7d\n".toList] = 200
      ∧ ∃ ri2, fixture.jsonDecode "\x7b\"Version\":\"v1.0.0\"\x7d\n".toList
            = Except.ok (some ri2)
          ∧ ri2.Version = (fixture.revInfo fixture.v100).Version :=
  ⟨rfl, rfl, rfl, rfl, by decide!,
    server_latest fixture.serverLib fixture_moduleLaws fixture_pathLaws fixture.jsonDecode
      fixture_jsonLaws fixture.staticOps fixture.staticData.Latest fixture.awesome
      fixture.awesome "\x7b\"Version\":\"v1.0.0\"\x7d\n".toList (fixture.revInfo fixture.v100)
      rfl rfl rfl rfl⟩

/-! ## C35: the index after a rejected entry -/

/-- C35 fails on the code: on the index that holds the file `x/a` and the
directory `x`, `check("X/y/z", false)` returns the collision of `X` with `x`
after it has bound `x/y/z` and `x/y`, so the index is not what it was.  In the
archive with the entries `x/a`, `X/y/z` and `x/y/w`, `checkZip` records `X/y/z`
as invalid and then reports `x/y/w` as colliding with `X/y`; without the entry
`X/y/z` the entry `x/y/w` is valid. -/
theorem check_partial_counterexample :
    zip.collisionChecker.check fixture.asciiFold 4 [] "x/a".toList false
      = some (none, fixture.indexXA)
    ∧ zip.collisionChecker.check fixture.asciiFold 6 fixture.indexXA "X/y/z".toList false
      = some (some (zip.EntryError.caseCollision "x".toList "X".toList),
          ("x/y".toList, { path := "X/y".toList, isDir := true })
            :: ("x/y/z".toList, { path := "X/y/z".toList, isDir := false }) :: fixture.indexXA)
    ∧ ("x/y".toList, ({ path := "X/y".toList, isDir := true } : zip.pathInfo))
        :: ("x/y/z".toList, { path := "X/y/z".toList, isDir := false }) :: fixture.indexXA
      ≠ fixture.indexXA
    ∧ zip.checkZip fixture.moduleLib fixture.asciiFold fixture.limits fixture.coord
        (fixture.archive 300 fixture.partialFiles)
      = some (some fixture.partialFiles,
          { Valid := ["octocat.github.io/awesome@v1.0.0/x/a".toList]
            Omitted := []
            Invalid :=
              [{ Path := "octocat.github.io/awesome@v1.0.0/X/y/z".toList,
                 Err := zip.EntryError.caseCollision "x".toList "X".toList },
               { Path := "octocat.github.io/awesome@v1.0.0/x/y/w".toList,
                 Err := zip.EntryError.caseCollision "X/y".toList "x/y".toList }]
            SizeError := none },
          some (zip.CheckError.invalid
            [{ Path := "octocat.github.io/awesome@v1.0.0/X/y/z".toList,
               Err := zip.EntryError.caseCollision "x".toList "X".toList },
             { Path := "octocat.github.io/awesome@v1.0.0/x/y/w".toList,
               Err := zip.EntryError.caseCollision "X/y".toList "x/y".toList }]))
    ∧ zip.checkZip fixture.moduleLib fixture.asciiFold fixture.limits fixture.coord
        (fixture.archive 300 fixture.partialFilesValid)
      = some (some fixture.partialFilesValid,
          { Valid := ["octocat.github.io/awesome@v1.0.0/x/a".toList,
                      "octocat.github.io/awesome@v1.0.0/x/y/w".toList]
            Omitted := [], Invalid := [], SizeError := none },
          none) := by
  refine ⟨by decide, by decide, by decide, by decide, by decide⟩

/-- C35, amended: whenever `check(p, isDir)` returns an error for a path that
is not rooted, every binding that the index had before the call is still
there, and every other binding of the index after the call binds the folded
form of `p` to `p` or that of a directory above `p` to that directory; when
the error is found at `p` itself, whose folded form was bound before the call
to another string, to another kind or to a file, the index is identical to
what it was before the call. -/
theorem check_error_index (U : zip.UnicodeLib) (fuel : Nat) (cc cc2 : zip.collisionChecker)
    (p : Str) (isDir : Bool) (e : zip.EntryError) (hp : p.head? ≠ some '/')
    (h : zip.collisionChecker.check U fuel cc p isDir = some (some e, cc2)) :
    (∀ k v, cc.lookup k = some v → cc2.lookup k = some v)
    ∧ (∀ k v, cc2.lookup k = some v → cc.lookup k = some v
        ∨ (k = zip.strToFold U v.path
            ∧ ((v.path = p ∧ v.isDir = isDir) ∨ (v.path ∈ zip.ancestors p ∧ v.isDir = true))))
    ∧ (∀ other, cc.lookup (zip.strToFold U p) = some other →
        (p ≠ other.path ∨ isDir ≠ other.isDir ∨ isDir = false) → cc2 = cc) :=
  ⟨check_lookup_mono U fuel cc cc2 p isDir (some e) h,
    check_frame U fuel cc cc2 p isDir (some e) hp h,
    fun other hl hbad => (check_error_self U fuel cc cc2 p isDir (some e) other h hl hbad).1⟩

/-- C35, amended, at `check("X/y/z", false)` on the index that holds `x/a`:
the bindings of `x` and `x/a` are still there after the call. -/
theorem check_error_index_witness :
    "X/y/z".toList.head? ≠ some '/'
    ∧ zip.collisionChecker.check fixture.asciiFold 6 fixture.indexXA "X/y/z".toList false
      = some (some (zip.EntryError.caseCollision "x".toList "X".toList),
          ("x/y".toList, { path := "X/y".toList, isDir := true })
            :: ("x/y/z".toList, { path := "X/y/z".toList, isDir := false }) :: fixture.indexXA)
    ∧ (∀ k v, fixture.indexXA.lookup k = some v →
        List.lookup k (("x/y".toList, ({ path := "X/y".toList, isDir := true } : zip.pathInfo))
          :: ("x/y/z".toList, { path := "X/y/z".toList, isDir := false }) :: fixture.indexXA)
        = some v) :=
  ⟨by decide, by decide,
    (check_error_index fixture.asciiFold 6 fixture.indexXA
      (("x/y".toList, { path := "X/y".toList, isDir := true })
        :: ("x/y/z".toList, { path := "X/y/z".toList, isDir := false }) :: fixture.indexXA)
      "X/y/z".toList false (zip.EntryError.caseCollision "x".toList "X".toList)
      (by decide) (by decide)).1⟩

/-! ## C36: no collision from shared directories -/

/-- C36: let `ps` be file paths as `checkZip` hands them to `check`, after
`module.CheckFilePath`, which rejects a leading slash: paths that do not
begin with a slash, such that among the paths and the directories above them
equal folded forms are those of equal strings, no path occurs twice and no
path is a directory above another.  Then, starting
from the empty index, every call `check(p, false)` for the paths of `ps`, in
order, returns without error, and the index after the calls binds the folded
form of every path to the path as a file and that of every directory above a
path to that directory. -/
theorem no_false_collisions (U : zip.UnicodeLib) (ps : List Str)
    (hrel : ∀ p ∈ ps, p.head? ≠ some '/')
    (hinj : ∀ a ∈ ps ++ ps.flatMap zip.ancestors, ∀ b ∈ ps ++ ps.flatMap zip.ancestors,
      zip.strToFold U a = zip.strToFold U b → a = b)
    (hnodup : ps.Nodup)
    (hnoanc : ∀ p ∈ ps, ∀ q ∈ ps, p ∉ zip.ancestors q) :
    ∃ cc, zip.checkAll U [] ps = some (none, cc)
      ∧ (∀ p ∈ ps, cc.lookup (zip.strToFold U p) = some { path := p, isDir := false })
      ∧ (∀ p ∈ ps, ∀ a ∈ zip.ancestors p,
          cc.lookup (zip.strToFold U a) = some { path := a, isDir := true }) := by
  exact checkAll_succeeds U ps [] [] hrel hinj hnodup hnoanc
    (fun k v hv => Option.noConfusion hv) (fun p hp => absurd hp (List.not_mem_nil p))
    (fun p hp => absurd hp (List.not_mem_nil p))

/-- C36 for the paths `a/b/x.go`, `a/b/y.go`, `a/z.go` and
`go.mod`, which share the directories `a` and `a/b`. -/
theorem no_false_collisions_witness :
    ∃ cc, zip.checkAll fixture.asciiFold []
          ["a/b/x.go".toList, "a/b/y.go".toList, "a/z.go".toList, "go.mod".toList]
        = some (none, cc)
      ∧ (∀ p ∈ ["a/b/x.go".toList, "a/b/y.go".toList, "a/z.go".toList, "go.mod".toList],
          cc.lookup (zip.strToFold fixture.asciiFold p) = some { path := p, isDir := false })
      ∧ (∀ p ∈ ["a/b/x.go".toList, "a/b/y.go".toList, "a/z.go".toList, "go.mod".toList],
          ∀ a ∈ zip.ancestors p,
            cc.lookup (zip.strToFold fixture.asciiFold a) = some { path := a, isDir := true }) :=
  no_false_collisions fixture.asciiFold
    ["a/b/x.go".toList, "a/b/y.go".toList, "a/z.go".toList, "go.mod".toList]
    (by decide) (by decide) (by decide) (by decide)

/-! ## C37: `Proxy.ServeHTTP` does not panic -/

/-- C37: for every backend, method and path, `Proxy.ServeHTTP` does not panic
on its own account: it reaches neither a slice out of range nor
`panic("unreachable")`.  The slice `r.URL.Path[1:]` is taken only after the
test `cleanPath(r.URL.Path) == r.URL.Path`, which no empty path passes, and the
slice `after[2:]` only of a string that starts with `v/`.  The empty path and
a path without a leading slash are rejected with status 400. -/
theorem serveHTTP_total (E : Extern) (p : Proxy) (r : Request) :
    (p.ServeHTTP E r).panicked = false
    ∧ (cleanPath r.Path = r.Path → 1 ≤ len r.Path)
    ∧ (∀ after : Str, HasPrefix after ['v', '/'] = true → 2 ≤ len after)
    ∧ (p.ServeHTTP E { Method := MethodGet, Path := [] }).RejectedWith 400
    ∧ (p.ServeHTTP E { Method := MethodGet, Path := "a/@v/list".toList }).RejectedWith 400 := by
  refine ⟨serveHTTP_panicked E p r, ?_, ?_, ?_, ?_⟩
  · intro h
    exact len_pos r.Path (cleanPath_ne_nil r.Path h)
  · intro after h
    have := len_of_hasPrefix after ['v', '/'] h
    have h2 : len ['v', '/'] = 2 := by decide
    omega
  · have h : p.ServeHTTP E { Method := MethodGet, Path := [] }
        = Outcome.reject (ErrorText.pathNotClean []) StatusBadRequest := by
      unfold Proxy.ServeHTTP
      rw [if_neg (by simp), if_pos (by decide)]
    rw [h]
    exact ⟨⟨_, rfl⟩, rfl, rfl, rfl⟩
  · have h : p.ServeHTTP E { Method := MethodGet, Path := "a/@v/list".toList }
        = Outcome.reject (ErrorText.pathNotClean "a/@v/list".toList) StatusBadRequest := by
      unfold Proxy.ServeHTTP
      rw [if_neg (by simp), if_pos (by decide)]
    rw [h]
    exact ⟨⟨_, rfl⟩, rfl, rfl, rfl⟩

/-- C37 for the request `GET /octocat.github.io/awesome/@v/v1.0.0.zip` of the
tests. -/
theorem serveHTTP_total_witness :
    cleanPath (fixture.get "/octocat.github.io/awesome/@v/v1.0.0.zip").Path
        = (fixture.get "/octocat.github.io/awesome/@v/v1.0.0.zip").Path
    ∧ 1 ≤ len (fixture.get "/octocat.github.io/awesome/@v/v1.0.0.zip").Path
    ∧ HasPrefix "v/v1.0.0.zip".toList ['v', '/'] = true
    ∧ 2 ≤ len "v/v1.0.0.zip".toList
    ∧ (fixture.memProxy.ServeHTTP fixture.env
        (fixture.get "/octocat.github.io/awesome/@v/v1.0.0.zip")).panicked = false :=
  ⟨by decide,
    (serveHTTP_total fixture.env fixture.memProxy
      (fixture.get "/octocat.github.io/awesome/@v/v1.0.0.zip")).2.1 (by decide),
    by decide,
    (serveHTTP_total fixture.env fixture.memProxy
      (fixture.get "/octocat.github.io/awesome/@v/v1.0.0.zip")).2.2.1 "v/v1.0.0.zip".toList
      (by decide),
    (serveHTTP_total fixture.env fixture.memProxy
      (fixture.get "/octocat.github.io/awesome/@v/v1.0.0.zip")).1⟩

/-! ## C38: `Versions` on an empty response -/

/-- C38, evaluated: for a module without versions `serveList` writes an empty
body, and on a transport that answers the request for the list with an empty
body `Versions` reads it and then panics, at `data[len(data)-1]`; it returns
neither a list nor an error.  This holds for every module library, repository
and filter whenever the response is empty, and `Versions` returns a list or an
error whenever the response is not empty. -/
theorem versions_empty_panics :
    (Proxy.serveList fixture.emptyListProxy (fixture.get "/octocat.github.io/awesome/@v/list")
        fixture.awesome).ops
      = [WriterOp.headerSet contentType "text/plain; charset=utf-8".toList,
         WriterOp.headerSet contentLength "0".toList,
         WriterOp.write []]
    ∧ proxy.Repo.Versions fixture.tagLib (fixture.repo fixture.emptyList) []
      = { reads := ["/octocat.github.io/awesome/@v/list".toList], out := none }
    ∧ (∀ (M : ModuleLib) (r : proxy.Repo) (pfx ep : Str),
        M.EscapePath r.path = Except.ok ep →
        r.ops.ReadRemote (proxy.listTarget ep) = Except.ok [] →
        proxy.Repo.Versions M r pfx = { reads := [proxy.listTarget ep], out := none })
    ∧ (∀ (M : ModuleLib) (r : proxy.Repo) (pfx ep data : Str),
        M.EscapePath r.path = Except.ok ep →
        r.ops.ReadRemote (proxy.listTarget ep) = Except.ok data → data ≠ [] →
        (proxy.Repo.Versions M r pfx).out ≠ none) := by
  refine ⟨rfl, rfl, ?_, ?_⟩
  · intro M r pfx ep hep hread
    unfold proxy.Repo.Versions
    rw [hep]
    dsimp only
    rw [hread]
    rfl
  · intro M r pfx ep data hep hread hne
    rw [versions_eq M r pfx ep data hep hread hne]
    simp

/-! ## C39: the slice of the entry names in `UnzipFS` -/

/-- C39: whenever `checkZip` returns a nil error it returns the entries of the
archive, the name of every entry starts with the prefix `<path>@<version>/`
and is at least as long, and the loop of `UnzipFS` over these entries does not
panic, whatever the file system does.  So a call of `UnzipFS` that returns
has not panicked. -/
theorem unzip_slice_in_range (M : ModuleLib) (U : zip.UnicodeLib) (L : zip.Limits)
    (m : module.Version) (f : zip.ZipSource) (z : Option (List zip.ZipFile))
    (cf : zip.CheckedFiles) (h : zip.checkZip M U L m f = some (z, cf, none)) :
    (∃ files, z = some files
      ∧ (∀ zf ∈ files, HasPrefix zf.Name (zip.entryPrefix m) = true
          ∧ len (zip.entryPrefix m) ≤ len zf.Name)
      ∧ ∀ (env : zip.UnzipEnv) (dir : Str) (ops : List zip.FsOp),
          (zip.unzipEntries env dir (zip.entryPrefix m) ops files).panicked = false)
    ∧ ∀ (env : zip.UnzipEnv) (dir zipFile : Str)
        (res : zip.UnzipResult (zip.ZipError zip.UnzipError)),
        zip.UnzipFS M U L env dir m zipFile = some res → res.panicked = false := by
  constructor
  · rcases checkZip_cases M U L m f z cf none h with ⟨_, _, he⟩ | ⟨_, ⟨e, hs⟩, he⟩ | ⟨⟨files, hz⟩, _⟩
    · rcases he with he | ⟨e, he⟩ <;> exact Option.noConfusion he
    · exfalso
      have : cf.Err ≠ none := (err_ne_none_iff cf).mpr (Or.inr (by rw [hs]; simp))
      exact this he.symm
    · subst hz
      have hnames := checkZip_ok_names M U L m f files cf h
      refine ⟨files, rfl, ?_, ?_⟩
      · intro zf hzf
        have hp := (hnames zf hzf).1
        have := len_of_hasPrefix zf.Name (zip.entryPrefix m) hp
        exact ⟨hp, by omega⟩
      · intro env dir ops
        exact (unzipEntries_ops env dir (zip.entryPrefix m) ops files
          (fun zf hzf => (hnames zf hzf).1)).1
  · intro env dir zipFile res hres
    rcases unzipFS_cases M U L env dir m zipFile res hres with
      ⟨_, hp, _⟩ | ⟨_, hp, _⟩ | ⟨f2, files, cf2, _, hck, _, _, hp⟩
    · exact hp
    · exact hp
    · rw [hp]
      exact (unzipEntries_ops env dir (zip.entryPrefix m) _ files
        (fun zf hzf => (checkZip_ok_names M U L m f2 files cf2 hck zf hzf).1)).1

/-- C39 for the archive of the tests. -/
theorem unzip_slice_in_range_witness :
    zip.checkZip fixture.moduleLib fixture.asciiFold fixture.limits fixture.coord
        (fixture.archive 300 fixture.awesomeFiles)
      = some (some fixture.awesomeFiles,
          { Valid := ["octocat.github.io/awesome@v1.0.0/go.mod".toList,
                      "octocat.github.io/awesome@v1.0.0/main.go".toList],
            Omitted := [], Invalid := [], SizeError := none }, none)
    ∧ ∃ files, some fixture.awesomeFiles = some files
      ∧ (∀ zf ∈ files, HasPrefix zf.Name (zip.entryPrefix fixture.coord) = true
          ∧ len (zip.entryPrefix fixture.coord) ≤ len zf.Name)
      ∧ ∀ (env : zip.UnzipEnv) (dir : Str) (ops : List zip.FsOp),
          (zip.unzipEntries env dir (zip.entryPrefix fixture.coord) ops files).panicked = false :=
  ⟨by decide,
    (unzip_slice_in_range fixture.moduleLib fixture.asciiFold fixture.limits fixture.coord
      (fixture.archive 300 fixture.awesomeFiles) (some fixture.awesomeFiles)
      { Valid := ["octocat.github.io/awesome@v1.0.0/go.mod".toList,
                  "octocat.github.io/awesome@v1.0.0/main.go".toList],
        Omitted := [], Invalid := [], SizeError := none }
      (by decide)).1⟩

/-! ## C40: the root of the file system that `FS` builds -/

/-- C40, evaluated: `FS(files...).Open(".")` does not return a directory.  For
the files `go.mod` and `cmd/main.go`, `Open("cmd")` returns the directory
`cmd` with the file `main.go`, but `Open(".")` returns `fs.ErrNotExist`, and
`Files` on the file system returns no file and this error: `Open` turns the
name `.` into `/` and then looks for the files whose key begins with `//`,
and a key is a cleaned path.  For every list of files, `Open(".")` returns no
directory; when the paths of the files are clean relative paths it returns
`fs.ErrNotExist`, and so does `Files`, which finds no file. -/
theorem fs_root_not_found :
    zip.fileGroup.Open (zip.FS fixture.moduleFiles) ['.'] = Except.error fs.ErrNotExist
    ∧ zip.Files (zip.fileGroup.toFS (zip.FS fixture.moduleFiles)) 5
        = some ([], some (zip.FilesError.lib fs.ErrNotExist))
    ∧ (∃ files, zip.fileGroup.Open (zip.FS fixture.moduleFiles) "cmd".toList
          = Except.ok (zip.Opened.dir "cmd".toList files)
        ∧ files.map (fun kv => kv.1) = ["main.go".toList])
    ∧ (∀ (files : List zip.File) (name : Str) (below : zip.StrMap zip.File),
        zip.fileGroup.Open (zip.FS files) ['.'] ≠ Except.ok (zip.Opened.dir name below))
    ∧ (∀ (files : List zip.File) (fuel : Nat), (∀ file ∈ files, IsCleanRel file.Path) →
        zip.fileGroup.Open (zip.FS files) ['.'] = Except.error fs.ErrNotExist
        ∧ zip.Files (zip.fileGroup.toFS (zip.FS files)) fuel
            = some ([], some (zip.FilesError.lib fs.ErrNotExist))) := by
  have hroot : ∀ files : List zip.File, (∀ file ∈ files, IsCleanRel file.Path) →
      zip.fileGroup.Open (zip.FS files) ['.'] = Except.error fs.ErrNotExist :=
    fun files h => open_root_none _ (fs_root_none files h)
  have hfix : ∀ file ∈ fixture.moduleFiles, IsCleanRel file.Path := by
    intro file hfile
    simp only [fixture.moduleFiles, List.mem_cons, List.mem_singleton, List.not_mem_nil,
      or_false] at hfile
    rcases hfile with h | h
    · rw [h]
      exact ⟨["go.mod".toList], by simp, by decide, by decide⟩
    · rw [h]
      exact ⟨["cmd".toList, "main.go".toList], by simp, by decide, by decide⟩
  refine ⟨hroot _ hfix, files_root_error _ 5 _ (hroot _ hfix), ⟨_, rfl, rfl⟩, ?_, ?_⟩
  · intro files name below
    exact open_root_not_dir _ name below
  · intro files fuel h
    exact ⟨hroot files h, files_root_error _ fuel _ (hroot files h)⟩

end Modproxy
